import Mathlib

/-!
CppToC: eligibility analysis and definition synthesis.

A shallow embedding of `transformation_tool/src/CppToC.cc`, of the callback of
`implementation/src/MacroNameCollector.cc`, of the class of
`implementation/src/Transformer/TransformedDefinition.cc` and of the argument parser of
`implementation/src/Cpp2C/Cpp2CAction.cc`.  The pass of the Deduplicator, of which only the
declaration is at hand, is modelled from the specification.

* Clang's AST is embedded as the inductive types `Expr`, `ExprList` and `Stmt`.  The
  embedding covers well-formed Clang trees: the operand pointers of casts, parentheses and
  operators are never null there, so the guards `if (auto E0 = ...)` and `if (E1 && E2)` of
  the source are always taken and the operands are plain sub-terms.
* Clang's preprocessor, source manager, lexer and rewriter are external collaborators; what
  the code asks of them is collected in the record `Env`.
* The global variables of the translation unit are the fields of `State`; every function of
  the source that reads or writes them takes and returns the state explicitly.
* A `std::string` is a `String`, one `Char` standing for one `char`; `length()` is
  `String.length`.  A `std::set` is a duplicate-free use of `List` through membership and
  `List.insert`; a `std::map` is a function into `Option`.
* Diagnostic output (`errs()`, `dumpColor`) is not part of the embedding, except for the
  argument parser, whose messages are part of its result.
-/

namespace CppToC

/-! ## Source locations -/

/-- Raw encoding of a `clang::SourceLocation`; `<=` compares raw encodings. -/
abbrev SourceLocation := Nat

/-- A `clang::SourceRange`: the locations of the first and of the last token. -/
structure SourceRange where
  Begin : SourceLocation
  End : SourceLocation
  deriving DecidableEq, Repr

/-- A `clang::CharSourceRange`: either a token range or a half-open character range. -/
structure CharSourceRange where
  Begin : SourceLocation
  End : SourceLocation
  IsTokenRange : Bool
  deriving DecidableEq, Repr

/-- `SourceLocation::getLocWithOffset`. -/
def getLocWithOffset (L : SourceLocation) (Offset : Nat) : SourceLocation := L + Offset

/-- Returns true if a given source location is contained within a given source range. -/
def isInRange (L : SourceLocation) (SR2 : SourceRange) : Bool :=
  let B2 := SR2.Begin
  let E2 := SR2.End
  decide (B2 ≤ L) && decide (L ≤ E2)

/-! ## Declarations and expressions -/

/-- The attributes of a `clang::VarDecl` that the tool reads. -/
structure VarDecl where
  Name : String
  /-- `getType().getAsString()` -/
  TypeAsString : String
  hasGlobalStorage : Bool
  isStaticLocal : Bool
  deriving DecidableEq, Repr

/-- The declaration a `DeclRefExpr` refers to: a variable, or any other value declaration
(function, enumerator, ...). -/
inductive ValueDecl
  | Var (VD : VarDecl)
  | NonVar (Name : String)
  deriving DecidableEq, Repr

/-- Opcodes of `clang::UnaryOperator`. -/
inductive UnaryOperatorKind
  | UO_PostInc | UO_PostDec | UO_PreInc | UO_PreDec | UO_AddrOf | UO_Deref
  | UO_Plus | UO_Minus | UO_Not | UO_LNot | UO_Real | UO_Imag | UO_Extension | UO_Coawait
  deriving DecidableEq, Repr

/-- Opcodes of `clang::BinaryOperator` (compound assignments included). -/
inductive BinaryOperatorKind
  | BO_PtrMemD | BO_PtrMemI | BO_Mul | BO_Div | BO_Rem | BO_Add | BO_Sub | BO_Shl | BO_Shr
  | BO_Cmp | BO_LT | BO_GT | BO_LE | BO_GE | BO_EQ | BO_NE | BO_And | BO_Xor | BO_Or
  | BO_LAnd | BO_LOr | BO_Assign | BO_MulAssign | BO_DivAssign | BO_RemAssign | BO_AddAssign
  | BO_SubAssign | BO_ShlAssign | BO_ShrAssign | BO_AndAssign | BO_XorAssign | BO_OrAssign
  | BO_Comma
  deriving DecidableEq, Repr

/-- `BinaryOperator::isAssignmentOp`: plain and compound assignment opcodes. -/
def BinaryOperatorKind.isAssignmentOp : BinaryOperatorKind → Bool
  | .BO_Assign | .BO_MulAssign | .BO_DivAssign | .BO_RemAssign | .BO_AddAssign
  | .BO_SubAssign | .BO_ShlAssign | .BO_ShrAssign | .BO_AndAssign | .BO_XorAssign
  | .BO_OrAssign => true
  | _ => false

mutual
/-- A `clang::Expr` node, by dynamic class.  `R` holds `getBeginLoc()` and `getEndLoc()`.
`OtherExpr` stands for every expression class the tool does not name. -/
inductive Expr
  | ImplicitCastExpr (R : SourceRange) (SubExpr : Expr)
  | IntegerLiteral (R : SourceRange) (Value : Nat)
  | DeclRefExpr (R : SourceRange) (D : ValueDecl)
  | ParenExpr (R : SourceRange) (SubExpr : Expr)
  | UnaryOperator (R : SourceRange) (Opc : UnaryOperatorKind) (SubExpr : Expr)
  | BinaryOperator (R : SourceRange) (Opc : BinaryOperatorKind) (LHS RHS : Expr)
  | CallExpr (R : SourceRange) (Callee : Expr) (Args : ExprList)
  | OtherExpr (R : SourceRange) (Children : ExprList)
  deriving DecidableEq
/-- A sequence of expression nodes (call arguments, children). -/
inductive ExprList
  | nil
  | cons (head : Expr) (tail : ExprList)
  deriving DecidableEq
end

/-- `Expr::getSourceRange`. -/
def Expr.getSourceRange : Expr → SourceRange
  | .ImplicitCastExpr R _ => R
  | .IntegerLiteral R _ => R
  | .DeclRefExpr R _ => R
  | .ParenExpr R _ => R
  | .UnaryOperator R _ _ => R
  | .BinaryOperator R _ _ _ => R
  | .CallExpr R _ _ => R
  | .OtherExpr R _ => R

/-- `Expr::getBeginLoc`. -/
def Expr.getBeginLoc (E : Expr) : SourceLocation := E.getSourceRange.Begin

/-- `Expr::getEndLoc`. -/
def Expr.getEndLoc (E : Expr) : SourceLocation := E.getSourceRange.End

/-- The elements of an `ExprList`, in order. -/
def ExprList.toList : ExprList → List Expr
  | .nil => []
  | .cons E Es => E :: Es.toList

/-- The direct sub-expressions of a node. -/
def Expr.children : Expr → List Expr
  | .ImplicitCastExpr _ E0 => [E0]
  | .IntegerLiteral _ _ => []
  | .DeclRefExpr _ _ => []
  | .ParenExpr _ E0 => [E0]
  | .UnaryOperator _ _ E0 => [E0]
  | .BinaryOperator _ _ E1 E2 => [E1, E2]
  | .CallExpr _ Callee Args => Callee :: Args.toList
  | .OtherExpr _ Children => Children.toList

/-- Enum for different types of expression included in the C language subset. -/
inductive CSubsetExpr
  | INVALID
  | IMPLICIT_CAST
  | Num
  | Var
  | ParenExpr
  | UnExpr
  | BinExpr
  | Assign
  | CallOrInvocation
  deriving DecidableEq, Repr

/-! ## Memo tables

The four `map<Expr *, _>` tables.  A key is the node the pointer designates. -/

/-- A memo table keyed by expression node. -/
abbrev Memo (α : Type) := Expr → Option α

/-- The empty table. -/
def Memo.empty {α : Type} : Memo α := fun _ => none

/-- `Table[E] = v`. -/
def Memo.insert {α : Type} (m : Memo α) (E : Expr) (v : α) : Memo α :=
  fun K => if K = E then some v else m K

/-- Returns true if the given variable declaration is for a global variable. -/
def isGlobalVariable (VD : VarDecl) : Bool :=
  VD.hasGlobalStorage && !VD.isStaticLocal

/-- The opcode test `OC == BO_Add || OC == BO_Sub || OC == BO_Mul || OC == BO_Div`. -/
def isAddSubMulDiv (OC : BinaryOperatorKind) : Bool :=
  OC == .BO_Add || OC == .BO_Sub || OC == .BO_Mul || OC == .BO_Div

/-- The opcode test `OC == UO_Plus || OC == UO_Minus`. -/
def isPlusMinus (OC : UnaryOperatorKind) : Bool :=
  OC == .UO_Plus || OC == .UO_Minus

/-- The memoization shared by the classifiers: the stored value when the table has an entry
for `E`; otherwise the value computed by `compute`, which is stored under `E` in the table
that `compute` leaves. -/
def Memo.findOrCompute {α : Type} (m : Memo α) (E : Expr) (compute : Memo α → α × Memo α) :
    α × Memo α :=
  match m E with
  | some v => (v, m)
  | none =>
    let r := compute m
    (r.1, r.2.insert E r.1)

/-- Returns true if the given expression is in the C language subset (memoized in
`EInCSub`). -/
def isExprInCSubset : Expr → Memo Bool → Bool × Memo Bool
  | E, EInCSub =>
    Memo.findOrCompute EInCSub E fun EInCSub =>
      match E with
      | .ImplicitCastExpr _ E0 => isExprInCSubset E0 EInCSub
      | .IntegerLiteral _ _ => (true, EInCSub)
      | .DeclRefExpr _ D =>
        match D with
        | .Var Var => if Var.TypeAsString = "int" then (true, EInCSub) else (false, EInCSub)
        | .NonVar _ => (false, EInCSub)
      | .ParenExpr _ E0 => isExprInCSubset E0 EInCSub
      | .UnaryOperator _ OC E0 =>
        if isPlusMinus OC then isExprInCSubset E0 EInCSub else (false, EInCSub)
      | .BinaryOperator _ OC E1 E2 =>
        if isAddSubMulDiv OC then
          let r1 := isExprInCSubset E1 EInCSub
          if r1.1 then isExprInCSubset E2 r1.2 else (false, r1.2)
        else if OC = .BO_Assign then
          match E1 with
          | .DeclRefExpr _ (.Var _) => isExprInCSubset E2 EInCSub
          | _ => (false, EInCSub)
        else (false, EInCSub)
      | .CallExpr _ _ _ => (true, EInCSub)
      | .OtherExpr _ _ => (false, EInCSub)

mutual
/-- Returns true if the given expression contains any non-global variables (memoized in
`EContainsLocalVars`). -/
def exprContainsLocalVars : Expr → Memo Bool → Bool × Memo Bool
  | E, EContainsLocalVars =>
    Memo.findOrCompute EContainsLocalVars E fun EContainsLocalVars =>
      match E with
      | .ImplicitCastExpr _ E0 => exprContainsLocalVars E0 EContainsLocalVars
      | .IntegerLiteral _ _ => (false, EContainsLocalVars)
      | .DeclRefExpr _ D =>
        match D with
        | .Var VD => (!isGlobalVariable VD, EContainsLocalVars)
        | .NonVar _ => (true, EContainsLocalVars)
      | .ParenExpr _ E0 => exprContainsLocalVars E0 EContainsLocalVars
      | .UnaryOperator _ OC E0 =>
        if isPlusMinus OC then exprContainsLocalVars E0 EContainsLocalVars
        else (true, EContainsLocalVars)
      | .BinaryOperator _ OC E1 E2 =>
        if isAddSubMulDiv OC then
          let r1 := exprContainsLocalVars E1 EContainsLocalVars
          if r1.1 then (true, r1.2) else exprContainsLocalVars E2 r1.2
        else if OC = .BO_Assign then
          match E1 with
          | .DeclRefExpr _ (.Var VD) =>
            if !isGlobalVariable VD then (true, EContainsLocalVars)
            else exprContainsLocalVars E2 EContainsLocalVars
          | _ => (true, EContainsLocalVars)
        else (true, EContainsLocalVars)
      | .CallExpr _ _ Args => argsContainLocalVars Args EContainsLocalVars
      | .OtherExpr _ _ => (true, EContainsLocalVars)
/-- The loop of `exprContainsLocalVars` over the arguments of a call: true at the first
argument that contains a local variable. -/
def argsContainLocalVars : ExprList → Memo Bool → Bool × Memo Bool
  | .nil, EContainsLocalVars => (false, EContainsLocalVars)
  | .cons Arg Rest, EContainsLocalVars =>
    let r := exprContainsLocalVars Arg EContainsLocalVars
    if r.1 then (true, r.2) else argsContainLocalVars Rest r.2
end

/-- Returns true if the given expression may have side-effects (memoized in
`EHasSideEffects`). -/
def exprHasSideEffects : Expr → Memo Bool → Bool × Memo Bool
  | E, EHasSideEffects =>
    Memo.findOrCompute EHasSideEffects E fun EHasSideEffects =>
      match E with
      | .ImplicitCastExpr _ E0 => exprHasSideEffects E0 EHasSideEffects
      | .IntegerLiteral _ _ => (false, EHasSideEffects)
      | .DeclRefExpr _ _ => (false, EHasSideEffects)
      | .ParenExpr _ E0 => exprHasSideEffects E0 EHasSideEffects
      | .UnaryOperator _ OC E0 =>
        if isPlusMinus OC then exprHasSideEffects E0 EHasSideEffects
        else (true, EHasSideEffects)
      | .BinaryOperator _ OC E1 E2 =>
        if isAddSubMulDiv OC then
          let r1 := exprHasSideEffects E1 EHasSideEffects
          if r1.1 then (true, r1.2) else exprHasSideEffects E2 r1.2
        else if OC = .BO_Assign then (true, EHasSideEffects)
        else (true, EHasSideEffects)
      | .CallExpr _ _ _ => (true, EHasSideEffects)
      | .OtherExpr _ _ => (true, EHasSideEffects)

/-- The memoization of `classifyExpr` in `EToCSub`; the computation also passes the table
`EInCSub` along. -/
def classifyExpr.findOrCompute (Tables : Memo Bool × Memo CSubsetExpr) (E : Expr)
    (compute : Memo Bool × Memo CSubsetExpr → CSubsetExpr × (Memo Bool × Memo CSubsetExpr)) :
    CSubsetExpr × (Memo Bool × Memo CSubsetExpr) :=
  match Tables.2 E with
  | some v => (v, Tables)
  | none =>
    let r := compute Tables
    (r.1, (r.2.1, r.2.2.insert E r.1))

/-- Returns the C language subset syntax node that this expression corresponds to (memoized
in `EToCSub`; consults `isExprInCSubset` and its table `EInCSub`). -/
def classifyExpr :
    Expr → Memo Bool × Memo CSubsetExpr → CSubsetExpr × (Memo Bool × Memo CSubsetExpr)
  | E, Tables =>
    classifyExpr.findOrCompute Tables E fun Tables =>
      let inSub := isExprInCSubset E Tables.1
      if inSub.1 then
        match E with
        | .ImplicitCastExpr _ E0 => classifyExpr E0 (inSub.2, Tables.2)
        | .IntegerLiteral _ _ => (.Num, (inSub.2, Tables.2))
        | .DeclRefExpr _ _ => (.Var, (inSub.2, Tables.2))
        | .ParenExpr _ _ => (.ParenExpr, (inSub.2, Tables.2))
        | .UnaryOperator _ OC _ =>
          if isPlusMinus OC then (.UnExpr, (inSub.2, Tables.2))
          else (.INVALID, (inSub.2, Tables.2))
        | .BinaryOperator _ OC _ _ =>
          if OC ≠ .BO_Assign then (.BinExpr, (inSub.2, Tables.2))
          else (.Assign, (inSub.2, Tables.2))
        | .CallExpr _ _ _ => (.CallOrInvocation, (inSub.2, Tables.2))
        | .OtherExpr _ _ => (.INVALID, (inSub.2, Tables.2))
      else (.INVALID, (inSub.2, Tables.2))

/-! ## Statements -/

/-- A `clang::Stmt` node.  An expression is a statement; `OtherStmt` stands for every
statement class the tool does not name (return, declaration, for, ...).  Only the else
branch of an `if` can be absent in a well-formed tree. -/
inductive Stmt
  | ExprStmt (E : Expr)
  | IfStmt (Cond : Expr) (Then : Stmt) (Else : Option Stmt)
  | WhileStmt (Cond : Expr) (Body : Stmt)
  | CompoundStmt (Children : List Stmt)
  | OtherStmt (Children : List Stmt)

/-! ## Macro definitions -/

/-- A token of a replacement list: where it is spelled and its spelling. -/
structure Token where
  Loc : SourceLocation
  Text : String
  deriving DecidableEq, Repr

/-- The attributes of a `clang::MacroInfo` that the tool reads.  `Params` is `none` for an
object-like definition and the list of parameter identifiers for a function-like one. -/
structure MacroInfo where
  /-- `getDefinitionLoc()`: the location of the name being defined -/
  DefinitionLoc : SourceLocation
  /-- `getDefinitionEndLoc()`: the location of the last token of the definition -/
  DefinitionEndLoc : SourceLocation
  Params : Option (List String)
  IsVariadic : Bool
  ReplacementTokens : List Token
  deriving DecidableEq, Repr

/-- `MacroInfo::isFunctionLike`. -/
def MacroInfo.isFunctionLike (MI : MacroInfo) : Bool := MI.Params.isSome

/-- `MacroInfo::isObjectLike`. -/
def MacroInfo.isObjectLike (MI : MacroInfo) : Bool := !MI.isFunctionLike

/-- `MacroInfo::getNumParams`. -/
def MacroInfo.getNumParams (MI : MacroInfo) : Nat := (MI.Params.getD []).length

/-- `MacroInfo::getDefinitionLength`: zero for an empty replacement list, otherwise the
distance from the start of the first replacement token to the end of the last one. -/
def MacroInfo.getDefinitionLength (MI : MacroInfo) : Nat :=
  match MI.ReplacementTokens.head?, MI.ReplacementTokens.getLast? with
  | some firstTok, some lastTok => (lastTok.Loc - firstTok.Loc) + lastTok.Text.length
  | _, _ => 0

/-! ## External collaborators -/

/-- A request made to the `clang::Rewriter`. -/
inductive RewriteRequest
  | InsertTextAfter (Loc : SourceLocation) (Str : String)
  | ReplaceText (Range : SourceRange) (NewStr : String)
  deriving DecidableEq, Repr

/-- One call of the rewriter: the request and whether the rewriter refused it (returned
true). -/
structure RewriterCall where
  Request : RewriteRequest
  Refused : Bool
  deriving DecidableEq, Repr

/-- What the tool asks of the preprocessor `PP`, the source manager `SM`, the lexer and the
rewriter `RW`. -/
structure Env where
  /-- `PP->isAtStartOfMacroExpansion(L)` -/
  isAtStartOfMacroExpansion : SourceLocation → Bool
  /-- `PP->isAtEndOfMacroExpansion(L)` -/
  isAtEndOfMacroExpansion : SourceLocation → Bool
  /-- `SM->getExpansionRange(SourceRange).getAsRange()` -/
  getExpansionRange : SourceRange → SourceRange
  /-- `SM->getExpansionRange(SourceLocation)` -/
  getExpansionRangeOfLoc : SourceLocation → CharSourceRange
  /-- `Lexer::getLocForEndOfToken(L, 0, *SM, *LO)` -/
  getLocForEndOfToken : SourceLocation → SourceLocation
  /-- `Lexer::getSourceText(Range, *SM, *LO)` -/
  getSourceText : CharSourceRange → String
  /-- Whether the rewriter, having served the calls in the list, refuses the request -/
  rewriterRefuses : List RewriterCall → RewriteRequest → Bool

/-- `Lexer::getAsCharRange`: the character range from the start of the first token to the end
of the last token of a token range. -/
def Env.getAsCharRange (env : Env) (Range : SourceRange) : CharSourceRange :=
  { Begin := Range.Begin, End := env.getLocForEndOfToken Range.End, IsTokenRange := false }

/-! ## Global state -/

/-- The global variables of `CppToC.cc`.  `RW` is the sequence of calls made to the rewriter,
oldest first. -/
structure State where
  AllVarNames : List String
  AllFunctionNames : List String
  AllMacroNames : List String
  MultiplyDefinedMacros : List String
  ExpansionRanges : List SourceRange
  StartLocationsOfExpansionsContainingStartOfOtherExpansion : List SourceLocation
  StartLocationsOFExpansionsContainedInOtherExpansion : List SourceLocation
  ExpansionStartLocationToMacroNames : SourceLocation → Option (List String)
  MacroNameToExpansionRanges : String → Option (List SourceRange)
  MacroNameToDirective : String → Option MacroInfo
  EInCSub : Memo Bool
  EToCSub : Memo CSubsetExpr
  EContainsLocalVars : Memo Bool
  EHasSideEffects : Memo Bool
  RW : List RewriterCall

/-- The state at program start: every container empty. -/
def State.initial : State :=
  { AllVarNames := [], AllFunctionNames := [], AllMacroNames := [],
    MultiplyDefinedMacros := [], ExpansionRanges := [],
    StartLocationsOfExpansionsContainingStartOfOtherExpansion := [],
    StartLocationsOFExpansionsContainedInOtherExpansion := [],
    ExpansionStartLocationToMacroNames := fun _ => none,
    MacroNameToExpansionRanges := fun _ => none,
    MacroNameToDirective := fun _ => none,
    EInCSub := Memo.empty, EToCSub := Memo.empty,
    EContainsLocalVars := Memo.empty, EHasSideEffects := Memo.empty,
    RW := [] }

/-- `Map[K]` used as an lvalue on a map of lists followed by `push_back(V)`. -/
def mapPushBack {κ ν : Type} [DecidableEq κ] (M : κ → Option (List ν)) (K : κ) (V : ν) :
    κ → Option (List ν) :=
  fun K2 => if K2 = K then some ((M K).getD [] ++ [V]) else M K2

/-- `Map[K]` used as an rvalue on a map of lists: a missing key is inserted with the empty
list. -/
def mapTouch {κ ν : Type} [DecidableEq κ] (M : κ → Option (List ν)) (K : κ) :
    κ → Option (List ν) :=
  fun K2 => if K2 = K then some ((M K).getD []) else M K2

/-- One iteration of the loop of `MacroExpands` over `ExpansionRanges`. -/
def MacroExpands.visit (B : SourceLocation) (st : State) (OtherExpansionRange : SourceRange) :
    State :=
  let OB := OtherExpansionRange.Begin
  if isInRange B OtherExpansionRange then
    { st with
      ExpansionStartLocationToMacroNames := mapTouch st.ExpansionStartLocationToMacroNames OB,
      StartLocationsOfExpansionsContainingStartOfOtherExpansion :=
        st.StartLocationsOfExpansionsContainingStartOfOtherExpansion.insert OB,
      StartLocationsOFExpansionsContainedInOtherExpansion :=
        st.StartLocationsOFExpansionsContainedInOtherExpansion.insert B }
  else st

/-- Preprocessor callback `MacroExpansionCollector::MacroExpands`; `ExpansionRange` is
`SM->getExpansionRange(Range).getAsRange()`. -/
def MacroExpands (st : State) (MacroName : String) (ExpansionRange : SourceRange) : State :=
  let B := ExpansionRange.Begin
  let st1 := st.ExpansionRanges.foldl (MacroExpands.visit B) st
  { st1 with
    ExpansionStartLocationToMacroNames :=
      mapPushBack st1.ExpansionStartLocationToMacroNames B MacroName,
    MacroNameToExpansionRanges :=
      mapPushBack st1.MacroNameToExpansionRanges MacroName ExpansionRange,
    ExpansionRanges := st1.ExpansionRanges ++ [ExpansionRange] }

/-- Preprocessor callback `MacroDefinitionCollector::MacroDefined`; `hasPrevious` is
`MD->getPrevious() != nullptr` and `MI` is `MD->getMacroInfo()`. -/
def MacroDefined (st : State) (MacroName : String) (hasPrevious : Bool) (MI : MacroInfo) :
    State :=
  { st with
    AllMacroNames := st.AllMacroNames.insert MacroName,
    MultiplyDefinedMacros :=
      if hasPrevious then st.MultiplyDefinedMacros.insert MacroName
      else st.MultiplyDefinedMacros,
    MacroNameToDirective := fun K => if K = MacroName then some MI else st.MacroNameToDirective K }

/-- `CollectDeclNamesVisitor::VisitFunctionDecl`. -/
def VisitFunctionDecl (st : State) (functionName : String) : State :=
  { st with AllFunctionNames := st.AllFunctionNames.insert functionName }

/-- `CollectDeclNamesVisitor::VisitVarDecl`. -/
def VisitVarDecl (st : State) (VarName : String) : State :=
  { st with AllVarNames := st.AllVarNames.insert VarName }

/-! ## transformEntireExpr -/

/-- The results of `transformEntireExpr`. -/
inductive TransformationResult
  | CONTAINS_NESTED_INVOCATIONS
  | CONTAINED_IN_INVOCATION
  | ERROR
  | HAS_SIDE_EFFECTS
  | MULTIPLE_EXPANSIONS
  | MULTIPLY_DEFINED
  | NON_TRANSFORMABLE_MACRO
  | NOT_TRANSFORMED
  | TRANSFORMED
  deriving DecidableEq, Repr

/-- The ways a call can fail to return. -/
inductive Abort
  /-- `MD->getMacroInfo()` on the null pointer that `MacroNameToDirective[MacroName]` holds
  for a name without a recorded definition -/
  | NullMacroDirective
  /-- `std::out_of_range` thrown by `substr` -/
  | OutOfRange
  /-- The loop that looks for a free name did not finish within the given number of steps -/
  | OutOfFuel
  deriving DecidableEq, Repr

/-- The loop condition of the naming step: `DefName` is found in `AllVarNames`,
`AllFunctionNames` or `AllMacroNames`. -/
def isNameTaken (st : State) (DefName : String) : Bool :=
  decide (DefName ∈ st.AllVarNames) || decide (DefName ∈ st.AllFunctionNames) ||
    decide (DefName ∈ st.AllMacroNames)

/-- The `while` loop of the naming step, entered with the current `DefName` and the
`unsigned int` counter `i`; `fuel` bounds the number of evaluations of the loop condition. -/
def uniqueDefNameLoop (st : State) (MacroName suffix : String) :
    Nat → String → Nat → Option String
  | 0, _, _ => none
  | fuel + 1, DefName, i =>
    if isNameTaken st DefName then
      uniqueDefNameLoop st MacroName suffix fuel (MacroName ++ suffix ++ toString i)
        ((i + 1) % 2 ^ 32)
    else some DefName

/-- The naming step: `suffix`, the first candidate `MacroName + suffix`, and the loop. -/
def uniqueDefName (fuel : Nat) (st : State) (MacroName : String) (MI : MacroInfo) :
    Option String :=
  let suffix := if MI.isObjectLike then "_var" else "_function"
  let DefName := MacroName ++ suffix
  uniqueDefNameLoop st MacroName suffix fuel DefName 0

/-- `std::string::substr(pos, len)`: throws when `pos` exceeds the size. -/
def substr (s : String) (pos len : Nat) : Option String :=
  if pos > s.length then none else some (String.mk ((s.data.drop pos).take len))

/-- The first part of `transformEntireExpr`, up to the sanity check on `MacroName`: either
the result returned early, or the value of `MacroName` (empty when no name list is recorded at
the start of the expansion). -/
def transformEntireExpr.findMacroName (env : Env) (st : State) (E : Expr) :
    (TransformationResult ⊕ String) × State :=
  let B := E.getBeginLoc
  let EL := E.getEndLoc
  if env.isAtStartOfMacroExpansion B && env.isAtEndOfMacroExpansion EL then
    let ER := env.getExpansionRange E.getSourceRange
    let EB := ER.Begin
    if EB ∈ st.StartLocationsOfExpansionsContainingStartOfOtherExpansion then
      (.inl .CONTAINS_NESTED_INVOCATIONS, st)
    else if EB ∈ st.StartLocationsOFExpansionsContainedInOtherExpansion then
      (.inl .CONTAINED_IN_INVOCATION, st)
    else
      match st.ExpansionStartLocationToMacroNames EB with
      | none => (.inr "", st)
      | some [] => (.inl .ERROR, st)
      | some [MacroName] =>
        let MacroExpansionRanges := (st.MacroNameToExpansionRanges MacroName).getD []
        let st1 := { st with
          MacroNameToExpansionRanges := mapTouch st.MacroNameToExpansionRanges MacroName }
        if ER ∈ MacroExpansionRanges then (.inr MacroName, st1)
        else (.inl .MULTIPLE_EXPANSIONS, st1)
      | some (_ :: _ :: _) => (.inl .ERROR, st)
  else (.inl .NOT_TRANSFORMED, st)

/-- The start of the body of the definition: past the name, the formals and one blank.
`none` is the branch "Somehow tried to transform a macro with more than 1 parameter". -/
def transformEntireExpr.macroBodyBegin (env : Env) (MI : MacroInfo) : Option SourceLocation :=
  let MacroDefBegin := MI.DefinitionLoc
  let MacroBodyBegin := env.getLocForEndOfToken MacroDefBegin
  match MI.Params with
  | none => some (getLocWithOffset MacroBodyBegin 1)
  | some [] => some (getLocWithOffset (getLocWithOffset MacroBodyBegin 2) 1)
  | some [Param] =>
    let offset := (((0 + 1) % 2 ^ 32 + Param.length) % 2 ^ 32 + 1) % 2 ^ 32
    some (getLocWithOffset (getLocWithOffset MacroBodyBegin offset) 1)
  | some (_ :: _ :: _) => none

/-- The text `Def` and the insertion of `DefName` into `AllVarNames` or `AllFunctionNames`.
`none` is the branch "Tried to transform a macro with more than 1 argument". -/
def transformEntireExpr.define (st : State) (MI : MacroInfo) (DefName DefBody : String) :
    Option String × State :=
  match MI.Params with
  | none =>
    (some ("\nconst int " ++ DefName ++ " = " ++ DefBody ++ ";"),
      { st with AllVarNames := st.AllVarNames.insert DefName })
  | some [] =>
    (some ("\nint " ++ DefName ++ "() \x7b\n    return " ++ DefBody ++ ";\n\x7d"),
      { st with AllFunctionNames := st.AllFunctionNames.insert DefName })
  | some [ParamName] =>
    (some ("\nint " ++ DefName ++ "(int " ++ ParamName ++ ") " ++ "\x7b\n    return " ++
        DefBody ++ ";\n\x7d"),
      { st with AllFunctionNames := st.AllFunctionNames.insert DefName })
  | some (_ :: _ :: _) => (none, st)

/-- One call of the rewriter: the call is recorded together with its outcome. -/
def callRewriter (env : Env) (st : State) (Request : RewriteRequest) : Bool × State :=
  let Refused := env.rewriterRefuses st.RW Request
  (Refused, { st with RW := st.RW ++ [{ Request := Request, Refused := Refused }] })

/-- The replacement for the invocation.  `ok none` is the branch "Tried to transform a
macro with more than 1 argument". -/
def transformEntireExpr.invocationReplacement (env : Env) (E : Expr) (MacroName : String)
    (MI : MacroInfo) (DefName : String) : Except Abort (Option String) :=
  let B := E.getBeginLoc
  let InvocationReplacement := DefName
  match MI.Params with
  | none => .ok (some InvocationReplacement)
  | some [] => .ok (some (InvocationReplacement ++ "()"))
  | some [_] =>
    let InvocationString := env.getSourceText (env.getExpansionRangeOfLoc B)
    let ArgLen : Nat :=
      (((InvocationString.length : Int) - 1 - (MacroName.length : Int) - 1) % 2 ^ 32).toNat
    match substr InvocationString (MacroName.length + 1) ArgLen with
    | none => .error .OutOfRange
    | some ArgString => .ok (some (InvocationReplacement ++ "(" ++ ArgString ++ ")"))
  | some (_ :: _ :: _) => .ok none

/-- The last part of `transformEntireExpr`, from "Give the transformed macro a unique name"
to the end. -/
def transformEntireExpr.emit (fuel : Nat) (env : Env) (st : State) (E : Expr)
    (MacroName : String) (MI : MacroInfo) : Except Abort (TransformationResult × State) :=
  match uniqueDefName fuel st MacroName MI with
  | none => .error .OutOfFuel
  | some DefName =>
    let MacroDefEnd := MI.DefinitionEndLoc
    let DefLocation := env.getLocForEndOfToken MacroDefEnd
    match transformEntireExpr.macroBodyBegin env MI with
    | none => .ok (.ERROR, st)
    | some MacroBodyBegin =>
      let MacroBodyRange : SourceRange := { Begin := MacroBodyBegin, End := MacroDefEnd }
      let MacroDefRange := env.getAsCharRange MacroBodyRange
      -- `RWError` stays the null pointer, so the test `RWError != nullptr` never fires
      let DefBody := env.getSourceText MacroDefRange
      let Defined := transformEntireExpr.define st MI DefName DefBody
      match Defined.1 with
      | none => .ok (.ERROR, Defined.2)
      | some Def =>
        if Def = "" then .ok (.ERROR, Defined.2)
        else
          let Inserted := callRewriter env Defined.2 (.InsertTextAfter DefLocation Def)
          if Inserted.1 then .ok (.ERROR, Inserted.2)
          else
            match transformEntireExpr.invocationReplacement env E MacroName MI DefName with
            | .error a => .error a
            | .ok none => .ok (.ERROR, Inserted.2)
            | .ok (some InvocationReplacement) =>
              let ER := env.getExpansionRange E.getSourceRange
              let Replaced := callRewriter env Inserted.2 (.ReplaceText ER InvocationReplacement)
              if Replaced.1 then .ok (.ERROR, Replaced.2) else .ok (.TRANSFORMED, Replaced.2)

/-- The test on a macro with a single parameter: `DefLen != ParamLen` for a function-like
macro with exactly one parameter. -/
def transformEntireExpr.failsUnaryTest (MI : MacroInfo) : Bool :=
  match MI.Params with
  | some [Param] =>
    let DefLen := MI.getDefinitionLength
    let ParamLen := Param.length
    DefLen != ParamLen
  | _ => false

/-- Determines if an expression is a result of macro expansion, and if so, then tries to
transform the invocation into a function call or a variable reference. -/
def transformEntireExpr (fuel : Nat) (env : Env) (st : State) (E : Expr) :
    Except Abort (TransformationResult × State) :=
  match transformEntireExpr.findMacroName env st E with
  | (.inl r, st1) => .ok (r, st1)
  | (.inr MacroName, st1) =>
    if MacroName = "" then .ok (.ERROR, st1)
    else if MacroName ∈ st1.MultiplyDefinedMacros then .ok (.MULTIPLY_DEFINED, st1)
    else
      match st1.MacroNameToDirective MacroName with
      | none => .error .NullMacroDirective
      | some MI =>
        if MI.isFunctionLike && decide (MI.getNumParams > 1) then
          .ok (.NON_TRANSFORMABLE_MACRO, st1)
        else if transformEntireExpr.failsUnaryTest MI then
          .ok (.NON_TRANSFORMABLE_MACRO, st1)
        else
          let hse := exprHasSideEffects E st1.EHasSideEffects
          let st2 := { st1 with EHasSideEffects := hse.2 }
          if hse.1 then .ok (.HAS_SIDE_EFFECTS, st2)
          else
            let clv := exprContainsLocalVars E st2.EContainsLocalVars
            let st3 := { st2 with EContainsLocalVars := clv.2 }
            if clv.1 then .ok (.NOT_TRANSFORMED, st3)
            else transformEntireExpr.emit fuel env st3 E MacroName MI

/-! ## TransformExpr and TransformStmt -/

/-- The test of step 3 of `TransformExpr`: the results after which the sub-expressions are
visited. -/
def TransformationResult.visitsSubExprs : TransformationResult → Bool
  | .NOT_TRANSFORMED | .MULTIPLY_DEFINED | .HAS_SIDE_EFFECTS | .MULTIPLE_EXPANSIONS => true
  | _ => false

mutual
/-- Transforms all eligible macro invocations in the given expression.  A call
`TransformStmt(E0)` on an operand dispatches to `TransformExpr(E0)`, the operand being an
expression. -/
def TransformExpr (fuel : Nat) (env : Env) : Expr → State → Except Abort State
  | E, st =>
    let CSE := classifyExpr E (st.EInCSub, st.EToCSub)
    let st0 := { st with EInCSub := CSE.2.1, EToCSub := CSE.2.2 }
    if CSE.1 = .INVALID then .ok st0
    else
      match transformEntireExpr fuel env st0 E with
      | .error a => .error a
      | .ok (result, st1) =>
        if result.visitsSubExprs then
          match E with
          | .ImplicitCastExpr _ E0 => TransformExpr fuel env E0 st1
          | .IntegerLiteral _ _ => .ok st1
          | .DeclRefExpr _ _ => .ok st1
          | .ParenExpr _ E0 => TransformExpr fuel env E0 st1
          | .UnaryOperator _ OC E0 =>
            if isPlusMinus OC then TransformExpr fuel env E0 st1 else .ok st1
          | .BinaryOperator _ OC E1 E2 =>
            if isAddSubMulDiv OC then
              match TransformExpr fuel env E1 st1 with
              | .error a => .error a
              | .ok st2 => TransformExpr fuel env E2 st2
            else if OC = .BO_Assign then
              match E1 with
              | .DeclRefExpr _ _ => TransformExpr fuel env E2 st1
              | _ => .ok st1
            else .ok st1
          | .CallExpr _ _ Args => TransformExprArgs fuel env Args st1
          | .OtherExpr _ _ => .ok st1
        else .ok st1
/-- The loop of `TransformExpr` over the arguments of a call. -/
def TransformExprArgs (fuel : Nat) (env : Env) : ExprList → State → Except Abort State
  | .nil, st => .ok st
  | .cons Arg Rest, st =>
    match TransformExpr fuel env Arg st with
    | .error a => .error a
    | .ok st1 => TransformExprArgs fuel env Rest st1
end

mutual
/-- Transforms all eligible macro invocations in the given statement. -/
def TransformStmt (fuel : Nat) (env : Env) : Stmt → State → Except Abort State
  | .ExprStmt ES, st => TransformExpr fuel env ES st
  | .IfStmt E S1 (some S2), st =>
    match TransformExpr fuel env E st with
    | .error a => .error a
    | .ok st1 =>
      match TransformStmt fuel env S1 st1 with
      | .error a => .error a
      | .ok st2 => TransformStmt fuel env S2 st2
  | .IfStmt _ _ none, st => .ok st
  | .WhileStmt E S1, st =>
    match TransformExpr fuel env E st with
    | .error a => .error a
    | .ok st1 => TransformStmt fuel env S1 st1
  | .CompoundStmt Children, st => TransformStmts fuel env Children st
  | .OtherStmt _, st => .ok st
/-- The loop of `TransformStmt` over the children of a compound statement. -/
def TransformStmts (fuel : Nat) (env : Env) : List Stmt → State → Except Abort State
  | [], st => .ok st
  | S :: Rest, st =>
    match TransformStmt fuel env S st with
    | .error a => .error a
    | .ok st1 => TransformStmts fuel env Rest st1
end

/-! ## The classifiers without their memo tables -/

/-- The recursion of `isExprInCSubset` without its memo table. -/
def isExprInCSubsetRec : Expr → Bool
  | .ImplicitCastExpr _ E0 => isExprInCSubsetRec E0
  | .IntegerLiteral _ _ => true
  | .DeclRefExpr _ (.Var Var) => decide (Var.TypeAsString = "int")
  | .DeclRefExpr _ (.NonVar _) => false
  | .ParenExpr _ E0 => isExprInCSubsetRec E0
  | .UnaryOperator _ OC E0 => if isPlusMinus OC then isExprInCSubsetRec E0 else false
  | .BinaryOperator _ OC E1 E2 =>
    if isAddSubMulDiv OC then isExprInCSubsetRec E1 && isExprInCSubsetRec E2
    else if OC = .BO_Assign then
      match E1 with
      | .DeclRefExpr _ (.Var _) => isExprInCSubsetRec E2
      | _ => false
    else false
  | .CallExpr _ _ _ => true
  | .OtherExpr _ _ => false

/-- The recursion of `classifyExpr` without its memo tables. -/
def classifyExprRec : Expr → CSubsetExpr
  | .ImplicitCastExpr R E0 =>
    if isExprInCSubsetRec (.ImplicitCastExpr R E0) then classifyExprRec E0 else .INVALID
  | .IntegerLiteral R V => if isExprInCSubsetRec (.IntegerLiteral R V) then .Num else .INVALID
  | .DeclRefExpr R D => if isExprInCSubsetRec (.DeclRefExpr R D) then .Var else .INVALID
  | .ParenExpr R E0 => if isExprInCSubsetRec (.ParenExpr R E0) then .ParenExpr else .INVALID
  | .UnaryOperator R OC E0 =>
    if isExprInCSubsetRec (.UnaryOperator R OC E0) then
      if isPlusMinus OC then .UnExpr else .INVALID
    else .INVALID
  | .BinaryOperator R OC E1 E2 =>
    if isExprInCSubsetRec (.BinaryOperator R OC E1 E2) then
      if OC ≠ .BO_Assign then .BinExpr else .Assign
    else .INVALID
  | .CallExpr R C A => if isExprInCSubsetRec (.CallExpr R C A) then .CallOrInvocation else .INVALID
  | .OtherExpr _ _ => .INVALID

mutual
/-- The recursion of `exprContainsLocalVars` without its memo table. -/
def exprContainsLocalVarsRec : Expr → Bool
  | .ImplicitCastExpr _ E0 => exprContainsLocalVarsRec E0
  | .IntegerLiteral _ _ => false
  | .DeclRefExpr _ (.Var VD) => !isGlobalVariable VD
  | .DeclRefExpr _ (.NonVar _) => true
  | .ParenExpr _ E0 => exprContainsLocalVarsRec E0
  | .UnaryOperator _ OC E0 => if isPlusMinus OC then exprContainsLocalVarsRec E0 else true
  | .BinaryOperator _ OC E1 E2 =>
    if isAddSubMulDiv OC then exprContainsLocalVarsRec E1 || exprContainsLocalVarsRec E2
    else if OC = .BO_Assign then
      match E1 with
      | .DeclRefExpr _ (.Var VD) => !isGlobalVariable VD || exprContainsLocalVarsRec E2
      | _ => true
    else true
  | .CallExpr _ _ Args => argsContainLocalVarsRec Args
  | .OtherExpr _ _ => true
/-- The loop over the arguments of a call, without the memo table. -/
def argsContainLocalVarsRec : ExprList → Bool
  | .nil => false
  | .cons Arg Rest => exprContainsLocalVarsRec Arg || argsContainLocalVarsRec Rest
end

/-- The recursion of `exprHasSideEffects` without its memo table. -/
def exprHasSideEffectsRec : Expr → Bool
  | .ImplicitCastExpr _ E0 => exprHasSideEffectsRec E0
  | .IntegerLiteral _ _ => false
  | .DeclRefExpr _ _ => false
  | .ParenExpr _ E0 => exprHasSideEffectsRec E0
  | .UnaryOperator _ OC E0 => if isPlusMinus OC then exprHasSideEffectsRec E0 else true
  | .BinaryOperator _ OC E1 E2 =>
    if isAddSubMulDiv OC then exprHasSideEffectsRec E1 || exprHasSideEffectsRec E2
    else if OC = .BO_Assign then true
    else true
  | .CallExpr _ _ _ => true
  | .OtherExpr _ _ => true

/-- Every entry of the table is the value of `f` at its key. -/
def Memo.Sound {α : Type} (f : Expr → α) (m : Memo α) : Prop :=
  ∀ E v, m E = some v → v = f E

/-- Every entry of each of the four memo tables of the state is the value that the
recursion of its classifier gives. -/
structure State.MemoSound (st : State) : Prop where
  inCSub : Memo.Sound isExprInCSubsetRec st.EInCSub
  toCSub : Memo.Sound classifyExprRec st.EToCSub
  localVars : Memo.Sound exprContainsLocalVarsRec st.EContainsLocalVars
  sideEffects : Memo.Sound exprHasSideEffectsRec st.EHasSideEffects

/-- The pairs of tables `EInCSub`, `EToCSub` that can arise: the empty tables, and the tables
left by a call of `classifyExpr` (the only caller of `isExprInCSubset`) on tables that can
arise. -/
inductive ReachableClassifyTables : Memo Bool × Memo CSubsetExpr → Prop
  | empty : ReachableClassifyTables (Memo.empty, Memo.empty)
  | call (E : Expr) (Tables : Memo Bool × Memo CSubsetExpr) :
    ReachableClassifyTables Tables → ReachableClassifyTables (classifyExpr E Tables).2

/-- The tables `EContainsLocalVars` that can arise: the empty table, and the table left by a
call of `exprContainsLocalVars` on a table that can arise. -/
inductive ReachableEContainsLocalVars : Memo Bool → Prop
  | empty : ReachableEContainsLocalVars Memo.empty
  | call (E : Expr) (m : Memo Bool) :
    ReachableEContainsLocalVars m → ReachableEContainsLocalVars (exprContainsLocalVars E m).2

/-- The tables `EHasSideEffects` that can arise: the empty table, and the table left by a
call of `exprHasSideEffects` on a table that can arise. -/
inductive ReachableEHasSideEffects : Memo Bool → Prop
  | empty : ReachableEHasSideEffects Memo.empty
  | call (E : Expr) (m : Memo Bool) :
    ReachableEHasSideEffects m → ReachableEHasSideEffects (exprHasSideEffects E m).2

/-- The four memo tables of the state are tables that can arise. -/
structure State.TablesReachable (st : State) : Prop where
  classify : ReachableClassifyTables (st.EInCSub, st.EToCSub)
  localVars : ReachableEContainsLocalVars st.EContainsLocalVars
  sideEffects : ReachableEHasSideEffects st.EHasSideEffects

/-! ## Vocabulary of the statements -/

/-- The result of a call of `transformEntireExpr`, if it returned. -/
def returned (r : Except Abort (TransformationResult × State)) : Option TransformationResult :=
  match r with
  | .ok (result, _) => some result
  | .error _ => none

/-- The calls made to the rewriter when the call returned. -/
def rewriterCalls (r : Except Abort (TransformationResult × State)) : Option (List RewriterCall) :=
  match r with
  | .ok (_, st) => some st.RW
  | .error _ => none

/-- The compound expressions whose operands decide the side-effect test: implicit casts,
parenthesised expressions, unary `+` and `-`, binary `+`, `-`, `*` and `/`. -/
def Expr.isSubsetCompound : Expr → Bool
  | .ImplicitCastExpr _ _ => true
  | .ParenExpr _ _ => true
  | .UnaryOperator _ OC _ => isPlusMinus OC
  | .BinaryOperator _ OC _ _ => isAddSubMulDiv OC
  | _ => false

/-- The unary-operator and binary-operator expressions with any other opcode. -/
def Expr.isOtherOperator : Expr → Bool
  | .UnaryOperator _ OC _ => !isPlusMinus OC
  | .BinaryOperator _ OC _ _ => !isAddSubMulDiv OC
  | _ => false

/-- The state in which the naming step of `transformEntireExpr` runs on `E`, the macro being
`MacroName`: the map of expansion ranges has been indexed at `MacroName`, and both tests have
been run on `E`. -/
def transformEntireExpr.stateAtNaming (st : State) (E : Expr) (MacroName : String) : State :=
  { st with
    MacroNameToExpansionRanges := mapTouch st.MacroNameToExpansionRanges MacroName,
    EHasSideEffects := (exprHasSideEffects E st.EHasSideEffects).2,
    EContainsLocalVars := (exprContainsLocalVars E st.EContainsLocalVars).2 }

/-- The checks of `transformEntireExpr` that precede its test on a macro with a single
parameter, for the expression `E` and the macro `MacroName` with definition `MI`. -/
structure transformEntireExpr.ReachesUnaryTest (env : Env) (st : State) (E : Expr)
    (MacroName : String) (MI : MacroInfo) : Prop where
  atStart : env.isAtStartOfMacroExpansion E.getBeginLoc = true
  atEnd : env.isAtEndOfMacroExpansion E.getEndLoc = true
  notContaining : (env.getExpansionRange E.getSourceRange).Begin ∉
    st.StartLocationsOfExpansionsContainingStartOfOtherExpansion
  notContained : (env.getExpansionRange E.getSourceRange).Begin ∉
    st.StartLocationsOFExpansionsContainedInOtherExpansion
  oneName : st.ExpansionStartLocationToMacroNames
    (env.getExpansionRange E.getSourceRange).Begin = some [MacroName]
  sameExpansion : env.getExpansionRange E.getSourceRange ∈
    (st.MacroNameToExpansionRanges MacroName).getD []
  named : MacroName ≠ ""
  singlyDefined : MacroName ∉ st.MultiplyDefinedMacros
  directive : st.MacroNameToDirective MacroName = some MI
  atMostOneParam : ¬ (MI.isFunctionLike = true ∧ MI.getNumParams > 1)

/-- The checks of `transformEntireExpr` that precede its side-effect test, for the
expression `E` and the macro `MacroName` with definition `MI`. -/
structure transformEntireExpr.MacroChecks (env : Env) (st : State) (E : Expr)
    (MacroName : String) (MI : MacroInfo) extends
    transformEntireExpr.ReachesUnaryTest env st E MacroName MI : Prop where
  unaryTest : transformEntireExpr.failsUnaryTest MI = false

mutual
/-- Some node of the tree of the expression (the callee of a call included) is a reference
to a variable that is not global. -/
def Expr.refersToNonGlobalVar : Expr → Bool
  | .ImplicitCastExpr _ E0 => E0.refersToNonGlobalVar
  | .IntegerLiteral _ _ => false
  | .DeclRefExpr _ (.Var VD) => !isGlobalVariable VD
  | .DeclRefExpr _ (.NonVar _) => false
  | .ParenExpr _ E0 => E0.refersToNonGlobalVar
  | .UnaryOperator _ _ E0 => E0.refersToNonGlobalVar
  | .BinaryOperator _ _ E1 E2 => E1.refersToNonGlobalVar || E2.refersToNonGlobalVar
  | .CallExpr _ Callee Args => Callee.refersToNonGlobalVar || Args.refersToNonGlobalVar
  | .OtherExpr _ Children => Children.refersToNonGlobalVar
/-- Some expression of the list refers to a variable that is not global. -/
def ExprList.refersToNonGlobalVar : ExprList → Bool
  | .nil => false
  | .cons E Es => E.refersToNonGlobalVar || Es.refersToNonGlobalVar
end

/-- The base candidate of the naming step: `MacroName + suffix`. -/
def uniqueDefName.base (MacroName : String) (MI : MacroInfo) : String :=
  MacroName ++ (if MI.isObjectLike then "_var" else "_function")

/-- The state a call returned with (the initial state when it did not return). -/
def resultState (r : Except Abort (TransformationResult × State)) : State :=
  match r with
  | .ok (_, st) => st
  | .error _ => State.initial

/-- The name that the naming step chooses in a run of `transformEntireExpr` on `E` from the
state `st`: the name for the one macro recorded at the start of the expansion of `E`. -/
def transformEntireExpr.chosenName (fuel : Nat) (env : Env) (st : State) (E : Expr) :
    Option String :=
  match st.ExpansionStartLocationToMacroNames (env.getExpansionRange E.getSourceRange).Begin with
  | some [MacroName] =>
    match st.MacroNameToDirective MacroName with
    | some MI => uniqueDefName fuel st MacroName MI
    | none => none
  | _ => none

/-- A sequence of steps run against one identifier universe, from the first state to the
last, with the names emitted on the way, in order.  A step is either a call of
`transformEntireExpr` that returns `TRANSFORMED`, which emits the name its naming step chose,
or anything else that removes no name from `AllVarNames`, `AllFunctionNames` and
`AllMacroNames` (a rejected call, a classification, a failed call). -/
inductive NamingRun (fuel : Nat) : State → List String → State → Prop
  | done (st : State) : NamingRun fuel st [] st
  | transformed (env : Env) (E : Expr) (st st1 st2 : State) (DefName : String)
      (Names : List String) :
      transformEntireExpr fuel env st E = .ok (.TRANSFORMED, st1) →
      transformEntireExpr.chosenName fuel env st E = some DefName →
      NamingRun fuel st1 Names st2 → NamingRun fuel st (DefName :: Names) st2
  | other (st st1 st2 : State) (Names : List String) :
      (∀ Name, isNameTaken st Name = true → isNameTaken st1 Name = true) →
      NamingRun fuel st1 Names st2 → NamingRun fuel st Names st2

/-- The text `DefBody` that the last part of `transformEntireExpr` reads for the definition
`MI` (empty when the start of the body is not computed). -/
def transformEntireExpr.defBody (env : Env) (MI : MacroInfo) : String :=
  match transformEntireExpr.macroBodyBegin env MI with
  | some MacroBodyBegin =>
    env.getSourceText (env.getAsCharRange { Begin := MacroBodyBegin, End := MI.DefinitionEndLoc })
  | none => ""

/-- The text `ArgString` that the last part of `transformEntireExpr` cuts out of the source
text of the invocation (`none` when `substr` throws). -/
def transformEntireExpr.argString (env : Env) (E : Expr) (MacroName : String) : Option String :=
  let InvocationString := env.getSourceText (env.getExpansionRangeOfLoc E.getBeginLoc)
  substr InvocationString (MacroName.length + 1)
    (((InvocationString.length : Int) - 1 - (MacroName.length : Int) - 1) % 2 ^ 32).toNat

/-- The state after `classifyExpr(E)`, the first step of `TransformExpr(E)`. -/
def TransformExpr.stateAfterClassify (st : State) (E : Expr) : State :=
  { st with
    EInCSub := (classifyExpr E (st.EInCSub, st.EToCSub)).2.1,
    EToCSub := (classifyExpr E (st.EInCSub, st.EToCSub)).2.2 }

/-! ## Worked translation units

Main files with the locations, the collaborators and the collected state that Clang produces
for them; file locations are offsets into the text. -/

/-- Raw encodings from this value on denote locations inside macro expansions. -/
def Example.MacroIDBit : SourceLocation := 2 ^ 31

/-- Lexing of the examples: the token that starts at offset `L` of `text` is a maximal run
of identifier characters, or a single character. -/
def Example.tokenLength (text : String) (L : SourceLocation) : Nat :=
  let run := ((text.data.drop L).takeWhile (fun c => c.isAlphanum || c == '_')).length
  if run = 0 then 1 else run

/-- The characters of `text` from offset `B` up to offset `E`. -/
def Example.textBetween (text : String) (B E : SourceLocation) : String :=
  String.mk ((text.data.drop B).take (E - B))

/-- A location inside a macro expansion: whether it is the first and the last token of the
expansion, and the range of the expansion in the file. -/
structure Example.ExpansionLoc where
  Loc : SourceLocation
  AtStart : Bool
  AtEnd : Bool
  Expansion : SourceRange
  deriving DecidableEq, Repr

/-- The expansion range of a location: its own position for a file location. -/
def Example.expansionOf (locs : List Example.ExpansionLoc) (L : SourceLocation) : SourceRange :=
  match locs.find? (fun x => x.Loc == L) with
  | some x => x.Expansion
  | none => { Begin := L, End := L }

/-- The collaborators for a main file with contents `text`, file locations being offsets
into `text`, and the given locations inside macro expansions.  The rewriter refuses
exactly the requests at locations inside macro expansions. -/
def Example.env (text : String) (locs : List Example.ExpansionLoc) : Env :=
  { isAtStartOfMacroExpansion := fun L => locs.any (fun x => x.Loc == L && x.AtStart),
    isAtEndOfMacroExpansion := fun L => locs.any (fun x => x.Loc == L && x.AtEnd),
    getExpansionRange := fun R =>
      { Begin := (Example.expansionOf locs R.Begin).Begin,
        End := (Example.expansionOf locs R.End).End },
    getExpansionRangeOfLoc := fun L =>
      { Begin := (Example.expansionOf locs L).Begin,
        End := (Example.expansionOf locs L).End, IsTokenRange := true },
    getLocForEndOfToken := fun L => L + Example.tokenLength text L,
    getSourceText := fun R =>
      if R.IsTokenRange then
        Example.textBetween text R.Begin (R.End + Example.tokenLength text R.End)
      else Example.textBetween text R.Begin R.End,
    rewriterRefuses := fun _ Request =>
      match Request with
      | .InsertTextAfter Loc _ => decide (Example.MacroIDBit ≤ Loc)
      | .ReplaceText Range _ =>
        decide (Example.MacroIDBit ≤ Range.Begin) || decide (Example.MacroIDBit ≤ Range.End) }

/-- The expression `!x` at offset 40, `x` a global `int`. -/
def Example.NotX : Expr :=
  .UnaryOperator ⟨40, 41⟩ .UO_LNot
    (.DeclRefExpr ⟨41, 41⟩
      (.Var { Name := "x", TypeAsString := "int", hasGlobalStorage := true,
              isStaticLocal := false }))

/-- The expression `(next())` at offsets 50 to 57. -/
def Example.ParenNext : Expr :=
  .ParenExpr ⟨50, 57⟩
    (.CallExpr ⟨51, 56⟩
      (.ImplicitCastExpr ⟨51, 51⟩ (.DeclRefExpr ⟨51, 51⟩ (.NonVar "next"))) .nil)

namespace ExampleONE

/-- The main file. -/
def text : String := "#define ONE 1\nint x;\nint main() \x7b x = ONE; \x7d\n"

/-- The definition `#define ONE 1`. -/
def MI : MacroInfo :=
  { DefinitionLoc := 8, DefinitionEndLoc := 12, Params := none, IsVariadic := false,
    ReplacementTokens := [{ Loc := 12, Text := "1" }] }

/-- The location of the literal `1` inside the expansion of `ONE` at offset 38. -/
def LitLoc : SourceLocation := Example.MacroIDBit + 1

/-- The collaborators. -/
def env : Env :=
  Example.env text [{ Loc := LitLoc, AtStart := true, AtEnd := true, Expansion := ⟨38, 38⟩ }]

/-- The state after preprocessing and the collection of declared names. -/
def st : State :=
  VisitFunctionDecl
    (VisitVarDecl (MacroExpands (MacroDefined State.initial "ONE" false MI) "ONE" ⟨38, 38⟩) "x")
    "main"

/-- The global variable `x`. -/
def x : VarDecl :=
  { Name := "x", TypeAsString := "int", hasGlobalStorage := true, isStaticLocal := false }

/-- The literal `1` produced by the expansion. -/
def Lit : Expr := .IntegerLiteral ⟨LitLoc, LitLoc⟩ 1

/-- The expression `x = ONE`. -/
def Assignment : Expr :=
  .BinaryOperator ⟨34, LitLoc⟩ .BO_Assign (.DeclRefExpr ⟨34, 34⟩ (.Var x)) Lit

end ExampleONE

namespace ExampleNEXT

/-- The main file. -/
def text : String :=
  "#define NEXT next()\nint next(void);\nint x;\nint main() \x7b x = NEXT; \x7d\n"

/-- The definition `#define NEXT next()`, an object-like definition. -/
def MI : MacroInfo :=
  { DefinitionLoc := 8, DefinitionEndLoc := 18, Params := none, IsVariadic := false,
    ReplacementTokens :=
      [{ Loc := 13, Text := "next" }, { Loc := 17, Text := "(" }, { Loc := 18, Text := ")" }] }

/-- The locations of `next`, `(` and `)` inside the expansion of `NEXT` at offset 60. -/
def TokLoc (k : Nat) : SourceLocation := Example.MacroIDBit + k

/-- The collaborators. -/
def env : Env :=
  Example.env text
    [{ Loc := TokLoc 1, AtStart := true, AtEnd := false, Expansion := ⟨60, 60⟩ },
     { Loc := TokLoc 2, AtStart := false, AtEnd := false, Expansion := ⟨60, 60⟩ },
     { Loc := TokLoc 3, AtStart := false, AtEnd := true, Expansion := ⟨60, 60⟩ }]

/-- The state after preprocessing and the collection of declared names. -/
def st : State :=
  VisitFunctionDecl
    (VisitVarDecl
      (VisitFunctionDecl
        (MacroExpands (MacroDefined State.initial "NEXT" false MI) "NEXT" ⟨60, 60⟩) "next")
      "x")
    "main"

/-- The call `next()` produced by the expansion. -/
def Call : Expr :=
  .CallExpr ⟨TokLoc 1, TokLoc 3⟩
    (.ImplicitCastExpr ⟨TokLoc 1, TokLoc 1⟩ (.DeclRefExpr ⟨TokLoc 1, TokLoc 1⟩ (.NonVar "next")))
    .nil

end ExampleNEXT

namespace ExampleGET

/-- The main file. -/
def text : String := "#define GET n\nint main() \x7b int n = 0; return GET; \x7d\n"

/-- The definition `#define GET n`. -/
def MI : MacroInfo :=
  { DefinitionLoc := 8, DefinitionEndLoc := 12, Params := none, IsVariadic := false,
    ReplacementTokens := [{ Loc := 12, Text := "n" }] }

/-- The location of `n` inside the expansion of `GET` at offset 45. -/
def NLoc : SourceLocation := Example.MacroIDBit + 1

/-- The collaborators. -/
def env : Env :=
  Example.env text [{ Loc := NLoc, AtStart := true, AtEnd := true, Expansion := ⟨45, 45⟩ }]

/-- The state after preprocessing and the collection of declared names. -/
def st : State :=
  VisitVarDecl
    (VisitFunctionDecl
      (MacroExpands (MacroDefined State.initial "GET" false MI) "GET" ⟨45, 45⟩) "main")
    "n"

/-- The local variable `n` of `main`. -/
def n : VarDecl :=
  { Name := "n", TypeAsString := "int", hasGlobalStorage := false, isStaticLocal := false }

/-- The operand of `return`: the value of `n`, produced by the expansion. -/
def Operand : Expr :=
  .ImplicitCastExpr ⟨NLoc, NLoc⟩ (.DeclRefExpr ⟨NLoc, NLoc⟩ (.Var n))

end ExampleGET

namespace ExampleF

/-- The main file. -/
def text : String := "#define F(x) 1\nint y;\nint main() \x7b return F(y); \x7d\n"

/-- The definition `#define F(x) 1`: one parameter, and a body that is not the parameter. -/
def MI : MacroInfo :=
  { DefinitionLoc := 8, DefinitionEndLoc := 13, Params := some ["x"], IsVariadic := false,
    ReplacementTokens := [{ Loc := 13, Text := "1" }] }

/-- The location of the literal `1` inside the expansion of `F(y)` at offsets 42 to 45. -/
def LitLoc : SourceLocation := Example.MacroIDBit + 1

/-- The collaborators. -/
def env : Env :=
  Example.env text [{ Loc := LitLoc, AtStart := true, AtEnd := true, Expansion := ⟨42, 45⟩ }]

/-- The state after preprocessing and the collection of declared names. -/
def st : State :=
  VisitFunctionDecl
    (VisitVarDecl (MacroExpands (MacroDefined State.initial "F" false MI) "F" ⟨42, 45⟩) "y")
    "main"

/-- The literal `1` produced by the expansion. -/
def Lit : Expr := .IntegerLiteral ⟨LitLoc, LitLoc⟩ 1

end ExampleF

namespace ExampleSaturated

/-- An identifier universe in which `M_var` and every `M_var` followed by the numeral of a
number below `2 ^ 32` is the name of a variable. -/
def st : State :=
  { State.initial with
    AllVarNames := "M_var" :: (List.range (2 ^ 32)).map (fun k => "M_var" ++ toString k) }

end ExampleSaturated

namespace ExampleTaken

/-- The state of `ExampleONE` with the variables `ONE_var` and `ONE_var0` declared as
well. -/
def st : State := VisitVarDecl (VisitVarDecl ExampleONE.st "ONE_var") "ONE_var0"

end ExampleTaken

namespace ExampleTWICE

/-- The main file: two expansions of `ONE`. -/
def text : String := "#define ONE 1\nint x;\nint main() \x7b x = ONE; x = ONE; \x7d\n"

/-- The location of the literal `1` of the expansion at offset 38. -/
def LitLoc1 : SourceLocation := Example.MacroIDBit + 1

/-- The location of the literal `1` of the expansion at offset 47. -/
def LitLoc2 : SourceLocation := Example.MacroIDBit + 2

/-- The collaborators. -/
def env : Env :=
  Example.env text
    [{ Loc := LitLoc1, AtStart := true, AtEnd := true, Expansion := ⟨38, 38⟩ },
     { Loc := LitLoc2, AtStart := true, AtEnd := true, Expansion := ⟨47, 47⟩ }]

/-- The state after preprocessing and the collection of declared names. -/
def st : State :=
  VisitFunctionDecl
    (VisitVarDecl
      (MacroExpands
        (MacroExpands (MacroDefined State.initial "ONE" false ExampleONE.MI) "ONE" ⟨38, 38⟩)
        "ONE" ⟨47, 47⟩)
      "x")
    "main"

/-- The literal of the first expansion. -/
def Lit1 : Expr := .IntegerLiteral ⟨LitLoc1, LitLoc1⟩ 1

/-- The literal of the second expansion. -/
def Lit2 : Expr := .IntegerLiteral ⟨LitLoc2, LitLoc2⟩ 1

/-- The state after the transformation of the first expansion. -/
def st1 : State := resultState (transformEntireExpr 2 env st Lit1)

/-- The state after the transformation of the second expansion. -/
def st2 : State := resultState (transformEntireExpr 2 env st1 Lit2)

end ExampleTWICE

namespace ExampleID

/-- The main file. -/
def text : String := "#define ID(x) x\nint y;\nint main() \x7b return ID(y); \x7d\n"

/-- The definition `#define ID(x) x`. -/
def MI : MacroInfo :=
  { DefinitionLoc := 8, DefinitionEndLoc := 14, Params := some ["x"], IsVariadic := false,
    ReplacementTokens := [{ Loc := 14, Text := "x" }] }

/-- The location of the argument `y` inside the expansion of `ID(y)` at offsets 43 to 47. -/
def ArgLoc : SourceLocation := Example.MacroIDBit + 1

/-- The collaborators. -/
def env : Env :=
  Example.env text [{ Loc := ArgLoc, AtStart := true, AtEnd := true, Expansion := ⟨43, 47⟩ }]

/-- The state after preprocessing and the collection of declared names. -/
def st : State :=
  VisitFunctionDecl
    (VisitVarDecl (MacroExpands (MacroDefined State.initial "ID" false MI) "ID" ⟨43, 47⟩) "y")
    "main"

/-- The global variable `y`. -/
def y : VarDecl :=
  { Name := "y", TypeAsString := "int", hasGlobalStorage := true, isStaticLocal := false }

/-- The operand of `return`: the value of `y`, produced by the expansion. -/
def Operand : Expr :=
  .ImplicitCastExpr ⟨ArgLoc, ArgLoc⟩ (.DeclRefExpr ⟨ArgLoc, ArgLoc⟩ (.Var y))

end ExampleID

namespace ExamplePAR

/-- The main file. -/
def text : String := "#define ID(x) (x)\nint y;\nint main() \x7b return ID(y); \x7d\n"

/-- The definition `#define ID(x) (x)`. -/
def MI : MacroInfo :=
  { DefinitionLoc := 8, DefinitionEndLoc := 16, Params := some ["x"], IsVariadic := false,
    ReplacementTokens :=
      [{ Loc := 14, Text := "(" }, { Loc := 15, Text := "x" }, { Loc := 16, Text := ")" }] }

/-- The locations of `(`, `y` and `)` inside the expansion of `ID(y)` at offsets 45 to 49. -/
def TokLoc (k : Nat) : SourceLocation := Example.MacroIDBit + k

/-- The collaborators. -/
def env : Env :=
  Example.env text
    [{ Loc := TokLoc 1, AtStart := true, AtEnd := false, Expansion := ⟨45, 49⟩ },
     { Loc := TokLoc 2, AtStart := false, AtEnd := false, Expansion := ⟨45, 49⟩ },
     { Loc := TokLoc 3, AtStart := false, AtEnd := true, Expansion := ⟨45, 49⟩ }]

/-- The state after preprocessing and the collection of declared names. -/
def st : State :=
  VisitFunctionDecl
    (VisitVarDecl (MacroExpands (MacroDefined State.initial "ID" false MI) "ID" ⟨45, 49⟩) "y")
    "main"

/-- The operand of `return`: the value of `(y)`, produced by the expansion. -/
def Operand : Expr :=
  .ImplicitCastExpr ⟨TokLoc 1, TokLoc 3⟩
    (.ParenExpr ⟨TokLoc 1, TokLoc 3⟩ (.DeclRefExpr ⟨TokLoc 2, TokLoc 2⟩ (.Var ExampleID.y)))

end ExamplePAR

/-! ## The stream of preprocessor events -/

/-- An event of the preprocessor that reaches a callback of `CppToC.cc`: a definition
(`MacroDefinitionCollector::MacroDefined`) or an expansion
(`MacroExpansionCollector::MacroExpands`). -/
inductive PPEvent
  | Defined (MacroName : String) (hasPrevious : Bool) (MI : MacroInfo)
  | Expands (MacroName : String) (ExpansionRange : SourceRange)
  deriving DecidableEq, Repr

/-- The callback that the event reaches. -/
def PPEvent.deliver (st : State) : PPEvent → State
  | .Defined MacroName hasPrevious MI => MacroDefined st MacroName hasPrevious MI
  | .Expands MacroName ExpansionRange => MacroExpands st MacroName ExpansionRange

/-- The callbacks for a stream of events, in order. -/
def preprocess (st : State) (events : List PPEvent) : State :=
  events.foldl PPEvent.deliver st

/-- The checks of the first part of `transformEntireExpr` under which `MacroName` is taken
as the macro of `E`: `E` is a whole expansion, its start is in neither set of nested starts,
`MacroName` is the one name recorded there, and its range is a recorded range of
`MacroName`. -/
structure transformEntireExpr.NamesMacro (env : Env) (st : State) (E : Expr)
    (MacroName : String) : Prop where
  atStart : env.isAtStartOfMacroExpansion E.getBeginLoc = true
  atEnd : env.isAtEndOfMacroExpansion E.getEndLoc = true
  notContaining : (env.getExpansionRange E.getSourceRange).Begin ∉
    st.StartLocationsOfExpansionsContainingStartOfOtherExpansion
  notContained : (env.getExpansionRange E.getSourceRange).Begin ∉
    st.StartLocationsOFExpansionsContainedInOtherExpansion
  oneName : st.ExpansionStartLocationToMacroNames
    (env.getExpansionRange E.getSourceRange).Begin = some [MacroName]
  sameExpansion : env.getExpansionRange E.getSourceRange ∈
    (st.MacroNameToExpansionRanges MacroName).getD []
  named : MacroName ≠ ""

/-! ## MacroNameCollector

The callback of `implementation/src/MacroNameCollector.cc`. -/

/-- A `clang::MacroDirective` as the callback reads it. -/
structure MacroDirective where
  /-- `getPrevious() != nullptr` -/
  hasPrevious : Bool
  /-- `getMacroInfo()`, possibly null -/
  MacroInfo : Option MacroInfo
  deriving DecidableEq, Repr

/-- The members of a `MacroNameCollector`: the three containers it fills (references to
containers of its owner) and its flag.  The helpers `hashMacro` and `isInStdHeader` of
`ExpansionUtils.hh`, whose code is not at hand, are taken as they are given. -/
structure MacroNameCollector where
  MacroNames : List String
  MultiplyDefinedMacros : List String
  MacroDefinitionToTransformedDefinitionPrototypes : String → Option (List String)
  OnlyCollectNotDefinedInStdHeaders : Bool
  /-- `hashMacro(MI, SM, LO)` -/
  hashMacro : MacroInfo → String
  /-- `isInStdHeader(L, SM)` -/
  isInStdHeader : SourceLocation → Bool

/-- The null pointers that `MacroNameCollector::MacroDefined` dereferences. -/
inductive MacroNameCollector.NullPointer
  | MacroDirective
  | MacroInfo
  deriving DecidableEq, Repr

/-- The first block of `MacroNameCollector::MacroDefined`: the name is recorded when the
token has identifier information.  `MacroNameTok` is the name held by
`MacroNameTok.getIdentifierInfo()`, if any. -/
def MacroNameCollector.MacroDefined.recordName (C : MacroNameCollector)
    (MacroNameTok : Option String) (MD : Option MacroDirective) : MacroNameCollector :=
  match MacroNameTok with
  | some MacroName =>
    let C0 := { C with MacroNames := C.MacroNames.insert MacroName }
    match MD with
    | some D =>
      if D.hasPrevious then
        { C0 with MultiplyDefinedMacros := C0.MultiplyDefinedMacros.insert MacroName }
      else C0
    | none => C0
  | none => C

/-- `MacroNameCollector::MacroDefined`.  The line that prints the definition dereferences
`MD` and `MD->getMacroInfo()`. -/
def MacroNameCollector.MacroDefined (C : MacroNameCollector) (MacroNameTok : Option String)
    (MD : Option MacroDirective) : Except MacroNameCollector.NullPointer MacroNameCollector :=
  let C1 := MacroNameCollector.MacroDefined.recordName C MacroNameTok MD
  match MD with
  | none => .error .MacroDirective
  | some D =>
    match D.MacroInfo with
    | none => .error .MacroInfo
    | some MI =>
      if C1.OnlyCollectNotDefinedInStdHeaders then
        if !C1.isInStdHeader MI.DefinitionLoc then
          let key := C1.hashMacro MI
          .ok { C1 with
            MacroDefinitionToTransformedDefinitionPrototypes := fun K =>
              if K = key then some [] else C1.MacroDefinitionToTransformedDefinitionPrototypes K }
        else .ok C1
      else
        let key := C1.hashMacro MI
        .ok { C1 with
          MacroDefinitionToTransformedDefinitionPrototypes := fun K =>
            if K = key then some [] else C1.MacroDefinitionToTransformedDefinitionPrototypes K }

/-- The callback for a stream of definition events, in order, as long as it returns. -/
def MacroNameCollector.collect (C : MacroNameCollector) :
    List (Option String × Option MacroDirective) →
      Except MacroNameCollector.NullPointer MacroNameCollector
  | [] => .ok C
  | (MacroNameTok, MD) :: events =>
    match C.MacroDefined MacroNameTok MD with
    | .error e => .error e
    | .ok C1 => C1.collect events

namespace ExampleREDEF

/-- The main file: `N` is defined, undefined and defined again before its use. -/
def text : String :=
  "#define N 1\n#undef N\n#define N 2\nint x;\nint main() \x7b x = N; \x7d\n"

/-- The first definition, `#define N 1`. -/
def MI1 : MacroInfo :=
  { DefinitionLoc := 8, DefinitionEndLoc := 10, Params := none, IsVariadic := false,
    ReplacementTokens := [{ Loc := 10, Text := "1" }] }

/-- The second definition, `#define N 2`. -/
def MI2 : MacroInfo :=
  { DefinitionLoc := 29, DefinitionEndLoc := 31, Params := none, IsVariadic := false,
    ReplacementTokens := [{ Loc := 31, Text := "2" }] }

/-- The events of the preprocessor: the second definition has a previous directive. -/
def events : List PPEvent :=
  [.Defined "N" false MI1, .Defined "N" true MI2, .Expands "N" ⟨57, 57⟩]

/-- The location of the literal `2` inside the expansion of `N` at offset 57. -/
def LitLoc : SourceLocation := Example.MacroIDBit + 1

/-- The collaborators. -/
def env : Env :=
  Example.env text [{ Loc := LitLoc, AtStart := true, AtEnd := true, Expansion := ⟨57, 57⟩ }]

/-- The state after preprocessing and the collection of declared names. -/
def st : State :=
  VisitFunctionDecl (VisitVarDecl (preprocess State.initial events) "x") "main"

/-- The literal `2` produced by the expansion. -/
def Lit : Expr := .IntegerLiteral ⟨LitLoc, LitLoc⟩ 2

end ExampleREDEF

/-! ## Passes over a translation unit -/

/-- Step 3 of `TransformExpr`: the visit of the sub-expressions of `E`, from the state `st1`
that `transformEntireExpr` returned. -/
def TransformExpr.visit (fuel : Nat) (env : Env) (E : Expr) (st1 : State) : Except Abort State :=
  match E with
  | .ImplicitCastExpr _ E0 => TransformExpr fuel env E0 st1
  | .IntegerLiteral _ _ => .ok st1
  | .DeclRefExpr _ _ => .ok st1
  | .ParenExpr _ E0 => TransformExpr fuel env E0 st1
  | .UnaryOperator _ OC E0 =>
    if isPlusMinus OC then TransformExpr fuel env E0 st1 else .ok st1
  | .BinaryOperator _ OC E1 E2 =>
    if isAddSubMulDiv OC then
      match TransformExpr fuel env E1 st1 with
      | .error a => .error a
      | .ok st2 => TransformExpr fuel env E2 st2
    else if OC = .BO_Assign then
      match E1 with
      | .DeclRefExpr _ _ => TransformExpr fuel env E2 st1
      | _ => .ok st1
    else .ok st1
  | .CallExpr _ _ Args => TransformExprArgs fuel env Args st1
  | .OtherExpr _ _ => .ok st1

/-- What the preprocessor callbacks have collected is the same in both states: the macro
names, the multiply defined macros, the expansion ranges, the two sets of nested starts, the
names recorded at the starts, and the directives. -/
structure State.SameCollected (st st' : State) : Prop where
  macroNames : st'.AllMacroNames = st.AllMacroNames
  multiplyDefined : st'.MultiplyDefinedMacros = st.MultiplyDefinedMacros
  expansionRanges : st'.ExpansionRanges = st.ExpansionRanges
  containing : st'.StartLocationsOfExpansionsContainingStartOfOtherExpansion =
    st.StartLocationsOfExpansionsContainingStartOfOtherExpansion
  contained : st'.StartLocationsOFExpansionsContainedInOtherExpansion =
    st.StartLocationsOFExpansionsContainedInOtherExpansion
  names : st'.ExpansionStartLocationToMacroNames = st.ExpansionStartLocationToMacroNames
  directives : st'.MacroNameToDirective = st.MacroNameToDirective

/-- One step of a pass over a translation unit: a callback of the preprocessor, the
collection of a declared name, or a call of one of the transformation functions that
returns. -/
inductive PassStep (fuel : Nat) (env : Env) : State → State → Prop
  | event (st : State) (e : PPEvent) : PassStep fuel env st (PPEvent.deliver st e)
  | functionDecl (st : State) (functionName : String) :
      PassStep fuel env st (VisitFunctionDecl st functionName)
  | varDecl (st : State) (VarName : String) : PassStep fuel env st (VisitVarDecl st VarName)
  | entireExpr (st st' : State) (E : Expr) (r : TransformationResult) :
      transformEntireExpr fuel env st E = .ok (r, st') → PassStep fuel env st st'
  | expr (st st' : State) (E : Expr) :
      TransformExpr fuel env E st = .ok st' → PassStep fuel env st st'
  | stmt (st st' : State) (S : Stmt) :
      TransformStmt fuel env S st = .ok st' → PassStep fuel env st st'

/-- A pass: any number of steps, one after the other. -/
def Pass (fuel : Nat) (env : Env) : State → State → Prop :=
  Relation.ReflTransGen (PassStep fuel env)

/-- The start of the expansion of `E` is in one of the two sets of nested starts. -/
def State.flags (st : State) (L : SourceLocation) : Prop :=
  L ∈ st.StartLocationsOfExpansionsContainingStartOfOtherExpansion ∨
    L ∈ st.StartLocationsOFExpansionsContainedInOtherExpansion

namespace ExampleNEST

/-- The main file: the argument of `ID` is an expansion of `ONE`. -/
def text : String :=
  "#define ONE 1\n#define ID(x) x\nint main() \x7b return ID(ONE); \x7d\n"

/-- The definition `#define ID(x) x`. -/
def MI : MacroInfo :=
  { DefinitionLoc := 22, DefinitionEndLoc := 28, Params := some ["x"], IsVariadic := false,
    ReplacementTokens := [{ Loc := 28, Text := "x" }] }

/-- The events of the preprocessor: `ID(ONE)` at offsets 50 to 56 expands first, then its
argument `ONE` at offset 53. -/
def events : List PPEvent :=
  [.Defined "ONE" false ExampleONE.MI, .Defined "ID" false MI, .Expands "ID" ⟨50, 56⟩,
   .Expands "ONE" ⟨53, 53⟩]

/-- The location of the literal `1` that the two expansions produce. -/
def LitLoc : SourceLocation := Example.MacroIDBit + 1

/-- The collaborators: the expansion range of the literal is the range of `ID(ONE)`. -/
def env : Env :=
  Example.env text [{ Loc := LitLoc, AtStart := true, AtEnd := true, Expansion := ⟨50, 56⟩ }]

/-- The state after preprocessing and the collection of declared names. -/
def st : State := VisitFunctionDecl (preprocess State.initial events) "main"

/-- The literal `1`, the operand of `return`. -/
def Lit : Expr := .IntegerLiteral ⟨LitLoc, LitLoc⟩ 1

end ExampleNEST

/-! ## Nesting of expansion ranges -/

/-- The calls of `MacroExpands` for a sequence of expansions, each a macro name and an
expansion range, in order. -/
def MacroExpands.all (st : State) (xs : List (String × SourceRange)) : State :=
  xs.foldl (fun s x => MacroExpands s x.1 x.2) st

/-- The range `o` is a strict superset of the range `x`. -/
def SourceRange.StrictlyEncloses (o x : SourceRange) : Prop :=
  o.Begin ≤ x.Begin ∧ x.End ≤ o.End ∧ o ≠ x

/-- The ranges `a` and `b` are disjoint. -/
def SourceRange.Apart (a b : SourceRange) : Prop :=
  a.End < b.Begin ∨ b.End < a.Begin

/-- The range `b` lies in the range `a` and starts after the start of `a`. -/
def SourceRange.StartsInside (b a : SourceRange) : Prop :=
  a.Begin < b.Begin ∧ b.End ≤ a.End

instance SourceRange.StrictlyEncloses.decidable (o x : SourceRange) :
    Decidable (o.StrictlyEncloses x) := by
  unfold SourceRange.StrictlyEncloses
  infer_instance

instance SourceRange.Apart.decidable (a b : SourceRange) : Decidable (a.Apart b) := by
  unfold SourceRange.Apart
  infer_instance

instance SourceRange.StartsInside.decidable (b a : SourceRange) :
    Decidable (b.StartsInside a) := by
  unfold SourceRange.StartsInside
  infer_instance

namespace ExampleAB

/-- The main file: the body of `A` is an expansion of `B`. -/
def text : String := "#define B 1\n#define A B\nint main() \x7b return A; \x7d\n"

/-- The definition `#define B 1`. -/
def MIB : MacroInfo :=
  { DefinitionLoc := 8, DefinitionEndLoc := 10, Params := none, IsVariadic := false,
    ReplacementTokens := [{ Loc := 10, Text := "1" }] }

/-- The definition `#define A B`. -/
def MIA : MacroInfo :=
  { DefinitionLoc := 20, DefinitionEndLoc := 22, Params := none, IsVariadic := false,
    ReplacementTokens := [{ Loc := 22, Text := "B" }] }

/-- The events of the preprocessor: both expansions have the expansion range of `A` at
offset 44. -/
def events : List PPEvent :=
  [.Defined "B" false MIB, .Defined "A" false MIA, .Expands "A" ⟨44, 44⟩,
   .Expands "B" ⟨44, 44⟩]

/-- The location of the literal `1` that the two expansions produce. -/
def LitLoc : SourceLocation := Example.MacroIDBit + 1

/-- The collaborators. -/
def env : Env :=
  Example.env text [{ Loc := LitLoc, AtStart := true, AtEnd := true, Expansion := ⟨44, 44⟩ }]

/-- The state after preprocessing and the collection of declared names. -/
def st : State := VisitFunctionDecl (preprocess State.initial events) "main"

/-- The literal `1`, the operand of `return`. -/
def Lit : Expr := .IntegerLiteral ⟨LitLoc, LitLoc⟩ 1

end ExampleAB

/-! ## The visit of the sub-expressions -/

/-- The sub-expressions that step 3 of `TransformExpr` calls `TransformExpr` on, in order:
the operand of a cast, of a parenthesised expression and of a unary `+` or `-`, both operands
of a binary `+`, `-`, `*` or `/`, the right-hand side of an assignment whose left-hand side is
a declaration reference, and the arguments of a call. -/
def TransformExpr.visitedSubExprs : Expr → ExprList
  | .ImplicitCastExpr _ E0 => .cons E0 .nil
  | .IntegerLiteral _ _ => .nil
  | .DeclRefExpr _ _ => .nil
  | .ParenExpr _ E0 => .cons E0 .nil
  | .UnaryOperator _ OC E0 => if isPlusMinus OC then .cons E0 .nil else .nil
  | .BinaryOperator _ OC E1 E2 =>
    if isAddSubMulDiv OC then .cons E1 (.cons E2 .nil)
    else if OC = .BO_Assign then
      match E1 with
      | .DeclRefExpr _ _ => .cons E2 .nil
      | _ => .nil
    else .nil
  | .CallExpr _ _ Args => Args
  | .OtherExpr _ _ => .nil

/-- The entry of `EToCSub` for `E0` in the state that a call of `TransformExpr` returned.
Step 1 of `TransformExpr` leaves an entry for the expression it is called on. -/
def classificationAfter (r : Except Abort State) (E0 : Expr) : Option CSubsetExpr :=
  match r with
  | .ok st => st.EToCSub E0
  | .error _ => none

namespace ExampleNEG

/-- The main file. -/
def text : String := "#define NEG(x) -x\nint y;\nint main() \x7b return NEG(y); \x7d\n"

/-- The definition `#define NEG(x) -x`: one parameter, and a body of two tokens. -/
def MI : MacroInfo :=
  { DefinitionLoc := 8, DefinitionEndLoc := 16, Params := some ["x"], IsVariadic := false,
    ReplacementTokens := [{ Loc := 15, Text := "-" }, { Loc := 16, Text := "x" }] }

/-- The locations of `-` and `y` inside the expansion of `NEG(y)` at offsets 45 to 50. -/
def TokLoc (k : Nat) : SourceLocation := Example.MacroIDBit + k

/-- The collaborators. -/
def env : Env :=
  Example.env text
    [{ Loc := TokLoc 1, AtStart := true, AtEnd := false, Expansion := ⟨45, 50⟩ },
     { Loc := TokLoc 2, AtStart := false, AtEnd := true, Expansion := ⟨45, 50⟩ }]

/-- The state after preprocessing and the collection of declared names. -/
def st : State :=
  VisitFunctionDecl
    (VisitVarDecl
      (preprocess State.initial [.Defined "NEG" false MI, .Expands "NEG" ⟨45, 50⟩]) "y")
    "main"

/-- The value of `y`, the operand of the unary minus. -/
def Operand : Expr :=
  .ImplicitCastExpr ⟨TokLoc 2, TokLoc 2⟩ (.DeclRefExpr ⟨TokLoc 2, TokLoc 2⟩ (.Var ExampleID.y))

/-- The expression `-y` produced by the expansion, the operand of `return`. -/
def Negation : Expr := .UnaryOperator ⟨TokLoc 1, TokLoc 2⟩ .UO_Minus Operand

end ExampleNEG

namespace ExampleVA

/-- The main file: a variadic macro whose body is its variadic parameter. -/
def text : String :=
  "#define V(...) __VA_ARGS__\nint y;\nint main() \x7b return V(y); \x7d\n"

/-- The definition `#define V(...) __VA_ARGS__`: variadic, with the one parameter
`__VA_ARGS__`. -/
def MI : MacroInfo :=
  { DefinitionLoc := 8, DefinitionEndLoc := 15, Params := some ["__VA_ARGS__"],
    IsVariadic := true, ReplacementTokens := [{ Loc := 15, Text := "__VA_ARGS__" }] }

/-- The location of the argument `y` inside the expansion of `V(y)` at offsets 54 to 57. -/
def ArgLoc : SourceLocation := Example.MacroIDBit + 1

/-- The collaborators. -/
def env : Env :=
  Example.env text [{ Loc := ArgLoc, AtStart := true, AtEnd := true, Expansion := ⟨54, 57⟩ }]

/-- The state after preprocessing and the collection of declared names. -/
def st : State :=
  VisitFunctionDecl
    (VisitVarDecl
      (preprocess State.initial [.Defined "V" false MI, .Expands "V" ⟨54, 57⟩]) "y")
    "main"

/-- The operand of `return`: the value of `y`, produced by the expansion. -/
def Operand : Expr :=
  .ImplicitCastExpr ⟨ArgLoc, ArgLoc⟩ (.DeclRefExpr ⟨ArgLoc, ArgLoc⟩ (.Var ExampleID.y))

end ExampleVA

/-! ## The edits of a transformation -/

/-- The two requests that a transformation of the expansion `E` of the macro with definition
`MI` under the name `DefName` makes to the rewriter, `Arg` being the argument text cut out of
the invocation: the definition, inserted after the macro definition, and the replacement of
the expansion range (no requests for a definition with more than one parameter). -/
def transformEntireExpr.edits (env : Env) (E : Expr) (MI : MacroInfo) (DefName Arg : String) :
    List RewriterCall :=
  match MI.Params with
  | none =>
    [⟨.InsertTextAfter (env.getLocForEndOfToken MI.DefinitionEndLoc)
        ("\nconst int " ++ DefName ++ " = " ++ transformEntireExpr.defBody env MI ++ ";"),
        false⟩,
     ⟨.ReplaceText (env.getExpansionRange E.getSourceRange) DefName, false⟩]
  | some [] =>
    [⟨.InsertTextAfter (env.getLocForEndOfToken MI.DefinitionEndLoc)
        ("\nint " ++ DefName ++ "() \x7b\n    return " ++ transformEntireExpr.defBody env MI ++
          ";\n\x7d"), false⟩,
     ⟨.ReplaceText (env.getExpansionRange E.getSourceRange) (DefName ++ "()"), false⟩]
  | some [ParamName] =>
    [⟨.InsertTextAfter (env.getLocForEndOfToken MI.DefinitionEndLoc)
        ("\nint " ++ DefName ++ "(int " ++ ParamName ++ ") " ++ "\x7b\n    return " ++
          transformEntireExpr.defBody env MI ++ ";\n\x7d"), false⟩,
     ⟨.ReplaceText (env.getExpansionRange E.getSourceRange) (DefName ++ "(" ++ Arg ++ ")"),
        false⟩]
  | some (_ :: _ :: _) => []

namespace ExampleSPACED

/-- The main file: a blank stands between the macro name and the opening parenthesis of the
invocation. -/
def text : String := "#define ID(x) x\nint y;\nint main() \x7b return ID (y); \x7d\n"

/-- The location of the argument `y` inside the expansion of `ID (y)` at offsets 43 to 48. -/
def ArgLoc : SourceLocation := Example.MacroIDBit + 1

/-- The collaborators. -/
def env : Env :=
  Example.env text [{ Loc := ArgLoc, AtStart := true, AtEnd := true, Expansion := ⟨43, 48⟩ }]

/-- The state after preprocessing and the collection of declared names. -/
def st : State :=
  VisitFunctionDecl
    (VisitVarDecl
      (preprocess State.initial [.Defined "ID" false ExampleID.MI, .Expands "ID" ⟨43, 48⟩]) "y")
    "main"

/-- The operand of `return`: the value of `y`, produced by the expansion. -/
def Operand : Expr :=
  .ImplicitCastExpr ⟨ArgLoc, ArgLoc⟩ (.DeclRefExpr ⟨ArgLoc, ArgLoc⟩ (.Var ExampleID.y))

end ExampleSPACED

/-! ## TransformedDefinition

The class of `implementation/src/Transformer/TransformedDefinition.cc`. -/

/-- What `TransformedDefinition` reads of a `clang::Type`. -/
structure ClangType where
  isBuiltinType : Bool
  isArrayType : Bool
  isFunctionPointerType : Bool
  isFunctionType : Bool
  deriving DecidableEq, Repr

/-- A `clang::QualType`: its spelling, and its type pointer (null for the null type). -/
structure QualType where
  getAsString : String
  getTypePtr : Option ClangType
  deriving DecidableEq, Repr

/-- Modelled from the spec: an argument of a macro expansion node (the header
`CppSig/MacroExpansionNode.hh` is not among the sources), "described by a name, its own
(possibly multiple) resulting expression nodes"; the fields are the accessors that
`TransformedDefinition` calls. -/
structure MacroArgument where
  getName : String
  getStmts : List Stmt

/-- Modelled from the spec: a `CppSig::MacroExpansionNode` (its header is not among the
sources), "one concrete invocation of a macro": the "macro name", the "body text" of the
defining macro, "the set of syntax-tree expression nodes the preprocessor substitution
ultimately produced" and "an ordered list of arguments"; the fields are the accessors that
`TransformedDefinition` calls. -/
structure MacroExpansionNode where
  getName : String
  getDefinitionText : String
  getStmts : List Stmt
  getArguments : List MacroArgument

/-- The `clang::ASTContext` with the two helpers of `Utils/ExpansionUtils.hh` that are called
on it; the code of the helpers is not among the sources, so they are taken as they are
given. -/
structure ASTContext where
  /-- `Utils::getDesugaredCanonicalType(Ctx, ST)` -/
  getDesugaredCanonicalType : Stmt → QualType
  /-- `Utils::expansionHasUnambiguousSignature(Ctx, Expansion)` -/
  expansionHasUnambiguousSignature : MacroExpansionNode → Bool

/-- The fields of a `TransformedDefinition`.  `Expansion` is the node that the pointer
designates. -/
structure TransformedDefinition where
  Expansion : MacroExpansionNode
  OriginalMacroName : String
  IsVar : Bool
  VarOrReturnType : QualType
  ArgTypes : List QualType
  InitializerOrDefinition : String
  EmittedName : String

/-- The ways a member function of `TransformedDefinition` fails to return. -/
inductive TransformedDefinition.Failure
  /-- An `assert` fails -/
  | AssertionFailed
  /-- `*(getStmts().begin())` on an empty collection -/
  | NoStmt
  deriving DecidableEq, Repr

/-- The loop of the constructor over the arguments of the expansion. -/
def TransformedDefinition.new.argTypes (Ctx : ASTContext) :
    List MacroArgument → List QualType → Except TransformedDefinition.Failure (List QualType)
  | [], ArgTypes => .ok ArgTypes
  | Arg :: Rest, ArgTypes =>
    match Arg.getStmts.head? with
    | none => .error .NoStmt
    | some ST =>
      let ArgType := Ctx.getDesugaredCanonicalType ST
      TransformedDefinition.new.argTypes Ctx Rest (ArgTypes ++ [ArgType])

/-- The constructor `TransformedDefinition::TransformedDefinition`.  `EmittedName` is left
as the empty string that its default construction gives. -/
def TransformedDefinition.new (Ctx : ASTContext) (Expansion : MacroExpansionNode)
    (IsVar : Bool) : Except TransformedDefinition.Failure TransformedDefinition :=
  match Expansion.getStmts with
  | [ST] =>
    let VarOrReturnType := Ctx.getDesugaredCanonicalType ST
    match TransformedDefinition.new.argTypes Ctx Expansion.getArguments [] with
    | .error e => .error e
    | .ok ArgTypes =>
      let TransformedBody := Expansion.getDefinitionText
      let InitializerOrDefinition :=
        if IsVar then " = " ++ TransformedBody ++ ";"
        else " \x7b return " ++ TransformedBody ++ "; \x7d"
      .ok { Expansion := Expansion, OriginalMacroName := Expansion.getName, IsVar := IsVar,
            VarOrReturnType := VarOrReturnType, ArgTypes := ArgTypes,
            InitializerOrDefinition := InitializerOrDefinition, EmittedName := "" }
  | _ => .error .AssertionFailed

/-- The loop of `getExpansionSignatureOrDeclaration` over the arguments of the expansion,
with the `unsigned` counter `i`. -/
def TransformedDefinition.getExpansionSignatureOrDeclaration.params (Ctx : ASTContext) :
    List MacroArgument → Nat → String → Except TransformedDefinition.Failure String
  | [], _, Signature => .ok Signature
  | Arg :: Rest, i, Signature =>
    let Signature1 := if i ≥ 1 then Signature ++ ", " else Signature
    match Arg.getStmts.head? with
    | none => .error .NoStmt
    | some ST =>
      let ArgType := Ctx.getDesugaredCanonicalType ST
      let TString := ArgType.getAsString
      TransformedDefinition.getExpansionSignatureOrDeclaration.params Ctx Rest
        ((i + 1) % 2 ^ 32) (Signature1 ++ (TString ++ " " ++ Arg.getName))

/-- Gets the signature for this transformed expansion if it is a function; otherwise gets the
declaration (`TransformedDefinition::getExpansionSignatureOrDeclaration`). -/
def TransformedDefinition.getExpansionSignatureOrDeclaration (TD : TransformedDefinition)
    (Ctx : ASTContext) (CanBeAnonymous : Bool) :
    Except TransformedDefinition.Failure String :=
  if !Ctx.expansionHasUnambiguousSignature TD.Expansion then .error .AssertionFailed
  else if !(CanBeAnonymous || TD.EmittedName != "") then .error .AssertionFailed
  else
    let Signature := TD.VarOrReturnType.getAsString
    let Signature1 :=
      if TD.EmittedName != "" then Signature ++ (" " ++ TD.EmittedName) else Signature
    if !TD.IsVar then
      match TransformedDefinition.getExpansionSignatureOrDeclaration.params Ctx
          TD.Expansion.getArguments 0 (Signature1 ++ "(") with
      | .error e => .error e
      | .ok Signature2 => .ok (Signature2 ++ ")")
    else .ok Signature1

/-- `TransformedDefinition::hasNonBuiltinTypes`. -/
def TransformedDefinition.hasNonBuiltinTypes (TD : TransformedDefinition) : Bool :=
  (match TD.VarOrReturnType.getTypePtr with
    | some T => !T.isBuiltinType
    | none => false) ||
  TD.ArgTypes.any fun it =>
    match it.getTypePtr with
    | some T => !T.isBuiltinType
    | none => false

/-- `TransformedDefinition::hasArrayTypes`. -/
def TransformedDefinition.hasArrayTypes (TD : TransformedDefinition) : Bool :=
  (match TD.VarOrReturnType.getTypePtr with
    | some T => T.isArrayType
    | none => false) ||
  TD.ArgTypes.any fun it =>
    match it.getTypePtr with
    | some T => T.isArrayType
    | none => false

/-- `TransformedDefinition::hasFunctionTypes`. -/
def TransformedDefinition.hasFunctionTypes (TD : TransformedDefinition) : Bool :=
  (match TD.VarOrReturnType.getTypePtr with
    | some T => T.isFunctionPointerType || T.isFunctionType
    | none => false) ||
  TD.ArgTypes.any fun it =>
    match it.getTypePtr with
    | some T => T.isFunctionPointerType || T.isFunctionType
    | none => false

/-- The signature text as the specification words it: the type and the name for a variable;
for a function, the return type, the name and, in parentheses, the parameters, each a type
and a name, joined by a comma and a blank.  An empty name is left out together with its
leading blank. -/
def TransformedDefinition.signatureText (ReturnOrVarType Name : String) (IsVar : Bool)
    (Params : List (String × String)) : String :=
  ReturnOrVarType ++ (if Name = "" then "" else " " ++ Name) ++
    (if IsVar then ""
      else "(" ++ ", ".intercalate (Params.map fun p => p.1 ++ " " ++ p.2) ++ ")")

/-- The type `int`, a builtin type. -/
def Example.intType : QualType :=
  { getAsString := "int",
    getTypePtr := some { isBuiltinType := true, isArrayType := false,
                         isFunctionPointerType := false, isFunctionType := false } }

/-- The canonical types in the examples: a reference to a variable has the type of the
variable, every other expression has type `int`. -/
def Example.typeOf : Stmt → QualType
  | .ExprStmt (.DeclRefExpr _ (.Var VD)) =>
    { getAsString := VD.TypeAsString, getTypePtr := Example.intType.getTypePtr }
  | _ => Example.intType

/-- The helpers in the examples: the canonical types above; a signature is unambiguous when
every argument has statements and these all have one type. -/
def Example.Ctx : ASTContext :=
  { getDesugaredCanonicalType := Example.typeOf,
    expansionHasUnambiguousSignature := fun Expansion =>
      Expansion.getArguments.all fun Arg =>
        match Arg.getStmts with
        | [] => false
        | ST :: Rest =>
          Rest.all fun ST2 =>
            (Example.typeOf ST2).getAsString == (Example.typeOf ST).getAsString }

namespace ExampleSUM

/-- The global variable `x`. -/
def x : VarDecl :=
  { Name := "x", TypeAsString := "int", hasGlobalStorage := true, isStaticLocal := false }

/-- The expansion `SUM(x, y)` of `#define SUM(a, b) a + b`, `x` and `y` global variables of
type `int`, at offsets 60 to 68. -/
def Expansion : MacroExpansionNode :=
  { getName := "SUM",
    getDefinitionText := "a + b",
    getStmts :=
      [.ExprStmt (.BinaryOperator ⟨60, 68⟩ .BO_Add
        (.ImplicitCastExpr ⟨64, 64⟩ (.DeclRefExpr ⟨64, 64⟩ (.Var x)))
        (.ImplicitCastExpr ⟨67, 67⟩ (.DeclRefExpr ⟨67, 67⟩ (.Var ExampleID.y))))],
    getArguments :=
      [{ getName := "a", getStmts := [.ExprStmt (.DeclRefExpr ⟨64, 64⟩ (.Var x))] },
       { getName := "b", getStmts := [.ExprStmt (.DeclRefExpr ⟨67, 67⟩ (.Var ExampleID.y))] }] }

/-- The definition that the constructor builds for the expansion as a function. -/
def TD : TransformedDefinition :=
  { Expansion := Expansion, OriginalMacroName := "SUM", IsVar := false,
    VarOrReturnType := Example.intType, ArgTypes := [Example.intType, Example.intType],
    InitializerOrDefinition := " \x7b return a + b; \x7d", EmittedName := "" }

end ExampleSUM

namespace ExampleADD

/-- The global variable `c`, of type `char`. -/
def c : VarDecl :=
  { Name := "c", TypeAsString := "char", hasGlobalStorage := true, isStaticLocal := false }

/-- The expansion `ADD(c)` of `#define ADD(a) (a + a)` at offsets 60 to 65: the argument `a`
has a node of type `char`, the reference to `c`, and a node of type `int`, its promotion. -/
def Expansion : MacroExpansionNode :=
  { getName := "ADD",
    getDefinitionText := "(a + a)",
    getStmts :=
      [.ExprStmt (.ParenExpr ⟨60, 65⟩ (.BinaryOperator ⟨60, 65⟩ .BO_Add
        (.ImplicitCastExpr ⟨64, 64⟩ (.ImplicitCastExpr ⟨64, 64⟩ (.DeclRefExpr ⟨64, 64⟩ (.Var c))))
        (.ImplicitCastExpr ⟨64, 64⟩
          (.ImplicitCastExpr ⟨64, 64⟩ (.DeclRefExpr ⟨64, 64⟩ (.Var c))))))],
    getArguments :=
      [{ getName := "a",
         getStmts :=
           [.ExprStmt (.DeclRefExpr ⟨64, 64⟩ (.Var c)),
            .ExprStmt (.ImplicitCastExpr ⟨64, 64⟩
              (.ImplicitCastExpr ⟨64, 64⟩ (.DeclRefExpr ⟨64, 64⟩ (.Var c))))] }] }

/-- The definition that the constructor builds for the expansion as a function. -/
def TD : TransformedDefinition :=
  { Expansion := Expansion, OriginalMacroName := "ADD", IsVar := false,
    VarOrReturnType := Example.intType,
    ArgTypes := [{ getAsString := "char", getTypePtr := Example.intType.getTypePtr }],
    InitializerOrDefinition := " \x7b return (a + a); \x7d", EmittedName := "" }

end ExampleADD

/-- The one statement of the expansion `SUM(x, y)`: the expression `x + y`. -/
def ExampleSUM.Sum : Stmt :=
  .ExprStmt (.BinaryOperator ⟨60, 68⟩ .BO_Add
    (.ImplicitCastExpr ⟨64, 64⟩ (.DeclRefExpr ⟨64, 64⟩ (.Var ExampleSUM.x)))
    (.ImplicitCastExpr ⟨67, 67⟩ (.DeclRefExpr ⟨67, 67⟩ (.Var ExampleID.y))))

namespace ExampleBIG

/-- The main file: the body of `BIG` is a literal of type `long`. -/
def text : String := "#define BIG 1L\nlong x;\nint main() \x7b x = BIG; \x7d\n"

/-- The definition `#define BIG 1L`. -/
def MI : MacroInfo :=
  { DefinitionLoc := 8, DefinitionEndLoc := 12, Params := none, IsVariadic := false,
    ReplacementTokens := [{ Loc := 12, Text := "1L" }] }

/-- The location of the literal `1L` inside the expansion of `BIG` at offset 40. -/
def LitLoc : SourceLocation := Example.MacroIDBit + 1

/-- The collaborators. -/
def env : Env :=
  Example.env text [{ Loc := LitLoc, AtStart := true, AtEnd := true, Expansion := ⟨40, 40⟩ }]

/-- The state after preprocessing and the collection of declared names. -/
def st : State :=
  VisitFunctionDecl
    (VisitVarDecl
      (preprocess State.initial [.Defined "BIG" false MI, .Expands "BIG" ⟨40, 40⟩]) "x")
    "main"

/-- The literal `1L` produced by the expansion. -/
def Lit : Expr := .IntegerLiteral ⟨LitLoc, LitLoc⟩ 1

/-- The global variable `x`, of type `long`. -/
def x : VarDecl :=
  { Name := "x", TypeAsString := "long", hasGlobalStorage := true, isStaticLocal := false }

/-- The type `long`, a builtin type. -/
def longType : QualType :=
  { getAsString := "long", getTypePtr := Example.intType.getTypePtr }

/-- The canonical types of this translation unit: the literal `1L` has type `long`. -/
def Ctx : ASTContext :=
  { getDesugaredCanonicalType := fun ST =>
      match ST with
      | .ExprStmt (.IntegerLiteral _ _) => longType
      | _ => Example.intType,
    expansionHasUnambiguousSignature := fun _ => true }

end ExampleBIG

/-! ## The type tests of a transformed definition -/

/-- A type that is not a builtin type: its type pointer is not null and `isBuiltinType()` is
false of it. -/
def QualType.isNonBuiltin (q : QualType) : Prop :=
  ∃ T, q.getTypePtr = some T ∧ T.isBuiltinType = false

/-- An array type: its type pointer is not null and `isArrayType()` is true of it. -/
def QualType.isArray (q : QualType) : Prop :=
  ∃ T, q.getTypePtr = some T ∧ T.isArrayType = true

/-- A function type or a function-pointer type: its type pointer is not null and
`isFunctionPointerType()` or `isFunctionType()` is true of it. -/
def QualType.isFunctionOrFunctionPointer (q : QualType) : Prop :=
  ∃ T, q.getTypePtr = some T ∧ (T.isFunctionPointerType = true ∨ T.isFunctionType = true)

/-- The type `int [4]`, an array type. -/
def Example.arrayType : QualType :=
  { getAsString := "int [4]",
    getTypePtr := some { isBuiltinType := false, isArrayType := true,
                         isFunctionPointerType := false, isFunctionType := false } }

/-! ## Cpp2CAction

The argument parser of `implementation/src/Cpp2C/Cpp2CAction.cc`.  The text written to
`llvm::errs()` by the parser is part of its result. -/

/-- Modelled from the spec: the commands of the tool (their enumeration is declared in
`Cpp2C/Cpp2CAction.hh`, which is not among the sources): "a `transform` mode" and "a separate
`remove_annotations` mode"; the values are those that `Cpp2CAction.cc` names. -/
inductive Cpp2CCommand
  | HELP
  | TRANSFORM
  | REMOVE_ANNOTATIONS
  deriving DecidableEq, Repr

/-- Modelled from the spec: the settings of the transformer (`Transformer/TransformerSettings.hh`
is not among the sources): "flags to overwrite files in place, emit verbose diagnostics, and
opt into transforming macros defined inside standard/system headers"; the fields are those
that `ParseArgs` assigns. -/
structure TransformerSettings where
  OverwriteFiles : Bool
  Verbose : Bool
  OnlyCollectNotDefinedInStdHeaders : Bool
  deriving DecidableEq, Repr

/-- Modelled from the spec: the members of a `Cpp2CAction` that `ParseArgs` writes (the class
is declared in `Cpp2C/Cpp2CAction.hh`, which is not among the sources): the command and the
settings of the "`transform` mode". -/
structure Cpp2CAction where
  Command : Cpp2CCommand
  TSettings : TransformerSettings
  deriving DecidableEq, Repr

/-- The usage text `USAGE_STRING`. -/
def USAGE_STRING : String :=
  "USAGE: cpp2c <(transform|tr [(--overwrite-files|-ow)|(--verbose|-v)|(--standard-header-macros|-shm)*])|(remove_annotations|ra)> FILE_NAME"

/-- How a call of `ParseArgs` ends: it returns a value, or the process is terminated by
`exit(status)`. -/
inductive Cpp2CAction.Ending
  | Returned (result : Bool)
  | Exited (status : Nat)
  deriving DecidableEq, Repr

/-- A call of `ParseArgs`: the members when it ends, the text written to `llvm::errs()` and
how it ends. -/
structure Cpp2CAction.Run where
  action : Cpp2CAction
  errs : String
  ending : Cpp2CAction.Ending
  deriving DecidableEq, Repr

/-- The loop of `ParseArgs` over the optional arguments of the command `transform`, followed
by `return true`. -/
def Cpp2CAction.ParseArgs.transformArgs (A : Cpp2CAction) : List String → Cpp2CAction.Run
  | [] => { action := A, errs := "", ending := .Returned true }
  | arg :: rest =>
    if arg = "-ow" || arg = "--overwrite-files" then
      Cpp2CAction.ParseArgs.transformArgs
        { A with TSettings := { A.TSettings with OverwriteFiles := true } } rest
    else if arg = "-v" || arg = "--verbose" then
      Cpp2CAction.ParseArgs.transformArgs
        { A with TSettings := { A.TSettings with Verbose := true } } rest
    else if arg = "-shm" || arg = "--standard-header-macros" then
      Cpp2CAction.ParseArgs.transformArgs
        { A with TSettings := { A.TSettings with OnlyCollectNotDefinedInStdHeaders := false } }
        rest
    else
      { action := A, errs := "Unknown transformer argument: " ++ arg ++ "\n",
        ending := .Exited 1 }

/-- The loop of `ParseArgs` over the optional arguments of the command `remove_annotations`,
followed by `return true`. -/
def Cpp2CAction.ParseArgs.removeAnnotationsArgs (A : Cpp2CAction) :
    List String → Cpp2CAction.Run
  | [] => { action := A, errs := "", ending := .Returned true }
  | arg :: rest =>
    if arg = "-ow" || arg = "--overwrite-files" then
      Cpp2CAction.ParseArgs.removeAnnotationsArgs
        { A with TSettings := { A.TSettings with OverwriteFiles := true } } rest
    else
      { action := A, errs := "Unknown annotation remover argument: " ++ arg ++ "\n",
        ending := .Exited 1 }

/-- `Cpp2CAction::ParseArgs`; the compiler instance, which the function does not use, is left
out. -/
def Cpp2CAction.ParseArgs (A : Cpp2CAction) (args : List String) : Cpp2CAction.Run :=
  match args with
  | [] => { action := A, errs := USAGE_STRING ++ "\n", ending := .Returned false }
  | command :: optionalArgs =>
    if command = "tr" || command = "transform" then
      Cpp2CAction.ParseArgs.transformArgs { A with Command := .TRANSFORM } optionalArgs
    else if command = "ra" || command = "remove_annotations" then
      Cpp2CAction.ParseArgs.removeAnnotationsArgs { A with Command := .REMOVE_ANNOTATIONS }
        optionalArgs
    else { action := A, errs := USAGE_STRING ++ "\n", ending := .Returned false }

/-- The options that `ParseArgs` recognises for a command; `none` for a string that is not a
command. -/
def Cpp2CAction.recognisedOptions (command : String) : Option (List String) :=
  if command = "tr" ∨ command = "transform" then
    some ["-ow", "--overwrite-files", "-v", "--verbose", "-shm", "--standard-header-macros"]
  else if command = "ra" ∨ command = "remove_annotations" then
    some ["-ow", "--overwrite-files"]
  else none

/-- The members of an action before `ParseArgs`, in the examples: no command, no file
overwritten, no verbose output, and the macros of standard headers left out ("default:
excluded"). -/
def Example.Action : Cpp2CAction :=
  { Command := .HELP,
    TSettings := { OverwriteFiles := false, Verbose := false,
                   OnlyCollectNotDefinedInStdHeaders := true } }

/-! ## Deduplicator

The pass declared in `implementation/include/Deduplicator/DeduplicatorConsumer.hh`, "meant to
be run after the transformer has been run to a fixpoint". -/

/-- Modelled from the spec: a synthesized definition as the Deduplicator consumes it (only the
declaration of `Deduplicator::DeduplicatorConsumer` is among the sources, the code of its
`HandleTranslationUnit` is not): its "emitted, globally-unique name" and the parts of its
"deduplication key", the "(macro name, canonicalized signature, canonicalized body text)
triple". -/
structure Deduplicator.Definition where
  EmittedName : String
  MacroName : String
  Signature : String
  Body : String
  deriving DecidableEq, Repr

/-- Modelled from the spec: the "deduplication key" of a definition (the code of the
Deduplicator is not among the sources). -/
def Deduplicator.Definition.key (d : Deduplicator.Definition) : String × String × String :=
  (d.MacroName, d.Signature, d.Body)

/-- Modelled from the spec: a call site as the Deduplicator consumes it (the code of the
Deduplicator is not among the sources), one of "the set of call sites referencing each"
definition: the range of the replaced invocation and the emitted name it references. -/
structure Deduplicator.CallSite where
  Range : SourceRange
  Name : String
  deriving DecidableEq, Repr

/-- Modelled from the spec: the survivors (the code of the Deduplicator is not among the
sources), "group by the deduplication key (§3); for each group of size > 1, pick a
deterministic survivor (e.g., first by source order)" and "delete the non-survivor definition
texts".  The definitions are taken in source order; `Seen` holds the survivors found so far,
and a definition is kept when no survivor has its key. -/
def Deduplicator.survivorsFrom :
    List Deduplicator.Definition → List Deduplicator.Definition → List Deduplicator.Definition
  | Seen, [] => Seen
  | Seen, d :: rest =>
    if Seen.any (fun s => decide (s.key = d.key)) then Deduplicator.survivorsFrom Seen rest
    else Deduplicator.survivorsFrom (Seen ++ [d]) rest

/-- Modelled from the spec: the definitions that remain after deduplication (the code of the
Deduplicator is not among the sources), "exactly one survivor per key". -/
def Deduplicator.survivors (Defs : List Deduplicator.Definition) :
    List Deduplicator.Definition :=
  Deduplicator.survivorsFrom [] Defs

/-- Modelled from the spec: the rewriting of a call site (the code of the Deduplicator is not
among the sources), "rewrite every call site referencing a non-survivor to reference the
survivor's emitted name instead": the site is pointed to the survivor of the key of the
definition it references.  A site that references no definition is left as it is. -/
def Deduplicator.repoint (Defs : List Deduplicator.Definition) (c : Deduplicator.CallSite) :
    Deduplicator.CallSite :=
  match Defs.find? (fun d => decide (d.EmittedName = c.Name)) with
  | none => c
  | some d =>
    match (Deduplicator.survivors Defs).find? (fun s => decide (s.key = d.key)) with
    | none => c
    | some s => { c with Name := s.EmittedName }

/-- Modelled from the spec: the output of the Deduplicator (the code of the Deduplicator is
not among the sources): the definitions that remain and the call sites after rewriting. -/
structure Deduplicator.Output where
  Definitions : List Deduplicator.Definition
  CallSites : List Deduplicator.CallSite
  deriving DecidableEq, Repr

/-- Modelled from the spec: `Deduplicator::DeduplicatorConsumer::HandleTranslationUnit` (only
its declaration is among the sources), on "the full set of `TransformedDefinition`s emitted"
and "the set of call sites referencing each": the survivors, and every call site pointed to
the survivor of its definition. -/
def Deduplicator.HandleTranslationUnit (Defs : List Deduplicator.Definition)
    (Sites : List Deduplicator.CallSite) : Deduplicator.Output :=
  { Definitions := Deduplicator.survivors Defs,
    CallSites := Sites.map (Deduplicator.repoint Defs) }

/-- The definition and the call site of a transformation by `transformEntireExpr`, as the
Deduplicator consumes them: the chosen name, the macro, the signature without the name
(`const int` for a variable, `int()` or `int(int <parameter>)` for a function), the body
text, and the range of the replaced invocation. -/
def transformEntireExpr.emitted (env : Env) (E : Expr) (MacroName : String) (MI : MacroInfo)
    (DefName : String) : Deduplicator.Definition × Deduplicator.CallSite :=
  ({ EmittedName := DefName, MacroName := MacroName,
     Signature :=
       match MI.Params with
       | none => "const int"
       | some [] => "int()"
       | some [ParamName] => "int(int " ++ ParamName ++ ")"
       | some (_ :: _ :: _) => "",
     Body := transformEntireExpr.defBody env MI },
   { Range := env.getExpansionRange E.getSourceRange, Name := DefName })

namespace ExampleTWOFN

/-- The main file: expansions of `ONE` in two functions. -/
def text : String :=
  "#define ONE 1\nint x;\nvoid f() \x7b x = ONE; \x7d\nint main() \x7b x = ONE; \x7d\n"

/-- The location of the literal `1` of the expansion in `f`, at offset 36. -/
def LitLoc1 : SourceLocation := Example.MacroIDBit + 1

/-- The location of the literal `1` of the expansion in `main`, at offset 60. -/
def LitLoc2 : SourceLocation := Example.MacroIDBit + 2

/-- The collaborators. -/
def env : Env :=
  Example.env text
    [{ Loc := LitLoc1, AtStart := true, AtEnd := true, Expansion := ⟨36, 36⟩ },
     { Loc := LitLoc2, AtStart := true, AtEnd := true, Expansion := ⟨60, 60⟩ }]

/-- The state after preprocessing and the collection of declared names. -/
def st : State :=
  VisitFunctionDecl
    (VisitFunctionDecl
      (VisitVarDecl
        (preprocess State.initial
          [.Defined "ONE" false ExampleONE.MI, .Expands "ONE" ⟨36, 36⟩,
           .Expands "ONE" ⟨60, 60⟩])
        "x")
      "f")
    "main"

/-- The literal of the expansion in `f`. -/
def Lit1 : Expr := .IntegerLiteral ⟨LitLoc1, LitLoc1⟩ 1

/-- The literal of the expansion in `main`. -/
def Lit2 : Expr := .IntegerLiteral ⟨LitLoc2, LitLoc2⟩ 1

/-- The state after the transformation of the expansion in `f`. -/
def st1 : State := resultState (transformEntireExpr 2 env st Lit1)

/-- The two definitions that the transformations emit, in source order. -/
def Defs : List Deduplicator.Definition :=
  [(transformEntireExpr.emitted env Lit1 "ONE" ExampleONE.MI "ONE_var").1,
   (transformEntireExpr.emitted env Lit2 "ONE" ExampleONE.MI "ONE_var0").1]

/-- The two call sites. -/
def Sites : List Deduplicator.CallSite :=
  [(transformEntireExpr.emitted env Lit1 "ONE" ExampleONE.MI "ONE_var").2,
   (transformEntireExpr.emitted env Lit2 "ONE" ExampleONE.MI "ONE_var0").2]

end ExampleTWOFN

/-! ## The program after the edits -/

/-- The main file after the rewriter has applied the accepted requests, every request
addressing the file by its original offsets: an inserted text is put at its offset, after
the texts inserted there before, and a replaced range, which runs to the end of its last
token, is put at the start of the range. -/
def Example.rewrittenText (text : String) (Calls : List RewriterCall) : String :=
  let Accepted := Calls.filter fun c => !c.Refused
  let replaced (i : Nat) : Bool :=
    Accepted.any fun c =>
      match c.Request with
      | .ReplaceText R _ =>
        decide (R.Begin ≤ i) && decide (i < R.End + Example.tokenLength text R.End)
      | .InsertTextAfter _ _ => false
  let inserted (i : Nat) : String :=
    String.join (Accepted.map fun c =>
      match c.Request with
      | .InsertTextAfter Loc Str => if Loc = i then Str else ""
      | .ReplaceText R NewStr => if R.Begin = i then NewStr else "")
  String.join ((List.range (text.length + 1)).map fun i =>
    inserted i ++ (if replaced i then "" else String.mk ((text.data.drop i).take 1)))

/-- The parentheses of a text are matched: scanning from the left, `depth` counts the
parentheses that are open. -/
def Example.parensMatched : List Char → Nat → Bool
  | [], depth => depth == 0
  | c :: rest, depth =>
    if c = '(' then Example.parensMatched rest (depth + 1)
    else if c = ')' then
      match depth with
      | 0 => false
      | d + 1 => Example.parensMatched rest d
    else Example.parensMatched rest depth

namespace ExamplePADDED

/-- The main file: the parameter of `ID` is written with blanks around it. -/
def text : String := "#define ID( x ) x\nint y;\nint main() \x7b return ID(y); \x7d\n"

/-- The definition `#define ID( x ) x`. -/
def MI : MacroInfo :=
  { DefinitionLoc := 8, DefinitionEndLoc := 16, Params := some ["x"], IsVariadic := false,
    ReplacementTokens := [{ Loc := 16, Text := "x" }] }

/-- The location of the argument `y` inside the expansion of `ID(y)` at offsets 45 to 49. -/
def ArgLoc : SourceLocation := Example.MacroIDBit + 1

/-- The collaborators. -/
def env : Env :=
  Example.env text [{ Loc := ArgLoc, AtStart := true, AtEnd := true, Expansion := ⟨45, 49⟩ }]

/-- The state after preprocessing and the collection of declared names. -/
def st : State :=
  VisitFunctionDecl
    (VisitVarDecl
      (preprocess State.initial [.Defined "ID" false MI, .Expands "ID" ⟨45, 49⟩]) "y")
    "main"

/-- The operand of `return`: the value of `y`, produced by the expansion. -/
def Operand : Expr :=
  .ImplicitCastExpr ⟨ArgLoc, ArgLoc⟩ (.DeclRefExpr ⟨ArgLoc, ArgLoc⟩ (.Var ExampleID.y))

end ExamplePADDED

/-! ## References to local variables -/

mutual
/-- Some node of the tree of the expression, the callees of its call expressions left out, is
a reference to a variable that is not global. -/
def Expr.refersToNonGlobalVarOutsideCallees : Expr → Bool
  | .ImplicitCastExpr _ E0 => E0.refersToNonGlobalVarOutsideCallees
  | .IntegerLiteral _ _ => false
  | .DeclRefExpr _ (.Var VD) => !isGlobalVariable VD
  | .DeclRefExpr _ (.NonVar _) => false
  | .ParenExpr _ E0 => E0.refersToNonGlobalVarOutsideCallees
  | .UnaryOperator _ _ E0 => E0.refersToNonGlobalVarOutsideCallees
  | .BinaryOperator _ _ E1 E2 =>
    E1.refersToNonGlobalVarOutsideCallees || E2.refersToNonGlobalVarOutsideCallees
  | .CallExpr _ _ Args => Args.refersToNonGlobalVarOutsideCallees
  | .OtherExpr _ Children => Children.refersToNonGlobalVarOutsideCallees
/-- Some expression of the list refers to a variable that is not global, callees left out. -/
def ExprList.refersToNonGlobalVarOutsideCallees : ExprList → Bool
  | .nil => false
  | .cons E Es => E.refersToNonGlobalVarOutsideCallees || Es.refersToNonGlobalVarOutsideCallees
end

/-- The call `fp()` at offsets 60 to 63 through `fp`, a local variable of `main` that points
to a function. -/
def Example.CallLocal : Expr :=
  .CallExpr ⟨60, 63⟩
    (.ImplicitCastExpr ⟨60, 60⟩
      (.DeclRefExpr ⟨60, 60⟩
        (.Var { Name := "fp", TypeAsString := "int (*)(void)", hasGlobalStorage := false,
                isStaticLocal := false })))
    .nil

/-- A reference at offset 60 to `counter`, a static local variable of `main`. -/
def Example.StaticLocalRef : Expr :=
  .DeclRefExpr ⟨60, 60⟩
    (.Var { Name := "counter", TypeAsString := "int", hasGlobalStorage := true,
            isStaticLocal := true })

/-! ## Side effects of expressions of the subset -/

/-- An assignment (plain or compound) or a call expression is the expression itself or is
reachable from it through the operands of implicit casts, parentheses, unary `+` and `-` and
binary `+`, `-`, `*` and `/`. -/
def Expr.reachesAssignmentOrCall : Expr → Bool
  | .ImplicitCastExpr _ E0 => E0.reachesAssignmentOrCall
  | .IntegerLiteral _ _ => false
  | .DeclRefExpr _ _ => false
  | .ParenExpr _ E0 => E0.reachesAssignmentOrCall
  | .UnaryOperator _ OC E0 => isPlusMinus OC && E0.reachesAssignmentOrCall
  | .BinaryOperator _ OC E1 E2 =>
    OC.isAssignmentOp ||
      (isAddSubMulDiv OC && (E1.reachesAssignmentOrCall || E2.reachesAssignmentOrCall))
  | .CallExpr _ _ _ => true
  | .OtherExpr _ _ => false

/-- The recursion of `exprHasSideEffects` with the initial value of `result` as a parameter:
`bool result = Default;` in place of `bool result = true;`. -/
def exprHasSideEffectsRecFrom (Default : Bool) : Expr → Bool
  | .ImplicitCastExpr _ E0 => exprHasSideEffectsRecFrom Default E0
  | .IntegerLiteral _ _ => false
  | .DeclRefExpr _ _ => false
  | .ParenExpr _ E0 => exprHasSideEffectsRecFrom Default E0
  | .UnaryOperator _ OC E0 =>
    if isPlusMinus OC then exprHasSideEffectsRecFrom Default E0 else Default
  | .BinaryOperator _ OC E1 E2 =>
    if isAddSubMulDiv OC then
      exprHasSideEffectsRecFrom Default E1 || exprHasSideEffectsRecFrom Default E2
    else if OC = .BO_Assign then true
    else Default
  | .CallExpr _ _ _ => true
  | .OtherExpr _ _ => Default

/-- The expression `x + next()` at offsets 40 to 49, `x` a global `int`. -/
def Example.SumNext : Expr :=
  .BinaryOperator ⟨40, 49⟩ .BO_Add
    (.ImplicitCastExpr ⟨40, 40⟩ (.DeclRefExpr ⟨40, 40⟩ (.Var ExampleONE.x)))
    (.CallExpr ⟨44, 49⟩
      (.ImplicitCastExpr ⟨44, 44⟩ (.DeclRefExpr ⟨44, 44⟩ (.NonVar "next"))) .nil)

/-! ## The name lists of a collected state -/

/-- The range of an expansion event is well formed: its begin is not after its end. -/
def PPEvent.WellFormed : PPEvent → Prop
  | .Defined _ _ _ => True
  | .Expands _ ExpansionRange => ExpansionRange.Begin ≤ ExpansionRange.End

instance PPEvent.WellFormed.decidable (e : PPEvent) : Decidable e.WellFormed := by
  cases e <;> unfold PPEvent.WellFormed <;> infer_instance

/-- What holds of the name lists of a state collected from well-formed events: a recorded
list is not empty, a well-formed recorded range starts where it is recorded, a location with
two or more names is in both sets of nested starts, and every recorded range has a name list
at its start. -/
structure State.NamesRecorded (st : State) : Prop where
  nonempty : ∀ L Names, st.ExpansionStartLocationToMacroNames L = some Names → Names ≠ []
  range : ∀ L Names, st.ExpansionStartLocationToMacroNames L = some Names →
    ∃ o ∈ st.ExpansionRanges, o.Begin = L ∧ o.Begin ≤ o.End
  nested : ∀ L Names, st.ExpansionStartLocationToMacroNames L = some Names →
    2 ≤ Names.length →
    L ∈ st.StartLocationsOfExpansionsContainingStartOfOtherExpansion ∧
      L ∈ st.StartLocationsOFExpansionsContainedInOtherExpansion
  listed : ∀ o ∈ st.ExpansionRanges,
    (st.ExpansionStartLocationToMacroNames o.Begin).isSome = true

/-! ## The candidates of the naming step -/

/-- The candidates of the naming step in the order in which the loop tries them, the counter
taken without wrap-around: `MacroName + suffix`, then `MacroName + suffix + to_string(i)` for
`i` = 0, 1, 2, ... -/
def uniqueDefName.candidate (MacroName : String) (MI : MacroInfo) : Nat → String
  | 0 => uniqueDefName.base MacroName MI
  | j + 1 => uniqueDefName.base MacroName MI ++ toString j

/-- The number of names in `AllVarNames`, `AllFunctionNames` and `AllMacroNames` together. -/
def State.nameCount (st : State) : Nat :=
  st.AllVarNames.length + st.AllFunctionNames.length + st.AllMacroNames.length

/-- The number that a list of decimal digits denotes. -/
def decimalValue (l : List Char) : Nat :=
  l.foldl (fun a c => a * 10 + (c.toNat - 48)) 0

/-! ## A rewriter that refuses -/

namespace ExampleRefused

/-- The collaborators of `ExampleONE` with a rewriter that accepts every insertion and
refuses every replacement. -/
def envReplace : Env :=
  { ExampleONE.env with
    rewriterRefuses := fun _ Request =>
      match Request with
      | .InsertTextAfter _ _ => false
      | .ReplaceText _ _ => true }

/-- The collaborators of `ExampleONE` with a rewriter that refuses every request. -/
def envInsert : Env :=
  { ExampleONE.env with rewriterRefuses := fun _ _ => true }

end ExampleRefused

/-! ## Expressions outside the subset -/

/-- Some node of the expression, reached without entering a call expression or an expression
of a class that the tool does not name, is a unary operator other than `+` and `-` or a
binary operator other than `+`, `-`, `*`, `/` and `=`. -/
def Expr.usesOtherOperatorOutsideCalls : Expr → Bool
  | .ImplicitCastExpr _ E0 => E0.usesOtherOperatorOutsideCalls
  | .IntegerLiteral _ _ => false
  | .DeclRefExpr _ _ => false
  | .ParenExpr _ E0 => E0.usesOtherOperatorOutsideCalls
  | .UnaryOperator _ OC E0 => !isPlusMinus OC || E0.usesOtherOperatorOutsideCalls
  | .BinaryOperator _ OC E1 E2 =>
    !(isAddSubMulDiv OC || OC == .BO_Assign) || E1.usesOtherOperatorOutsideCalls ||
      E2.usesOtherOperatorOutsideCalls
  | .CallExpr _ _ _ => false
  | .OtherExpr _ _ => false

/-- The node is a declaration reference (`isa<DeclRefExpr>`). -/
def Expr.isDeclRefExpr : Expr → Bool
  | .DeclRefExpr _ _ => true
  | _ => false

/-- Some node of the expression, reached without entering a call expression or an expression
of a class that the tool does not name, is a reference to a variable whose type is not
spelled `int`; the declaration reference on the left of an assignment is left out. -/
def Expr.refersToNonIntVarOutsideCalls : Expr → Bool
  | .ImplicitCastExpr _ E0 => E0.refersToNonIntVarOutsideCalls
  | .IntegerLiteral _ _ => false
  | .DeclRefExpr _ (.Var Var) => !decide (Var.TypeAsString = "int")
  | .DeclRefExpr _ (.NonVar _) => false
  | .ParenExpr _ E0 => E0.refersToNonIntVarOutsideCalls
  | .UnaryOperator _ _ E0 => E0.refersToNonIntVarOutsideCalls
  | .BinaryOperator _ OC E1 E2 =>
    (if OC = .BO_Assign ∧ E1.isDeclRefExpr = true then false
      else E1.refersToNonIntVarOutsideCalls) ||
      E2.refersToNonIntVarOutsideCalls
  | .CallExpr _ _ _ => false
  | .OtherExpr _ _ => false

/-- The calls made to the rewriter when a call of `TransformExpr` or `TransformStmt`
returned. -/
def submittedAfter (r : Except Abort State) : Option (List RewriterCall) :=
  match r with
  | .ok st => some st.RW
  | .error _ => none

/-- The contents of `AllVarNames` and `AllFunctionNames` when a call of `TransformExpr` or
`TransformStmt` returned. -/
def reservedAfter (r : Except Abort State) : Option (List String × List String) :=
  match r with
  | .ok st => some (st.AllVarNames, st.AllFunctionNames)
  | .error _ => none

namespace ExampleCALL

/-- The main file: a call with an argument outside the subset and an argument that is an
expansion of `ONE`. -/
def text : String :=
  "#define ONE 1\nint x;\nint f(int, int);\nint main() \x7b return f(!x, ONE); \x7d\n"

/-- The location of the literal `1` inside the expansion of `ONE` at offset 64. -/
def LitLoc : SourceLocation := Example.MacroIDBit + 1

/-- The collaborators. -/
def env : Env :=
  Example.env text [{ Loc := LitLoc, AtStart := true, AtEnd := true, Expansion := ⟨64, 64⟩ }]

/-- The state after preprocessing and the collection of declared names. -/
def st : State :=
  VisitFunctionDecl
    (VisitFunctionDecl
      (VisitVarDecl
        (preprocess State.initial
          [.Defined "ONE" false ExampleONE.MI, .Expands "ONE" ⟨64, 64⟩])
        "x")
      "f")
    "main"

/-- The first argument, `!x`, at offsets 60 to 61. -/
def Negation : Expr :=
  .UnaryOperator ⟨60, 61⟩ .UO_LNot
    (.ImplicitCastExpr ⟨61, 61⟩ (.DeclRefExpr ⟨61, 61⟩ (.Var ExampleONE.x)))

/-- The second argument, the literal `1` produced by the expansion. -/
def Lit : Expr := .IntegerLiteral ⟨LitLoc, LitLoc⟩ 1

/-- The call `f(!x, ONE)` at offsets 58 to 67. -/
def Call : Expr :=
  .CallExpr ⟨58, 67⟩ (.ImplicitCastExpr ⟨58, 58⟩ (.DeclRefExpr ⟨58, 58⟩ (.NonVar "f")))
    (.cons Negation (.cons Lit .nil))

end ExampleCALL

/-! ## Statements without a branch in `TransformStmt` -/

/-- The statement `return ONE;` of a function of `ExampleONE`, a statement of a class that the
tool does not name, with the literal of the expansion as its child. -/
def ExampleONE.Return : Stmt := .OtherStmt [.ExprStmt ExampleONE.Lit]

/-- The statement `if (ONE) return ONE;`, an `if` without an else branch. -/
def ExampleONE.IfNoElse : Stmt := .IfStmt ExampleONE.Lit ExampleONE.Return none

/-! # Theorems -/

/-! ## Memo tables hold the values of the recursion -/

theorem Memo.sound_empty {α : Type} (f : Expr → α) : Memo.Sound f Memo.empty := by
  intro E v h
  simp [Memo.empty] at h

theorem Memo.sound_insert {α : Type} (f : Expr → α) (m : Memo α) (E : Expr) (v : α)
    (h : Memo.Sound f m) (hv : v = f E) : Memo.Sound f (m.insert E v) := by
  intro K w hw
  unfold Memo.insert at hw
  split at hw
  · rename_i hK
    subst hK
    rw [← hv]
    simpa using hw.symm
  · exact h K w hw

theorem Memo.findOrCompute_spec {α : Type} (f : Expr → α) (m : Memo α) (E : Expr)
    (compute : Memo α → α × Memo α) (h : Memo.Sound f m)
    (hc : (compute m).1 = f E ∧ Memo.Sound f (compute m).2) :
    (Memo.findOrCompute m E compute).1 = f E ∧
      Memo.Sound f (Memo.findOrCompute m E compute).2 := by
  unfold Memo.findOrCompute
  split
  · rename_i v hv
    exact ⟨h _ _ hv, h⟩
  · exact ⟨hc.1, Memo.sound_insert f _ E _ hc.2 hc.1⟩

theorem exprHasSideEffects_spec :
    ∀ (E : Expr) (m : Memo Bool), Memo.Sound exprHasSideEffectsRec m →
      (exprHasSideEffects E m).1 = exprHasSideEffectsRec E ∧
        Memo.Sound exprHasSideEffectsRec (exprHasSideEffects E m).2
  | .ImplicitCastExpr R E0, m, h => by
    rw [exprHasSideEffects]
    exact Memo.findOrCompute_spec _ _ _ _ h (exprHasSideEffects_spec E0 m h)
  | .IntegerLiteral R V, m, h => by
    rw [exprHasSideEffects]
    exact Memo.findOrCompute_spec _ _ _ _ h ⟨rfl, h⟩
  | .DeclRefExpr R D, m, h => by
    rw [exprHasSideEffects]
    exact Memo.findOrCompute_spec _ _ _ _ h ⟨rfl, h⟩
  | .ParenExpr R E0, m, h => by
    rw [exprHasSideEffects]
    exact Memo.findOrCompute_spec _ _ _ _ h (exprHasSideEffects_spec E0 m h)
  | .UnaryOperator R OC E0, m, h => by
    rw [exprHasSideEffects]
    refine Memo.findOrCompute_spec _ _ _ _ h ?_
    have ih := exprHasSideEffects_spec E0 m h
    by_cases hoc : isPlusMinus OC = true
    · simpa [exprHasSideEffectsRec, hoc] using ih
    · simpa [exprHasSideEffectsRec, hoc] using h
  | .BinaryOperator R OC E1 E2, m, h => by
    rw [exprHasSideEffects]
    refine Memo.findOrCompute_spec _ _ _ _ h ?_
    have ih1 := exprHasSideEffects_spec E1 m h
    have ih2 := exprHasSideEffects_spec E2 (exprHasSideEffects E1 m).2 ih1.2
    by_cases hoc : isAddSubMulDiv OC = true
    · by_cases h1 : (exprHasSideEffects E1 m).1 = true
      · have e1 : exprHasSideEffectsRec E1 = true := by rw [← ih1.1]; exact h1
        simpa [exprHasSideEffectsRec, hoc, h1, e1] using ih1.2
      · have e1 : exprHasSideEffectsRec E1 = false := by rw [← ih1.1]; simpa using h1
        simpa [exprHasSideEffectsRec, hoc, h1, e1] using ih2
    · simpa [exprHasSideEffectsRec, hoc] using h
  | .CallExpr R C A, m, h => by
    rw [exprHasSideEffects]
    exact Memo.findOrCompute_spec _ _ _ _ h ⟨rfl, h⟩
  | .OtherExpr R A, m, h => by
    rw [exprHasSideEffects]
    exact Memo.findOrCompute_spec _ _ _ _ h ⟨rfl, h⟩

theorem ReachableEHasSideEffects.sideEffects_memo_sound {m : Memo Bool} (h : ReachableEHasSideEffects m) :
    Memo.Sound exprHasSideEffectsRec m := by
  induction h with
  | empty => exact Memo.sound_empty _
  | call E m _ ih => exact (exprHasSideEffects_spec E m ih).2

mutual
theorem exprContainsLocalVars_spec :
    ∀ (E : Expr) (m : Memo Bool), Memo.Sound exprContainsLocalVarsRec m →
      (exprContainsLocalVars E m).1 = exprContainsLocalVarsRec E ∧
        Memo.Sound exprContainsLocalVarsRec (exprContainsLocalVars E m).2
  | .ImplicitCastExpr R E0, m, h => by
    rw [exprContainsLocalVars]
    refine Memo.findOrCompute_spec _ _ _ _ h ?_
    simpa [exprContainsLocalVarsRec] using exprContainsLocalVars_spec E0 m h
  | .IntegerLiteral R V, m, h => by
    rw [exprContainsLocalVars]
    exact Memo.findOrCompute_spec _ _ _ _ h ⟨by simp [exprContainsLocalVarsRec], h⟩
  | .DeclRefExpr R (.Var VD), m, h => by
    rw [exprContainsLocalVars]
    exact Memo.findOrCompute_spec _ _ _ _ h ⟨by simp [exprContainsLocalVarsRec], h⟩
  | .DeclRefExpr R (.NonVar N), m, h => by
    rw [exprContainsLocalVars]
    exact Memo.findOrCompute_spec _ _ _ _ h ⟨by simp [exprContainsLocalVarsRec], h⟩
  | .ParenExpr R E0, m, h => by
    rw [exprContainsLocalVars]
    refine Memo.findOrCompute_spec _ _ _ _ h ?_
    simpa [exprContainsLocalVarsRec] using exprContainsLocalVars_spec E0 m h
  | .UnaryOperator R OC E0, m, h => by
    rw [exprContainsLocalVars]
    refine Memo.findOrCompute_spec _ _ _ _ h ?_
    have ih := exprContainsLocalVars_spec E0 m h
    by_cases hoc : isPlusMinus OC = true
    · simpa [exprContainsLocalVarsRec, hoc] using ih
    · simpa [exprContainsLocalVarsRec, hoc] using h
  | .BinaryOperator R OC E1 E2, m, h => by
    rw [exprContainsLocalVars]
    refine Memo.findOrCompute_spec _ _ _ _ h ?_
    have ih1 := exprContainsLocalVars_spec E1 m h
    have ih2 := exprContainsLocalVars_spec E2 (exprContainsLocalVars E1 m).2 ih1.2
    have ih2m := exprContainsLocalVars_spec E2 m h
    by_cases hoc : isAddSubMulDiv OC = true
    · by_cases h1 : (exprContainsLocalVars E1 m).1 = true
      · have e1 : exprContainsLocalVarsRec E1 = true := by rw [← ih1.1]; exact h1
        simpa [exprContainsLocalVarsRec, hoc, h1, e1] using ih1.2
      · have e1 : exprContainsLocalVarsRec E1 = false := by rw [← ih1.1]; simpa using h1
        simpa [exprContainsLocalVarsRec, hoc, h1, e1] using ih2
    · by_cases has : OC = .BO_Assign
      · subst has
        cases E1 with
        | DeclRefExpr R1 D =>
          cases D with
          | Var VD =>
            by_cases hg : isGlobalVariable VD = true
            · simpa [exprContainsLocalVarsRec, isAddSubMulDiv, hg] using ih2m
            · simpa [exprContainsLocalVarsRec, isAddSubMulDiv, hg] using h
          | NonVar N => simpa [exprContainsLocalVarsRec, isAddSubMulDiv] using h
        | _ => simpa [exprContainsLocalVarsRec, isAddSubMulDiv] using h
      · simpa [exprContainsLocalVarsRec, hoc, has] using h
  | .CallExpr R C A, m, h => by
    rw [exprContainsLocalVars]
    refine Memo.findOrCompute_spec _ _ _ _ h ?_
    simpa [exprContainsLocalVarsRec] using argsContainLocalVars_spec A m h
  | .OtherExpr R A, m, h => by
    rw [exprContainsLocalVars]
    exact Memo.findOrCompute_spec _ _ _ _ h ⟨by simp [exprContainsLocalVarsRec], h⟩
theorem argsContainLocalVars_spec :
    ∀ (Args : ExprList) (m : Memo Bool), Memo.Sound exprContainsLocalVarsRec m →
      (argsContainLocalVars Args m).1 = argsContainLocalVarsRec Args ∧
        Memo.Sound exprContainsLocalVarsRec (argsContainLocalVars Args m).2
  | .nil, m, h => by
    rw [argsContainLocalVars]
    exact ⟨by simp [argsContainLocalVarsRec], h⟩
  | .cons Arg Rest, m, h => by
    rw [argsContainLocalVars]
    have ih1 := exprContainsLocalVars_spec Arg m h
    have ih2 := argsContainLocalVars_spec Rest (exprContainsLocalVars Arg m).2 ih1.2
    by_cases h1 : (exprContainsLocalVars Arg m).1 = true
    · have e1 : exprContainsLocalVarsRec Arg = true := by rw [← ih1.1]; exact h1
      simpa [argsContainLocalVarsRec, h1, e1] using ih1.2
    · have e1 : exprContainsLocalVarsRec Arg = false := by rw [← ih1.1]; simpa using h1
      simpa [argsContainLocalVarsRec, h1, e1] using ih2
end

theorem ReachableEContainsLocalVars.localVars_memo_sound {m : Memo Bool}
    (h : ReachableEContainsLocalVars m) : Memo.Sound exprContainsLocalVarsRec m := by
  induction h with
  | empty => exact Memo.sound_empty _
  | call E m _ ih => exact (exprContainsLocalVars_spec E m ih).2

/-! ## The side-effect test -/

theorem exprHasSideEffects_eq_rec {m : Memo Bool} (hm : ReachableEHasSideEffects m)
    (E : Expr) : (exprHasSideEffects E m).1 = exprHasSideEffectsRec E :=
  (exprHasSideEffects_spec E m hm.sideEffects_memo_sound).1

/-- C4: on every table `EHasSideEffects` that can arise, `exprHasSideEffects` returns true
for every assignment expression (plain or compound) and every call expression, and false for
every integer literal and every reference to a declaration. -/
theorem exprHasSideEffects_base_cases (m : Memo Bool) (hm : ReachableEHasSideEffects m) :
    (∀ R OC LHS RHS, BinaryOperatorKind.isAssignmentOp OC = true →
      (exprHasSideEffects (.BinaryOperator R OC LHS RHS) m).1 = true) ∧
    (∀ R Callee Args, (exprHasSideEffects (.CallExpr R Callee Args) m).1 = true) ∧
    (∀ R Value, (exprHasSideEffects (.IntegerLiteral R Value) m).1 = false) ∧
    (∀ R D, (exprHasSideEffects (.DeclRefExpr R D) m).1 = false) := by
  refine ⟨?_, ?_, ?_, ?_⟩
  · intro R OC LHS RHS hOC
    rw [exprHasSideEffects_eq_rec hm]
    cases OC <;> simp_all [exprHasSideEffectsRec, isAddSubMulDiv, BinaryOperatorKind.isAssignmentOp]
  · intro R Callee Args
    rw [exprHasSideEffects_eq_rec hm]
    rfl
  · intro R Value
    rw [exprHasSideEffects_eq_rec hm]
    rfl
  · intro R D
    rw [exprHasSideEffects_eq_rec hm]
    rfl

/-- Witness of C4 on the empty table. -/
theorem exprHasSideEffects_base_cases_witness :
    (∀ R OC LHS RHS, BinaryOperatorKind.isAssignmentOp OC = true →
      (exprHasSideEffects (.BinaryOperator R OC LHS RHS) Memo.empty).1 = true) ∧
    (∀ R Callee Args, (exprHasSideEffects (.CallExpr R Callee Args) Memo.empty).1 = true) ∧
    (∀ R Value, (exprHasSideEffects (.IntegerLiteral R Value) Memo.empty).1 = false) ∧
    (∀ R D, (exprHasSideEffects (.DeclRefExpr R D) Memo.empty).1 = false) :=
  exprHasSideEffects_base_cases Memo.empty ReachableEHasSideEffects.empty

/-- Counterexample to C5 as stated: `!x` is reported side-effecting although its only
sub-expression `x` is not. -/
theorem exprHasSideEffects_compound_counterexample :
    (exprHasSideEffects Example.NotX Memo.empty).1 = true ∧
      ∀ S ∈ Example.NotX.children, (exprHasSideEffects S Memo.empty).1 = false := by
  decide

/-- C5 (amended): on every table that can arise, an implicit cast, a parenthesised
expression, a unary `+` or `-` and a binary `+`, `-`, `*` or `/` is side-effecting exactly
when one of its direct sub-expressions is; a unary or binary operator expression with any
other opcode is side-effecting whatever its sub-expressions are. -/
theorem exprHasSideEffects_compound (m : Memo Bool) (hm : ReachableEHasSideEffects m)
    (E : Expr) :
    (E.isSubsetCompound = true →
      ((exprHasSideEffects E m).1 = true ↔
        ∃ S ∈ E.children, (exprHasSideEffects S m).1 = true)) ∧
    (E.isOtherOperator = true → (exprHasSideEffects E m).1 = true) := by
  constructor
  · intro hE
    simp only [exprHasSideEffects_eq_rec hm]
    cases E with
    | ImplicitCastExpr R E0 => simp [Expr.children, exprHasSideEffectsRec]
    | ParenExpr R E0 => simp [Expr.children, exprHasSideEffectsRec]
    | UnaryOperator R OC E0 =>
      have h : isPlusMinus OC = true := hE
      simp [Expr.children, exprHasSideEffectsRec, h]
    | BinaryOperator R OC E1 E2 =>
      have h : isAddSubMulDiv OC = true := hE
      simp [Expr.children, exprHasSideEffectsRec, h]
    | _ => simp [Expr.isSubsetCompound] at hE
  · intro hE
    rw [exprHasSideEffects_eq_rec hm]
    cases E with
    | UnaryOperator R OC E0 =>
      have h : isPlusMinus OC = false := by simpa [Expr.isOtherOperator] using hE
      simp [exprHasSideEffectsRec, h]
    | BinaryOperator R OC E1 E2 =>
      have h : isAddSubMulDiv OC = false := by simpa [Expr.isOtherOperator] using hE
      simp [exprHasSideEffectsRec, h]
    | _ => simp [Expr.isOtherOperator] at hE

/-- Witness of C5 (amended) on the empty table: the parenthesised call `(next())` is
side-effecting exactly when its operand is, and `!x` is side-effecting. -/
theorem exprHasSideEffects_compound_witness :
    ((exprHasSideEffects Example.ParenNext Memo.empty).1 = true ↔
      ∃ S ∈ Example.ParenNext.children, (exprHasSideEffects S Memo.empty).1 = true) ∧
    (exprHasSideEffects Example.NotX Memo.empty).1 = true :=
  ⟨(exprHasSideEffects_compound Memo.empty ReachableEHasSideEffects.empty
      Example.ParenNext).1 rfl,
    (exprHasSideEffects_compound Memo.empty ReachableEHasSideEffects.empty
      Example.NotX).2 rfl⟩

/-! ## The checks of transformEntireExpr -/

/-- The fields other than `MacroNameToExpansionRanges` are left as they were by the first
part of `transformEntireExpr`. -/
theorem findMacroName_frame (env : Env) (st : State) (E : Expr) :
    (transformEntireExpr.findMacroName env st E).2 =
      { st with MacroNameToExpansionRanges :=
          (transformEntireExpr.findMacroName env st E).2.MacroNameToExpansionRanges } := by
  unfold transformEntireExpr.findMacroName
  simp only
  split
  · split
    · rfl
    · split
      · rfl
      · split
        · rfl
        · rfl
        · split <;> rfl
        · rfl
  · rfl

theorem findMacroName_inr {env : Env} {st st1 : State} {E : Expr} {MacroName : String}
    (h : transformEntireExpr.findMacroName env st E = (.inr MacroName, st1))
    (hN : MacroName ≠ "") :
    env.isAtStartOfMacroExpansion E.getBeginLoc = true ∧
    env.isAtEndOfMacroExpansion E.getEndLoc = true ∧
    (env.getExpansionRange E.getSourceRange).Begin ∉
      st.StartLocationsOfExpansionsContainingStartOfOtherExpansion ∧
    (env.getExpansionRange E.getSourceRange).Begin ∉
      st.StartLocationsOFExpansionsContainedInOtherExpansion ∧
    st.ExpansionStartLocationToMacroNames (env.getExpansionRange E.getSourceRange).Begin =
      some [MacroName] ∧
    env.getExpansionRange E.getSourceRange ∈ (st.MacroNameToExpansionRanges MacroName).getD [] := by
  unfold transformEntireExpr.findMacroName at h
  simp only at h
  split at h
  · rename_i h1
    simp only [Bool.and_eq_true] at h1
    split at h
    · simp at h
    · rename_i h2
      split at h
      · simp at h
      · rename_i h3
        split at h
        · simp at h
          exact absurd h.1.symm hN
        · simp at h
        · rename_i N hnames
          split at h
          · rename_i h4
            simp at h
            obtain ⟨rfl, -⟩ := h
            exact ⟨h1.1, h1.2, h2, h3, hnames, h4⟩
          · simp at h
        · simp at h
  · simp at h

theorem findMacroName_inr_state {env : Env} {st st1 : State} {E : Expr} {MacroName : String}
    (h : transformEntireExpr.findMacroName env st E = (.inr MacroName, st1))
    (hN : MacroName ≠ "") :
    st1 = { st with
      MacroNameToExpansionRanges := mapTouch st.MacroNameToExpansionRanges MacroName } := by
  unfold transformEntireExpr.findMacroName at h
  simp only at h
  split at h
  · split at h
    · simp at h
    · split at h
      · simp at h
      · split at h
        · simp at h
          exact absurd h.1.symm hN
        · simp at h
        · split at h
          · simp at h
            obtain ⟨rfl, rfl⟩ := h
            rfl
          · simp at h
        · simp at h
  · simp at h

theorem findMacroName_inl_ne {env : Env} {st st1 : State} {E : Expr}
    {r : TransformationResult}
    (h : transformEntireExpr.findMacroName env st E = (.inl r, st1)) :
    r ≠ .TRANSFORMED ∧ r ≠ .HAS_SIDE_EFFECTS := by
  unfold transformEntireExpr.findMacroName at h
  simp only at h
  repeat' split at h
  all_goals simp at h
  all_goals (obtain ⟨rfl, -⟩ := h; simp)

/-- The part of `transformEntireExpr` after the checks on the macro: the side-effect test,
the local-variable test, and the last part. -/
theorem transformEntireExpr_of_macroChecks {env : Env} {st : State} {E : Expr}
    {MacroName : String} {MI : MacroInfo}
    (h : transformEntireExpr.MacroChecks env st E MacroName MI) (fuel : Nat) :
    transformEntireExpr fuel env st E =
      if (exprHasSideEffects E st.EHasSideEffects).1 = true then
        .ok (.HAS_SIDE_EFFECTS,
          { st with
            MacroNameToExpansionRanges := mapTouch st.MacroNameToExpansionRanges MacroName,
            EHasSideEffects := (exprHasSideEffects E st.EHasSideEffects).2 })
      else if (exprContainsLocalVars E st.EContainsLocalVars).1 = true then
        .ok (.NOT_TRANSFORMED, transformEntireExpr.stateAtNaming st E MacroName)
      else
        transformEntireExpr.emit fuel env (transformEntireExpr.stateAtNaming st E MacroName) E
          MacroName MI := by
  have hf : transformEntireExpr.findMacroName env st E =
      (.inr MacroName, { st with
        MacroNameToExpansionRanges := mapTouch st.MacroNameToExpansionRanges MacroName }) := by
    unfold transformEntireExpr.findMacroName
    simp [h.atStart, h.atEnd, h.notContaining, h.notContained, h.oneName, h.sameExpansion]
  have hp : (MI.isFunctionLike && decide (MI.getNumParams > 1)) = false := by
    have := h.atMostOneParam
    simp only [Bool.and_eq_false_imp, decide_eq_false_iff_not]
    intro h1 h2
    exact this ⟨h1, h2⟩
  unfold transformEntireExpr
  rw [hf]
  simp only [h.named, if_false, h.singlyDefined, h.directive, hp, h.unaryTest,
    Bool.false_eq_true]
  rfl

/-- Every run of `transformEntireExpr` is either a return before the side-effect test, which
is neither `TRANSFORMED` nor `HAS_SIDE_EFFECTS` and leaves the rewriter and the three name
sets untouched, or the use of a null macro directive, or a run that passes the checks on the
macro. -/
theorem transformEntireExpr_cases (fuel : Nat) (env : Env) (st : State) (E : Expr) :
    (∃ r st', transformEntireExpr fuel env st E = .ok (r, st') ∧ r ≠ .TRANSFORMED ∧
      r ≠ .HAS_SIDE_EFFECTS ∧
      st'.RW = st.RW ∧ st'.AllVarNames = st.AllVarNames ∧
      st'.AllFunctionNames = st.AllFunctionNames ∧ st'.AllMacroNames = st.AllMacroNames) ∨
    transformEntireExpr fuel env st E = .error .NullMacroDirective ∨
    ∃ MacroName MI, transformEntireExpr.MacroChecks env st E MacroName MI := by
  unfold transformEntireExpr
  generalize hf : transformEntireExpr.findMacroName env st E = x
  have hfr := findMacroName_frame env st E
  rw [hf] at hfr
  obtain ⟨x1, st1⟩ := x
  cases x1 with
  | inl r1 =>
    left
    simp only at hfr
    have hne := findMacroName_inl_ne hf
    exact ⟨r1, st1, rfl, hne.1, hne.2, by rw [hfr], by rw [hfr], by rw [hfr], by rw [hfr]⟩
  | inr MacroName =>
    simp only at hfr ⊢
    split
    · left
      exact ⟨_, _, rfl, by simp, by simp, by rw [hfr], by rw [hfr], by rw [hfr], by rw [hfr]⟩
    · rename_i hN
      have hst1 := findMacroName_inr_state hf hN
      have hck := findMacroName_inr hf hN
      split
      · left
        exact ⟨_, _, rfl, by simp, by simp, by rw [hfr], by rw [hfr], by rw [hfr],
          by rw [hfr]⟩
      · rename_i hmd
        split
        · right; left; rfl
        · rename_i MI hMI
          split
          · left
            exact ⟨_, _, rfl, by simp, by simp, by rw [hfr], by rw [hfr], by rw [hfr],
              by rw [hfr]⟩
          · rename_i hparams
            split
            · left
              exact ⟨_, _, rfl, by simp, by simp, by rw [hfr], by rw [hfr], by rw [hfr],
                by rw [hfr]⟩
            · rename_i hunary
              right; right
              subst hst1
              exact ⟨MacroName, MI,
                { atStart := hck.1, atEnd := hck.2.1, notContaining := hck.2.2.1,
                  notContained := hck.2.2.2.1, oneName := hck.2.2.2.2.1,
                  sameExpansion := hck.2.2.2.2.2, named := hN, singlyDefined := hmd,
                  directive := hMI,
                  atMostOneParam := by simpa using hparams,
                  unaryTest := by simpa using hunary }⟩

/-- The last part of `transformEntireExpr` returns `ERROR` or `TRANSFORMED`. -/
theorem emit_result {fuel : Nat} {env : Env} {st st' : State} {E : Expr}
    {MacroName : String} {MI : MacroInfo} {r : TransformationResult}
    (h : transformEntireExpr.emit fuel env st E MacroName MI = .ok (r, st')) :
    r = .ERROR ∨ r = .TRANSFORMED := by
  unfold transformEntireExpr.emit at h
  simp only at h
  repeat' split at h
  all_goals simp at h
  all_goals (obtain ⟨rfl, -⟩ := h; simp)

/-! ## Soundness conditions of a transformation -/

theorem MacroInfo.getNumParams_le_one {MI : MacroInfo}
    (h : ¬ (MI.isFunctionLike = true ∧ MI.getNumParams > 1)) : MI.getNumParams ≤ 1 := by
  by_contra hc
  apply h
  refine ⟨?_, by omega⟩
  unfold MacroInfo.isFunctionLike
  unfold MacroInfo.getNumParams at hc
  cases hP : MI.Params with
  | none => simp [hP] at hc
  | some ps => rfl

theorem MacroInfo.unary_of_getNumParams {MI : MacroInfo} (h : MI.getNumParams = 1) :
    ∃ Param, MI.Params = some [Param] := by
  unfold MacroInfo.getNumParams at h
  cases hP : MI.Params with
  | none => simp [hP] at h
  | some ps =>
    rw [hP] at h
    match ps, h with
    | [p], _ => exact ⟨p, rfl⟩

/-- C1: whenever `transformEntireExpr` returns `TRANSFORMED` for `E`, `E` begins at the start
and ends at the end of a macro expansion; the start of its expansion range is in neither set
of nesting flags; exactly one macro name is recorded there; the expansion range is one of the
recorded ranges of that macro; the macro is not multiply defined; it has at most one
parameter and, with exactly one, its definition length is the length of the parameter name;
and both `exprHasSideEffects` and `exprContainsLocalVars` returned false on `E`. -/
theorem transformEntireExpr_transformed_sound (fuel : Nat) (env : Env) (st : State)
    (E : Expr) (h : returned (transformEntireExpr fuel env st E) = some .TRANSFORMED) :
    env.isAtStartOfMacroExpansion E.getBeginLoc = true ∧
    env.isAtEndOfMacroExpansion E.getEndLoc = true ∧
    (env.getExpansionRange E.getSourceRange).Begin ∉
      st.StartLocationsOfExpansionsContainingStartOfOtherExpansion ∧
    (env.getExpansionRange E.getSourceRange).Begin ∉
      st.StartLocationsOFExpansionsContainedInOtherExpansion ∧
    ∃ MacroName MI,
      st.ExpansionStartLocationToMacroNames (env.getExpansionRange E.getSourceRange).Begin =
        some [MacroName] ∧
      env.getExpansionRange E.getSourceRange ∈
        (st.MacroNameToExpansionRanges MacroName).getD [] ∧
      MacroName ∉ st.MultiplyDefinedMacros ∧
      st.MacroNameToDirective MacroName = some MI ∧
      MI.getNumParams ≤ 1 ∧
      (MI.getNumParams = 1 →
        ∃ Param, MI.Params = some [Param] ∧ MI.getDefinitionLength = Param.length) ∧
      (exprHasSideEffects E st.EHasSideEffects).1 = false ∧
      (exprContainsLocalVars E st.EContainsLocalVars).1 = false := by
  rcases transformEntireExpr_cases fuel env st E with
    ⟨r, st', hr, hne, -⟩ | herr | ⟨MacroName, MI, hck⟩
  · rw [hr] at h
    simp [returned] at h
    exact absurd h hne
  · rw [herr] at h
    simp [returned] at h
  · rw [transformEntireExpr_of_macroChecks hck fuel] at h
    by_cases hse : (exprHasSideEffects E st.EHasSideEffects).1 = true
    · simp [hse, returned] at h
    · by_cases hclv : (exprContainsLocalVars E st.EContainsLocalVars).1 = true
      · simp [hse, hclv, returned] at h
      · refine ⟨hck.atStart, hck.atEnd, hck.notContaining, hck.notContained, MacroName, MI,
          hck.oneName, hck.sameExpansion, hck.singlyDefined, hck.directive,
          MacroInfo.getNumParams_le_one hck.atMostOneParam, ?_, by simpa using hse,
          by simpa using hclv⟩
        intro h1
        obtain ⟨Param, hP⟩ := MacroInfo.unary_of_getNumParams h1
        refine ⟨Param, hP, ?_⟩
        have hu := hck.unaryTest
        unfold transformEntireExpr.failsUnaryTest at hu
        rw [hP] at hu
        simpa using hu

/-- Witness of C1: the expansion of `ONE` in `x = ONE;`. -/
theorem transformEntireExpr_transformed_sound_witness :
    returned (transformEntireExpr 1 ExampleONE.env ExampleONE.st ExampleONE.Lit) =
      some .TRANSFORMED ∧
    ExampleONE.env.isAtStartOfMacroExpansion ExampleONE.Lit.getBeginLoc = true ∧
    ExampleONE.env.isAtEndOfMacroExpansion ExampleONE.Lit.getEndLoc = true ∧
    (ExampleONE.env.getExpansionRange ExampleONE.Lit.getSourceRange).Begin ∉
      ExampleONE.st.StartLocationsOfExpansionsContainingStartOfOtherExpansion ∧
    (ExampleONE.env.getExpansionRange ExampleONE.Lit.getSourceRange).Begin ∉
      ExampleONE.st.StartLocationsOFExpansionsContainedInOtherExpansion ∧
    ∃ MacroName MI,
      ExampleONE.st.ExpansionStartLocationToMacroNames
        (ExampleONE.env.getExpansionRange ExampleONE.Lit.getSourceRange).Begin =
        some [MacroName] ∧
      ExampleONE.env.getExpansionRange ExampleONE.Lit.getSourceRange ∈
        (ExampleONE.st.MacroNameToExpansionRanges MacroName).getD [] ∧
      MacroName ∉ ExampleONE.st.MultiplyDefinedMacros ∧
      ExampleONE.st.MacroNameToDirective MacroName = some MI ∧
      MI.getNumParams ≤ 1 ∧
      (MI.getNumParams = 1 →
        ∃ Param, MI.Params = some [Param] ∧ MI.getDefinitionLength = Param.length) ∧
      (exprHasSideEffects ExampleONE.Lit ExampleONE.st.EHasSideEffects).1 = false ∧
      (exprContainsLocalVars ExampleONE.Lit ExampleONE.st.EContainsLocalVars).1 = false :=
  ⟨by decide,
    transformEntireExpr_transformed_sound 1 ExampleONE.env ExampleONE.st ExampleONE.Lit
      (by decide)⟩

/-! ## Rejection for side effects -/

/-- Counterexample to C6 as stated: the expansion of the object-like macro
`#define NEXT next()` in `x = NEXT;` is rejected with `HAS_SIDE_EFFECTS`. -/
theorem transformEntireExpr_side_effects_counterexample :
    ExampleNEXT.MI.isObjectLike = true ∧
    returned (transformEntireExpr 1 ExampleNEXT.env ExampleNEXT.st ExampleNEXT.Call) =
      some .HAS_SIDE_EFFECTS := by
  decide

/-- C6 (amended): `transformEntireExpr` returns `HAS_SIDE_EFFECTS` exactly when the
expansion passes the checks on the macro (whole expansion, not nested, one recorded name, a
recorded range, singly defined, at most one parameter, definition length equal to the
parameter length) and `exprHasSideEffects` is true of its expression, whether the macro is
object-like or function-like and however its body uses the parameter; and an expression of
which `exprHasSideEffects` is true is never transformed. -/
theorem transformEntireExpr_has_side_effects_iff (fuel : Nat) (env : Env) (st : State)
    (E : Expr) :
    (returned (transformEntireExpr fuel env st E) = some .HAS_SIDE_EFFECTS ↔
      ∃ MacroName MI, transformEntireExpr.MacroChecks env st E MacroName MI ∧
        (exprHasSideEffects E st.EHasSideEffects).1 = true) ∧
    ((exprHasSideEffects E st.EHasSideEffects).1 = true →
      returned (transformEntireExpr fuel env st E) ≠ some .TRANSFORMED) := by
  constructor
  · constructor
    · intro h
      rcases transformEntireExpr_cases fuel env st E with
        ⟨r, st', hr, -, hne, -⟩ | herr | ⟨MacroName, MI, hck⟩
      · rw [hr] at h
        simp [returned] at h
        exact absurd h hne
      · rw [herr] at h
        simp [returned] at h
      · refine ⟨MacroName, MI, hck, ?_⟩
        rw [transformEntireExpr_of_macroChecks hck fuel] at h
        by_contra hse
        by_cases hclv : (exprContainsLocalVars E st.EContainsLocalVars).1 = true
        · simp [hse, hclv, returned] at h
        · simp only [hse, hclv, if_false] at h
          generalize hx : transformEntireExpr.emit fuel env
            (transformEntireExpr.stateAtNaming st E MacroName) E MacroName MI = x at h
          match x, hx, h with
          | .ok (r, st'), hx, h =>
            simp [returned] at h
            subst h
            have := emit_result hx
            simp at this
    · rintro ⟨MacroName, MI, hck, hse⟩
      rw [transformEntireExpr_of_macroChecks hck fuel]
      simp [hse, returned]
  · intro hse h
    rcases transformEntireExpr_cases fuel env st E with
      ⟨r, st', hr, hne, -⟩ | herr | ⟨MacroName, MI, hck⟩
    · rw [hr] at h
      simp [returned] at h
      exact absurd h hne
    · rw [herr] at h
      simp [returned] at h
    · rw [transformEntireExpr_of_macroChecks hck fuel] at h
      simp [hse, returned] at h

/-! ## Rejection of local capture -/

theorem exprContainsLocalVars_eq_rec {m : Memo Bool} (hm : ReachableEContainsLocalVars m)
    (E : Expr) : (exprContainsLocalVars E m).1 = exprContainsLocalVarsRec E :=
  (exprContainsLocalVars_spec E m hm.localVars_memo_sound).1

/-- An expression that passes both tests refers to global variables only. -/
theorem refersToNonGlobalVar_of_tests :
    ∀ (E : Expr), exprHasSideEffectsRec E = false → exprContainsLocalVarsRec E = false →
      E.refersToNonGlobalVar = false
  | .ImplicitCastExpr _ E0, h1, h2 => by
    simp only [exprHasSideEffectsRec] at h1
    simp only [exprContainsLocalVarsRec] at h2
    simpa [Expr.refersToNonGlobalVar] using refersToNonGlobalVar_of_tests E0 h1 h2
  | .IntegerLiteral _ _, _, _ => by simp [Expr.refersToNonGlobalVar]
  | .DeclRefExpr _ (.Var VD), _, h2 => by
    simpa [Expr.refersToNonGlobalVar, exprContainsLocalVarsRec] using h2
  | .DeclRefExpr _ (.NonVar _), _, _ => by simp [Expr.refersToNonGlobalVar]
  | .ParenExpr _ E0, h1, h2 => by
    simp only [exprHasSideEffectsRec] at h1
    simp only [exprContainsLocalVarsRec] at h2
    simpa [Expr.refersToNonGlobalVar] using refersToNonGlobalVar_of_tests E0 h1 h2
  | .UnaryOperator _ OC E0, h1, h2 => by
    by_cases hoc : isPlusMinus OC = true
    · simp only [exprHasSideEffectsRec, hoc, if_true] at h1
      simp only [exprContainsLocalVarsRec, hoc, if_true] at h2
      simpa [Expr.refersToNonGlobalVar] using refersToNonGlobalVar_of_tests E0 h1 h2
    · simp [exprHasSideEffectsRec, hoc] at h1
  | .BinaryOperator _ OC E1 E2, h1, h2 => by
    by_cases hoc : isAddSubMulDiv OC = true
    · simp only [exprHasSideEffectsRec, hoc, if_true, Bool.or_eq_false_iff] at h1
      simp only [exprContainsLocalVarsRec, hoc, if_true, Bool.or_eq_false_iff] at h2
      have ih1 := refersToNonGlobalVar_of_tests E1 h1.1 h2.1
      have ih2 := refersToNonGlobalVar_of_tests E2 h1.2 h2.2
      simp [Expr.refersToNonGlobalVar, ih1, ih2]
    · simp [exprHasSideEffectsRec, hoc] at h1
  | .CallExpr _ _ _, h1, _ => by simp [exprHasSideEffectsRec] at h1
  | .OtherExpr _ _, h1, _ => by simp [exprHasSideEffectsRec] at h1

/-- C7: let the tables `EHasSideEffects` and `EContainsLocalVars` be tables that can arise.
For every expression whose tree contains a reference to a variable that is not global,
`transformEntireExpr` does not return `TRANSFORMED`, makes no call to the rewriter and
reserves no name; the only way it can fail to return is the use of a null macro directive,
before anything is emitted. -/
theorem transformEntireExpr_rejects_local_capture (fuel : Nat) (env : Env) (st : State)
    (E : Expr) (hse : ReachableEHasSideEffects st.EHasSideEffects)
    (hclv : ReachableEContainsLocalVars st.EContainsLocalVars)
    (hE : E.refersToNonGlobalVar = true) :
    (∃ r st', transformEntireExpr fuel env st E = .ok (r, st') ∧ r ≠ .TRANSFORMED ∧
      st'.RW = st.RW ∧ st'.AllVarNames = st.AllVarNames ∧
      st'.AllFunctionNames = st.AllFunctionNames ∧ st'.AllMacroNames = st.AllMacroNames) ∨
    transformEntireExpr fuel env st E = .error .NullMacroDirective := by
  rcases transformEntireExpr_cases fuel env st E with
    ⟨r, st', hr, hne, -, hrest⟩ | herr | ⟨MacroName, MI, hck⟩
  · exact Or.inl ⟨r, st', hr, hne, hrest⟩
  · exact Or.inr herr
  · left
    rw [transformEntireExpr_of_macroChecks hck fuel]
    by_cases h1 : (exprHasSideEffects E st.EHasSideEffects).1 = true
    · rw [if_pos h1]
      exact ⟨.HAS_SIDE_EFFECTS, _, rfl, by simp, rfl, rfl, rfl, rfl⟩
    · by_cases h2 : (exprContainsLocalVars E st.EContainsLocalVars).1 = true
      · rw [if_neg h1, if_pos h2]
        exact ⟨.NOT_TRANSFORMED, _, rfl, by simp, rfl, rfl, rfl, rfl⟩
      · exfalso
        rw [exprHasSideEffects_eq_rec hse] at h1
        rw [exprContainsLocalVars_eq_rec hclv] at h2
        have := refersToNonGlobalVar_of_tests E (by simpa using h1) (by simpa using h2)
        rw [hE] at this
        exact absurd this (by decide)

/-- Witness of C7: the expansion of `#define GET n` in `return GET;`, `n` a local variable
of `main`. -/
theorem transformEntireExpr_rejects_local_capture_witness :
    ExampleGET.Operand.refersToNonGlobalVar = true ∧
    ((∃ r st', transformEntireExpr 1 ExampleGET.env ExampleGET.st ExampleGET.Operand =
        .ok (r, st') ∧ r ≠ .TRANSFORMED ∧
      st'.RW = ExampleGET.st.RW ∧ st'.AllVarNames = ExampleGET.st.AllVarNames ∧
      st'.AllFunctionNames = ExampleGET.st.AllFunctionNames ∧
      st'.AllMacroNames = ExampleGET.st.AllMacroNames) ∨
    transformEntireExpr 1 ExampleGET.env ExampleGET.st ExampleGET.Operand =
      .error .NullMacroDirective) :=
  ⟨by decide,
    transformEntireExpr_rejects_local_capture 1 ExampleGET.env ExampleGET.st
      ExampleGET.Operand ReachableEHasSideEffects.empty ReachableEContainsLocalVars.empty
      (by decide)⟩

/-! ## The test on a macro with one parameter -/

/-- C8, the direction that holds: a body that consists of exactly the parameter token
passes the test. -/
theorem failsUnaryTest_of_identity (MI : MacroInfo) (Param : String) (Loc : SourceLocation)
    (hP : MI.Params = some [Param])
    (hB : MI.ReplacementTokens = [{ Loc := Loc, Text := Param }]) :
    transformEntireExpr.failsUnaryTest MI = false := by
  simp [transformEntireExpr.failsUnaryTest, hP, MacroInfo.getDefinitionLength, hB]

/-- C8, the failing input: the body of `#define F(x) 1` is not the parameter, yet the test
passes, and the expansion `F(y)` is transformed into a call of a function whose body is
`1`. -/
theorem failsUnaryTest_accepts_non_identity :
    ExampleF.MI.Params = some ["x"] ∧
    ExampleF.MI.ReplacementTokens.map Token.Text ≠ ["x"] ∧
    transformEntireExpr.failsUnaryTest ExampleF.MI = false ∧
    rewriterCalls (transformEntireExpr 1 ExampleF.env ExampleF.st ExampleF.Lit) =
      some [⟨.InsertTextAfter 14 "\nint F_function(int x) \x7b\n    return 1;\n\x7d", false⟩,
            ⟨.ReplaceText ⟨42, 45⟩ "F_function(y)", false⟩] ∧
    returned (transformEntireExpr 1 ExampleF.env ExampleF.st ExampleF.Lit) =
      some .TRANSFORMED := by
  decide

/-! ## The naming step -/

theorem uniqueDefName_eq (fuel : Nat) (st : State) (MacroName : String) (MI : MacroInfo) :
    uniqueDefName fuel st MacroName MI =
      uniqueDefNameLoop st MacroName (if MI.isObjectLike then "_var" else "_function") fuel
        (uniqueDefName.base MacroName MI) 0 := by
  unfold uniqueDefName uniqueDefName.base
  rfl

theorem uniqueDefNameLoop_free (st : State) (MacroName suffix : String) :
    ∀ (fuel : Nat) (DefName : String) (i : Nat) (Name : String),
      uniqueDefNameLoop st MacroName suffix fuel DefName i = some Name →
        isNameTaken st Name = false
  | 0, _, _, _, h => by simp [uniqueDefNameLoop] at h
  | fuel + 1, DefName, i, Name, h => by
    unfold uniqueDefNameLoop at h
    split at h
    · exact uniqueDefNameLoop_free st MacroName suffix fuel _ _ Name h
    · rename_i hfree
      simp only [Option.some.injEq] at h
      subst h
      simpa using hfree

theorem uniqueDefNameLoop_first (st : State) (MacroName suffix : String) (fuel : Nat)
    (DefName : String) (i : Nat) (h : isNameTaken st DefName = false) :
    uniqueDefNameLoop st MacroName suffix (fuel + 1) DefName i = some DefName := by
  unfold uniqueDefNameLoop
  simp [h]

theorem uniqueDefNameLoop_least (st : State) (MacroName suffix : String) (k : Nat)
    (hk : k < 2 ^ 32) (hfree : isNameTaken st (MacroName ++ suffix ++ toString k) = false) :
    ∀ (n j : Nat), j + n = k →
      (∀ j2, j ≤ j2 → j2 < k → isNameTaken st (MacroName ++ suffix ++ toString j2) = true) →
      ∀ fuel, n + 1 ≤ fuel →
        uniqueDefNameLoop st MacroName suffix fuel (MacroName ++ suffix ++ toString j)
          ((j + 1) % 2 ^ 32) = some (MacroName ++ suffix ++ toString k)
  | 0, j, hj, _, fuel, hfuel => by
    obtain ⟨f, rfl⟩ : ∃ f, fuel = f + 1 := ⟨fuel - 1, by omega⟩
    have : j = k := by omega
    subst this
    exact uniqueDefNameLoop_first st MacroName suffix f _ _ hfree
  | n + 1, j, hj, htaken, fuel, hfuel => by
    obtain ⟨f, rfl⟩ : ∃ f, fuel = f + 1 := ⟨fuel - 1, by omega⟩
    have hjk : j < k := by omega
    have hmod : (j + 1) % 2 ^ 32 = j + 1 := Nat.mod_eq_of_lt (by omega)
    unfold uniqueDefNameLoop
    rw [if_pos (htaken j (Nat.le_refl j) hjk), hmod]
    exact uniqueDefNameLoop_least st MacroName suffix k hk hfree n (j + 1) (by omega)
      (fun j2 h1 h2 => htaken j2 (by omega) h2) f (by omega)

theorem isNameTaken_eq_false_iff (st : State) (Name : String) :
    isNameTaken st Name = false ↔
      Name ∉ st.AllVarNames ∧ Name ∉ st.AllFunctionNames ∧ Name ∉ st.AllMacroNames := by
  simp [isNameTaken, and_assoc]

theorem callRewriter_names (env : Env) (st : State) (Request : RewriteRequest) :
    (callRewriter env st Request).2.AllVarNames = st.AllVarNames ∧
    (callRewriter env st Request).2.AllFunctionNames = st.AllFunctionNames ∧
    (callRewriter env st Request).2.AllMacroNames = st.AllMacroNames :=
  ⟨rfl, rfl, rfl⟩

theorem define_names (st : State) (MI : MacroInfo) (DefName DefBody : String)
    (hn : MI.getNumParams ≤ 1) :
    (transformEntireExpr.define st MI DefName DefBody).2.AllVarNames =
        (if MI.isObjectLike = true then st.AllVarNames.insert DefName else st.AllVarNames) ∧
    (transformEntireExpr.define st MI DefName DefBody).2.AllFunctionNames =
        (if MI.isObjectLike = true then st.AllFunctionNames
          else st.AllFunctionNames.insert DefName) ∧
    (transformEntireExpr.define st MI DefName DefBody).2.AllMacroNames = st.AllMacroNames := by
  rcases hP : MI.Params with _ | (_ | ⟨p, _ | ⟨q, rest⟩⟩)
  · simp [transformEntireExpr.define, hP, MacroInfo.isObjectLike, MacroInfo.isFunctionLike]
  · simp [transformEntireExpr.define, hP, MacroInfo.isObjectLike, MacroInfo.isFunctionLike]
  · simp [transformEntireExpr.define, hP, MacroInfo.isObjectLike, MacroInfo.isFunctionLike]
  · simp [MacroInfo.getNumParams, hP] at hn

theorem macroBodyBegin_isSome (env : Env) (MI : MacroInfo) (hn : MI.getNumParams ≤ 1) :
    transformEntireExpr.macroBodyBegin env MI ≠ none := by
  rcases hP : MI.Params with _ | (_ | ⟨p, _ | ⟨q, rest⟩⟩)
  · simp [transformEntireExpr.macroBodyBegin, hP]
  · simp [transformEntireExpr.macroBodyBegin, hP]
  · simp [transformEntireExpr.macroBodyBegin, hP]
  · simp [MacroInfo.getNumParams, hP] at hn

theorem uniqueDefName_of_base_free (st : State) (MacroName : String) (MI : MacroInfo)
    (h : isNameTaken st (uniqueDefName.base MacroName MI) = false) (fuel : Nat) :
    uniqueDefName (fuel + 1) st MacroName MI = some (uniqueDefName.base MacroName MI) := by
  rw [uniqueDefName_eq]
  exact uniqueDefNameLoop_first st _ _ fuel _ 0 h

theorem uniqueDefName_is_free {fuel : Nat} {st : State} {MacroName DefName : String}
    {MI : MacroInfo} (h : uniqueDefName fuel st MacroName MI = some DefName) :
    DefName ∉ st.AllVarNames ∧ DefName ∉ st.AllFunctionNames ∧ DefName ∉ st.AllMacroNames := by
  rw [uniqueDefName_eq] at h
  exact (isNameTaken_eq_false_iff st DefName).1 (uniqueDefNameLoop_free st _ _ _ _ _ _ h)

/-- The three name sets after the last part of `transformEntireExpr` has returned. -/
theorem emit_names {fuel : Nat} {env : Env} {st st' : State} {E : Expr}
    {MacroName : String} {MI : MacroInfo} {r : TransformationResult}
    (hn : MI.getNumParams ≤ 1)
    (h : transformEntireExpr.emit fuel env st E MacroName MI = .ok (r, st')) :
    ∃ DefName, uniqueDefName fuel st MacroName MI = some DefName ∧
      st'.AllVarNames =
        (if MI.isObjectLike = true then st.AllVarNames.insert DefName else st.AllVarNames) ∧
      st'.AllFunctionNames =
        (if MI.isObjectLike = true then st.AllFunctionNames
          else st.AllFunctionNames.insert DefName) ∧
      st'.AllMacroNames = st.AllMacroNames := by
  unfold transformEntireExpr.emit at h
  cases hu : uniqueDefName fuel st MacroName MI with
  | none => simp [hu] at h
  | some DefName =>
    refine ⟨DefName, rfl, ?_⟩
    simp only [hu] at h
    have hb := macroBodyBegin_isSome env MI hn
    split at h
    · rename_i hnone
      exact absurd hnone hb
    · have hd := define_names st MI DefName
        (env.getSourceText (env.getAsCharRange
          { Begin := ‹SourceLocation›, End := MI.DefinitionEndLoc })) hn
      repeat' split at h
      all_goals simp only [Except.ok.injEq, Prod.mk.injEq, reduceCtorEq] at h
      all_goals (obtain ⟨-, rfl⟩ := h; simpa only [callRewriter_names] using hd)

theorem ExampleSaturated.taken_base :
    isNameTaken ExampleSaturated.st (uniqueDefName.base "M" ExampleONE.MI) = true := by
  have h : uniqueDefName.base "M" ExampleONE.MI = "M_var" := by decide
  rw [h]
  unfold isNameTaken ExampleSaturated.st
  simp only [Bool.or_eq_true, decide_eq_true_eq]
  exact Or.inl (Or.inl (List.mem_cons_self _ _))

theorem ExampleSaturated.taken_candidate (i : Nat) (hi : i < 2 ^ 32) :
    isNameTaken ExampleSaturated.st ("M" ++ "_var" ++ toString i) = true := by
  have h : "M" ++ "_var" = "M_var" := by decide
  rw [h]
  unfold isNameTaken ExampleSaturated.st
  simp only [Bool.or_eq_true, decide_eq_true_eq]
  exact Or.inl (Or.inl (List.mem_cons_of_mem _
    (List.mem_map.mpr ⟨i, List.mem_range.mpr hi, rfl⟩)))

theorem ExampleSaturated.loop_none :
    ∀ (fuel : Nat) (DefName : String) (i : Nat),
      isNameTaken ExampleSaturated.st DefName = true → i < 2 ^ 32 →
        uniqueDefNameLoop ExampleSaturated.st "M" "_var" fuel DefName i = none
  | 0, _, _, _, _ => by simp [uniqueDefNameLoop]
  | fuel + 1, DefName, i, ht, hi => by
    unfold uniqueDefNameLoop
    rw [if_pos ht]
    exact ExampleSaturated.loop_none fuel _ _ (ExampleSaturated.taken_candidate i hi)
      (Nat.mod_lt _ (by decide))

/-- Counterexample to C2 as stated: in the finite universe that holds `M_var` and `M_var`
followed by every numeral below `2 ^ 32`, the naming step for the object-like macro `M`
chooses no name, whatever the number of steps it is given: the `unsigned int` counter wraps
around and the loop runs through the same taken candidates again. -/
theorem uniqueDefName_counterexample :
    ¬ ∃ fuel DefName, uniqueDefName fuel ExampleSaturated.st "M" ExampleONE.MI = some DefName := by
  rintro ⟨fuel, DefName, h⟩
  rw [uniqueDefName_eq] at h
  have hs : (if ExampleONE.MI.isObjectLike = true then "_var" else "_function") = "_var" := by
    decide
  rw [hs] at h
  rw [ExampleSaturated.loop_none fuel _ 0 ExampleSaturated.taken_base (by decide)] at h
  exact absurd h (by simp)

/-- C2 (amended): let `base` be `MacroName + "_var"` for an object-like macro and
`MacroName + "_function"` for a function-like one.  When `base` is free the naming step
chooses `base`; when `base` is taken and `k < 2 ^ 32` is the least number for which `base`
followed by the decimal numeral of `k` is free, it chooses that name (in both cases within
`k + 2` evaluations of the loop condition).  Every name it chooses is in none of
`AllVarNames`, `AllFunctionNames`, `AllMacroNames`.  Whenever the last part of
`transformEntireExpr` returns for a macro with at most one parameter, the chosen name has
been inserted into `AllVarNames` for an object-like macro and into `AllFunctionNames` for a
function-like one, and nothing else in the three sets has changed. -/
theorem uniqueDefName_spec (st : State) (MacroName : String) (MI : MacroInfo) :
    (isNameTaken st (uniqueDefName.base MacroName MI) = false →
      ∀ fuel, 1 ≤ fuel →
        uniqueDefName fuel st MacroName MI = some (uniqueDefName.base MacroName MI)) ∧
    (∀ k, k < 2 ^ 32 → isNameTaken st (uniqueDefName.base MacroName MI) = true →
      (∀ j, j < k → isNameTaken st (uniqueDefName.base MacroName MI ++ toString j) = true) →
      isNameTaken st (uniqueDefName.base MacroName MI ++ toString k) = false →
      ∀ fuel, k + 2 ≤ fuel →
        uniqueDefName fuel st MacroName MI =
          some (uniqueDefName.base MacroName MI ++ toString k)) ∧
    (∀ fuel DefName, uniqueDefName fuel st MacroName MI = some DefName →
      DefName ∉ st.AllVarNames ∧ DefName ∉ st.AllFunctionNames ∧
        DefName ∉ st.AllMacroNames) ∧
    (∀ fuel env E r st', MI.getNumParams ≤ 1 →
      transformEntireExpr.emit fuel env st E MacroName MI = .ok (r, st') →
      ∃ DefName, uniqueDefName fuel st MacroName MI = some DefName ∧
        st'.AllVarNames =
          (if MI.isObjectLike = true then st.AllVarNames.insert DefName
            else st.AllVarNames) ∧
        st'.AllFunctionNames =
          (if MI.isObjectLike = true then st.AllFunctionNames
            else st.AllFunctionNames.insert DefName) ∧
        st'.AllMacroNames = st.AllMacroNames) := by
  refine ⟨?_, ?_, ?_, ?_⟩
  · intro hfree fuel hfuel
    obtain ⟨f, rfl⟩ : ∃ f, fuel = f + 1 := ⟨fuel - 1, by omega⟩
    exact uniqueDefName_of_base_free st MacroName MI hfree f
  · intro k hk htaken hbelow hfree fuel hfuel
    obtain ⟨f, rfl⟩ : ∃ f, fuel = f + 1 := ⟨fuel - 1, by omega⟩
    rw [uniqueDefName_eq]
    unfold uniqueDefNameLoop
    rw [if_pos htaken]
    exact uniqueDefNameLoop_least st MacroName _ k hk hfree k 0 (by omega)
      (fun j _ h2 => hbelow j h2) f (by omega)
  · intro fuel DefName h
    exact uniqueDefName_is_free h
  · intro fuel env E r st' hn h
    exact emit_names hn h

/-- Witness of C2 (amended): with `ONE_var` and `ONE_var0` declared, the naming step for
`ONE` chooses `ONE_var1`; in the universe of `ExampleONE` it chooses `ONE_var`. -/
theorem uniqueDefName_spec_witness :
    uniqueDefName 1 ExampleONE.st "ONE" ExampleONE.MI = some "ONE_var" ∧
    uniqueDefName 3 ExampleTaken.st "ONE" ExampleONE.MI = some "ONE_var1" ∧
    "ONE_var1" ∉ ExampleTaken.st.AllVarNames :=
  ⟨(uniqueDefName_spec ExampleONE.st "ONE" ExampleONE.MI).1 (by decide) 1 (by decide),
    (uniqueDefName_spec ExampleTaken.st "ONE" ExampleONE.MI).2.1 1 (by decide) (by decide)
      (by decide) (by decide) 3 (by decide),
    ((uniqueDefName_spec ExampleTaken.st "ONE" ExampleONE.MI).2.2.1 3 "ONE_var1"
      (by decide)).1⟩

/-! ## Names never collide -/

theorem uniqueDefNameLoop_congr (st st' : State) (MacroName suffix : String)
    (h : ∀ Name, isNameTaken st Name = isNameTaken st' Name) :
    ∀ (fuel : Nat) (DefName : String) (i : Nat),
      uniqueDefNameLoop st MacroName suffix fuel DefName i =
        uniqueDefNameLoop st' MacroName suffix fuel DefName i
  | 0, _, _ => by simp [uniqueDefNameLoop]
  | fuel + 1, DefName, i => by
    unfold uniqueDefNameLoop
    rw [h DefName, uniqueDefNameLoop_congr st st' MacroName suffix h fuel]

theorem uniqueDefName_stateAtNaming (fuel : Nat) (st : State) (E : Expr)
    (MacroName N : String) (MI : MacroInfo) :
    uniqueDefName fuel (transformEntireExpr.stateAtNaming st E N) MacroName MI =
      uniqueDefName fuel st MacroName MI := by
  rw [uniqueDefName_eq, uniqueDefName_eq]
  exact uniqueDefNameLoop_congr (transformEntireExpr.stateAtNaming st E N) st _ _
    (fun _ => rfl) _ _ _

theorem ok_of_returned {t : Except Abort (TransformationResult × State)}
    {r : TransformationResult} (h : returned t = some r) : t = .ok (r, resultState t) := by
  match t, h with
  | .ok (r1, st1), h =>
    simp only [returned, Option.some.injEq] at h
    subst h
    rfl

/-- A call that returns `TRANSFORMED` chose a name that was free, has inserted it, and has
removed no name. -/
theorem transformed_step {fuel : Nat} {env : Env} {st st1 : State} {E : Expr}
    {DefName : String}
    (h : transformEntireExpr fuel env st E = .ok (.TRANSFORMED, st1))
    (hc : transformEntireExpr.chosenName fuel env st E = some DefName) :
    isNameTaken st DefName = false ∧ isNameTaken st1 DefName = true ∧
      ∀ Name, isNameTaken st Name = true → isNameTaken st1 Name = true := by
  rcases transformEntireExpr_cases fuel env st E with
    ⟨r, st', hr, hne, -⟩ | herr | ⟨MacroName, MI, hck⟩
  · rw [hr] at h
    simp only [Except.ok.injEq, Prod.mk.injEq] at h
    exact absurd h.1 hne
  · rw [herr] at h
    simp at h
  · have hchosen : uniqueDefName fuel st MacroName MI = some DefName := by
      unfold transformEntireExpr.chosenName at hc
      simpa [hck.oneName, hck.directive] using hc
    rw [transformEntireExpr_of_macroChecks hck fuel] at h
    split at h
    · simp at h
    · split at h
      · simp at h
      · obtain ⟨D, hD, hv, hf, hm⟩ :=
          emit_names (MacroInfo.getNumParams_le_one hck.atMostOneParam) h
        rw [uniqueDefName_stateAtNaming, hchosen] at hD
        simp only [Option.some.injEq] at hD
        subst hD
        have hfree := uniqueDefName_is_free hchosen
        have hv0 : (transformEntireExpr.stateAtNaming st E MacroName).AllVarNames =
            st.AllVarNames := rfl
        have hf0 : (transformEntireExpr.stateAtNaming st E MacroName).AllFunctionNames =
            st.AllFunctionNames := rfl
        have hm0 : (transformEntireExpr.stateAtNaming st E MacroName).AllMacroNames =
            st.AllMacroNames := rfl
        rw [hv0] at hv
        rw [hf0] at hf
        rw [hm0] at hm
        refine ⟨(isNameTaken_eq_false_iff st DefName).2 hfree, ?_, ?_⟩
        · unfold isNameTaken
          rw [hv, hf]
          by_cases hobj : MI.isObjectLike = true <;> simp [hobj]
        · intro Name hName
          unfold isNameTaken at hName ⊢
          rw [hv, hf, hm]
          by_cases hobj : MI.isObjectLike = true <;>
            simp only [hobj, if_true, if_false, Bool.or_eq_true, decide_eq_true_eq,
              List.mem_insert_iff, Bool.false_eq_true] at hName ⊢ <;> tauto

theorem NamingRun.names_fresh {fuel : Nat} {st st' : State} {Names : List String}
    (h : NamingRun fuel st Names st') :
    Names.Nodup ∧ (∀ Name ∈ Names, isNameTaken st Name = false) ∧
      (∀ Name ∈ Names, isNameTaken st' Name = true) ∧
      (∀ Name, isNameTaken st Name = true → isNameTaken st' Name = true) := by
  induction h with
  | done st => exact ⟨List.nodup_nil, by simp, by simp, fun _ h => h⟩
  | transformed env E st st1 st2 DefName Names ht hc _ ih =>
    obtain ⟨hfree, htaken, hmono⟩ := transformed_step ht hc
    obtain ⟨hnd, hfresh, hall, hmono2⟩ := ih
    refine ⟨List.nodup_cons.2 ⟨?_, hnd⟩, ?_, ?_, fun n hn => hmono2 n (hmono n hn)⟩
    · intro hmem
      have := hfresh DefName hmem
      rw [htaken] at this
      exact absurd this (by decide)
    · intro Name hmem
      rcases List.mem_cons.1 hmem with rfl | hmem
      · exact hfree
      · by_contra hne
        have h1 := hmono Name (by simpa using hne)
        rw [hfresh Name hmem] at h1
        exact absurd h1 (by decide)
    · intro Name hmem
      rcases List.mem_cons.1 hmem with rfl | hmem
      · exact hmono2 _ htaken
      · exact hall Name hmem
  | other st st1 st2 Names hmono _ ih =>
    obtain ⟨hnd, hfresh, hall, hmono2⟩ := ih
    refine ⟨hnd, ?_, hall, fun n hn => hmono2 n (hmono n hn)⟩
    intro Name hmem
    by_contra hne
    have h1 := hmono Name (by simpa using hne)
    rw [hfresh Name hmem] at h1
    exact absurd h1 (by decide)

/-- C3: over any sequence of steps run against one identifier universe, the names emitted
by the calls of `transformEntireExpr` that returned `TRANSFORMED` are pairwise distinct, none
of them is a variable, function or macro name of the universe the sequence started from, and
each of them is in the universe the sequence ends with. -/
theorem naming_never_collides (fuel : Nat) (st st' : State) (Names : List String)
    (h : NamingRun fuel st Names st') :
    Names.Nodup ∧
    (∀ Name ∈ Names, Name ∉ st.AllVarNames ∧ Name ∉ st.AllFunctionNames ∧
      Name ∉ st.AllMacroNames) ∧
    (∀ Name ∈ Names, Name ∈ st'.AllVarNames ∨ Name ∈ st'.AllFunctionNames ∨
      Name ∈ st'.AllMacroNames) := by
  obtain ⟨hnd, hfresh, hall, -⟩ := NamingRun.names_fresh h
  refine ⟨hnd, fun Name hmem => (isNameTaken_eq_false_iff st Name).1 (hfresh Name hmem), ?_⟩
  intro Name hmem
  have := hall Name hmem
  simpa [isNameTaken, or_assoc] using this

/-- Witness of C3: the two expansions of `ONE` in `x = ONE; x = ONE;` are transformed one
after the other; the names emitted are `ONE_var` and `ONE_var0`. -/
theorem naming_never_collides_witness :
    NamingRun 2 ExampleTWICE.st ["ONE_var", "ONE_var0"] ExampleTWICE.st2 ∧
    (["ONE_var", "ONE_var0"].Nodup ∧
    (∀ Name ∈ ["ONE_var", "ONE_var0"], Name ∉ ExampleTWICE.st.AllVarNames ∧
      Name ∉ ExampleTWICE.st.AllFunctionNames ∧ Name ∉ ExampleTWICE.st.AllMacroNames) ∧
    (∀ Name ∈ ["ONE_var", "ONE_var0"], Name ∈ ExampleTWICE.st2.AllVarNames ∨
      Name ∈ ExampleTWICE.st2.AllFunctionNames ∨ Name ∈ ExampleTWICE.st2.AllMacroNames)) :=
  have hrun : NamingRun 2 ExampleTWICE.st ["ONE_var", "ONE_var0"] ExampleTWICE.st2 :=
    NamingRun.transformed ExampleTWICE.env ExampleTWICE.Lit1 ExampleTWICE.st ExampleTWICE.st1
      ExampleTWICE.st2 "ONE_var" ["ONE_var0"] (ok_of_returned (by decide)) (by decide)
      (NamingRun.transformed ExampleTWICE.env ExampleTWICE.Lit2 ExampleTWICE.st1
        ExampleTWICE.st2 ExampleTWICE.st2 "ONE_var0" [] (ok_of_returned (by decide))
        (by decide) (NamingRun.done _))
  ⟨hrun, naming_never_collides 2 ExampleTWICE.st ExampleTWICE.st2 ["ONE_var", "ONE_var0"] hrun⟩

/-! ## The classification tables -/

theorem isExprInCSubset_spec :
    ∀ (E : Expr) (m : Memo Bool), Memo.Sound isExprInCSubsetRec m →
      (isExprInCSubset E m).1 = isExprInCSubsetRec E ∧
        Memo.Sound isExprInCSubsetRec (isExprInCSubset E m).2
  | .ImplicitCastExpr R E0, m, h => by
    rw [isExprInCSubset]
    exact Memo.findOrCompute_spec _ _ _ _ h (isExprInCSubset_spec E0 m h)
  | .IntegerLiteral R V, m, h => by
    rw [isExprInCSubset]
    exact Memo.findOrCompute_spec _ _ _ _ h ⟨rfl, h⟩
  | .DeclRefExpr R (.Var VD), m, h => by
    rw [isExprInCSubset]
    refine Memo.findOrCompute_spec _ _ _ _ h ?_
    by_cases ht : VD.TypeAsString = "int"
    · simpa [isExprInCSubsetRec, ht] using h
    · simpa [isExprInCSubsetRec, ht] using h
  | .DeclRefExpr R (.NonVar N), m, h => by
    rw [isExprInCSubset]
    exact Memo.findOrCompute_spec _ _ _ _ h ⟨rfl, h⟩
  | .ParenExpr R E0, m, h => by
    rw [isExprInCSubset]
    exact Memo.findOrCompute_spec _ _ _ _ h (isExprInCSubset_spec E0 m h)
  | .UnaryOperator R OC E0, m, h => by
    rw [isExprInCSubset]
    refine Memo.findOrCompute_spec _ _ _ _ h ?_
    have ih := isExprInCSubset_spec E0 m h
    by_cases hoc : isPlusMinus OC = true
    · simpa [isExprInCSubsetRec, hoc] using ih
    · simpa [isExprInCSubsetRec, hoc] using h
  | .BinaryOperator R OC E1 E2, m, h => by
    rw [isExprInCSubset]
    refine Memo.findOrCompute_spec _ _ _ _ h ?_
    have ih1 := isExprInCSubset_spec E1 m h
    have ih2 := isExprInCSubset_spec E2 (isExprInCSubset E1 m).2 ih1.2
    have ih2m := isExprInCSubset_spec E2 m h
    by_cases hoc : isAddSubMulDiv OC = true
    · by_cases h1 : (isExprInCSubset E1 m).1 = true
      · have e1 : isExprInCSubsetRec E1 = true := by rw [← ih1.1]; exact h1
        simpa [isExprInCSubsetRec, hoc, h1, e1] using ih2
      · have e1 : isExprInCSubsetRec E1 = false := by rw [← ih1.1]; simpa using h1
        simpa [isExprInCSubsetRec, hoc, h1, e1] using ih1.2
    · by_cases has : OC = .BO_Assign
      · subst has
        cases E1 with
        | DeclRefExpr R1 D =>
          cases D with
          | Var VD => simpa [isExprInCSubsetRec, isAddSubMulDiv] using ih2m
          | NonVar N => simpa [isExprInCSubsetRec, isAddSubMulDiv] using h
        | _ => simpa [isExprInCSubsetRec, isAddSubMulDiv] using h
      · simpa [isExprInCSubsetRec, hoc, has] using h
  | .CallExpr R C A, m, h => by
    rw [isExprInCSubset]
    exact Memo.findOrCompute_spec _ _ _ _ h ⟨rfl, h⟩
  | .OtherExpr R A, m, h => by
    rw [isExprInCSubset]
    exact Memo.findOrCompute_spec _ _ _ _ h ⟨rfl, h⟩

theorem classifyExpr.findOrCompute_tables_spec (Tables : Memo Bool × Memo CSubsetExpr) (E : Expr)
    (compute : Memo Bool × Memo CSubsetExpr → CSubsetExpr × (Memo Bool × Memo CSubsetExpr))
    (h1 : Memo.Sound isExprInCSubsetRec Tables.1) (h2 : Memo.Sound classifyExprRec Tables.2)
    (hc : (compute Tables).1 = classifyExprRec E ∧
      Memo.Sound isExprInCSubsetRec (compute Tables).2.1 ∧
      Memo.Sound classifyExprRec (compute Tables).2.2) :
    (classifyExpr.findOrCompute Tables E compute).1 = classifyExprRec E ∧
      Memo.Sound isExprInCSubsetRec (classifyExpr.findOrCompute Tables E compute).2.1 ∧
      Memo.Sound classifyExprRec (classifyExpr.findOrCompute Tables E compute).2.2 := by
  unfold classifyExpr.findOrCompute
  split
  · rename_i v hv
    exact ⟨h2 _ _ hv, h1, h2⟩
  · exact ⟨hc.1, hc.2.1, Memo.sound_insert _ _ E _ hc.2.2 hc.1⟩

theorem classifyExpr_spec :
    ∀ (E : Expr) (Tables : Memo Bool × Memo CSubsetExpr),
      Memo.Sound isExprInCSubsetRec Tables.1 → Memo.Sound classifyExprRec Tables.2 →
      (classifyExpr E Tables).1 = classifyExprRec E ∧
        Memo.Sound isExprInCSubsetRec (classifyExpr E Tables).2.1 ∧
        Memo.Sound classifyExprRec (classifyExpr E Tables).2.2
  | .ImplicitCastExpr R E0, Tables, h1, h2 => by
    rw [classifyExpr]
    refine classifyExpr.findOrCompute_tables_spec _ _ _ h1 h2 ?_
    have hin := isExprInCSubset_spec (.ImplicitCastExpr R E0) Tables.1 h1
    have ih := classifyExpr_spec E0
      ((isExprInCSubset (.ImplicitCastExpr R E0) Tables.1).2, Tables.2) hin.2 h2
    by_cases hs : isExprInCSubsetRec (.ImplicitCastExpr R E0) = true
    · simpa [classifyExprRec, hin.1, hs] using ih
    · simpa [classifyExprRec, hin.1, hs] using And.intro hin.2 h2
  | .IntegerLiteral R V, Tables, h1, h2 => by
    rw [classifyExpr]
    refine classifyExpr.findOrCompute_tables_spec _ _ _ h1 h2 ?_
    have hin := isExprInCSubset_spec (.IntegerLiteral R V) Tables.1 h1
    by_cases hs : isExprInCSubsetRec (.IntegerLiteral R V) = true
    · simpa [classifyExprRec, hin.1, hs] using And.intro hin.2 h2
    · simpa [classifyExprRec, hin.1, hs] using And.intro hin.2 h2
  | .DeclRefExpr R D, Tables, h1, h2 => by
    rw [classifyExpr]
    refine classifyExpr.findOrCompute_tables_spec _ _ _ h1 h2 ?_
    have hin := isExprInCSubset_spec (.DeclRefExpr R D) Tables.1 h1
    by_cases hs : isExprInCSubsetRec (.DeclRefExpr R D) = true
    · simpa [classifyExprRec, hin.1, hs] using And.intro hin.2 h2
    · simpa [classifyExprRec, hin.1, hs] using And.intro hin.2 h2
  | .ParenExpr R E0, Tables, h1, h2 => by
    rw [classifyExpr]
    refine classifyExpr.findOrCompute_tables_spec _ _ _ h1 h2 ?_
    have hin := isExprInCSubset_spec (.ParenExpr R E0) Tables.1 h1
    by_cases hs : isExprInCSubsetRec (.ParenExpr R E0) = true
    · simpa [classifyExprRec, hin.1, hs] using And.intro hin.2 h2
    · simpa [classifyExprRec, hin.1, hs] using And.intro hin.2 h2
  | .UnaryOperator R OC E0, Tables, h1, h2 => by
    rw [classifyExpr]
    refine classifyExpr.findOrCompute_tables_spec _ _ _ h1 h2 ?_
    have hin := isExprInCSubset_spec (.UnaryOperator R OC E0) Tables.1 h1
    by_cases hs : isExprInCSubsetRec (.UnaryOperator R OC E0) = true
    · by_cases hoc : isPlusMinus OC = true
      · simpa [classifyExprRec, hin.1, hs, hoc] using And.intro hin.2 h2
      · simpa [classifyExprRec, hin.1, hs, hoc] using And.intro hin.2 h2
    · simpa [classifyExprRec, hin.1, hs] using And.intro hin.2 h2
  | .BinaryOperator R OC E1 E2, Tables, h1, h2 => by
    rw [classifyExpr]
    refine classifyExpr.findOrCompute_tables_spec _ _ _ h1 h2 ?_
    have hin := isExprInCSubset_spec (.BinaryOperator R OC E1 E2) Tables.1 h1
    by_cases hs : isExprInCSubsetRec (.BinaryOperator R OC E1 E2) = true
    · by_cases hoc : OC = .BO_Assign
      · subst hoc
        simpa [classifyExprRec, hin.1, hs] using And.intro hin.2 h2
      · simpa [classifyExprRec, hin.1, hs, hoc] using And.intro hin.2 h2
    · simpa [classifyExprRec, hin.1, hs] using And.intro hin.2 h2
  | .CallExpr R C A, Tables, h1, h2 => by
    rw [classifyExpr]
    refine classifyExpr.findOrCompute_tables_spec _ _ _ h1 h2 ?_
    have hin := isExprInCSubset_spec (.CallExpr R C A) Tables.1 h1
    by_cases hs : isExprInCSubsetRec (.CallExpr R C A) = true
    · simpa [classifyExprRec, hin.1, hs] using And.intro hin.2 h2
    · simpa [classifyExprRec, hin.1, hs] using And.intro hin.2 h2
  | .OtherExpr R A, Tables, h1, h2 => by
    rw [classifyExpr]
    refine classifyExpr.findOrCompute_tables_spec _ _ _ h1 h2 ?_
    have hin := isExprInCSubset_spec (.OtherExpr R A) Tables.1 h1
    by_cases hs : isExprInCSubsetRec (.OtherExpr R A) = true
    · simpa [classifyExprRec, hin.1, hs] using And.intro hin.2 h2
    · simpa [classifyExprRec, hin.1, hs] using And.intro hin.2 h2

theorem ReachableClassifyTables.tables_sound {Tables : Memo Bool × Memo CSubsetExpr}
    (h : ReachableClassifyTables Tables) :
    Memo.Sound isExprInCSubsetRec Tables.1 ∧ Memo.Sound classifyExprRec Tables.2 := by
  induction h with
  | empty => exact ⟨Memo.sound_empty _, Memo.sound_empty _⟩
  | call E Tables _ ih => exact (classifyExpr_spec E Tables ih.1 ih.2).2

theorem State.TablesReachable.memoSound {st : State} (h : st.TablesReachable) :
    st.MemoSound :=
  { inCSub := h.classify.tables_sound.1, toCSub := h.classify.tables_sound.2,
    localVars := h.localVars.localVars_memo_sound,
    sideEffects := h.sideEffects.sideEffects_memo_sound }

/-! ## The emitted text -/

theorem String.append_ne_empty_of_left (s t : String) (h : 0 < s.length) : s ++ t ≠ "" := by
  intro he
  have := congrArg String.length he
  rw [String.length_append] at this
  simp at this
  omega

/-- The last part of `transformEntireExpr` for an object-like macro, when the naming step
chooses `DefName` and the rewriter accepts both requests. -/
theorem emit_object_like {fuel : Nat} {env : Env} {st : State} {E : Expr}
    {MacroName DefName : String} {MI : MacroInfo} (hP : MI.Params = none)
    (hD : uniqueDefName fuel st MacroName MI = some DefName)
    (h1 : env.rewriterRefuses st.RW
      (.InsertTextAfter (env.getLocForEndOfToken MI.DefinitionEndLoc)
        ("\nconst int " ++ DefName ++ " = " ++ transformEntireExpr.defBody env MI ++ ";")) =
          false)
    (h2 : env.rewriterRefuses
      (st.RW ++ [⟨.InsertTextAfter (env.getLocForEndOfToken MI.DefinitionEndLoc)
        ("\nconst int " ++ DefName ++ " = " ++ transformEntireExpr.defBody env MI ++ ";"),
          false⟩])
      (.ReplaceText (env.getExpansionRange E.getSourceRange) DefName) = false) :
    transformEntireExpr.emit fuel env st E MacroName MI =
      .ok (.TRANSFORMED,
        { st with
          AllVarNames := st.AllVarNames.insert DefName,
          RW := st.RW ++
            [⟨.InsertTextAfter (env.getLocForEndOfToken MI.DefinitionEndLoc)
                ("\nconst int " ++ DefName ++ " = " ++ transformEntireExpr.defBody env MI ++
                  ";"), false⟩,
             ⟨.ReplaceText (env.getExpansionRange E.getSourceRange) DefName, false⟩] }) := by
  have hne : ∀ b : String, "\nconst int " ++ DefName ++ " = " ++ b ++ ";" ≠ "" := by
    intro b
    rw [String.append_assoc, String.append_assoc, String.append_assoc]
    exact String.append_ne_empty_of_left _ _ (by decide)
  unfold transformEntireExpr.defBody at h1 h2 ⊢
  unfold transformEntireExpr.emit
  simp only [transformEntireExpr.macroBodyBegin, hP] at h1 h2 ⊢
  simp only [hD, transformEntireExpr.define, hP, hne,
    if_false, callRewriter, h1, transformEntireExpr.invocationReplacement, h2,
    Bool.false_eq_true, List.append_assoc, List.singleton_append]

/-- The last part of `transformEntireExpr` for a macro with one parameter, when the naming
step chooses `DefName`, the argument text is `Arg` and the rewriter accepts both requests. -/
theorem emit_unary {fuel : Nat} {env : Env} {st : State} {E : Expr}
    {MacroName DefName Param Arg : String} {MI : MacroInfo} (hP : MI.Params = some [Param])
    (hD : uniqueDefName fuel st MacroName MI = some DefName)
    (hA : transformEntireExpr.argString env E MacroName = some Arg)
    (h1 : env.rewriterRefuses st.RW
      (.InsertTextAfter (env.getLocForEndOfToken MI.DefinitionEndLoc)
        ("\nint " ++ DefName ++ "(int " ++ Param ++ ") " ++ "\x7b\n    return " ++
          transformEntireExpr.defBody env MI ++ ";\n\x7d")) = false)
    (h2 : env.rewriterRefuses
      (st.RW ++ [⟨.InsertTextAfter (env.getLocForEndOfToken MI.DefinitionEndLoc)
        ("\nint " ++ DefName ++ "(int " ++ Param ++ ") " ++ "\x7b\n    return " ++
          transformEntireExpr.defBody env MI ++ ";\n\x7d"), false⟩])
      (.ReplaceText (env.getExpansionRange E.getSourceRange)
        (DefName ++ "(" ++ Arg ++ ")")) = false) :
    transformEntireExpr.emit fuel env st E MacroName MI =
      .ok (.TRANSFORMED,
        { st with
          AllFunctionNames := st.AllFunctionNames.insert DefName,
          RW := st.RW ++
            [⟨.InsertTextAfter (env.getLocForEndOfToken MI.DefinitionEndLoc)
                ("\nint " ++ DefName ++ "(int " ++ Param ++ ") " ++ "\x7b\n    return " ++
                  transformEntireExpr.defBody env MI ++ ";\n\x7d"), false⟩,
             ⟨.ReplaceText (env.getExpansionRange E.getSourceRange)
                (DefName ++ "(" ++ Arg ++ ")"), false⟩] }) := by
  have hne : ∀ b : String, "\nint " ++ DefName ++ "(int " ++ Param ++ ") " ++
      "\x7b\n    return " ++ b ++ ";\n\x7d" ≠ "" := by
    intro b
    rw [String.append_assoc, String.append_assoc, String.append_assoc, String.append_assoc,
      String.append_assoc, String.append_assoc]
    exact String.append_ne_empty_of_left _ _ (by decide)
  unfold transformEntireExpr.argString at hA
  unfold transformEntireExpr.defBody at h1 h2 ⊢
  unfold transformEntireExpr.emit
  simp only [transformEntireExpr.macroBodyBegin, hP] at h1 h2 ⊢
  simp only [hD, transformEntireExpr.define, hP, hne,
    if_false, callRewriter, h1, transformEntireExpr.invocationReplacement, hA, h2,
    Bool.false_eq_true, List.append_assoc, List.singleton_append]

/-- A run that reaches the test on a macro with a single parameter and fails it returns
`NON_TRANSFORMABLE_MACRO`. -/
theorem transformEntireExpr_of_failsUnaryTest {env : Env} {st : State} {E : Expr}
    {MacroName : String} {MI : MacroInfo}
    (h : transformEntireExpr.ReachesUnaryTest env st E MacroName MI)
    (hu : transformEntireExpr.failsUnaryTest MI = true) (fuel : Nat) :
    transformEntireExpr fuel env st E =
      .ok (.NON_TRANSFORMABLE_MACRO,
        { st with
          MacroNameToExpansionRanges := mapTouch st.MacroNameToExpansionRanges MacroName }) := by
  have hf : transformEntireExpr.findMacroName env st E =
      (.inr MacroName, { st with
        MacroNameToExpansionRanges := mapTouch st.MacroNameToExpansionRanges MacroName }) := by
    unfold transformEntireExpr.findMacroName
    simp [h.atStart, h.atEnd, h.notContaining, h.notContained, h.oneName, h.sameExpansion]
  have hp : (MI.isFunctionLike && decide (MI.getNumParams > 1)) = false := by
    have := h.atMostOneParam
    simp only [Bool.and_eq_false_imp, decide_eq_false_iff_not]
    intro h1 h2
    exact this ⟨h1, h2⟩
  unfold transformEntireExpr
  rw [hf]
  simp only [h.named, if_false, h.singlyDefined, h.directive, hp, hu, if_true,
    Bool.false_eq_true]

/-- The tests of `transformEntireExpr` pass and its last part runs, when the checks on the
macro pass and the recursions of both tests give false on sound tables. -/
theorem transformEntireExpr_eq_emit {env : Env} {st : State} {E : Expr}
    {MacroName : String} {MI : MacroInfo}
    (h : transformEntireExpr.MacroChecks env st E MacroName MI)
    (hs : Memo.Sound exprHasSideEffectsRec st.EHasSideEffects)
    (hl : Memo.Sound exprContainsLocalVarsRec st.EContainsLocalVars)
    (h1 : exprHasSideEffectsRec E = false) (h2 : exprContainsLocalVarsRec E = false)
    (fuel : Nat) :
    transformEntireExpr fuel env st E =
      transformEntireExpr.emit fuel env (transformEntireExpr.stateAtNaming st E MacroName) E
        MacroName MI := by
  rw [transformEntireExpr_of_macroChecks h fuel, (exprHasSideEffects_spec E _ hs).1,
    (exprContainsLocalVars_spec E _ hl).1, h1, h2]
  simp

/-! ## The function-like macro ID -/

/-- Counterexample to C10 as stated: the expansion `ID(y)` of `#define ID(x) (x)`, `y` a
global `int`, is rejected with `NON_TRANSFORMABLE_MACRO`, and no request is made to the
rewriter. -/
theorem transformEntireExpr_ID_counterexample :
    returned (transformEntireExpr 1 ExamplePAR.env ExamplePAR.st ExamplePAR.Operand) =
      some .NON_TRANSFORMABLE_MACRO ∧
    rewriterCalls (transformEntireExpr 1 ExamplePAR.env ExamplePAR.st ExamplePAR.Operand) =
      some [] := by
  decide

/-- C10 (amended).  First scenario, `#define ID(x) (x)` invoked as `ID(y)`: an expansion
`E1` that reaches the test on the single parameter `x` of a definition whose body is the
three adjacent tokens `(`, `x`, `)` is rejected with `NON_TRANSFORMABLE_MACRO`, no request is
made to the rewriter and no name is reserved.  Second scenario, the identity macro
`#define ID(x) x` invoked as `ID(y)`, `y` a global variable: when the expansion `E2` (the
reference to `y`, bare or under an implicit cast) passes the checks on the macro, the body
text is `x`, the text of the invocation is `ID(y)`, `ID_function` is free and the rewriter
accepts the requests, `transformEntireExpr` returns `TRANSFORMED`, inserts the function
`ID_function` with parameter `int x` and body `return x;` after the definition, replaces the
expansion range by `ID_function(y)` and inserts `ID_function` into `AllFunctionNames`. -/
theorem transformEntireExpr_ID (fuel : Nat)
    (env1 : Env) (st1 : State) (E1 : Expr) (MI1 : MacroInfo) (L : SourceLocation)
    (hreach : transformEntireExpr.ReachesUnaryTest env1 st1 E1 "ID" MI1)
    (hP1 : MI1.Params = some ["x"])
    (hB1 : MI1.ReplacementTokens = [⟨L, "("⟩, ⟨L + 1, "x"⟩, ⟨L + 2, ")"⟩])
    (env2 : Env) (st2 : State) (E2 : Expr) (MI2 : MacroInfo) (R Ry : SourceRange)
    (y : VarDecl)
    (hE2 : E2 = .DeclRefExpr Ry (.Var y) ∨ E2 = .ImplicitCastExpr R (.DeclRefExpr Ry (.Var y)))
    (hy : isGlobalVariable y = true)
    (hck : transformEntireExpr.MacroChecks env2 st2 E2 "ID" MI2)
    (hP2 : MI2.Params = some ["x"])
    (hbody : transformEntireExpr.defBody env2 MI2 = "x")
    (hinv : env2.getSourceText (env2.getExpansionRangeOfLoc E2.getBeginLoc) = "ID(y)")
    (hs : ReachableEHasSideEffects st2.EHasSideEffects)
    (hl : ReachableEContainsLocalVars st2.EContainsLocalVars)
    (hfree : isNameTaken st2 "ID_function" = false)
    (hrw1 : env2.rewriterRefuses st2.RW
      (.InsertTextAfter (env2.getLocForEndOfToken MI2.DefinitionEndLoc)
        "\nint ID_function(int x) \x7b\n    return x;\n\x7d") = false)
    (hrw2 : env2.rewriterRefuses
      (st2.RW ++ [⟨.InsertTextAfter (env2.getLocForEndOfToken MI2.DefinitionEndLoc)
        "\nint ID_function(int x) \x7b\n    return x;\n\x7d", false⟩])
      (.ReplaceText (env2.getExpansionRange E2.getSourceRange) "ID_function(y)") = false) :
    (returned (transformEntireExpr fuel env1 st1 E1) = some .NON_TRANSFORMABLE_MACRO ∧
      rewriterCalls (transformEntireExpr fuel env1 st1 E1) = some st1.RW ∧
      (resultState (transformEntireExpr fuel env1 st1 E1)).AllFunctionNames =
        st1.AllFunctionNames ∧
      (resultState (transformEntireExpr fuel env1 st1 E1)).AllVarNames = st1.AllVarNames) ∧
    (returned (transformEntireExpr (fuel + 1) env2 st2 E2) = some .TRANSFORMED ∧
      rewriterCalls (transformEntireExpr (fuel + 1) env2 st2 E2) =
        some (st2.RW ++
          [⟨.InsertTextAfter (env2.getLocForEndOfToken MI2.DefinitionEndLoc)
              "\nint ID_function(int x) \x7b\n    return x;\n\x7d", false⟩,
           ⟨.ReplaceText (env2.getExpansionRange E2.getSourceRange) "ID_function(y)",
              false⟩]) ∧
      (resultState (transformEntireExpr (fuel + 1) env2 st2 E2)).AllFunctionNames =
        st2.AllFunctionNames.insert "ID_function" ∧
      (resultState (transformEntireExpr (fuel + 1) env2 st2 E2)).AllVarNames =
        st2.AllVarNames) := by
  constructor
  · have hu : transformEntireExpr.failsUnaryTest MI1 = true := by
      simp [transformEntireExpr.failsUnaryTest, hP1, MacroInfo.getDefinitionLength, hB1]
      decide
    rw [transformEntireExpr_of_failsUnaryTest hreach hu fuel]
    exact ⟨rfl, rfl, rfl, rfl⟩
  · have h1 : exprHasSideEffectsRec E2 = false := by
      rcases hE2 with rfl | rfl <;> simp [exprHasSideEffectsRec]
    have h2 : exprContainsLocalVarsRec E2 = false := by
      rcases hE2 with rfl | rfl <;> simp [exprContainsLocalVarsRec, hy]
    have hobj : MI2.isObjectLike = false := by
      simp [MacroInfo.isObjectLike, MacroInfo.isFunctionLike, hP2]
    have hbase : uniqueDefName.base "ID" MI2 = "ID_function" := by
      unfold uniqueDefName.base
      rw [hobj]
      decide
    have hD : uniqueDefName (fuel + 1) (transformEntireExpr.stateAtNaming st2 E2 "ID") "ID" MI2
        = some "ID_function" := by
      rw [uniqueDefName_stateAtNaming]
      have := uniqueDefName_of_base_free st2 "ID" MI2 (by rw [hbase]; exact hfree) fuel
      rw [this, hbase]
    have hA : transformEntireExpr.argString env2 E2 "ID" = some "y" := by
      unfold transformEntireExpr.argString
      rw [hinv]
      decide
    rw [transformEntireExpr_eq_emit hck hs.sideEffects_memo_sound hl.localVars_memo_sound h1 h2
      (fuel + 1)]
    rw [emit_unary hP2 hD hA (by rw [hbody]; exact hrw1) (by rw [hbody]; exact hrw2)]
    rw [hbody]
    exact ⟨rfl, rfl, rfl, rfl⟩

/-- Witness of C10 (amended): the two main files `#define ID(x) (x)` and `#define ID(x) x`,
each followed by `int y; int main() { return ID(y); }`. -/
theorem transformEntireExpr_ID_witness :
    (returned (transformEntireExpr 0 ExamplePAR.env ExamplePAR.st ExamplePAR.Operand) =
        some .NON_TRANSFORMABLE_MACRO ∧
      rewriterCalls (transformEntireExpr 0 ExamplePAR.env ExamplePAR.st ExamplePAR.Operand) =
        some ExamplePAR.st.RW ∧
      (resultState (transformEntireExpr 0 ExamplePAR.env ExamplePAR.st
        ExamplePAR.Operand)).AllFunctionNames = ExamplePAR.st.AllFunctionNames ∧
      (resultState (transformEntireExpr 0 ExamplePAR.env ExamplePAR.st
        ExamplePAR.Operand)).AllVarNames = ExamplePAR.st.AllVarNames) ∧
    (returned (transformEntireExpr (0 + 1) ExampleID.env ExampleID.st ExampleID.Operand) =
        some .TRANSFORMED ∧
      rewriterCalls (transformEntireExpr (0 + 1) ExampleID.env ExampleID.st ExampleID.Operand) =
        some (ExampleID.st.RW ++
          [⟨.InsertTextAfter (ExampleID.env.getLocForEndOfToken ExampleID.MI.DefinitionEndLoc)
              "\nint ID_function(int x) \x7b\n    return x;\n\x7d", false⟩,
           ⟨.ReplaceText (ExampleID.env.getExpansionRange ExampleID.Operand.getSourceRange)
              "ID_function(y)", false⟩]) ∧
      (resultState (transformEntireExpr (0 + 1) ExampleID.env ExampleID.st
        ExampleID.Operand)).AllFunctionNames = ExampleID.st.AllFunctionNames.insert "ID_function" ∧
      (resultState (transformEntireExpr (0 + 1) ExampleID.env ExampleID.st
        ExampleID.Operand)).AllVarNames = ExampleID.st.AllVarNames) :=
  transformEntireExpr_ID 0
    ExamplePAR.env ExamplePAR.st ExamplePAR.Operand ExamplePAR.MI 14
    { atStart := by decide, atEnd := by decide, notContaining := by decide,
      notContained := by decide, oneName := by decide, sameExpansion := by decide,
      named := by decide, singlyDefined := by decide, directive := by decide,
      atMostOneParam := by decide }
    (by decide) (by decide)
    ExampleID.env ExampleID.st ExampleID.Operand ExampleID.MI ⟨ExampleID.ArgLoc, ExampleID.ArgLoc⟩
    ⟨ExampleID.ArgLoc, ExampleID.ArgLoc⟩ ExampleID.y (Or.inr rfl) (by decide)
    { atStart := by decide, atEnd := by decide, notContaining := by decide,
      notContained := by decide, oneName := by decide, sameExpansion := by decide,
      named := by decide, singlyDefined := by decide, directive := by decide,
      atMostOneParam := by decide, unaryTest := by decide }
    (by decide) (by decide) (by decide) ReachableEHasSideEffects.empty
    ReachableEContainsLocalVars.empty (by decide) (by decide) (by decide)

/-! ## The object-like macro ONE -/

theorem TransformExpr.stateAfterClassify_memoSound {st : State} (h : st.MemoSound)
    (E : Expr) : (TransformExpr.stateAfterClassify st E).MemoSound :=
  { inCSub := (classifyExpr_spec E (st.EInCSub, st.EToCSub) h.inCSub h.toCSub).2.1,
    toCSub := (classifyExpr_spec E (st.EInCSub, st.EToCSub) h.inCSub h.toCSub).2.2,
    localVars := h.localVars, sideEffects := h.sideEffects }

theorem MacroChecks.afterClassify {env : Env} {st : State} {E : Expr} {MacroName : String}
    {MI : MacroInfo} (h : transformEntireExpr.MacroChecks env st E MacroName MI)
    (E0 : Expr) :
    transformEntireExpr.MacroChecks env (TransformExpr.stateAfterClassify st E0) E MacroName
      MI :=
  { atStart := h.atStart, atEnd := h.atEnd, notContaining := h.notContaining,
    notContained := h.notContained, oneName := h.oneName, sameExpansion := h.sameExpansion,
    named := h.named, singlyDefined := h.singlyDefined, directive := h.directive,
    atMostOneParam := h.atMostOneParam, unaryTest := h.unaryTest }

/-- `TransformExpr` on an assignment to a variable that does not begin at the start of a
macro expansion goes on to the right-hand side. -/
theorem TransformExpr_assign (fuel : Nat) (env : Env) (st : State) (R Rx : SourceRange)
    (xd : VarDecl) (RHS : Expr) (hmemo : st.MemoSound)
    (hfile : env.isAtStartOfMacroExpansion R.Begin = false)
    (hin : isExprInCSubsetRec RHS = true) :
    TransformExpr fuel env (.BinaryOperator R .BO_Assign (.DeclRefExpr Rx (.Var xd)) RHS) st =
      TransformExpr fuel env RHS
        (TransformExpr.stateAfterClassify st
          (.BinaryOperator R .BO_Assign (.DeclRefExpr Rx (.Var xd)) RHS)) := by
  have hcl := (classifyExpr_spec (.BinaryOperator R .BO_Assign (.DeclRefExpr Rx (.Var xd)) RHS)
    (st.EInCSub, st.EToCSub) hmemo.inCSub hmemo.toCSub).1
  have hrec : classifyExprRec (.BinaryOperator R .BO_Assign (.DeclRefExpr Rx (.Var xd)) RHS) =
      .Assign := by
    simp [classifyExprRec, isExprInCSubsetRec, isAddSubMulDiv, hin]
  rw [hrec] at hcl
  have ht : ∀ s : State, transformEntireExpr fuel env s
      (.BinaryOperator R .BO_Assign (.DeclRefExpr Rx (.Var xd)) RHS) =
        .ok (.NOT_TRANSFORMED, s) := by
    intro s
    unfold transformEntireExpr transformEntireExpr.findMacroName
    simp [Expr.getBeginLoc, Expr.getSourceRange, hfile]
  rw [TransformExpr]
  simp only [hcl, ht, reduceCtorEq, if_false, TransformationResult.visitsSubExprs, if_true,
    isAddSubMulDiv]
  rfl

/-- `TransformExpr` on an expression of the subset that `transformEntireExpr` transforms
ends with that transformation. -/
theorem TransformExpr_of_transformed (fuel : Nat) (env : Env) (st st1 : State) (E : Expr)
    (hmemo : st.MemoSound) (hin : classifyExprRec E ≠ .INVALID)
    (ht : transformEntireExpr fuel env (TransformExpr.stateAfterClassify st E) E =
      .ok (.TRANSFORMED, st1)) :
    TransformExpr fuel env E st = .ok st1 := by
  have hcl := (classifyExpr_spec E (st.EInCSub, st.EToCSub) hmemo.inCSub hmemo.toCSub).1
  unfold TransformExpr.stateAfterClassify at ht
  rw [TransformExpr]
  simp only [hcl, hin, if_false, ht, TransformationResult.visitsSubExprs, Bool.false_eq_true]

/-- C9: let `#define ONE 1` be an object-like definition whose expansion is the literal on
the right-hand side of `x = ONE;`: the assignment begins outside any macro expansion, the
literal passes the checks on the macro (whole expansion, not nested, the one name `ONE`, a
recorded range, singly defined), the memo tables are tables that can arise, the text of the
body is `1`, no identifier `ONE_var` is in
the universe, and the rewriter accepts the requests.  Then `TransformExpr` on the assignment
transforms the expansion: it inserts the text `const int ONE_var = 1;`, preceded by a
newline, after the definition, replaces the expansion range by the text `ONE_var`, and
inserts `ONE_var` into `AllVarNames`. -/
theorem TransformExpr_ONE (fuel : Nat) (env : Env) (st : State) (R Rx RL : SourceRange)
    (xd : VarDecl) (MI : MacroInfo) (hreach : st.TablesReachable)
    (hfile : env.isAtStartOfMacroExpansion R.Begin = false)
    (hck : transformEntireExpr.MacroChecks env st (.IntegerLiteral RL 1) "ONE" MI)
    (hobj : MI.Params = none)
    (hbody : transformEntireExpr.defBody env MI = "1")
    (hfree : isNameTaken st "ONE_var" = false)
    (hrw1 : env.rewriterRefuses st.RW
      (.InsertTextAfter (env.getLocForEndOfToken MI.DefinitionEndLoc)
        "\nconst int ONE_var = 1;") = false)
    (hrw2 : env.rewriterRefuses
      (st.RW ++ [⟨.InsertTextAfter (env.getLocForEndOfToken MI.DefinitionEndLoc)
        "\nconst int ONE_var = 1;", false⟩])
      (.ReplaceText (env.getExpansionRange RL) "ONE_var") = false) :
    ∃ st', TransformExpr (fuel + 1) env
        (.BinaryOperator R .BO_Assign (.DeclRefExpr Rx (.Var xd)) (.IntegerLiteral RL 1)) st =
          .ok st' ∧
      st'.RW = st.RW ++
        [⟨.InsertTextAfter (env.getLocForEndOfToken MI.DefinitionEndLoc)
            "\nconst int ONE_var = 1;", false⟩,
         ⟨.ReplaceText (env.getExpansionRange RL) "ONE_var", false⟩] ∧
      st'.AllVarNames = st.AllVarNames.insert "ONE_var" ∧
      st'.AllFunctionNames = st.AllFunctionNames ∧
      st'.AllMacroNames = st.AllMacroNames := by
  have hmemo := hreach.memoSound
  have hin : isExprInCSubsetRec (.IntegerLiteral RL 1) = true := rfl
  rw [TransformExpr_assign (fuel + 1) env st R Rx xd _ hmemo hfile hin]
  generalize hst0 : TransformExpr.stateAfterClassify st
    (.BinaryOperator R .BO_Assign (.DeclRefExpr Rx (.Var xd)) (.IntegerLiteral RL 1)) = st0
  have hmemo0 : st0.MemoSound := by
    rw [← hst0]
    exact TransformExpr.stateAfterClassify_memoSound hmemo _
  have hck0 : transformEntireExpr.MacroChecks env st0 (.IntegerLiteral RL 1) "ONE" MI := by
    rw [← hst0]
    exact MacroChecks.afterClassify hck _
  have hRW0 : st0.RW = st.RW := by rw [← hst0]; rfl
  have hV0 : st0.AllVarNames = st.AllVarNames := by rw [← hst0]; rfl
  have hF0 : st0.AllFunctionNames = st.AllFunctionNames := by rw [← hst0]; rfl
  have hM0 : st0.AllMacroNames = st.AllMacroNames := by rw [← hst0]; rfl
  have hfree0 : isNameTaken st0 "ONE_var" = false := by
    unfold isNameTaken at hfree ⊢
    rw [hV0, hF0, hM0]
    exact hfree
  have hmemo1 := TransformExpr.stateAfterClassify_memoSound hmemo0 (.IntegerLiteral RL 1)
  have hck1 := MacroChecks.afterClassify hck0 (.IntegerLiteral RL 1)
  have hisobj : MI.isObjectLike = true := by
    simp [MacroInfo.isObjectLike, MacroInfo.isFunctionLike, hobj]
  have hbase : uniqueDefName.base "ONE" MI = "ONE_var" := by
    unfold uniqueDefName.base
    rw [hisobj]
    decide
  have hD : uniqueDefName (fuel + 1)
      (transformEntireExpr.stateAtNaming
        (TransformExpr.stateAfterClassify st0 (.IntegerLiteral RL 1)) (.IntegerLiteral RL 1)
        "ONE") "ONE" MI = some "ONE_var" := by
    rw [uniqueDefName_stateAtNaming, uniqueDefName_eq, uniqueDefNameLoop_congr
      (TransformExpr.stateAfterClassify st0 (.IntegerLiteral RL 1)) st0 _ _ (fun _ => rfl),
      ← uniqueDefName_eq]
    have := uniqueDefName_of_base_free st0 "ONE" MI (by rw [hbase]; exact hfree0) fuel
    rw [this, hbase]
  have ht := transformEntireExpr_eq_emit hck1 hmemo1.sideEffects hmemo1.localVars rfl rfl
    (fuel + 1)
  rw [emit_object_like hobj hD
    (by rw [hbody]; exact (by rw [← hRW0] at hrw1; exact hrw1))
    (by rw [hbody]; exact (by rw [← hRW0] at hrw2; exact hrw2))] at ht
  rw [hbody] at ht
  refine ⟨_, TransformExpr_of_transformed (fuel + 1) env st0 _ (.IntegerLiteral RL 1) hmemo0
    (by simp [classifyExprRec, isExprInCSubsetRec]) ht, ?_, ?_, ?_, ?_⟩
  · rw [← hRW0]; rfl
  · rw [← hV0]; rfl
  · rw [← hF0]; rfl
  · rw [← hM0]; rfl

/-- Witness of C9: the main file `#define ONE 1`, `int x;`, `int main() { x = ONE; }`. -/
theorem TransformExpr_ONE_witness :
    ∃ st', TransformExpr (0 + 1) ExampleONE.env
        (.BinaryOperator ⟨34, ExampleONE.LitLoc⟩ .BO_Assign
          (.DeclRefExpr ⟨34, 34⟩ (.Var ExampleONE.x))
          (.IntegerLiteral ⟨ExampleONE.LitLoc, ExampleONE.LitLoc⟩ 1)) ExampleONE.st = .ok st' ∧
      st'.RW = ExampleONE.st.RW ++
        [⟨.InsertTextAfter (ExampleONE.env.getLocForEndOfToken ExampleONE.MI.DefinitionEndLoc)
            "\nconst int ONE_var = 1;", false⟩,
         ⟨.ReplaceText (ExampleONE.env.getExpansionRange ⟨ExampleONE.LitLoc, ExampleONE.LitLoc⟩)
            "ONE_var", false⟩] ∧
      st'.AllVarNames = ExampleONE.st.AllVarNames.insert "ONE_var" ∧
      st'.AllFunctionNames = ExampleONE.st.AllFunctionNames ∧
      st'.AllMacroNames = ExampleONE.st.AllMacroNames :=
  TransformExpr_ONE 0 ExampleONE.env ExampleONE.st ⟨34, ExampleONE.LitLoc⟩ ⟨34, 34⟩
    ⟨ExampleONE.LitLoc, ExampleONE.LitLoc⟩ ExampleONE.x ExampleONE.MI
    { classify := ReachableClassifyTables.empty,
      localVars := ReachableEContainsLocalVars.empty,
      sideEffects := ReachableEHasSideEffects.empty }
    (by decide)
    { atStart := by decide, atEnd := by decide, notContaining := by decide,
      notContained := by decide, oneName := by decide, sameExpansion := by decide,
      named := by decide, singlyDefined := by decide, directive := by decide,
      atMostOneParam := by decide, unaryTest := by decide }
    (by decide) (by decide) (by decide) (by decide) (by decide)

/-! ## Multiply defined macros -/

theorem MacroDefined_multiplyDefined (st : State) (M MacroName : String) (hasPrevious : Bool)
    (MI : MacroInfo) :
    M ∈ (MacroDefined st MacroName hasPrevious MI).MultiplyDefinedMacros ↔
      M ∈ st.MultiplyDefinedMacros ∨ (M = MacroName ∧ hasPrevious = true) := by
  unfold MacroDefined
  cases hasPrevious <;> simp [List.mem_insert_iff, or_comm]

/-- The loop of `MacroExpands` writes the two sets of nested starts and the map of names,
nothing else. -/
theorem MacroExpands.visit_foldl_frame (B : SourceLocation) (ranges : List SourceRange)
    (st : State) :
    ranges.foldl (MacroExpands.visit B) st =
      { st with
        ExpansionStartLocationToMacroNames :=
          (ranges.foldl (MacroExpands.visit B) st).ExpansionStartLocationToMacroNames,
        StartLocationsOfExpansionsContainingStartOfOtherExpansion :=
          (ranges.foldl (MacroExpands.visit B)
            st).StartLocationsOfExpansionsContainingStartOfOtherExpansion,
        StartLocationsOFExpansionsContainedInOtherExpansion :=
          (ranges.foldl (MacroExpands.visit B)
            st).StartLocationsOFExpansionsContainedInOtherExpansion } := by
  induction ranges generalizing st with
  | nil => rfl
  | cons o rest ih =>
    simp only [List.foldl_cons]
    rw [ih]
    unfold MacroExpands.visit
    split <;> rfl

theorem MacroExpands_multiplyDefined (st : State) (MacroName : String)
    (ExpansionRange : SourceRange) :
    (MacroExpands st MacroName ExpansionRange).MultiplyDefinedMacros =
      st.MultiplyDefinedMacros := by
  unfold MacroExpands
  simp only
  rw [MacroExpands.visit_foldl_frame]

/-- `MultiplyDefinedMacros` after a stream of events: what it held before, and the names of
the definition events that had a previous definition. -/
theorem preprocess_multiplyDefined (events : List PPEvent) (st : State) (M : String) :
    M ∈ (preprocess st events).MultiplyDefinedMacros ↔
      M ∈ st.MultiplyDefinedMacros ∨ ∃ MI, PPEvent.Defined M true MI ∈ events := by
  induction events generalizing st with
  | nil => simp [preprocess]
  | cons e rest ih =>
    have hstep : preprocess st (e :: rest) = preprocess (PPEvent.deliver st e) rest := rfl
    rw [hstep, ih]
    cases e with
    | Defined MacroName hasPrevious MI =>
      simp only [PPEvent.deliver, MacroDefined_multiplyDefined, List.mem_cons, PPEvent.Defined.injEq]
      constructor
      · rintro ((h | ⟨rfl, rfl⟩) | ⟨MI', h⟩)
        · exact Or.inl h
        · exact Or.inr ⟨MI, Or.inl ⟨rfl, rfl, rfl⟩⟩
        · exact Or.inr ⟨MI', Or.inr h⟩
      · rintro (h | ⟨MI', (⟨rfl, rfl, rfl⟩ | h)⟩)
        · exact Or.inl (Or.inl h)
        · exact Or.inl (Or.inr ⟨rfl, rfl⟩)
        · exact Or.inr ⟨MI', h⟩
    | Expands MacroName ExpansionRange =>
      simp only [PPEvent.deliver, MacroExpands_multiplyDefined, List.mem_cons, reduceCtorEq,
        false_or]

/-- The first part of `transformEntireExpr` on an expression that names a macro. -/
theorem findMacroName_of_namesMacro {env : Env} {st : State} {E : Expr} {MacroName : String}
    (h : transformEntireExpr.NamesMacro env st E MacroName) :
    transformEntireExpr.findMacroName env st E =
      (.inr MacroName, { st with
        MacroNameToExpansionRanges := mapTouch st.MacroNameToExpansionRanges MacroName }) := by
  unfold transformEntireExpr.findMacroName
  simp [h.atStart, h.atEnd, h.notContaining, h.notContained, h.oneName, h.sameExpansion]

/-- The names in `MultiplyDefinedMacros` of a collector after one call of its callback. -/
theorem MacroNameCollector.callback_multiplyDefined {C C1 : MacroNameCollector}
    {MacroNameTok : Option String} {MD : Option MacroDirective}
    (h : C.MacroDefined MacroNameTok MD = .ok C1) (M : String) :
    M ∈ C1.MultiplyDefinedMacros ↔
      M ∈ C.MultiplyDefinedMacros ∨
        (MacroNameTok = some M ∧ ∃ D, MD = some D ∧ D.hasPrevious = true) := by
  cases MD with
  | none => simp [MacroNameCollector.MacroDefined] at h
  | some D =>
    cases hMI : D.MacroInfo with
    | none => simp [MacroNameCollector.MacroDefined, hMI] at h
    | some MI =>
      have hX : C1.MultiplyDefinedMacros =
          (MacroNameCollector.MacroDefined.recordName C MacroNameTok
            (some D)).MultiplyDefinedMacros := by
        unfold MacroNameCollector.MacroDefined at h
        simp only [hMI] at h
        repeat' split at h
        all_goals (simp only [Except.ok.injEq] at h; subst h; rfl)
      rw [hX]
      unfold MacroNameCollector.MacroDefined.recordName
      cases MacroNameTok with
      | none => simp
      | some MacroName =>
        cases hp : D.hasPrevious
        · simp [hp]
        · simp only [if_true, List.mem_insert_iff, Option.some.injEq, exists_eq_left', hp,
            and_true]
          constructor
          · rintro (h | h)
            · exact Or.inr h.symm
            · exact Or.inl h
          · rintro (h | h)
            · exact Or.inr h
            · exact Or.inl h.symm

/-- `MultiplyDefinedMacros` of a collector after a stream of definition events that its
callback returned from: what it held before, and the names of the events whose directive had
a previous one. -/
theorem MacroNameCollector.collect_multiplyDefined
    (events : List (Option String × Option MacroDirective)) (C C1 : MacroNameCollector)
    (h : C.collect events = .ok C1) (M : String) :
    M ∈ C1.MultiplyDefinedMacros ↔
      M ∈ C.MultiplyDefinedMacros ∨
        ∃ D, (some M, some D) ∈ events ∧ D.hasPrevious = true := by
  induction events generalizing C with
  | nil =>
    simp only [MacroNameCollector.collect, Except.ok.injEq] at h
    subst h
    simp
  | cons e rest ih =>
    obtain ⟨Tok, MD⟩ := e
    simp only [MacroNameCollector.collect] at h
    split at h
    · simp at h
    · rename_i C0 h0
      rw [ih C0 h, MacroNameCollector.callback_multiplyDefined h0]
      simp only [List.mem_cons, Prod.mk.injEq]
      constructor
      · rintro ((h | ⟨rfl, D, rfl, hD⟩) | ⟨D, hm, hD⟩)
        · exact Or.inl h
        · exact Or.inr ⟨D, Or.inl ⟨rfl, rfl⟩, hD⟩
        · exact Or.inr ⟨D, Or.inr hm, hD⟩
      · rintro (h | ⟨D, (⟨h1, h2⟩ | hm), hD⟩)
        · exact Or.inl (Or.inl h)
        · exact Or.inl (Or.inr ⟨h1.symm, D, h2.symm, hD⟩)
        · exact Or.inr ⟨D, hm, hD⟩

/-- C11: a macro name is in `MultiplyDefinedMacros` after a stream of preprocessor events
exactly when some definition event for it had a previous definition, for the collector of
`CppToC.cc` and for `MacroNameCollector` alike; and every expression that is a whole,
un-nested expansion with the one recorded name `MacroName`, a name in
`MultiplyDefinedMacros`, is rejected by `transformEntireExpr` with `MULTIPLY_DEFINED`,
whatever the definition of the macro and whatever the expression is: the macro directive is
not even looked up, no test is run on the expression and no request is made to the
rewriter. -/
theorem transformEntireExpr_multiply_defined (MacroName : String) :
    (∀ events : List PPEvent,
      MacroName ∈ (preprocess State.initial events).MultiplyDefinedMacros ↔
        ∃ MI, PPEvent.Defined MacroName true MI ∈ events) ∧
    (∀ (events : List (Option String × Option MacroDirective)) (C C1 : MacroNameCollector),
      C.MultiplyDefinedMacros = [] → C.collect events = .ok C1 →
        (MacroName ∈ C1.MultiplyDefinedMacros ↔
          ∃ D, (some MacroName, some D) ∈ events ∧ D.hasPrevious = true)) ∧
    (∀ (fuel : Nat) (env : Env) (st : State) (E : Expr),
      MacroName ∈ st.MultiplyDefinedMacros →
      transformEntireExpr.NamesMacro env st E MacroName →
        transformEntireExpr fuel env st E =
          .ok (.MULTIPLY_DEFINED,
            { st with
              MacroNameToExpansionRanges :=
                mapTouch st.MacroNameToExpansionRanges MacroName })) := by
  refine ⟨fun events => ?_, fun events C C1 hC h => ?_, fun fuel env st E hM hE => ?_⟩
  · rw [preprocess_multiplyDefined]
    simp [State.initial]
  · rw [MacroNameCollector.collect_multiplyDefined events C C1 h, hC]
    simp
  · unfold transformEntireExpr
    rw [findMacroName_of_namesMacro hE]
    simp only [hE.named, if_false]
    rw [if_pos hM]

/-- Witness of C11: the main file `#define N 1`, `#undef N`, `#define N 2`, `int x;`,
`int main() { x = N; }`. -/
theorem transformEntireExpr_multiply_defined_witness :
    "N" ∈ (preprocess State.initial ExampleREDEF.events).MultiplyDefinedMacros ∧
    returned (transformEntireExpr 0 ExampleREDEF.env ExampleREDEF.st ExampleREDEF.Lit) =
      some .MULTIPLY_DEFINED ∧
    rewriterCalls (transformEntireExpr 0 ExampleREDEF.env ExampleREDEF.st ExampleREDEF.Lit) =
      some [] :=
  ⟨((transformEntireExpr_multiply_defined "N").1 ExampleREDEF.events).2
      ⟨ExampleREDEF.MI2, by decide⟩,
    congrArg returned
      ((transformEntireExpr_multiply_defined "N").2.2 0 ExampleREDEF.env ExampleREDEF.st
        ExampleREDEF.Lit (by decide)
        { atStart := by decide, atEnd := by decide, notContaining := by decide,
          notContained := by decide, oneName := by decide, sameExpansion := by decide,
          named := by decide }),
    congrArg rewriterCalls
      ((transformEntireExpr_multiply_defined "N").2.2 0 ExampleREDEF.env ExampleREDEF.st
        ExampleREDEF.Lit (by decide)
        { atStart := by decide, atEnd := by decide, notContaining := by decide,
          notContained := by decide, oneName := by decide, sameExpansion := by decide,
          named := by decide })⟩

/-! ## Nested expansions -/

/-- `TransformExpr` as its three steps. -/
theorem TransformExpr_eq_visit (fuel : Nat) (env : Env) (E : Expr) (st : State) :
    TransformExpr fuel env E st =
      if (classifyExpr E (st.EInCSub, st.EToCSub)).1 = .INVALID then
        .ok (TransformExpr.stateAfterClassify st E)
      else
        match transformEntireExpr fuel env (TransformExpr.stateAfterClassify st E) E with
        | .error a => .error a
        | .ok (result, st1) =>
          if result.visitsSubExprs then TransformExpr.visit fuel env E st1 else .ok st1 := by
  rw [TransformExpr]
  unfold TransformExpr.stateAfterClassify TransformExpr.visit
  cases E <;> rfl

/-- The set of starts of nested expansions after the loop of `MacroExpands` over `ranges`. -/
theorem MacroExpands.visit_foldl_contained (B : SourceLocation) (ranges : List SourceRange)
    (st : State) (L : SourceLocation) :
    L ∈ (ranges.foldl (MacroExpands.visit B)
        st).StartLocationsOFExpansionsContainedInOtherExpansion ↔
      L ∈ st.StartLocationsOFExpansionsContainedInOtherExpansion ∨
        (L = B ∧ ∃ o ∈ ranges, isInRange B o = true) := by
  induction ranges generalizing st with
  | nil => simp
  | cons o rest ih =>
    simp only [List.foldl_cons]
    rw [ih]
    unfold MacroExpands.visit
    by_cases ho : isInRange B o = true
    · simp only [ho, if_true, List.mem_insert_iff, List.mem_cons, exists_eq_or_imp, true_or,
        and_true]
      tauto
    · simp only [ho, if_false, List.mem_cons, exists_eq_or_imp, false_or, Bool.false_eq_true]

/-- The set of starts of expansions with nested expansions after the loop of `MacroExpands`
over `ranges`. -/
theorem MacroExpands.visit_foldl_containing (B : SourceLocation) (ranges : List SourceRange)
    (st : State) (L : SourceLocation) :
    L ∈ (ranges.foldl (MacroExpands.visit B)
        st).StartLocationsOfExpansionsContainingStartOfOtherExpansion ↔
      L ∈ st.StartLocationsOfExpansionsContainingStartOfOtherExpansion ∨
        ∃ o ∈ ranges, o.Begin = L ∧ isInRange B o = true := by
  induction ranges generalizing st with
  | nil => simp
  | cons o rest ih =>
    simp only [List.foldl_cons]
    rw [ih]
    unfold MacroExpands.visit
    by_cases ho : isInRange B o = true
    · simp only [ho, if_true, List.mem_insert_iff, List.mem_cons, exists_eq_or_imp, and_true]
      constructor
      · rintro ((h | h) | h)
        · exact Or.inr (Or.inl h.symm)
        · exact Or.inl h
        · exact Or.inr (Or.inr h)
      · rintro (h | h | h)
        · exact Or.inl (Or.inr h)
        · exact Or.inl (Or.inl h.symm)
        · exact Or.inr h
    · simp only [ho, if_false, List.mem_cons, exists_eq_or_imp, and_false, false_or,
        Bool.false_eq_true]

/-- `MacroExpands` flags the start of the new expansion as nested exactly when it lies in
the range of an expansion recorded before. -/
theorem MacroExpands_contained (st : State) (MacroName : String) (ExpansionRange : SourceRange)
    (L : SourceLocation) :
    L ∈ (MacroExpands st MacroName
        ExpansionRange).StartLocationsOFExpansionsContainedInOtherExpansion ↔
      L ∈ st.StartLocationsOFExpansionsContainedInOtherExpansion ∨
        (L = ExpansionRange.Begin ∧
          ∃ o ∈ st.ExpansionRanges, isInRange ExpansionRange.Begin o = true) := by
  unfold MacroExpands
  exact MacroExpands.visit_foldl_contained _ _ _ _

/-- `MacroExpands` flags the start of every expansion recorded before whose range holds the
start of the new expansion. -/
theorem MacroExpands_containing (st : State) (MacroName : String)
    (ExpansionRange : SourceRange) (L : SourceLocation) :
    L ∈ (MacroExpands st MacroName
        ExpansionRange).StartLocationsOfExpansionsContainingStartOfOtherExpansion ↔
      L ∈ st.StartLocationsOfExpansionsContainingStartOfOtherExpansion ∨
        ∃ o ∈ st.ExpansionRanges, o.Begin = L ∧ isInRange ExpansionRange.Begin o = true := by
  unfold MacroExpands
  exact MacroExpands.visit_foldl_containing _ _ _ _

theorem MacroExpands_expansionRanges (st : State) (MacroName : String)
    (ExpansionRange : SourceRange) :
    (MacroExpands st MacroName ExpansionRange).ExpansionRanges =
      st.ExpansionRanges ++ [ExpansionRange] := by
  unfold MacroExpands
  simp only
  rw [MacroExpands.visit_foldl_frame]

theorem State.SameCollected.refl (st : State) : st.SameCollected st :=
  ⟨rfl, rfl, rfl, rfl, rfl, rfl, rfl⟩

theorem State.SameCollected.trans {st st1 st2 : State} (h1 : st.SameCollected st1)
    (h2 : st1.SameCollected st2) : st.SameCollected st2 :=
  ⟨h2.macroNames.trans h1.macroNames, h2.multiplyDefined.trans h1.multiplyDefined,
    h2.expansionRanges.trans h1.expansionRanges, h2.containing.trans h1.containing,
    h2.contained.trans h1.contained, h2.names.trans h1.names,
    h2.directives.trans h1.directives⟩

theorem define_sameCollected (st : State) (MI : MacroInfo) (DefName DefBody : String) :
    st.SameCollected (transformEntireExpr.define st MI DefName DefBody).2 := by
  unfold transformEntireExpr.define
  split <;> exact ⟨rfl, rfl, rfl, rfl, rfl, rfl, rfl⟩

theorem callRewriter_sameCollected {st X : State} (h : st.SameCollected X) (env : Env)
    (Request : RewriteRequest) : st.SameCollected (callRewriter env X Request).2 :=
  ⟨h.macroNames, h.multiplyDefined, h.expansionRanges, h.containing, h.contained, h.names,
    h.directives⟩

/-- The last part of `transformEntireExpr` leaves alone what the callbacks collected. -/
theorem emit_sameCollected {fuel : Nat} {env : Env} {st st' : State} {E : Expr}
    {MacroName : String} {MI : MacroInfo} {r : TransformationResult}
    (h : transformEntireExpr.emit fuel env st E MacroName MI = .ok (r, st')) :
    st.SameCollected st' := by
  unfold transformEntireExpr.emit at h
  simp only at h
  repeat' split at h
  all_goals simp only [Except.ok.injEq, Prod.mk.injEq, reduceCtorEq] at h
  all_goals obtain ⟨-, rfl⟩ := h
  all_goals first
    | exact State.SameCollected.refl _
    | exact define_sameCollected _ _ _ _
    | exact callRewriter_sameCollected (define_sameCollected _ _ _ _) _ _
    | exact callRewriter_sameCollected
        (callRewriter_sameCollected (define_sameCollected _ _ _ _) _ _) _ _

/-- `transformEntireExpr` leaves alone what the callbacks collected. -/
theorem transformEntireExpr_sameCollected {fuel : Nat} {env : Env} {st st' : State} {E : Expr}
    {r : TransformationResult} (h : transformEntireExpr fuel env st E = .ok (r, st')) :
    st.SameCollected st' := by
  unfold transformEntireExpr at h
  have hfr := findMacroName_frame env st E
  generalize transformEntireExpr.findMacroName env st E = x at h hfr
  obtain ⟨x1, st1⟩ := x
  have h01 : st.SameCollected st1 := by
    simp only at hfr
    rw [hfr]
    exact ⟨rfl, rfl, rfl, rfl, rfl, rfl, rfl⟩
  cases x1 with
  | inl r1 =>
    simp only [Except.ok.injEq, Prod.mk.injEq] at h
    obtain ⟨-, rfl⟩ := h
    exact h01
  | inr MacroName =>
    simp only at h
    have hok : ∀ {r1 : TransformationResult} {X : State},
        (Except.ok (r1, X) : Except Abort (TransformationResult × State)) = .ok (r, st') →
          X = st' := by
      intro r1 X hx
      simp only [Except.ok.injEq, Prod.mk.injEq] at hx
      exact hx.2
    split at h
    · rw [← hok h]; exact h01
    · split at h
      · rw [← hok h]; exact h01
      · split at h
        · exact Except.noConfusion h
        · split at h
          · rw [← hok h]; exact h01
          · split at h
            · rw [← hok h]; exact h01
            · split at h
              · rw [← hok h]; exact h01.trans ⟨rfl, rfl, rfl, rfl, rfl, rfl, rfl⟩
              · split at h
                · rw [← hok h]; exact h01.trans ⟨rfl, rfl, rfl, rfl, rfl, rfl, rfl⟩
                · have h3 := emit_sameCollected h
                  exact h01.trans ⟨h3.macroNames, h3.multiplyDefined, h3.expansionRanges, h3.containing,
                    h3.contained, h3.names, h3.directives⟩

theorem TransformExpr.stateAfterClassify_sameCollected (st : State) (E : Expr) :
    st.SameCollected (TransformExpr.stateAfterClassify st E) :=
  ⟨rfl, rfl, rfl, rfl, rfl, rfl, rfl⟩

/-- A call of `TransformExpr` that returns either stops after the classification, or stops
after `transformEntireExpr`, or goes on to the visit of the sub-expressions. -/
theorem TransformExpr_ok_cases {fuel : Nat} {env : Env} {E : Expr} {st st' : State}
    (h : TransformExpr fuel env E st = .ok st') :
    st' = TransformExpr.stateAfterClassify st E ∨
    ∃ result st1,
      transformEntireExpr fuel env (TransformExpr.stateAfterClassify st E) E =
        .ok (result, st1) ∧
      ((result.visitsSubExprs = false ∧ st' = st1) ∨
        (result.visitsSubExprs = true ∧ TransformExpr.visit fuel env E st1 = .ok st')) := by
  rw [TransformExpr_eq_visit] at h
  split at h
  · left
    simp only [Except.ok.injEq] at h
    exact h.symm
  · right
    split at h
    · exact Except.noConfusion h
    · rename_i result st1 ht
      refine ⟨result, st1, ht, ?_⟩
      by_cases hv : result.visitsSubExprs = true
      · rw [if_pos hv] at h
        exact Or.inr ⟨hv, h⟩
      · rw [if_neg hv] at h
        simp only [Except.ok.injEq] at h
        exact Or.inl ⟨by simpa using hv, h.symm⟩

mutual
/-- `TransformExpr` leaves alone what the callbacks collected. -/
theorem TransformExpr_sameCollected (fuel : Nat) (env : Env) :
    ∀ (E : Expr) (st st' : State), TransformExpr fuel env E st = .ok st' →
      st.SameCollected st'
  | .ImplicitCastExpr R E0, st, st', h => by
    rcases TransformExpr_ok_cases h with rfl | ⟨result, st1, ht, ⟨-, rfl⟩ | ⟨-, hv⟩⟩
    · exact TransformExpr.stateAfterClassify_sameCollected _ _
    · exact (TransformExpr.stateAfterClassify_sameCollected _ _).trans
        (transformEntireExpr_sameCollected ht)
    · exact ((TransformExpr.stateAfterClassify_sameCollected _ _).trans
        (transformEntireExpr_sameCollected ht)).trans
        (TransformExpr_sameCollected fuel env E0 st1 st' hv)
  | .IntegerLiteral R V, st, st', h => by
    rcases TransformExpr_ok_cases h with rfl | ⟨result, st1, ht, ⟨-, rfl⟩ | ⟨-, hv⟩⟩
    · exact TransformExpr.stateAfterClassify_sameCollected _ _
    · exact (TransformExpr.stateAfterClassify_sameCollected _ _).trans
        (transformEntireExpr_sameCollected ht)
    · simp only [TransformExpr.visit, Except.ok.injEq] at hv
      subst hv
      exact (TransformExpr.stateAfterClassify_sameCollected _ _).trans
        (transformEntireExpr_sameCollected ht)
  | .DeclRefExpr R D, st, st', h => by
    rcases TransformExpr_ok_cases h with rfl | ⟨result, st1, ht, ⟨-, rfl⟩ | ⟨-, hv⟩⟩
    · exact TransformExpr.stateAfterClassify_sameCollected _ _
    · exact (TransformExpr.stateAfterClassify_sameCollected _ _).trans
        (transformEntireExpr_sameCollected ht)
    · simp only [TransformExpr.visit, Except.ok.injEq] at hv
      subst hv
      exact (TransformExpr.stateAfterClassify_sameCollected _ _).trans
        (transformEntireExpr_sameCollected ht)
  | .ParenExpr R E0, st, st', h => by
    rcases TransformExpr_ok_cases h with rfl | ⟨result, st1, ht, ⟨-, rfl⟩ | ⟨-, hv⟩⟩
    · exact TransformExpr.stateAfterClassify_sameCollected _ _
    · exact (TransformExpr.stateAfterClassify_sameCollected _ _).trans
        (transformEntireExpr_sameCollected ht)
    · exact ((TransformExpr.stateAfterClassify_sameCollected _ _).trans
        (transformEntireExpr_sameCollected ht)).trans
        (TransformExpr_sameCollected fuel env E0 st1 st' hv)
  | .UnaryOperator R OC E0, st, st', h => by
    rcases TransformExpr_ok_cases h with rfl | ⟨result, st1, ht, ⟨-, rfl⟩ | ⟨-, hv⟩⟩
    · exact TransformExpr.stateAfterClassify_sameCollected _ _
    · exact (TransformExpr.stateAfterClassify_sameCollected _ _).trans
        (transformEntireExpr_sameCollected ht)
    · have h01 := (TransformExpr.stateAfterClassify_sameCollected st
        (.UnaryOperator R OC E0)).trans (transformEntireExpr_sameCollected ht)
      simp only [TransformExpr.visit] at hv
      split at hv
      · exact h01.trans (TransformExpr_sameCollected fuel env E0 st1 st' hv)
      · simp only [Except.ok.injEq] at hv
        subst hv
        exact h01
  | .BinaryOperator R OC E1 E2, st, st', h => by
    rcases TransformExpr_ok_cases h with rfl | ⟨result, st1, ht, ⟨-, rfl⟩ | ⟨-, hv⟩⟩
    · exact TransformExpr.stateAfterClassify_sameCollected _ _
    · exact (TransformExpr.stateAfterClassify_sameCollected _ _).trans
        (transformEntireExpr_sameCollected ht)
    · have h01 := (TransformExpr.stateAfterClassify_sameCollected st
        (.BinaryOperator R OC E1 E2)).trans (transformEntireExpr_sameCollected ht)
      simp only [TransformExpr.visit] at hv
      split at hv
      · split at hv
        · exact Except.noConfusion hv
        · rename_i st2 h1
          exact (h01.trans (TransformExpr_sameCollected fuel env E1 st1 st2 h1)).trans
            (TransformExpr_sameCollected fuel env E2 st2 st' hv)
      · split at hv
        · split at hv
          · exact h01.trans (TransformExpr_sameCollected fuel env E2 st1 st' hv)
          · simp only [Except.ok.injEq] at hv
            subst hv
            exact h01
        · simp only [Except.ok.injEq] at hv
          subst hv
          exact h01
  | .CallExpr R Callee Args, st, st', h => by
    rcases TransformExpr_ok_cases h with rfl | ⟨result, st1, ht, ⟨-, rfl⟩ | ⟨-, hv⟩⟩
    · exact TransformExpr.stateAfterClassify_sameCollected _ _
    · exact (TransformExpr.stateAfterClassify_sameCollected _ _).trans
        (transformEntireExpr_sameCollected ht)
    · exact ((TransformExpr.stateAfterClassify_sameCollected _ _).trans
        (transformEntireExpr_sameCollected ht)).trans
        (TransformExprArgs_sameCollected fuel env Args st1 st' hv)
  | .OtherExpr R Children, st, st', h => by
    rcases TransformExpr_ok_cases h with rfl | ⟨result, st1, ht, ⟨-, rfl⟩ | ⟨-, hv⟩⟩
    · exact TransformExpr.stateAfterClassify_sameCollected _ _
    · exact (TransformExpr.stateAfterClassify_sameCollected _ _).trans
        (transformEntireExpr_sameCollected ht)
    · simp only [TransformExpr.visit, Except.ok.injEq] at hv
      subst hv
      exact (TransformExpr.stateAfterClassify_sameCollected _ _).trans
        (transformEntireExpr_sameCollected ht)
/-- The loop over the arguments of a call leaves alone what the callbacks collected. -/
theorem TransformExprArgs_sameCollected (fuel : Nat) (env : Env) :
    ∀ (Args : ExprList) (st st' : State), TransformExprArgs fuel env Args st = .ok st' →
      st.SameCollected st'
  | .nil, st, st', h => by
    simp only [TransformExprArgs, Except.ok.injEq] at h
    subst h
    exact State.SameCollected.refl _
  | .cons Arg Rest, st, st', h => by
    rw [TransformExprArgs] at h
    split at h
    · exact Except.noConfusion h
    · rename_i st1 h1
      exact (TransformExpr_sameCollected fuel env Arg st st1 h1).trans
        (TransformExprArgs_sameCollected fuel env Rest st1 st' h)
end

mutual
/-- `TransformStmt` leaves alone what the callbacks collected. -/
theorem TransformStmt_sameCollected (fuel : Nat) (env : Env) :
    ∀ (S : Stmt) (st st' : State), TransformStmt fuel env S st = .ok st' →
      st.SameCollected st'
  | .ExprStmt ES, st, st', h => by
    rw [TransformStmt] at h
    exact TransformExpr_sameCollected fuel env ES st st' h
  | .IfStmt E S1 (some S2), st, st', h => by
    rw [TransformStmt] at h
    split at h
    · exact Except.noConfusion h
    · rename_i st1 h1
      split at h
      · exact Except.noConfusion h
      · rename_i st2 h2
        exact ((TransformExpr_sameCollected fuel env E st st1 h1).trans
          (TransformStmt_sameCollected fuel env S1 st1 st2 h2)).trans
          (TransformStmt_sameCollected fuel env S2 st2 st' h)
  | .IfStmt _ _ none, st, st', h => by
    rw [TransformStmt] at h
    simp only [Except.ok.injEq] at h
    subst h
    exact State.SameCollected.refl _
  | .WhileStmt E S1, st, st', h => by
    rw [TransformStmt] at h
    split at h
    · exact Except.noConfusion h
    · rename_i st1 h1
      exact (TransformExpr_sameCollected fuel env E st st1 h1).trans
        (TransformStmt_sameCollected fuel env S1 st1 st' h)
  | .CompoundStmt Children, st, st', h => by
    rw [TransformStmt] at h
    exact TransformStmts_sameCollected fuel env Children st st' h
  | .OtherStmt _, st, st', h => by
    rw [TransformStmt] at h
    simp only [Except.ok.injEq] at h
    subst h
    exact State.SameCollected.refl _
/-- The loop over the children of a compound statement leaves alone what the callbacks
collected. -/
theorem TransformStmts_sameCollected (fuel : Nat) (env : Env) :
    ∀ (Children : List Stmt) (st st' : State), TransformStmts fuel env Children st = .ok st' →
      st.SameCollected st'
  | [], st, st', h => by
    rw [TransformStmts] at h
    simp only [Except.ok.injEq] at h
    subst h
    exact State.SameCollected.refl _
  | S :: Rest, st, st', h => by
    rw [TransformStmts] at h
    split at h
    · exact Except.noConfusion h
    · rename_i st1 h1
      exact (TransformStmt_sameCollected fuel env S st st1 h1).trans
        (TransformStmts_sameCollected fuel env Rest st1 st' h)
end

/-- No step of a pass removes a location from the two sets of nested starts. -/
theorem PassStep.step_flags_mono {fuel : Nat} {env : Env} {st st' : State}
    (h : PassStep fuel env st st') (L : SourceLocation) :
    (L ∈ st.StartLocationsOfExpansionsContainingStartOfOtherExpansion →
      L ∈ st'.StartLocationsOfExpansionsContainingStartOfOtherExpansion) ∧
    (L ∈ st.StartLocationsOFExpansionsContainedInOtherExpansion →
      L ∈ st'.StartLocationsOFExpansionsContainedInOtherExpansion) := by
  cases h with
  | event e =>
    cases e with
    | Defined MacroName hasPrevious MI => exact ⟨fun h => h, fun h => h⟩
    | Expands MacroName ExpansionRange =>
      simp only [PPEvent.deliver]
      exact ⟨fun h => (MacroExpands_containing _ _ _ _).2 (Or.inl h),
        fun h => (MacroExpands_contained _ _ _ _).2 (Or.inl h)⟩
  | functionDecl functionName => exact ⟨fun h => h, fun h => h⟩
  | varDecl VarName => exact ⟨fun h => h, fun h => h⟩
  | entireExpr _ E r ht =>
    have hs := transformEntireExpr_sameCollected ht
    rw [hs.containing, hs.contained]
    exact ⟨fun h => h, fun h => h⟩
  | expr _ E ht =>
    have hs := TransformExpr_sameCollected fuel env E st st' ht
    rw [hs.containing, hs.contained]
    exact ⟨fun h => h, fun h => h⟩
  | stmt _ S ht =>
    have hs := TransformStmt_sameCollected fuel env S st st' ht
    rw [hs.containing, hs.contained]
    exact ⟨fun h => h, fun h => h⟩

/-- The two sets of nested starts only grow during a pass. -/
theorem Pass.flags_mono {fuel : Nat} {env : Env} {st st' : State} (h : Pass fuel env st st')
    (L : SourceLocation) :
    (L ∈ st.StartLocationsOfExpansionsContainingStartOfOtherExpansion →
      L ∈ st'.StartLocationsOfExpansionsContainingStartOfOtherExpansion) ∧
    (L ∈ st.StartLocationsOFExpansionsContainedInOtherExpansion →
      L ∈ st'.StartLocationsOFExpansionsContainedInOtherExpansion) := by
  induction h with
  | refl => exact ⟨fun h => h, fun h => h⟩
  | tail _ hstep ih =>
    exact ⟨fun h => (hstep.step_flags_mono L).1 (ih.1 h), fun h => (hstep.step_flags_mono L).2 (ih.2 h)⟩

/-- The result of `transformEntireExpr` on an expression whose expansion starts at a
location in one of the two sets of nested starts. -/
theorem transformEntireExpr_of_flagged (fuel : Nat) (env : Env) (st : State) (E : Expr)
    (h : st.flags (env.getExpansionRange E.getSourceRange).Begin) :
    transformEntireExpr fuel env st E =
      .ok (if env.isAtStartOfMacroExpansion E.getBeginLoc &&
              env.isAtEndOfMacroExpansion E.getEndLoc then
            if (env.getExpansionRange E.getSourceRange).Begin ∈
                st.StartLocationsOfExpansionsContainingStartOfOtherExpansion then
              .CONTAINS_NESTED_INVOCATIONS
            else .CONTAINED_IN_INVOCATION
          else .NOT_TRANSFORMED, st) := by
  unfold transformEntireExpr transformEntireExpr.findMacroName
  simp only
  by_cases hw : (env.isAtStartOfMacroExpansion E.getBeginLoc &&
      env.isAtEndOfMacroExpansion E.getEndLoc) = true
  · rw [if_pos hw, if_pos hw]
    by_cases h1 : (env.getExpansionRange E.getSourceRange).Begin ∈
        st.StartLocationsOfExpansionsContainingStartOfOtherExpansion
    · rw [if_pos h1, if_pos h1]
    · rw [if_neg h1, if_neg h1]
      have h2 : (env.getExpansionRange E.getSourceRange).Begin ∈
          st.StartLocationsOFExpansionsContainedInOtherExpansion := by
        rcases h with h | h
        · exact absurd h h1
        · exact h
      rw [if_pos h2]
  · rw [if_neg hw, if_neg hw]

/-- C12: let `E` be an expansion, an expression that begins at the start and ends at the end
of a macro expansion, and `EB` the start of its expansion range.  When `EB` is in the set of
starts of expansions that contain the start of another expansion, `transformEntireExpr`
returns `CONTAINS_NESTED_INVOCATIONS`; when `EB` is only in the set of starts of expansions
contained in another expansion, it returns `CONTAINED_IN_INVOCATION`; both leave the state as
it was.  No step of a pass (a preprocessor callback, the collection of a name, a call of
`transformEntireExpr`, `TransformExpr` or `TransformStmt`) removes a location from either set,
so once `EB` is in one of them, `EB` stays there and every later call on `E` in the pass
returns a result other than `TRANSFORMED`; and a call that returns `TRANSFORMED` is on an
expansion whose start is in neither set, then and at every earlier state of the pass. -/
theorem transformEntireExpr_nested (fuel : Nat) (env : Env) (st : State) (E : Expr)
    (hstart : env.isAtStartOfMacroExpansion E.getBeginLoc = true)
    (hend : env.isAtEndOfMacroExpansion E.getEndLoc = true) :
    ((env.getExpansionRange E.getSourceRange).Begin ∈
        st.StartLocationsOfExpansionsContainingStartOfOtherExpansion →
      transformEntireExpr fuel env st E = .ok (.CONTAINS_NESTED_INVOCATIONS, st)) ∧
    ((env.getExpansionRange E.getSourceRange).Begin ∉
        st.StartLocationsOfExpansionsContainingStartOfOtherExpansion →
      (env.getExpansionRange E.getSourceRange).Begin ∈
        st.StartLocationsOFExpansionsContainedInOtherExpansion →
      transformEntireExpr fuel env st E = .ok (.CONTAINED_IN_INVOCATION, st)) ∧
    (st.flags (env.getExpansionRange E.getSourceRange).Begin →
      ∀ st', Pass fuel env st st' →
        st'.flags (env.getExpansionRange E.getSourceRange).Begin ∧
        ∃ r, transformEntireExpr fuel env st' E = .ok (r, st') ∧ r ≠ .TRANSFORMED) ∧
    (∀ st0 st', Pass fuel env st0 st →
      transformEntireExpr fuel env st E = .ok (.TRANSFORMED, st') →
        ¬ st0.flags (env.getExpansionRange E.getSourceRange).Begin ∧
        ¬ st.flags (env.getExpansionRange E.getSourceRange).Begin) := by
  have hw : (env.isAtStartOfMacroExpansion E.getBeginLoc &&
      env.isAtEndOfMacroExpansion E.getEndLoc) = true := by rw [hstart, hend]; rfl
  have hnot : ∀ s s' : State, transformEntireExpr fuel env s E = .ok (.TRANSFORMED, s') →
      ¬ s.flags (env.getExpansionRange E.getSourceRange).Begin := by
    intro s s' ht hf
    rw [transformEntireExpr_of_flagged fuel env s E hf, if_pos hw] at ht
    simp only [Except.ok.injEq, Prod.mk.injEq] at ht
    split at ht <;> exact absurd ht.1 (by decide)
  refine ⟨fun h1 => ?_, fun h1 h2 => ?_, fun hf st' hp => ?_, fun st0 st' hp ht => ?_⟩
  · rw [transformEntireExpr_of_flagged fuel env st E (Or.inl h1), if_pos hw, if_pos h1]
  · rw [transformEntireExpr_of_flagged fuel env st E (Or.inr h2), if_pos hw, if_neg h1]
  · have hf' : st'.flags (env.getExpansionRange E.getSourceRange).Begin := by
      rcases hf with h | h
      · exact Or.inl ((Pass.flags_mono hp _).1 h)
      · exact Or.inr ((Pass.flags_mono hp _).2 h)
    refine ⟨hf', _, transformEntireExpr_of_flagged fuel env st' E hf', ?_⟩
    rw [if_pos hw]
    split <;> decide
  · have h2 := hnot st st' ht
    refine ⟨fun h0 => h2 ?_, h2⟩
    rcases h0 with h | h
    · exact Or.inl ((Pass.flags_mono hp _).1 h)
    · exact Or.inr ((Pass.flags_mono hp _).2 h)

/-- Witness of C12: the main file `#define ONE 1`, `#define ID(x) x`,
`int main() { return ID(ONE); }`; the expansion of `ID(ONE)` contains the start of the
expansion of `ONE`. -/
theorem transformEntireExpr_nested_witness :
    ExampleNEST.st.StartLocationsOfExpansionsContainingStartOfOtherExpansion = [50] ∧
    ExampleNEST.st.StartLocationsOFExpansionsContainedInOtherExpansion = [53] ∧
    transformEntireExpr 0 ExampleNEST.env ExampleNEST.st ExampleNEST.Lit =
      .ok (.CONTAINS_NESTED_INVOCATIONS, ExampleNEST.st) :=
  ⟨by decide, by decide,
    (transformEntireExpr_nested 0 ExampleNEST.env ExampleNEST.st ExampleNEST.Lit (by decide)
      (by decide)).1 (by decide)⟩

/-! ## Roots of the nesting of expansion ranges -/

theorem MacroExpands.all_cons (st : State) (a : String × SourceRange)
    (xs : List (String × SourceRange)) :
    MacroExpands.all st (a :: xs) = MacroExpands.all (MacroExpands st a.1 a.2) xs := rfl

theorem MacroExpands.all_expansionRanges (xs : List (String × SourceRange)) (st : State) :
    (MacroExpands.all st xs).ExpansionRanges = st.ExpansionRanges ++ xs.map Prod.snd := by
  induction xs generalizing st with
  | nil => simp [MacroExpands.all]
  | cons a t ih =>
    rw [MacroExpands.all_cons, ih, MacroExpands_expansionRanges]
    simp

/-- The set of starts of nested expansions after a sequence of calls of `MacroExpands`: a
start is in the set when it is the start of an expansion that lies in the range of an
expansion recorded before it. -/
theorem MacroExpands.all_contained (xs : List (String × SourceRange)) (st : State)
    (L : SourceLocation) :
    L ∈ (MacroExpands.all st xs).StartLocationsOFExpansionsContainedInOtherExpansion ↔
      L ∈ st.StartLocationsOFExpansionsContainedInOtherExpansion ∨
        ∃ pre x post, xs = pre ++ x :: post ∧ x.2.Begin = L ∧
          ∃ o ∈ st.ExpansionRanges ++ pre.map Prod.snd, isInRange L o = true := by
  induction xs generalizing st with
  | nil => simp [MacroExpands.all]
  | cons a t ih =>
    rw [MacroExpands.all_cons, ih, MacroExpands_contained, MacroExpands_expansionRanges]
    constructor
    · rintro ((h | ⟨rfl, o, ho, hin⟩) | ⟨pre, x, post, rfl, rfl, o, ho, hin⟩)
      · exact Or.inl h
      · exact Or.inr ⟨[], a, t, rfl, rfl, o, by simpa using ho, hin⟩
      · exact Or.inr ⟨a :: pre, x, post, rfl, rfl, o, by simpa using ho, hin⟩
    · rintro (h | ⟨pre, x, post, hxs, rfl, o, ho, hin⟩)
      · exact Or.inl (Or.inl h)
      · cases pre with
        | nil =>
          simp only [List.nil_append, List.cons.injEq] at hxs
          obtain ⟨rfl, rfl⟩ := hxs
          exact Or.inl (Or.inr ⟨rfl, o, by simpa using ho, hin⟩)
        | cons b pre =>
          simp only [List.cons_append, List.cons.injEq] at hxs
          obtain ⟨rfl, rfl⟩ := hxs
          exact Or.inr ⟨pre, x, post, rfl, rfl, o, by simpa using ho, hin⟩

/-- The set of starts of expansions with nested expansions after a sequence of calls of
`MacroExpands`: a start is in the set when it is the start of an expansion whose range holds
the start of an expansion recorded after it. -/
theorem MacroExpands.all_containing (xs : List (String × SourceRange)) (st : State)
    (L : SourceLocation) :
    L ∈ (MacroExpands.all st xs).StartLocationsOfExpansionsContainingStartOfOtherExpansion ↔
      L ∈ st.StartLocationsOfExpansionsContainingStartOfOtherExpansion ∨
        ∃ pre x post, xs = pre ++ x :: post ∧
          ∃ o ∈ st.ExpansionRanges ++ pre.map Prod.snd,
            o.Begin = L ∧ isInRange x.2.Begin o = true := by
  induction xs generalizing st with
  | nil => simp [MacroExpands.all]
  | cons a t ih =>
    rw [MacroExpands.all_cons, ih, MacroExpands_containing, MacroExpands_expansionRanges]
    constructor
    · rintro ((h | ⟨o, ho, rfl, hin⟩) | ⟨pre, x, post, rfl, o, ho, rfl, hin⟩)
      · exact Or.inl h
      · exact Or.inr ⟨[], a, t, rfl, o, by simpa using ho, rfl, hin⟩
      · exact Or.inr ⟨a :: pre, x, post, rfl, o, by simpa using ho, rfl, hin⟩
    · rintro (h | ⟨pre, x, post, hxs, o, ho, rfl, hin⟩)
      · exact Or.inl (Or.inl h)
      · cases pre with
        | nil =>
          simp only [List.nil_append, List.cons.injEq] at hxs
          obtain ⟨rfl, rfl⟩ := hxs
          exact Or.inl (Or.inr ⟨o, by simpa using ho, rfl, hin⟩)
        | cons b pre =>
          simp only [List.cons_append, List.cons.injEq] at hxs
          obtain ⟨rfl, rfl⟩ := hxs
          exact Or.inr ⟨pre, x, post, rfl, o, by simpa using ho, rfl, hin⟩

theorem isInRange_iff (L : SourceLocation) (SR2 : SourceRange) :
    isInRange L SR2 = true ↔ SR2.Begin ≤ L ∧ L ≤ SR2.End := by
  simp [isInRange]

/-- A range that strictly encloses `x` is recorded before `x`, when every range is recorded
after the ranges around it. -/
theorem MacroExpands.encloser_before {pre post : List (String × SourceRange)}
    {x y : String × SourceRange}
    (hnest : (pre ++ x :: post).Pairwise (fun a b => a.2.Apart b.2 ∨ b.2.StartsInside a.2))
    (hwf : x.2.Begin ≤ x.2.End) (hy : y ∈ pre ++ x :: post)
    (henc : y.2.StrictlyEncloses x.2) : y ∈ pre := by
  rw [List.pairwise_append, List.pairwise_cons] at hnest
  obtain ⟨-, ⟨hxpost, -⟩, -⟩ := hnest
  rcases List.mem_append.1 hy with h | h
  · exact h
  · exfalso
    rcases List.mem_cons.1 h with rfl | h
    · exact henc.2.2 rfl
    · have hR := hxpost y h
      simp only [SourceRange.Apart, SourceRange.StartsInside] at hR
      obtain ⟨h1, h2, -⟩ := henc
      unfold SourceLocation at *
      omega

/-- A range recorded before `x` that holds the start of `x` strictly encloses `x`. -/
theorem MacroExpands.encloses_of_before {pre post : List (String × SourceRange)}
    {x y : String × SourceRange}
    (hnest : (pre ++ x :: post).Pairwise (fun a b => a.2.Apart b.2 ∨ b.2.StartsInside a.2))
    (hwf : x.2.Begin ≤ x.2.End) (hy : y ∈ pre) (hin : isInRange x.2.Begin y.2 = true) :
    y.2.StrictlyEncloses x.2 := by
  rw [List.pairwise_append] at hnest
  obtain ⟨-, -, hpre⟩ := hnest
  have hR := hpre y hy x (List.mem_cons_self _ _)
  rw [isInRange_iff] at hin
  simp only [SourceRange.Apart, SourceRange.StartsInside] at hR
  rcases hR with hR | hR
  · exfalso
    unfold SourceLocation at *
    omega
  · exact ⟨Nat.le_of_lt hR.1, hR.2, fun he => by
      rw [he] at hR
      exact absurd hR.1 (Nat.lt_irrefl _)⟩

/-- Two recorded ranges with the same start are the same entry. -/
theorem MacroExpands.eq_of_begin_eq {xs : List (String × SourceRange)}
    (hwf : ∀ x ∈ xs, x.2.Begin ≤ x.2.End)
    (hnest : xs.Pairwise (fun a b => a.2.Apart b.2 ∨ b.2.StartsInside a.2))
    {a b : String × SourceRange} (ha : a ∈ xs) (hb : b ∈ xs)
    (hab : a.2.Begin = b.2.Begin) : a = b := by
  by_contra hne
  have hS : xs.Pairwise (fun a b => (a.2.Apart b.2 ∨ b.2.StartsInside a.2) ∨
      (b.2.Apart a.2 ∨ a.2.StartsInside b.2)) := hnest.imp (fun h => Or.inl h)
  have hsym : Symmetric (fun a b : String × SourceRange =>
      (a.2.Apart b.2 ∨ b.2.StartsInside a.2) ∨ (b.2.Apart a.2 ∨ a.2.StartsInside b.2)) :=
    fun _ _ h => h.symm
  have hR := hS.forall hsym ha hb hne
  have h1 := hwf a ha
  have h2 := hwf b hb
  simp only [SourceRange.Apart, SourceRange.StartsInside] at hR
  unfold SourceLocation at *
  omega

/-- Of two recorded ranges around `x`, the one that starts first strictly encloses the
other. -/
theorem MacroExpands.enclosers_nested {xs : List (String × SourceRange)}
    (hnest : xs.Pairwise (fun a b => a.2.Apart b.2 ∨ b.2.StartsInside a.2))
    {x : SourceRange} (hwf : x.Begin ≤ x.End)
    {a b : String × SourceRange} (ha : a ∈ xs) (hb : b ∈ xs) (hne : a ≠ b)
    (hax : a.2.StrictlyEncloses x) (hbx : b.2.StrictlyEncloses x)
    (hab : a.2.Begin ≤ b.2.Begin) : a.2.StrictlyEncloses b.2 := by
  have hS : xs.Pairwise (fun a b => (a.2.Apart b.2 ∨ b.2.StartsInside a.2) ∨
      (b.2.Apart a.2 ∨ a.2.StartsInside b.2)) := hnest.imp (fun h => Or.inl h)
  have hsym : Symmetric (fun a b : String × SourceRange =>
      (a.2.Apart b.2 ∨ b.2.StartsInside a.2) ∨ (b.2.Apart a.2 ∨ a.2.StartsInside b.2)) :=
    fun _ _ h => h.symm
  have hR := hS.forall hsym ha hb hne
  obtain ⟨h1, h2, -⟩ := hax
  obtain ⟨h3, h4, -⟩ := hbx
  simp only [SourceRange.Apart, SourceRange.StartsInside] at hR
  have hlt : a.2.Begin < b.2.Begin ∧ b.2.End ≤ a.2.End := by
    unfold SourceLocation at *
    omega
  exact ⟨hab, hlt.2, fun he => by
    rw [he] at hlt
    exact absurd hlt.1 (Nat.lt_irrefl _)⟩

/-- A recorded range with a recorded strict superset has exactly one immediate parent: the
strict superset that every other strict superset strictly encloses. -/
theorem MacroExpands.existsUnique_parent {xs : List (String × SourceRange)}
    (hnest : xs.Pairwise (fun a b => a.2.Apart b.2 ∨ b.2.StartsInside a.2))
    {x : SourceRange} (hwf : x.Begin ≤ x.End)
    (hx : ∃ y ∈ xs, y.2.StrictlyEncloses x) :
    ∃! p, p ∈ xs.map Prod.snd ∧ p.StrictlyEncloses x ∧
      ∀ q ∈ xs.map Prod.snd, q.StrictlyEncloses x → q = p ∨ q.StrictlyEncloses p := by
  classical
  obtain ⟨y, hy, hyx⟩ := hx
  have hne : (xs.toFinset.filter (fun z => z.2.StrictlyEncloses x)).Nonempty :=
    ⟨y, by simp [hy, hyx]⟩
  obtain ⟨p, hp, hmax⟩ := Finset.exists_max_image _ (fun z => z.2.Begin) hne
  simp only [Finset.mem_filter, List.mem_toFinset] at hp hmax
  refine ⟨p.2, ⟨List.mem_map.2 ⟨p, hp.1, rfl⟩, hp.2, ?_⟩, ?_⟩
  · intro q hq hqx
    obtain ⟨q', hq', rfl⟩ := List.mem_map.1 hq
    by_cases he : q' = p
    · exact Or.inl (by rw [he])
    · exact Or.inr (MacroExpands.enclosers_nested hnest hwf hq' hp.1 he hqx hp.2
        (hmax q' ⟨hq', hqx⟩))
  · rintro p2 ⟨hp2, hp2x, hmin2⟩
    rcases hmin2 p.2 (List.mem_map.2 ⟨p, hp.1, rfl⟩) hp.2 with h | h
    · exact h.symm
    · obtain ⟨p2', hp2', rfl⟩ := List.mem_map.1 hp2
      by_cases he : p2' = p
      · rw [he]
      · exfalso
        have h' := MacroExpands.enclosers_nested hnest hwf hp2' hp.1 he hp2x hp.2
          (hmax p2' ⟨hp2', hp2x⟩)
        obtain ⟨h1, h2, h3⟩ := h
        obtain ⟨h4, h5, -⟩ := h'
        apply h3
        cases hpr : p.2 with
        | mk pb pe =>
          cases hqr : p2'.2 with
          | mk qb qe =>
            rw [hpr, hqr] at h1 h2 h4 h5
            simp only at h1 h2 h4 h5
            simp only [SourceRange.mk.injEq]
            exact ⟨Nat.le_antisymm h1 h4, Nat.le_antisymm h5 h2⟩

/-- C13 (amended): let the expansion ranges delivered to `MacroExpands`, from the initial
state, be well-formed (no range ends before it begins), and let every two of them be either
disjoint, or such that the one delivered later lies in the one delivered earlier and starts
after its start.  Then the expansions whose start is left out of the set of starts of
expansions contained in another expansion are exactly the expansions with no strict superset
among the ranges; the expansions whose start is in the set of starts of expansions that
contain the start of another are exactly those that are a strict superset of another; and every
expansion with a strict superset has exactly one immediate parent, a strict superset that
every other strict superset of it strictly encloses. -/
theorem MacroExpands_roots (xs : List (String × SourceRange))
    (hwf : ∀ x ∈ xs, x.2.Begin ≤ x.2.End)
    (hnest : xs.Pairwise (fun a b => a.2.Apart b.2 ∨ b.2.StartsInside a.2))
    (x : String × SourceRange) (hx : x ∈ xs) :
    (x.2.Begin ∉ (MacroExpands.all State.initial
        xs).StartLocationsOFExpansionsContainedInOtherExpansion ↔
      ∀ y ∈ xs, ¬ y.2.StrictlyEncloses x.2) ∧
    (x.2.Begin ∈ (MacroExpands.all State.initial
        xs).StartLocationsOfExpansionsContainingStartOfOtherExpansion ↔
      ∃ y ∈ xs, x.2.StrictlyEncloses y.2) ∧
    ((∃ y ∈ xs, y.2.StrictlyEncloses x.2) →
      ∃! p, p ∈ xs.map Prod.snd ∧ p.StrictlyEncloses x.2 ∧
        ∀ q ∈ xs.map Prod.snd, q.StrictlyEncloses x.2 → q = p ∨ q.StrictlyEncloses p) := by
  have hwx := hwf x hx
  refine ⟨?_, ?_, MacroExpands.existsUnique_parent hnest hwx⟩
  · rw [MacroExpands.all_contained]
    simp only [State.initial, List.not_mem_nil, false_or, List.nil_append]
    constructor
    · intro hun y hy henc
      apply hun
      obtain ⟨pre, post, rfl⟩ := List.append_of_mem hx
      have hpre := MacroExpands.encloser_before hnest hwx hy henc
      refine ⟨pre, x, post, rfl, rfl, y.2, List.mem_map.2 ⟨y, hpre, rfl⟩, ?_⟩
      rw [isInRange_iff]
      exact ⟨henc.1, Nat.le_trans hwx henc.2.1⟩
    · rintro hroot ⟨pre, x', post, hxs, hb, o, ho, hin⟩
      obtain ⟨y, hy, rfl⟩ := List.mem_map.1 ho
      subst hxs
      have hx' : x' = x :=
        MacroExpands.eq_of_begin_eq hwf hnest (by simp) hx hb
      subst hx'
      exact hroot y (by simp [hy])
        (MacroExpands.encloses_of_before hnest hwx hy hin)
  · rw [MacroExpands.all_containing]
    simp only [State.initial, List.not_mem_nil, false_or, List.nil_append]
    constructor
    · rintro ⟨pre, z, post, hxs, o, ho, hob, hin⟩
      obtain ⟨w, hw, rfl⟩ := List.mem_map.1 ho
      subst hxs
      have hwx' : w = x :=
        MacroExpands.eq_of_begin_eq hwf hnest (by simp [hw]) hx hob
      subst hwx'
      exact ⟨z, by simp, MacroExpands.encloses_of_before hnest (hwf z (by simp)) hw hin⟩
    · rintro ⟨y, hy, henc⟩
      obtain ⟨pre, post, rfl⟩ := List.append_of_mem hy
      have hpre := MacroExpands.encloser_before hnest (hwf y hy) hx henc
      refine ⟨pre, y, post, rfl, x.2, List.mem_map.2 ⟨x, hpre, rfl⟩, rfl, ?_⟩
      rw [isInRange_iff]
      exact ⟨henc.1, Nat.le_trans (hwf y hy) henc.2.1⟩

/-- Counterexample to C13 as stated.  The ranges 5..6 and 3..10 are strictly nested; when the
inner one is delivered first, its start 5 is left out of the set of starts of contained
expansions although 3..10 is a strict superset.  The ranges 3..10 and 3..5 are strictly
nested; delivered in this order, the start 3 of the outer one is put into the set although
it has no strict superset. -/
theorem MacroExpands_roots_counterexample :
    ([("INNER", (⟨5, 6⟩ : SourceRange)), ("OUTER", ⟨3, 10⟩)].Pairwise
        (fun a b => a.2.Apart b.2 ∨ a.2.StrictlyEncloses b.2 ∨ b.2.StrictlyEncloses a.2) ∧
      SourceRange.StrictlyEncloses ⟨3, 10⟩ ⟨5, 6⟩ ∧
      (5 : SourceLocation) ∉ (MacroExpands.all State.initial
        [("INNER", ⟨5, 6⟩), ("OUTER", ⟨3, 10⟩)]).StartLocationsOFExpansionsContainedInOtherExpansion) ∧
    ([("OUTER", (⟨3, 10⟩ : SourceRange)), ("INNER", ⟨3, 5⟩)].Pairwise
        (fun a b => a.2.Apart b.2 ∨ a.2.StrictlyEncloses b.2 ∨ b.2.StrictlyEncloses a.2) ∧
      (∀ y ∈ [("OUTER", (⟨3, 10⟩ : SourceRange)), ("INNER", ⟨3, 5⟩)],
        ¬ y.2.StrictlyEncloses ⟨3, 10⟩) ∧
      (3 : SourceLocation) ∈ (MacroExpands.all State.initial
        [("OUTER", ⟨3, 10⟩), ("INNER", ⟨3, 5⟩)]).StartLocationsOFExpansionsContainedInOtherExpansion) := by
  decide

/-- Witness of C13 (amended): the expansion `F` at 3..10 with the expansion `X` at 5..6 in
its argument, followed by the expansion `Y` at 12..12; the entry looked at is `X`. -/
theorem MacroExpands_roots_witness :
    ((5 : SourceLocation) ∉ (MacroExpands.all State.initial
        [("F", ⟨3, 10⟩), ("X", ⟨5, 6⟩),
          ("Y", ⟨12, 12⟩)]).StartLocationsOFExpansionsContainedInOtherExpansion ↔
      ∀ y ∈ [("F", (⟨3, 10⟩ : SourceRange)), ("X", ⟨5, 6⟩), ("Y", ⟨12, 12⟩)],
        ¬ y.2.StrictlyEncloses ⟨5, 6⟩) ∧
    ((5 : SourceLocation) ∈ (MacroExpands.all State.initial
        [("F", ⟨3, 10⟩), ("X", ⟨5, 6⟩),
          ("Y", ⟨12, 12⟩)]).StartLocationsOfExpansionsContainingStartOfOtherExpansion ↔
      ∃ y ∈ [("F", (⟨3, 10⟩ : SourceRange)), ("X", ⟨5, 6⟩), ("Y", ⟨12, 12⟩)],
        SourceRange.StrictlyEncloses ⟨5, 6⟩ y.2) ∧
    ((∃ y ∈ [("F", (⟨3, 10⟩ : SourceRange)), ("X", ⟨5, 6⟩), ("Y", ⟨12, 12⟩)],
        y.2.StrictlyEncloses ⟨5, 6⟩) →
      ∃! p, p ∈ [("F", (⟨3, 10⟩ : SourceRange)), ("X", ⟨5, 6⟩), ("Y", ⟨12, 12⟩)].map Prod.snd ∧
        p.StrictlyEncloses ⟨5, 6⟩ ∧
        ∀ q ∈ [("F", (⟨3, 10⟩ : SourceRange)), ("X", ⟨5, 6⟩), ("Y", ⟨12, 12⟩)].map Prod.snd,
          q.StrictlyEncloses ⟨5, 6⟩ → q = p ∨ q.StrictlyEncloses p) :=
  MacroExpands_roots [("F", ⟨3, 10⟩), ("X", ⟨5, 6⟩), ("Y", ⟨12, 12⟩)] (by decide) (by decide)
    ("X", ⟨5, 6⟩) (by decide)

/-! ## More than one name at the start of an expansion -/

/-- C14: when more than one macro name is recorded at the start of the expansion range of
`E`, `transformEntireExpr` returns without a transformation and leaves the whole state as it
was: no name is taken as the macro of `E`, no name is reserved and no request is made to the
rewriter.  The result is `NOT_TRANSFORMED` when `E` is not a whole expansion,
`CONTAINS_NESTED_INVOCATIONS` or `CONTAINED_IN_INVOCATION` when the start is in the
respective set of nested starts, and `ERROR` otherwise. -/
theorem transformEntireExpr_ambiguous (fuel : Nat) (env : Env) (st : State) (E : Expr)
    (Names : List String)
    (hnames : st.ExpansionStartLocationToMacroNames
      (env.getExpansionRange E.getSourceRange).Begin = some Names)
    (hmany : Names.length > 1) :
    transformEntireExpr fuel env st E =
      .ok (if env.isAtStartOfMacroExpansion E.getBeginLoc &&
              env.isAtEndOfMacroExpansion E.getEndLoc then
            if (env.getExpansionRange E.getSourceRange).Begin ∈
                st.StartLocationsOfExpansionsContainingStartOfOtherExpansion then
              .CONTAINS_NESTED_INVOCATIONS
            else if (env.getExpansionRange E.getSourceRange).Begin ∈
                st.StartLocationsOFExpansionsContainedInOtherExpansion then
              .CONTAINED_IN_INVOCATION
            else .ERROR
          else .NOT_TRANSFORMED, st) ∧
    returned (transformEntireExpr fuel env st E) ≠ some .TRANSFORMED ∧
    rewriterCalls (transformEntireExpr fuel env st E) = some st.RW := by
  have heq : transformEntireExpr fuel env st E =
      .ok (if env.isAtStartOfMacroExpansion E.getBeginLoc &&
              env.isAtEndOfMacroExpansion E.getEndLoc then
            if (env.getExpansionRange E.getSourceRange).Begin ∈
                st.StartLocationsOfExpansionsContainingStartOfOtherExpansion then
              .CONTAINS_NESTED_INVOCATIONS
            else if (env.getExpansionRange E.getSourceRange).Begin ∈
                st.StartLocationsOFExpansionsContainedInOtherExpansion then
              .CONTAINED_IN_INVOCATION
            else .ERROR
          else .NOT_TRANSFORMED, st) := by
    obtain ⟨N1, N2, Rest, rfl⟩ : ∃ N1 N2 Rest, Names = N1 :: N2 :: Rest := by
      rcases Names with _ | ⟨N1, _ | ⟨N2, Rest⟩⟩
      · simp at hmany
      · simp at hmany
      · exact ⟨N1, N2, Rest, rfl⟩
    have hf : transformEntireExpr.findMacroName env st E =
        (.inl (if env.isAtStartOfMacroExpansion E.getBeginLoc &&
              env.isAtEndOfMacroExpansion E.getEndLoc then
            if (env.getExpansionRange E.getSourceRange).Begin ∈
                st.StartLocationsOfExpansionsContainingStartOfOtherExpansion then
              .CONTAINS_NESTED_INVOCATIONS
            else if (env.getExpansionRange E.getSourceRange).Begin ∈
                st.StartLocationsOFExpansionsContainedInOtherExpansion then
              .CONTAINED_IN_INVOCATION
            else .ERROR
          else .NOT_TRANSFORMED), st) := by
      unfold transformEntireExpr.findMacroName
      simp only [hnames]
      repeat' split
      all_goals rfl
    unfold transformEntireExpr
    rw [hf]
  refine ⟨heq, ?_, ?_⟩
  · rw [heq]
    simp only [returned]
    repeat' split
    all_goals decide
  · rw [heq]
    rfl

/-- Witness of C14: the main file `#define B 1`, `#define A B`, `int main() { return A; }`;
the names `A` and `B` are both recorded at the start of the expansion. -/
theorem transformEntireExpr_ambiguous_witness :
    ExampleAB.st.ExpansionStartLocationToMacroNames 44 = some ["A", "B"] ∧
    transformEntireExpr 0 ExampleAB.env ExampleAB.st ExampleAB.Lit =
      .ok (.CONTAINS_NESTED_INVOCATIONS, ExampleAB.st) ∧
    rewriterCalls (transformEntireExpr 0 ExampleAB.env ExampleAB.st ExampleAB.Lit) = some [] :=
  ⟨by decide,
    (transformEntireExpr_ambiguous 0 ExampleAB.env ExampleAB.st ExampleAB.Lit ["A", "B"]
      (by decide) (by decide)).1,
    (transformEntireExpr_ambiguous 0 ExampleAB.env ExampleAB.st ExampleAB.Lit ["A", "B"]
      (by decide) (by decide)).2.2⟩

/-! ## TransformExpr after a rejection -/

theorem TransformExprArgs_singleton (fuel : Nat) (env : Env) (E0 : Expr) (st : State) :
    TransformExprArgs fuel env (.cons E0 .nil) st = TransformExpr fuel env E0 st := by
  rw [TransformExprArgs]
  cases h : TransformExpr fuel env E0 st with
  | error a => rfl
  | ok st1 => simp only [TransformExprArgs]

/-- Step 3 of `TransformExpr` is the loop of `TransformExpr` over the visited
sub-expressions. -/
theorem TransformExpr.visit_eq (fuel : Nat) (env : Env) (E : Expr) (st1 : State) :
    TransformExpr.visit fuel env E st1 =
      TransformExprArgs fuel env (TransformExpr.visitedSubExprs E) st1 := by
  cases E with
  | ImplicitCastExpr R E0 =>
    simp only [TransformExpr.visit, TransformExpr.visitedSubExprs, TransformExprArgs_singleton]
  | IntegerLiteral R V =>
    simp only [TransformExpr.visit, TransformExpr.visitedSubExprs, TransformExprArgs]
  | DeclRefExpr R D =>
    simp only [TransformExpr.visit, TransformExpr.visitedSubExprs, TransformExprArgs]
  | ParenExpr R E0 =>
    simp only [TransformExpr.visit, TransformExpr.visitedSubExprs, TransformExprArgs_singleton]
  | UnaryOperator R OC E0 =>
    simp only [TransformExpr.visit, TransformExpr.visitedSubExprs]
    split
    · rw [TransformExprArgs_singleton]
    · simp only [TransformExprArgs]
  | BinaryOperator R OC E1 E2 =>
    simp only [TransformExpr.visit, TransformExpr.visitedSubExprs]
    split
    · rw [TransformExprArgs]
      cases h : TransformExpr fuel env E1 st1 with
      | error a => rfl
      | ok st2 => simp only [TransformExprArgs_singleton]
    · split
      · split
        · rw [TransformExprArgs_singleton]
        · simp only [TransformExprArgs]
      · simp only [TransformExprArgs]
  | CallExpr R Callee Args =>
    simp only [TransformExpr.visit, TransformExpr.visitedSubExprs]
  | OtherExpr R Children =>
    simp only [TransformExpr.visit, TransformExpr.visitedSubExprs, TransformExprArgs]

/-- An expression of the subset is not classified as `INVALID`. -/
theorem classifyExprRec_ne_invalid :
    ∀ (E : Expr), isExprInCSubsetRec E = true → classifyExprRec E ≠ .INVALID
  | .ImplicitCastExpr R E0, h => by
    have h0 : isExprInCSubsetRec E0 = true := by simpa [isExprInCSubsetRec] using h
    simp only [classifyExprRec, h, if_true]
    exact classifyExprRec_ne_invalid E0 h0
  | .IntegerLiteral R V, h => by simp [classifyExprRec, h]
  | .DeclRefExpr R D, h => by simp [classifyExprRec, h]
  | .ParenExpr R E0, h => by simp [classifyExprRec, h]
  | .UnaryOperator R OC E0, h => by
    have hoc : isPlusMinus OC = true := by
      by_contra hc
      simp [isExprInCSubsetRec, hc] at h
    simp [classifyExprRec, h, hoc]
  | .BinaryOperator R OC E1 E2, h => by
    simp only [classifyExprRec, h, if_true]
    split <;> simp
  | .CallExpr R C A, h => by simp [classifyExprRec, h]
  | .OtherExpr R Children, h => by simp [isExprInCSubsetRec] at h

/-- A call of `transformEntireExpr` that returns neither `TRANSFORMED` nor `ERROR` has made
no request to the rewriter and has reserved no name. -/
theorem transformEntireExpr_rejection_frame {fuel : Nat} {env : Env} {st st1 : State}
    {E : Expr} {r : TransformationResult}
    (h : transformEntireExpr fuel env st E = .ok (r, st1))
    (h1 : r ≠ .TRANSFORMED) (h2 : r ≠ .ERROR) :
    st1.RW = st.RW ∧ st1.AllVarNames = st.AllVarNames ∧
      st1.AllFunctionNames = st.AllFunctionNames ∧ st1.AllMacroNames = st.AllMacroNames := by
  rcases transformEntireExpr_cases fuel env st E with
    ⟨r', st', hr, -, -, hrest⟩ | herr | ⟨MacroName, MI, hck⟩
  · rw [h] at hr
    simp only [Except.ok.injEq, Prod.mk.injEq] at hr
    obtain ⟨-, rfl⟩ := hr
    exact hrest
  · rw [h] at herr
    exact Except.noConfusion herr
  · rw [transformEntireExpr_of_macroChecks hck fuel] at h
    split at h
    · simp only [Except.ok.injEq, Prod.mk.injEq] at h
      obtain ⟨-, rfl⟩ := h
      exact ⟨rfl, rfl, rfl, rfl⟩
    · split at h
      · simp only [Except.ok.injEq, Prod.mk.injEq] at h
        obtain ⟨-, rfl⟩ := h
        exact ⟨rfl, rfl, rfl, rfl⟩
      · rcases emit_result h with rfl | rfl
        · exact absurd rfl h2
        · exact absurd rfl h1

/-- Counterexample to C15 as stated: `-y`, the expansion `NEG(y)` of `#define NEG(x) -x`,
is an expression of the subset that `transformEntireExpr` rejects as a macro that is not the
identity.  `TransformExpr` returns with the expansion classified and its operand never
visited: the operand has no entry in `EToCSub`, which a call of `TransformExpr` on it
leaves. -/
theorem TransformExpr_rejection_counterexample :
    isExprInCSubsetRec ExampleNEG.Negation = true ∧
    returned (transformEntireExpr 1 ExampleNEG.env
        (TransformExpr.stateAfterClassify ExampleNEG.st ExampleNEG.Negation)
        ExampleNEG.Negation) = some .NON_TRANSFORMABLE_MACRO ∧
    TransformExpr.visitedSubExprs ExampleNEG.Negation = .cons ExampleNEG.Operand .nil ∧
    classificationAfter (TransformExpr 1 ExampleNEG.env ExampleNEG.Negation ExampleNEG.st)
      ExampleNEG.Negation = some .UnExpr ∧
    classificationAfter (TransformExpr 1 ExampleNEG.env ExampleNEG.Negation ExampleNEG.st)
      ExampleNEG.Operand = none ∧
    classificationAfter (TransformExpr 1 ExampleNEG.env ExampleNEG.Operand ExampleNEG.st)
      ExampleNEG.Operand = some .Var := by
  decide

/-- C15 (amended): let the memo tables be tables that can arise, `E` an expression of the
subset, and `r` the result of `transformEntireExpr` on `E` in `TransformExpr`, other than
`TRANSFORMED`.  Unless `r` is `ERROR`, no request has been made to the rewriter and no name
has been reserved.  When `r` is `NOT_TRANSFORMED`, `MULTIPLY_DEFINED`, `HAS_SIDE_EFFECTS` or
`MULTIPLE_EXPANSIONS`, `TransformExpr` goes on with `TransformExpr` on the visited
sub-expressions of `E`, in order: the operand of a cast, of a parenthesised expression and of
a unary `+` or `-`, both operands of a binary `+`, `-`, `*` or `/`, the right-hand side of an
assignment, the arguments of a call.  When `r` is `CONTAINS_NESTED_INVOCATIONS`,
`CONTAINED_IN_INVOCATION`, `NON_TRANSFORMABLE_MACRO` or `ERROR`, `TransformExpr` returns at
once, without a visit of any sub-expression. -/
theorem TransformExpr_after_rejection (fuel : Nat) (env : Env) (st : State) (E : Expr)
    (r : TransformationResult) (hreach : st.TablesReachable)
    (hin : isExprInCSubsetRec E = true)
    (hret : returned (transformEntireExpr fuel env (TransformExpr.stateAfterClassify st E) E) =
      some r)
    (hr : r ≠ .TRANSFORMED) :
    (r ≠ .ERROR →
      (resultState (transformEntireExpr fuel env (TransformExpr.stateAfterClassify st E)
        E)).RW = st.RW ∧
      (resultState (transformEntireExpr fuel env (TransformExpr.stateAfterClassify st E)
        E)).AllVarNames = st.AllVarNames ∧
      (resultState (transformEntireExpr fuel env (TransformExpr.stateAfterClassify st E)
        E)).AllFunctionNames = st.AllFunctionNames) ∧
    (r = .NOT_TRANSFORMED ∨ r = .MULTIPLY_DEFINED ∨ r = .HAS_SIDE_EFFECTS ∨
        r = .MULTIPLE_EXPANSIONS →
      TransformExpr fuel env E st =
        TransformExprArgs fuel env (TransformExpr.visitedSubExprs E)
          (resultState (transformEntireExpr fuel env (TransformExpr.stateAfterClassify st E)
            E))) ∧
    (r = .CONTAINS_NESTED_INVOCATIONS ∨ r = .CONTAINED_IN_INVOCATION ∨
        r = .NON_TRANSFORMABLE_MACRO ∨ r = .ERROR →
      TransformExpr fuel env E st =
        .ok (resultState (transformEntireExpr fuel env (TransformExpr.stateAfterClassify st E)
          E))) := by
  have hmemo := hreach.memoSound
  have hcl := (classifyExpr_spec E (st.EInCSub, st.EToCSub) hmemo.inCSub hmemo.toCSub).1
  have hne := classifyExprRec_ne_invalid E hin
  have ht := ok_of_returned hret
  have hT : TransformExpr fuel env E st =
      if r.visitsSubExprs then
        TransformExpr.visit fuel env E
          (resultState (transformEntireExpr fuel env (TransformExpr.stateAfterClassify st E) E))
      else
        .ok (resultState (transformEntireExpr fuel env (TransformExpr.stateAfterClassify st E)
          E)) := by
    rw [TransformExpr_eq_visit, if_neg (by rw [hcl]; exact hne)]
    generalize transformEntireExpr fuel env (TransformExpr.stateAfterClassify st E) E = t at ht ⊢
    rw [ht]
    rfl
  refine ⟨fun hE => ?_, fun hv => ?_, fun hv => ?_⟩
  · have hf := transformEntireExpr_rejection_frame ht hr hE
    exact ⟨hf.1, hf.2.1, hf.2.2.1⟩
  · rw [hT, TransformExpr.visit_eq]
    rcases hv with rfl | rfl | rfl | rfl <;> rfl
  · rw [hT]
    rcases hv with rfl | rfl | rfl | rfl <;> rfl

/-- Witness of C15 (amended): the expansion `NEG(y)` of `#define NEG(x) -x`, rejected with
`NON_TRANSFORMABLE_MACRO`. -/
theorem TransformExpr_after_rejection_witness :
    (TransformationResult.NON_TRANSFORMABLE_MACRO ≠ .ERROR →
      (resultState (transformEntireExpr 0 ExampleNEG.env
        (TransformExpr.stateAfterClassify ExampleNEG.st ExampleNEG.Negation)
        ExampleNEG.Negation)).RW = ExampleNEG.st.RW ∧
      (resultState (transformEntireExpr 0 ExampleNEG.env
        (TransformExpr.stateAfterClassify ExampleNEG.st ExampleNEG.Negation)
        ExampleNEG.Negation)).AllVarNames = ExampleNEG.st.AllVarNames ∧
      (resultState (transformEntireExpr 0 ExampleNEG.env
        (TransformExpr.stateAfterClassify ExampleNEG.st ExampleNEG.Negation)
        ExampleNEG.Negation)).AllFunctionNames = ExampleNEG.st.AllFunctionNames) ∧
    (TransformationResult.NON_TRANSFORMABLE_MACRO = .NOT_TRANSFORMED ∨
        TransformationResult.NON_TRANSFORMABLE_MACRO = .MULTIPLY_DEFINED ∨
        TransformationResult.NON_TRANSFORMABLE_MACRO = .HAS_SIDE_EFFECTS ∨
        TransformationResult.NON_TRANSFORMABLE_MACRO = .MULTIPLE_EXPANSIONS →
      TransformExpr 0 ExampleNEG.env ExampleNEG.Negation ExampleNEG.st =
        TransformExprArgs 0 ExampleNEG.env (TransformExpr.visitedSubExprs ExampleNEG.Negation)
          (resultState (transformEntireExpr 0 ExampleNEG.env
            (TransformExpr.stateAfterClassify ExampleNEG.st ExampleNEG.Negation)
            ExampleNEG.Negation))) ∧
    (TransformationResult.NON_TRANSFORMABLE_MACRO = .CONTAINS_NESTED_INVOCATIONS ∨
        TransformationResult.NON_TRANSFORMABLE_MACRO = .CONTAINED_IN_INVOCATION ∨
        TransformationResult.NON_TRANSFORMABLE_MACRO = .NON_TRANSFORMABLE_MACRO ∨
        TransformationResult.NON_TRANSFORMABLE_MACRO = .ERROR →
      TransformExpr 0 ExampleNEG.env ExampleNEG.Negation ExampleNEG.st =
        .ok (resultState (transformEntireExpr 0 ExampleNEG.env
          (TransformExpr.stateAfterClassify ExampleNEG.st ExampleNEG.Negation)
          ExampleNEG.Negation))) :=
  TransformExpr_after_rejection 0 ExampleNEG.env ExampleNEG.st ExampleNEG.Negation
    .NON_TRANSFORMABLE_MACRO
    { classify := ReachableClassifyTables.empty,
      localVars := ReachableEContainsLocalVars.empty,
      sideEffects := ReachableEHasSideEffects.empty }
    (by decide) (by decide) (by decide)

/-! ## Macros with several parameters and variadic macros -/

/-- An expansion whose one recorded macro has more than one parameter is never transformed:
the call returns a result other than `TRANSFORMED`, without a request to the rewriter and
without a reserved name; when the expression names the macro and the macro is singly
defined, the result is `NON_TRANSFORMABLE_MACRO`. -/
theorem transformEntireExpr_of_many_params (fuel : Nat) (env : Env) (st : State) (E : Expr)
    (MacroName : String) (MI : MacroInfo)
    (hname : st.ExpansionStartLocationToMacroNames
      (env.getExpansionRange E.getSourceRange).Begin = some [MacroName])
    (hMI : st.MacroNameToDirective MacroName = some MI)
    (hfun : MI.isFunctionLike = true) (hmany : MI.getNumParams > 1) :
    (∃ r st', transformEntireExpr fuel env st E = .ok (r, st') ∧ r ≠ .TRANSFORMED ∧
      st'.RW = st.RW ∧ st'.AllVarNames = st.AllVarNames ∧
      st'.AllFunctionNames = st.AllFunctionNames) ∧
    (transformEntireExpr.NamesMacro env st E MacroName → MacroName ∉ st.MultiplyDefinedMacros →
      returned (transformEntireExpr fuel env st E) = some .NON_TRANSFORMABLE_MACRO) := by
  have hp : (MI.isFunctionLike && decide (MI.getNumParams > 1)) = true := by
    simp [hfun, hmany]
  constructor
  · rcases transformEntireExpr_cases fuel env st E with
      ⟨r, st', hr, hne, -, h1, h2, h3, -⟩ | herr | ⟨N, MI', hck⟩
    · exact ⟨r, st', hr, hne, h1, h2, h3⟩
    · exfalso
      unfold transformEntireExpr at herr
      generalize hf : transformEntireExpr.findMacroName env st E = x at herr
      obtain ⟨x1, st1⟩ := x
      cases x1 with
      | inl r1 => exact Except.noConfusion herr
      | inr N =>
        simp only at herr
        split at herr
        · exact Except.noConfusion herr
        · rename_i hN
          have hst1 := findMacroName_inr_state hf hN
          have hone := (findMacroName_inr hf hN).2.2.2.2.1
          rw [hname] at hone
          simp only [Option.some.injEq, List.cons.injEq, and_true] at hone
          subst hone
          subst hst1
          simp only [hMI, hp, if_true] at herr
          split at herr <;> exact Except.noConfusion herr
    · exfalso
      have hone := hck.oneName
      rw [hname] at hone
      simp only [Option.some.injEq, List.cons.injEq, and_true] at hone
      subst hone
      have hd := hck.directive
      rw [hMI] at hd
      simp only [Option.some.injEq] at hd
      subst hd
      exact hck.atMostOneParam ⟨hfun, hmany⟩
  · intro hnm hsd
    unfold transformEntireExpr
    rw [findMacroName_of_namesMacro hnm]
    simp only [hnm.named, if_false, hsd, hMI, hp, if_true]
    rfl

/-- C16: an expansion of a macro with more than one parameter is never transformed; but the
expansion `V(y)` of the variadic macro `#define V(...) __VA_ARGS__`, `y` a global `int`, is
transformed: the definition has the one parameter `__VA_ARGS__`, the length of its body is the
length of that name, and nothing in `transformEntireExpr` asks whether the macro is
variadic.  The body text is cut as if the formals were spelled `(__VA_ARGS__)`. -/
theorem transformEntireExpr_variadic :
    (∀ (fuel : Nat) (env : Env) (st : State) (E : Expr) (MacroName : String) (MI : MacroInfo),
      st.ExpansionStartLocationToMacroNames
        (env.getExpansionRange E.getSourceRange).Begin = some [MacroName] →
      st.MacroNameToDirective MacroName = some MI →
      MI.isFunctionLike = true → MI.getNumParams > 1 →
      ∃ r st', transformEntireExpr fuel env st E = .ok (r, st') ∧ r ≠ .TRANSFORMED ∧
        st'.RW = st.RW ∧ st'.AllVarNames = st.AllVarNames ∧
        st'.AllFunctionNames = st.AllFunctionNames) ∧
    ExampleVA.MI.IsVariadic = true ∧
    returned (transformEntireExpr 1 ExampleVA.env ExampleVA.st ExampleVA.Operand) =
      some .TRANSFORMED ∧
    rewriterCalls (transformEntireExpr 1 ExampleVA.env ExampleVA.st ExampleVA.Operand) =
      some [⟨.InsertTextAfter 26
              "\nint V_function(int __VA_ARGS__) \x7b\n    return S__;\n\x7d", false⟩,
            ⟨.ReplaceText ⟨54, 57⟩ "V_function(y)", false⟩] :=
  ⟨fun fuel env st E MacroName MI h1 h2 h3 h4 =>
      (transformEntireExpr_of_many_params fuel env st E MacroName MI h1 h2 h3 h4).1,
    by decide, by decide, by decide⟩

/-! ## The replacement at the call site -/

/-- The requests made by the last part of `transformEntireExpr` when it returns
`TRANSFORMED`: the definition and the replacement, both accepted, under the name that the
naming step chose and with the argument text that was cut out of the invocation (for a
macro with one parameter). -/
theorem emit_transformed {fuel : Nat} {env : Env} {st st' : State} {E : Expr}
    {MacroName : String} {MI : MacroInfo}
    (h : transformEntireExpr.emit fuel env st E MacroName MI = .ok (.TRANSFORMED, st')) :
    ∃ DefName, uniqueDefName fuel st MacroName MI = some DefName ∧
      MI.getNumParams ≤ 1 ∧
      (MI.getNumParams = 1 → (transformEntireExpr.argString env E MacroName).isSome = true) ∧
      st'.RW = st.RW ++ transformEntireExpr.edits env E MI DefName
        ((transformEntireExpr.argString env E MacroName).getD "") := by
  unfold transformEntireExpr.emit at h
  cases hu : uniqueDefName fuel st MacroName MI with
  | none => simp [hu] at h
  | some DefName =>
    refine ⟨DefName, rfl, ?_⟩
    simp only [hu] at h
    unfold transformEntireExpr.edits transformEntireExpr.defBody transformEntireExpr.argString
    rcases hP : MI.Params with _ | (_ | ⟨p, _ | ⟨q, rest⟩⟩)
    · simp only [transformEntireExpr.macroBodyBegin, hP, transformEntireExpr.define,
        transformEntireExpr.invocationReplacement, callRewriter] at h ⊢
      repeat' split at h
      all_goals simp only [Except.ok.injEq, Prod.mk.injEq, reduceCtorEq, false_and] at h
      obtain ⟨-, rfl⟩ := h
      simp_all [MacroInfo.getNumParams]
    · simp only [transformEntireExpr.macroBodyBegin, hP, transformEntireExpr.define,
        transformEntireExpr.invocationReplacement, callRewriter] at h ⊢
      repeat' split at h
      all_goals simp only [Except.ok.injEq, Prod.mk.injEq, reduceCtorEq, false_and] at h
      obtain ⟨-, rfl⟩ := h
      simp_all [MacroInfo.getNumParams]
    · simp only [transformEntireExpr.macroBodyBegin, hP, transformEntireExpr.define,
        transformEntireExpr.invocationReplacement, callRewriter] at h ⊢
      generalize substr (env.getSourceText (env.getExpansionRangeOfLoc E.getBeginLoc))
        (MacroName.length + 1)
        (((env.getSourceText (env.getExpansionRangeOfLoc E.getBeginLoc)).length - 1 -
          (MacroName.length : Int) - 1) % 2 ^ 32).toNat = a at h ⊢
      cases a with
      | none =>
        exfalso
        repeat' split at h
        all_goals simp_all
      | some Arg =>
        repeat' split at h
        all_goals simp only [Except.ok.injEq, Prod.mk.injEq, reduceCtorEq, false_and] at h
        obtain ⟨-, rfl⟩ := h
        simp_all [MacroInfo.getNumParams]
    · simp only [transformEntireExpr.macroBodyBegin, hP] at h
      simp at h

/-- The requests made by a call of `transformEntireExpr` that returns `TRANSFORMED`. -/
theorem transformEntireExpr_transformed_edits {fuel : Nat} {env : Env} {st st' : State}
    {E : Expr} (h : transformEntireExpr fuel env st E = .ok (.TRANSFORMED, st')) :
    ∃ MacroName MI DefName, transformEntireExpr.MacroChecks env st E MacroName MI ∧
      uniqueDefName fuel st MacroName MI = some DefName ∧
      MI.getNumParams ≤ 1 ∧
      (MI.getNumParams = 1 → (transformEntireExpr.argString env E MacroName).isSome = true) ∧
      st'.RW = st.RW ++ transformEntireExpr.edits env E MI DefName
        ((transformEntireExpr.argString env E MacroName).getD "") := by
  rcases transformEntireExpr_cases fuel env st E with
    ⟨r', st1, hr, hne, -⟩ | herr | ⟨MacroName, MI, hck⟩
  · rw [h] at hr
    simp only [Except.ok.injEq, Prod.mk.injEq] at hr
    exact absurd hr.1.symm hne
  · rw [h] at herr
    exact Except.noConfusion herr
  · refine ⟨MacroName, MI, ?_⟩
    rw [transformEntireExpr_of_macroChecks hck fuel] at h
    split at h
    · simp at h
    · split at h
      · simp at h
      · obtain ⟨DefName, hD, hn, hA, hRW⟩ := emit_transformed h
        rw [uniqueDefName_stateAtNaming] at hD
        exact ⟨DefName, hck, hD, hn, hA, hRW⟩

/-- The cut of the argument text out of an invocation spelled as the macro name, `(`, the
argument text and `)` gives the argument text. -/
theorem argString_of_spelling (env : Env) (E : Expr) (MacroName Arg : String)
    (hinv : env.getSourceText (env.getExpansionRangeOfLoc E.getBeginLoc) =
      MacroName ++ "(" ++ Arg ++ ")")
    (hlen : Arg.length < 2 ^ 32) :
    transformEntireExpr.argString env E MacroName = some Arg := by
  unfold transformEntireExpr.argString substr
  rw [hinv]
  simp only
  have hl : (MacroName ++ "(" ++ Arg ++ ")").length = MacroName.length + 1 + Arg.length + 1 := by
    simp only [String.length_append]
    rfl
  have hcut : ((((MacroName ++ "(" ++ Arg ++ ")").length : Int) - 1 - (MacroName.length : Int) - 1)
      % 2 ^ 32).toNat = Arg.length := by
    rw [hl]
    have h1 : ((MacroName.length + 1 + Arg.length + 1 : Nat) : Int) - 1 - (MacroName.length : Int) - 1
        = (Arg.length : Int) := by
      push_cast
      ring
    rw [h1]
    have h2 : ((Arg.length : Int) % 2 ^ 32) = (Arg.length : Int) :=
      Int.emod_eq_of_lt (by omega) (by exact_mod_cast hlen)
    rw [h2]
    rfl
  rw [hcut, if_neg (by rw [hl]; omega)]
  congr 1
  have hd : (MacroName ++ "(" ++ Arg ++ ")").data =
      (MacroName.data ++ ['(']) ++ (Arg.data ++ [')']) := by
    simp [String.data_append]
  have hm : (MacroName.data ++ ['(']).length = MacroName.length + 1 := by
    rw [List.length_append]
    rfl
  have ha : Arg.data.length = Arg.length := rfl
  rw [hd, List.drop_left' hm, List.take_left' ha]

/-- C20: a call of `transformEntireExpr` that returns `TRANSFORMED` has replaced the expansion
range by the emitted name for an object-like macro, by the emitted name and `()` for a
function-like macro without parameters, and by the emitted name, `(`, the text cut out of the
invocation and `)` for a macro with one parameter; the cut is the argument text when the
invocation is spelled as the macro name, `(`, the argument text and `)`.  But it is not the
argument text for every spelling: in `return ID (y);`, with a blank between the name and the
parenthesis, the expansion of `#define ID(x) x` is replaced by `ID_function((y)`. -/
theorem transformEntireExpr_replacement :
    (∀ (fuel : Nat) (env : Env) (st st' : State) (E : Expr),
      transformEntireExpr fuel env st E = .ok (.TRANSFORMED, st') →
      ∃ MacroName MI DefName, transformEntireExpr.MacroChecks env st E MacroName MI ∧
        uniqueDefName fuel st MacroName MI = some DefName ∧
        MI.getNumParams ≤ 1 ∧
        (MI.getNumParams = 1 →
          (transformEntireExpr.argString env E MacroName).isSome = true) ∧
        st'.RW = st.RW ++ transformEntireExpr.edits env E MI DefName
          ((transformEntireExpr.argString env E MacroName).getD "")) ∧
    (∀ (env : Env) (E : Expr) (MacroName Arg : String),
      env.getSourceText (env.getExpansionRangeOfLoc E.getBeginLoc) =
        MacroName ++ "(" ++ Arg ++ ")" →
      Arg.length < 2 ^ 32 →
      transformEntireExpr.argString env E MacroName = some Arg) ∧
    ExampleSPACED.env.getSourceText
      (ExampleSPACED.env.getExpansionRangeOfLoc ExampleSPACED.Operand.getBeginLoc) = "ID (y)" ∧
    returned (transformEntireExpr 1 ExampleSPACED.env ExampleSPACED.st ExampleSPACED.Operand) =
      some .TRANSFORMED ∧
    rewriterCalls (transformEntireExpr 1 ExampleSPACED.env ExampleSPACED.st
        ExampleSPACED.Operand) =
      some [⟨.InsertTextAfter 15 "\nint ID_function(int x) \x7b\n    return x;\n\x7d", false⟩,
            ⟨.ReplaceText ⟨43, 48⟩ "ID_function((y)", false⟩] :=
  ⟨fun _ _ _ _ _ h => transformEntireExpr_transformed_edits h,
    fun env E MacroName Arg h1 h2 => argString_of_spelling env E MacroName Arg h1 h2,
    by decide, by decide, by decide⟩

/-! ## The signature of a transformed definition -/

theorem String.intercalate.go_append (X s : String) :
    ∀ (l : List String) (Y : String),
      String.intercalate.go (X ++ Y) s l = X ++ String.intercalate.go Y s l
  | [], Y => by simp [String.intercalate.go]
  | a :: as, Y => by
    simp only [String.intercalate.go]
    rw [String.append_assoc X, String.append_assoc X]
    exact String.intercalate.go_append X s as _

/-- The loop of the constructor over the arguments: the types of the first statements of the
arguments, in order, are appended. -/
theorem TransformedDefinition.new.argTypes_ok (Ctx : ASTContext) :
    ∀ (Arguments : List MacroArgument) (ArgTypes Result : List QualType),
      TransformedDefinition.new.argTypes Ctx Arguments ArgTypes = .ok Result ↔
        ∃ Types, Result = ArgTypes ++ Types ∧
          Arguments.map (fun Arg => Arg.getStmts.head?.map Ctx.getDesugaredCanonicalType) =
            Types.map some
  | [], ArgTypes, Result => by
    simp only [TransformedDefinition.new.argTypes, Except.ok.injEq, List.map_nil]
    constructor
    · rintro rfl
      exact ⟨[], by simp, rfl⟩
    · rintro ⟨Types, rfl, h⟩
      have : Types = [] := by
        cases Types with
        | nil => rfl
        | cons T Ts => simp at h
      simp [this]
  | Arg :: Rest, ArgTypes, Result => by
    rw [TransformedDefinition.new.argTypes]
    cases hST : Arg.getStmts.head? with
    | none =>
      simp only [List.map_cons, hST, Option.map_none']
      constructor
      · intro h
        exact Except.noConfusion h
      · rintro ⟨Types, -, h⟩
        cases Types with
        | nil => simp at h
        | cons T Ts => simp at h
    | some ST =>
      simp only [List.map_cons, hST, Option.map_some']
      rw [TransformedDefinition.new.argTypes_ok Ctx Rest]
      constructor
      · rintro ⟨Types, rfl, h⟩
        exact ⟨Ctx.getDesugaredCanonicalType ST :: Types, by simp, by simp [h]⟩
      · rintro ⟨Types, rfl, h⟩
        cases Types with
        | nil => simp at h
        | cons T Ts =>
          simp only [List.map_cons, List.cons.injEq, Option.some.injEq] at h
          exact ⟨Ts, by simp [h.1], h.2⟩

/-- The constructor returns exactly for an expansion with one statement whose arguments all
have a statement; the fields are then as follows. -/
theorem TransformedDefinition.new_ok (Ctx : ASTContext) (Expansion : MacroExpansionNode)
    (IsVar : Bool) (TD : TransformedDefinition) :
    TransformedDefinition.new Ctx Expansion IsVar = .ok TD ↔
      ∃ ST Types, Expansion.getStmts = [ST] ∧
        Expansion.getArguments.map
          (fun Arg => Arg.getStmts.head?.map Ctx.getDesugaredCanonicalType) = Types.map some ∧
        TD = { Expansion := Expansion, OriginalMacroName := Expansion.getName, IsVar := IsVar,
               VarOrReturnType := Ctx.getDesugaredCanonicalType ST, ArgTypes := Types,
               InitializerOrDefinition :=
                 if IsVar then " = " ++ Expansion.getDefinitionText ++ ";"
                 else " \x7b return " ++ Expansion.getDefinitionText ++ "; \x7d",
               EmittedName := "" } := by
  unfold TransformedDefinition.new
  split
  · rename_i ST hST
    cases hA : TransformedDefinition.new.argTypes Ctx Expansion.getArguments [] with
    | error e =>
      simp only [false_iff, not_exists, not_and, reduceCtorEq]
      intro ST' Types _ hT
      have := (TransformedDefinition.new.argTypes_ok Ctx Expansion.getArguments [] Types).2
        ⟨Types, by simp, hT⟩
      rw [hA] at this
      exact Except.noConfusion this
    | ok ArgTypes =>
      obtain ⟨Types, hR, hT⟩ :=
        (TransformedDefinition.new.argTypes_ok Ctx Expansion.getArguments [] ArgTypes).1 hA
      simp only [List.nil_append] at hR
      subst hR
      simp only [Except.ok.injEq]
      constructor
      · rintro rfl
        exact ⟨ST, ArgTypes, hST, hT, rfl⟩
      · rintro ⟨ST', Types', hST', hT', rfl⟩
        rw [hST] at hST'
        simp only [List.cons.injEq, and_true] at hST'
        subst hST'
        have : Types'.map some = ArgTypes.map some := by rw [← hT', hT]
        have hinj := List.map_injective_iff.2 (Option.some_injective QualType) this
        rw [hinj]
  · rename_i hne
    simp only [false_iff, not_exists, not_and, reduceCtorEq]
    intro ST Types hST
    exact absurd hST (hne ST)

/-- The loop of `getExpansionSignatureOrDeclaration` from a counter that is at least 1 and
does not wrap around: every parameter is appended after a comma and a blank. -/
theorem TransformedDefinition.getExpansionSignatureOrDeclaration.params_ok (Ctx : ASTContext) :
    ∀ (Arguments : List MacroArgument) (Types : List QualType) (i : Nat) (Signature : String),
      Arguments.map (fun Arg => Arg.getStmts.head?.map Ctx.getDesugaredCanonicalType) =
        Types.map some →
      (Arguments ≠ [] → 1 ≤ i ∧ i + Arguments.length ≤ 2 ^ 32) →
      TransformedDefinition.getExpansionSignatureOrDeclaration.params Ctx Arguments i
          Signature =
        .ok (String.intercalate.go Signature ", "
          (List.zipWith (fun (T : QualType) (Arg : MacroArgument) =>
            T.getAsString ++ " " ++ Arg.getName) Types Arguments))
  | [], Types, i, Signature, hT, _ => by
    cases Types with
    | nil => simp [TransformedDefinition.getExpansionSignatureOrDeclaration.params,
        String.intercalate.go]
    | cons T Ts => simp at hT
  | Arg :: Rest, Types, i, Signature, hT, hi => by
    cases Types with
    | nil => simp at hT
    | cons T Ts =>
      simp only [List.map_cons, List.cons.injEq] at hT
      obtain ⟨hhead, htail⟩ := hT
      obtain ⟨h1, h2⟩ := hi (by simp)
      cases hST : Arg.getStmts.head? with
      | none => simp [hST] at hhead
      | some ST =>
        simp only [hST, Option.map_some', Option.some.injEq] at hhead
        rw [TransformedDefinition.getExpansionSignatureOrDeclaration.params]
        simp only [hST, ge_iff_le, h1, if_true, hhead]
        rw [TransformedDefinition.getExpansionSignatureOrDeclaration.params_ok Ctx Rest Ts _ _
          htail]
        · simp only [List.zipWith_cons_cons, String.intercalate.go, String.append_assoc]
        · intro hne
          have hlen : 1 ≤ Rest.length := by
            cases Rest with
            | nil => exact absurd rfl hne
            | cons _ _ => simp
          simp only [List.length_cons] at h2
          have hlt : i + 1 < 2 ^ 32 := by omega
          rw [Nat.mod_eq_of_lt hlt]
          omega

/-- The text that `getExpansionSignatureOrDeclaration` returns when both assertions hold, the
arguments all have a statement and the counter does not wrap around. -/
theorem TransformedDefinition.getExpansionSignatureOrDeclaration_eq (TD : TransformedDefinition)
    (Ctx : ASTContext) (CanBeAnonymous : Bool) (Types : List QualType)
    (hT : TD.Expansion.getArguments.map
      (fun Arg => Arg.getStmts.head?.map Ctx.getDesugaredCanonicalType) = Types.map some)
    (hU : Ctx.expansionHasUnambiguousSignature TD.Expansion = true)
    (hlen : TD.Expansion.getArguments.length ≤ 2 ^ 32)
    (hname : CanBeAnonymous = true ∨ TD.EmittedName ≠ "") :
    TD.getExpansionSignatureOrDeclaration Ctx CanBeAnonymous =
      .ok (TransformedDefinition.signatureText TD.VarOrReturnType.getAsString TD.EmittedName
        TD.IsVar
        (List.zipWith (fun (T : QualType) (Arg : MacroArgument) =>
          (T.getAsString, Arg.getName)) Types TD.Expansion.getArguments)) := by
  have hname' : (!(CanBeAnonymous || TD.EmittedName != "")) = false := by
    rcases hname with h | h
    · simp [h]
    · simp [h]
  unfold TransformedDefinition.getExpansionSignatureOrDeclaration
    TransformedDefinition.signatureText
  simp only [hU, Bool.not_true, Bool.false_eq_true, if_false, hname']
  have hS : (if (TD.EmittedName != "") = true then
        TD.VarOrReturnType.getAsString ++ (" " ++ TD.EmittedName)
      else TD.VarOrReturnType.getAsString) =
      TD.VarOrReturnType.getAsString ++ (if TD.EmittedName = "" then "" else " " ++ TD.EmittedName) := by
    by_cases hE : TD.EmittedName = ""
    · simp [hE]
    · simp [hE]
  rw [hS]
  cases hV : TD.IsVar with
  | true => simp
  | false =>
    simp only [Bool.not_false, if_true, Bool.false_eq_true, if_false, List.map_zipWith]
    cases hA : TD.Expansion.getArguments with
    | nil =>
      simp only [TransformedDefinition.getExpansionSignatureOrDeclaration.params,
        List.zipWith_nil_right, String.intercalate, String.append_assoc]
      rfl
    | cons Arg Rest =>
      rw [hA] at hT hlen
      cases Types with
      | nil => simp at hT
      | cons T Ts =>
        simp only [List.map_cons, List.cons.injEq] at hT
        obtain ⟨hhead, htail⟩ := hT
        cases hST : Arg.getStmts.head? with
        | none => simp [hST] at hhead
        | some ST =>
          simp only [hST, Option.map_some', Option.some.injEq] at hhead
          rw [TransformedDefinition.getExpansionSignatureOrDeclaration.params]
          simp only [hST, ge_iff_le, Nat.le_zero_eq, OfNat.zero_ne_ofNat, if_false, hhead,
            Nat.not_succ_le_zero]
          rw [TransformedDefinition.getExpansionSignatureOrDeclaration.params_ok Ctx Rest Ts _ _
            htail (fun _ => ⟨by norm_num, by
              simp only [List.length_cons] at hlen
              norm_num
              omega⟩)]
          simp only [List.zipWith_cons_cons, String.intercalate]
          rw [String.intercalate.go_append]
          simp only [one_ne_zero, if_false, String.append_assoc]

/-- Counterexample to C18 as stated: the definition built for the expansion `ADD(c)` of
`#define ADD(a) (a + a)`, with the emitted name `ADD_function`.  The argument has nodes of
two types, the signature of the expansion is not unambiguous, and
`getExpansionSignatureOrDeclaration` fails its first assertion instead of returning a
text. -/
theorem getExpansionSignatureOrDeclaration_counterexample :
    TransformedDefinition.new Example.Ctx ExampleADD.Expansion false = .ok ExampleADD.TD ∧
    Example.Ctx.expansionHasUnambiguousSignature ExampleADD.Expansion = false ∧
    TransformedDefinition.getExpansionSignatureOrDeclaration
      { ExampleADD.TD with EmittedName := "ADD_function" } Example.Ctx false =
        .error .AssertionFailed :=
  ⟨rfl, by decide, rfl⟩

/-- C18 (amended): let `TD` be the definition that the constructor builds for an expansion
whose signature is unambiguous (the first assertion of the function) and which has at most
`2 ^ 32` arguments, and let `Name` be the emitted name assigned to it.  With a name, or with
`CanBeAnonymous`, `getExpansionSignatureOrDeclaration` returns the signature text: the type
and the name for a variable; for a function the return type, the name and, in parentheses,
the parameters in the order of the arguments, each the type of the argument, a blank and the
name of the argument, joined by a comma and a blank (nothing between the parentheses when
there are no arguments); the name and its leading blank are left out when the name is empty.
With an empty name and without `CanBeAnonymous` the call fails its assertion. -/
theorem getExpansionSignatureOrDeclaration_text (Ctx : ASTContext)
    (Expansion : MacroExpansionNode) (IsVar : Bool) (TD : TransformedDefinition)
    (Name : String) (CanBeAnonymous : Bool)
    (hnew : TransformedDefinition.new Ctx Expansion IsVar = .ok TD)
    (hU : Ctx.expansionHasUnambiguousSignature Expansion = true)
    (hlen : Expansion.getArguments.length ≤ 2 ^ 32) :
    TD.ArgTypes.length = Expansion.getArguments.length ∧
    (Name ≠ "" ∨ CanBeAnonymous = true →
      TransformedDefinition.getExpansionSignatureOrDeclaration { TD with EmittedName := Name }
          Ctx CanBeAnonymous =
        .ok (TransformedDefinition.signatureText TD.VarOrReturnType.getAsString Name IsVar
          (List.zipWith (fun (T : QualType) (Arg : MacroArgument) =>
            (T.getAsString, Arg.getName)) TD.ArgTypes Expansion.getArguments))) ∧
    (Name = "" → CanBeAnonymous = false →
      TransformedDefinition.getExpansionSignatureOrDeclaration { TD with EmittedName := Name }
          Ctx CanBeAnonymous = .error .AssertionFailed) ∧
    (∀ (T : String) (P : List (String × String)), Name ≠ "" →
      TransformedDefinition.signatureText T Name true P = T ++ " " ++ Name ∧
      TransformedDefinition.signatureText T Name false [] = T ++ " " ++ Name ++ "()" ∧
      TransformedDefinition.signatureText T "" true P = T) := by
  obtain ⟨ST, Types, hST, hT, rfl⟩ := (TransformedDefinition.new_ok Ctx Expansion IsVar TD).1 hnew
  refine ⟨?_, fun hname => ?_, fun h1 h2 => ?_, fun T P hN => ?_⟩
  · have := congrArg List.length hT
    simpa using this.symm
  · exact TransformedDefinition.getExpansionSignatureOrDeclaration_eq _ Ctx CanBeAnonymous Types
      hT hU hlen (by
        rcases hname with h | h
        · exact Or.inr h
        · exact Or.inl h)
  · subst h1
    subst h2
    unfold TransformedDefinition.getExpansionSignatureOrDeclaration
    simp [hU]
  · simp only [TransformedDefinition.signatureText, hN, if_false, if_true, List.map_nil,
      String.intercalate, String.append_assoc, Bool.false_eq_true]
    exact ⟨by simp, rfl, by simp⟩

/-- Witness of C18 (amended): the definition built for the expansion `SUM(x, y)` of
`#define SUM(a, b) a + b` as a function, under the name `SUM_function`. -/
theorem getExpansionSignatureOrDeclaration_text_witness :
    TransformedDefinition.getExpansionSignatureOrDeclaration
        { ExampleSUM.TD with EmittedName := "SUM_function" } Example.Ctx false =
      .ok "int SUM_function(int a, int b)" ∧
    TransformedDefinition.getExpansionSignatureOrDeclaration
        { ExampleSUM.TD with EmittedName := "" } Example.Ctx true = .ok "int(int a, int b)" :=
  ⟨((getExpansionSignatureOrDeclaration_text Example.Ctx ExampleSUM.Expansion false ExampleSUM.TD
      "SUM_function" false rfl (by decide) (by decide)).2.1 (Or.inl (by decide))).trans rfl,
    ((getExpansionSignatureOrDeclaration_text Example.Ctx ExampleSUM.Expansion false ExampleSUM.TD
      "" true rfl (by decide) (by decide)).2.1 (Or.inr rfl)).trans rfl⟩

/-! ## The text of a transformed definition -/

/-- The loop of the constructor returns when every argument has a statement. -/
theorem TransformedDefinition.new.argTypes_total (Ctx : ASTContext) :
    ∀ (Arguments : List MacroArgument) (ArgTypes : List QualType),
      (∀ Arg ∈ Arguments, Arg.getStmts.head?.isSome = true) →
      ∃ Result, TransformedDefinition.new.argTypes Ctx Arguments ArgTypes = .ok Result
  | [], ArgTypes, _ => ⟨ArgTypes, rfl⟩
  | Arg :: Rest, ArgTypes, h => by
    rw [TransformedDefinition.new.argTypes]
    have hA := h Arg (List.mem_cons_self _ _)
    cases hST : Arg.getStmts.head? with
    | none => simp [hST] at hA
    | some ST =>
      exact TransformedDefinition.new.argTypes_total Ctx Rest _
        (fun A hm => h A (List.mem_cons_of_mem _ hm))

/-- C19: for every expansion with one statement and a statement for each argument, the
constructor returns a definition whose `InitializerOrDefinition` is ` = <body>;` for a
variable and ` { return <body>; }` for a function, `<body>` being the definition text of the
expansion as it is, whatever the arguments are; so the signature text followed by it is
`<signature> = <body>;` for a variable and `<signature> { return <body>; }` for a function,
for every signature text that `getExpansionSignatureOrDeclaration` returns once a name is
assigned. -/
theorem TransformedDefinition_definition_text (Ctx : ASTContext)
    (Expansion : MacroExpansionNode) (IsVar : Bool) (ST : Stmt)
    (hST : Expansion.getStmts = [ST])
    (hargs : ∀ Arg ∈ Expansion.getArguments, Arg.getStmts.head?.isSome = true) :
    ∃ TD, TransformedDefinition.new Ctx Expansion IsVar = .ok TD ∧
      TD.InitializerOrDefinition =
        (if IsVar then " = " ++ Expansion.getDefinitionText ++ ";"
          else " \x7b return " ++ Expansion.getDefinitionText ++ "; \x7d") ∧
      ∀ (Name : String) (CanBeAnonymous : Bool) (Signature : String),
        TransformedDefinition.getExpansionSignatureOrDeclaration
            { TD with EmittedName := Name } Ctx CanBeAnonymous = .ok Signature →
          Signature ++ TransformedDefinition.InitializerOrDefinition
              { TD with EmittedName := Name } =
            (if IsVar then Signature ++ " = " ++ Expansion.getDefinitionText ++ ";"
              else Signature ++ " \x7b return " ++ Expansion.getDefinitionText ++ "; \x7d") := by
  obtain ⟨ArgTypes, hA⟩ :=
    TransformedDefinition.new.argTypes_total Ctx Expansion.getArguments [] hargs
  refine ⟨{ Expansion := Expansion, OriginalMacroName := Expansion.getName, IsVar := IsVar,
            VarOrReturnType := Ctx.getDesugaredCanonicalType ST, ArgTypes := ArgTypes,
            InitializerOrDefinition :=
              if IsVar then " = " ++ Expansion.getDefinitionText ++ ";"
              else " \x7b return " ++ Expansion.getDefinitionText ++ "; \x7d",
            EmittedName := "" }, ?_, rfl, ?_⟩
  · unfold TransformedDefinition.new
    rw [hST]
    simp only [hA]
  · intro Name CanBeAnonymous Signature _
    cases IsVar <;> simp [String.append_assoc]

/-- Witness of C19: the expansion `SUM(x, y)` of `#define SUM(a, b) a + b` as a function. -/
theorem TransformedDefinition_definition_text_witness :
    ∃ TD, TransformedDefinition.new Example.Ctx ExampleSUM.Expansion false = .ok TD ∧
      TD.InitializerOrDefinition = " \x7b return a + b; \x7d" ∧
      ∀ (Name : String) (CanBeAnonymous : Bool) (Signature : String),
        TransformedDefinition.getExpansionSignatureOrDeclaration
            { TD with EmittedName := Name } Example.Ctx CanBeAnonymous = .ok Signature →
          Signature ++ TransformedDefinition.InitializerOrDefinition
              { TD with EmittedName := Name } =
            Signature ++ " \x7b return " ++ "a + b" ++ "; \x7d" :=
  TransformedDefinition_definition_text Example.Ctx ExampleSUM.Expansion false
    ExampleSUM.Sum rfl (by decide)

/-! ## The types written in a definition -/

/-- C17: in a `TransformedDefinition` that the constructor builds, the variable or return type
is the type that `getDesugaredCanonicalType` gives for the one statement of the expansion, the
argument types are, in the order of the arguments, the types that it gives for the first
statement of each argument, and these are the types that `getExpansionSignatureOrDeclaration`
writes in the signature, as the claim says.  But `transformEntireExpr` does not write the
canonical type of every expansion that it transforms.  `isExprInCSubset` admits a reference to
a variable only when the type of the variable is spelled `int`, and it admits every integer
literal: the reference to `x` of type `long` is outside the subset, the literal `1L` is inside.
So the expansion of `#define BIG 1L` in `x = BIG;`, whose expression has the canonical type
`long`, is transformed, and its definition is written `const int BIG_var = 1L;`. -/
theorem written_type (Ctx : ASTContext) :
    (∀ (Expansion : MacroExpansionNode) (IsVar : Bool) (TD : TransformedDefinition),
      TransformedDefinition.new Ctx Expansion IsVar = .ok TD →
      ∃ ST, Expansion.getStmts = [ST] ∧
        TD.VarOrReturnType = Ctx.getDesugaredCanonicalType ST ∧
        Expansion.getArguments.map
          (fun Arg => Arg.getStmts.head?.map Ctx.getDesugaredCanonicalType) =
            TD.ArgTypes.map some ∧
        ∀ (Name : String) (CanBeAnonymous : Bool),
          Ctx.expansionHasUnambiguousSignature Expansion = true →
          Expansion.getArguments.length ≤ 2 ^ 32 →
          (Name ≠ "" ∨ CanBeAnonymous = true) →
          TransformedDefinition.getExpansionSignatureOrDeclaration
              { TD with EmittedName := Name } Ctx CanBeAnonymous =
            .ok (TransformedDefinition.signatureText
              (Ctx.getDesugaredCanonicalType ST).getAsString Name IsVar
              (List.zipWith (fun (T : QualType) (Arg : MacroArgument) =>
                (T.getAsString, Arg.getName)) TD.ArgTypes Expansion.getArguments))) ∧
    (ExampleBIG.Ctx.getDesugaredCanonicalType (.ExprStmt ExampleBIG.Lit)).getAsString =
      "long" ∧
    (isExprInCSubset (.DeclRefExpr ⟨36, 36⟩ (.Var ExampleBIG.x)) Memo.empty).1 = false ∧
    (isExprInCSubset ExampleBIG.Lit Memo.empty).1 = true ∧
    returned (transformEntireExpr 1 ExampleBIG.env ExampleBIG.st ExampleBIG.Lit) =
      some .TRANSFORMED ∧
    rewriterCalls (transformEntireExpr 1 ExampleBIG.env ExampleBIG.st ExampleBIG.Lit) =
      some [⟨.InsertTextAfter 14 "\nconst int BIG_var = 1L;", false⟩,
            ⟨.ReplaceText ⟨40, 40⟩ "BIG_var", false⟩] := by
  refine ⟨fun Expansion IsVar TD hnew => ?_, by decide, by decide, by decide, by decide,
    by decide⟩
  obtain ⟨ST, Types, hST, hT, rfl⟩ :=
    (TransformedDefinition.new_ok Ctx Expansion IsVar TD).1 hnew
  refine ⟨ST, hST, rfl, hT, fun Name CanBeAnonymous hU hlen hname => ?_⟩
  exact TransformedDefinition.getExpansionSignatureOrDeclaration_eq _ Ctx CanBeAnonymous Types
    hT hU hlen (by
      rcases hname with h | h
      · exact Or.inr h
      · exact Or.inl h)

/-! ## The type tests of a transformed definition -/

/-- A test over the variable or return type and the argument types, as the three member
functions run it. -/
theorem TransformedDefinition.typeTest_iff (p : ClangType → Bool) (V : QualType)
    (ArgTypes : List QualType) :
    (((match V.getTypePtr with
        | some T => p T
        | none => false) ||
      ArgTypes.any fun it =>
        match it.getTypePtr with
        | some T => p T
        | none => false) = true) ↔
      (∃ T, V.getTypePtr = some T ∧ p T = true) ∨
        ∃ q ∈ ArgTypes, ∃ T, q.getTypePtr = some T ∧ p T = true := by
  simp only [Bool.or_eq_true, List.any_eq_true]
  constructor
  · rintro (h | ⟨q, hq, h⟩)
    · left
      cases hV : V.getTypePtr with
      | none => simp [hV] at h
      | some T => exact ⟨T, rfl, by simpa [hV] using h⟩
    · right
      refine ⟨q, hq, ?_⟩
      cases hT : q.getTypePtr with
      | none => simp [hT] at h
      | some T => exact ⟨T, rfl, by simpa [hT] using h⟩
  · rintro (⟨T, hT, h⟩ | ⟨q, hq, T, hT, h⟩)
    · left
      simpa [hT] using h
    · right
      exact ⟨q, hq, by simpa [hT] using h⟩

/-- C21: for every expansion with one statement and a statement for each argument, the
constructor returns a definition whose variable or return type is the canonical type of that
statement and whose `ArgTypes` holds one type per argument of the expansion, in argument
order: the canonical type of the first statement of the argument.  For every definition,
`hasNonBuiltinTypes`, `hasArrayTypes` and `hasFunctionTypes` return true if and only if the
variable or return type or at least one of the argument types is, respectively, a type that
is not builtin, an array type, a function or function-pointer type. -/
theorem TransformedDefinition_type_tests (Ctx : ASTContext) (Expansion : MacroExpansionNode)
    (IsVar : Bool) (ST : Stmt) (hST : Expansion.getStmts = [ST])
    (hargs : ∀ Arg ∈ Expansion.getArguments, Arg.getStmts.head?.isSome = true) :
    (∃ TD, TransformedDefinition.new Ctx Expansion IsVar = .ok TD ∧
      TD.VarOrReturnType = Ctx.getDesugaredCanonicalType ST ∧
      TD.ArgTypes.length = Expansion.getArguments.length ∧
      TD.ArgTypes.map some =
        Expansion.getArguments.map
          (fun Arg => Arg.getStmts.head?.map Ctx.getDesugaredCanonicalType)) ∧
    ∀ TD : TransformedDefinition,
      (TD.hasNonBuiltinTypes = true ↔
        TD.VarOrReturnType.isNonBuiltin ∨ ∃ q ∈ TD.ArgTypes, q.isNonBuiltin) ∧
      (TD.hasArrayTypes = true ↔
        TD.VarOrReturnType.isArray ∨ ∃ q ∈ TD.ArgTypes, q.isArray) ∧
      (TD.hasFunctionTypes = true ↔
        TD.VarOrReturnType.isFunctionOrFunctionPointer ∨
          ∃ q ∈ TD.ArgTypes, q.isFunctionOrFunctionPointer) := by
  constructor
  · obtain ⟨ArgTypes, hA⟩ :=
      TransformedDefinition.new.argTypes_total Ctx Expansion.getArguments [] hargs
    have hnew : TransformedDefinition.new Ctx Expansion IsVar =
        .ok { Expansion := Expansion, OriginalMacroName := Expansion.getName, IsVar := IsVar,
              VarOrReturnType := Ctx.getDesugaredCanonicalType ST, ArgTypes := ArgTypes,
              InitializerOrDefinition :=
                if IsVar then " = " ++ Expansion.getDefinitionText ++ ";"
                else " \x7b return " ++ Expansion.getDefinitionText ++ "; \x7d",
              EmittedName := "" } := by
      unfold TransformedDefinition.new
      rw [hST]
      simp only [hA]
    obtain ⟨ST', Types, -, hT, hTD⟩ :=
      (TransformedDefinition.new_ok Ctx Expansion IsVar _).1 hnew
    have hTypes : ArgTypes = Types := congrArg TransformedDefinition.ArgTypes hTD
    refine ⟨_, hnew, rfl, ?_, ?_⟩
    · have := congrArg List.length hT
      simpa [hTypes] using this.symm
    · simpa [hTypes] using hT.symm
  · intro TD
    refine ⟨?_, ?_, ?_⟩
    · exact (TransformedDefinition.typeTest_iff (fun T => !T.isBuiltinType)
        TD.VarOrReturnType TD.ArgTypes).trans (by simp [QualType.isNonBuiltin])
    · exact (TransformedDefinition.typeTest_iff (fun T => T.isArrayType)
        TD.VarOrReturnType TD.ArgTypes).trans (by simp [QualType.isArray])
    · exact (TransformedDefinition.typeTest_iff
        (fun T => T.isFunctionPointerType || T.isFunctionType)
        TD.VarOrReturnType TD.ArgTypes).trans (by simp [QualType.isFunctionOrFunctionPointer])

/-- Witness of C21: the expansion `SUM(x, y)` of `#define SUM(a, b) a + b`; the definition
built for it has two argument types, and a definition with an argument of type `int [4]`
has an array type and a type that is not builtin. -/
theorem TransformedDefinition_type_tests_witness :
    (∃ TD, TransformedDefinition.new Example.Ctx ExampleSUM.Expansion false = .ok TD ∧
      TD.VarOrReturnType = Example.Ctx.getDesugaredCanonicalType ExampleSUM.Sum ∧
      TD.ArgTypes.length = 2) ∧
    TransformedDefinition.hasArrayTypes
      { ExampleSUM.TD with ArgTypes := [Example.intType, Example.arrayType] } = true ∧
    ExampleSUM.TD.hasArrayTypes = false :=
  have h := TransformedDefinition_type_tests Example.Ctx ExampleSUM.Expansion false
    ExampleSUM.Sum rfl (by decide)
  ⟨h.1.imp fun _ hTD => ⟨hTD.1, hTD.2.1, hTD.2.2.1⟩,
    ((h.2 { ExampleSUM.TD with ArgTypes := [Example.intType, Example.arrayType] }).2.1).2
      (Or.inr ⟨Example.arrayType, by simp, _, rfl, rfl⟩),
    by decide⟩

/-! ## The argument parser -/

/-- The loop over the options of `transform`: every option is recognised and the loop is
left by `return true`, or the process exits with status 1 at the first option that is not
recognised. -/
theorem Cpp2CAction.ParseArgs.transformArgs_cases :
    ∀ (rest : List String) (A : Cpp2CAction),
      ((∀ o ∈ rest, o ∈ ["-ow", "--overwrite-files", "-v", "--verbose", "-shm",
            "--standard-header-macros"]) ∧
        (Cpp2CAction.ParseArgs.transformArgs A rest).ending = .Returned true ∧
        (Cpp2CAction.ParseArgs.transformArgs A rest).errs = "" ∧
        (Cpp2CAction.ParseArgs.transformArgs A rest).action.Command = A.Command) ∨
      (∃ pre arg post, rest = pre ++ arg :: post ∧
        (∀ o ∈ pre, o ∈ ["-ow", "--overwrite-files", "-v", "--verbose", "-shm",
            "--standard-header-macros"]) ∧
        arg ∉ ["-ow", "--overwrite-files", "-v", "--verbose", "-shm",
            "--standard-header-macros"] ∧
        (Cpp2CAction.ParseArgs.transformArgs A rest).ending = .Exited 1 ∧
        (Cpp2CAction.ParseArgs.transformArgs A rest).errs =
          "Unknown transformer argument: " ++ arg ++ "\n")
  | [], A => Or.inl ⟨by simp, rfl, rfl, rfl⟩
  | arg :: rest, A => by
    rw [Cpp2CAction.ParseArgs.transformArgs]
    by_cases h1 : arg = "-ow" ∨ arg = "--overwrite-files"
    · have h1' : (decide (arg = "-ow") || decide (arg = "--overwrite-files")) = true := by
        simpa using h1
      rw [if_pos h1']
      rcases Cpp2CAction.ParseArgs.transformArgs_cases rest
        { A with TSettings := { A.TSettings with OverwriteFiles := true } } with
        ⟨hall, he, hr, hc⟩ | ⟨pre, a, post, hrest, hpre, ha, he, hr⟩
      · refine Or.inl ⟨?_, he, hr, hc⟩
        intro o ho
        rcases List.mem_cons.1 ho with rfl | ho
        · rcases h1 with h | h <;> simp [h]
        · exact hall o ho
      · refine Or.inr ⟨arg :: pre, a, post, by simp [hrest], ?_, ha, he, hr⟩
        intro o ho
        rcases List.mem_cons.1 ho with rfl | ho
        · rcases h1 with h | h <;> simp [h]
        · exact hpre o ho
    · have h1' : ¬ (decide (arg = "-ow") || decide (arg = "--overwrite-files")) = true := by
        simpa using h1
      rw [if_neg h1']
      by_cases h2 : arg = "-v" ∨ arg = "--verbose"
      · have h2' : (decide (arg = "-v") || decide (arg = "--verbose")) = true := by
          simpa using h2
        rw [if_pos h2']
        rcases Cpp2CAction.ParseArgs.transformArgs_cases rest
          { A with TSettings := { A.TSettings with Verbose := true } } with
          ⟨hall, he, hr, hc⟩ | ⟨pre, a, post, hrest, hpre, ha, he, hr⟩
        · refine Or.inl ⟨?_, he, hr, hc⟩
          intro o ho
          rcases List.mem_cons.1 ho with rfl | ho
          · rcases h2 with h | h <;> simp [h]
          · exact hall o ho
        · refine Or.inr ⟨arg :: pre, a, post, by simp [hrest], ?_, ha, he, hr⟩
          intro o ho
          rcases List.mem_cons.1 ho with rfl | ho
          · rcases h2 with h | h <;> simp [h]
          · exact hpre o ho
      · have h2' : ¬ (decide (arg = "-v") || decide (arg = "--verbose")) = true := by
          simpa using h2
        rw [if_neg h2']
        by_cases h3 : arg = "-shm" ∨ arg = "--standard-header-macros"
        · have h3' : (decide (arg = "-shm") || decide (arg = "--standard-header-macros")) =
              true := by
            simpa using h3
          rw [if_pos h3']
          rcases Cpp2CAction.ParseArgs.transformArgs_cases rest
            { A with TSettings :=
                { A.TSettings with OnlyCollectNotDefinedInStdHeaders := false } } with
            ⟨hall, he, hr, hc⟩ | ⟨pre, a, post, hrest, hpre, ha, he, hr⟩
          · refine Or.inl ⟨?_, he, hr, hc⟩
            intro o ho
            rcases List.mem_cons.1 ho with rfl | ho
            · rcases h3 with h | h <;> simp [h]
            · exact hall o ho
          · refine Or.inr ⟨arg :: pre, a, post, by simp [hrest], ?_, ha, he, hr⟩
            intro o ho
            rcases List.mem_cons.1 ho with rfl | ho
            · rcases h3 with h | h <;> simp [h]
            · exact hpre o ho
        · have h3' : ¬ (decide (arg = "-shm") || decide (arg = "--standard-header-macros")) =
              true := by
            simpa using h3
          rw [if_neg h3']
          refine Or.inr ⟨[], arg, rest, rfl, by simp, ?_, rfl, rfl⟩
          simp only [List.mem_cons, List.mem_singleton, List.not_mem_nil, or_false]
          tauto

/-- The loop over the options of `remove_annotations`: every option is recognised and the
loop is left by `return true`, or the process exits with status 1 at the first option that
is not recognised. -/
theorem Cpp2CAction.ParseArgs.removeAnnotationsArgs_cases :
    ∀ (rest : List String) (A : Cpp2CAction),
      ((∀ o ∈ rest, o ∈ ["-ow", "--overwrite-files"]) ∧
        (Cpp2CAction.ParseArgs.removeAnnotationsArgs A rest).ending = .Returned true ∧
        (Cpp2CAction.ParseArgs.removeAnnotationsArgs A rest).errs = "" ∧
        (Cpp2CAction.ParseArgs.removeAnnotationsArgs A rest).action.Command = A.Command) ∨
      (∃ pre arg post, rest = pre ++ arg :: post ∧
        (∀ o ∈ pre, o ∈ ["-ow", "--overwrite-files"]) ∧
        arg ∉ ["-ow", "--overwrite-files"] ∧
        (Cpp2CAction.ParseArgs.removeAnnotationsArgs A rest).ending = .Exited 1 ∧
        (Cpp2CAction.ParseArgs.removeAnnotationsArgs A rest).errs =
          "Unknown annotation remover argument: " ++ arg ++ "\n")
  | [], A => Or.inl ⟨by simp, rfl, rfl, rfl⟩
  | arg :: rest, A => by
    rw [Cpp2CAction.ParseArgs.removeAnnotationsArgs]
    by_cases h1 : arg = "-ow" ∨ arg = "--overwrite-files"
    · have h1' : (decide (arg = "-ow") || decide (arg = "--overwrite-files")) = true := by
        simpa using h1
      rw [if_pos h1']
      rcases Cpp2CAction.ParseArgs.removeAnnotationsArgs_cases rest
        { A with TSettings := { A.TSettings with OverwriteFiles := true } } with
        ⟨hall, he, hr, hc⟩ | ⟨pre, a, post, hrest, hpre, ha, he, hr⟩
      · refine Or.inl ⟨?_, he, hr, hc⟩
        intro o ho
        rcases List.mem_cons.1 ho with rfl | ho
        · rcases h1 with h | h <;> simp [h]
        · exact hall o ho
      · refine Or.inr ⟨arg :: pre, a, post, by simp [hrest], ?_, ha, he, hr⟩
        intro o ho
        rcases List.mem_cons.1 ho with rfl | ho
        · rcases h1 with h | h <;> simp [h]
        · exact hpre o ho
    · have h1' : ¬ (decide (arg = "-ow") || decide (arg = "--overwrite-files")) = true := by
        simpa using h1
      rw [if_neg h1']
      refine Or.inr ⟨[], arg, rest, rfl, by simp, ?_, rfl, rfl⟩
      simp only [List.mem_cons, List.mem_singleton, List.not_mem_nil, or_false]
      tauto

theorem Cpp2CAction.ParseArgs_of_transform (A : Cpp2CAction) (command : String)
    (rest : List String) (h : command = "tr" ∨ command = "transform") :
    Cpp2CAction.ParseArgs A (command :: rest) =
      Cpp2CAction.ParseArgs.transformArgs { A with Command := .TRANSFORM } rest := by
  have h' : (decide (command = "tr") || decide (command = "transform")) = true := by
    simpa using h
  simp only [Cpp2CAction.ParseArgs]
  rw [if_pos h']

theorem Cpp2CAction.ParseArgs_of_removeAnnotations (A : Cpp2CAction) (command : String)
    (rest : List String) (h : command = "ra" ∨ command = "remove_annotations") :
    Cpp2CAction.ParseArgs A (command :: rest) =
      Cpp2CAction.ParseArgs.removeAnnotationsArgs { A with Command := .REMOVE_ANNOTATIONS }
        rest := by
  have h1 : ¬ (decide (command = "tr") || decide (command = "transform")) = true := by
    rcases h with h | h <;> simp [h]
  have h2 : (decide (command = "ra") || decide (command = "remove_annotations")) = true := by
    simpa using h
  simp only [Cpp2CAction.ParseArgs]
  rw [if_neg h1, if_pos h2]

theorem Cpp2CAction.ParseArgs_of_unknown (A : Cpp2CAction) (command : String)
    (rest : List String) (h1 : ¬ (command = "tr" ∨ command = "transform"))
    (h2 : ¬ (command = "ra" ∨ command = "remove_annotations")) :
    Cpp2CAction.ParseArgs A (command :: rest) =
      { action := A, errs := USAGE_STRING ++ "\n", ending := .Returned false } := by
  have h1' : ¬ (decide (command = "tr") || decide (command = "transform")) = true := by
    simpa using h1
  have h2' : ¬ (decide (command = "ra") || decide (command = "remove_annotations")) = true := by
    simpa using h2
  simp only [Cpp2CAction.ParseArgs]
  rw [if_neg h1', if_neg h2']

/-- The options recognised for a string: those of `transform`, those of `remove_annotations`,
or none when the string is not a command. -/
theorem Cpp2CAction.recognisedOptions_cases (command : String) :
    ((command = "tr" ∨ command = "transform") ∧
      Cpp2CAction.recognisedOptions command =
        some ["-ow", "--overwrite-files", "-v", "--verbose", "-shm",
          "--standard-header-macros"]) ∨
    (¬ (command = "tr" ∨ command = "transform") ∧
      (command = "ra" ∨ command = "remove_annotations") ∧
      Cpp2CAction.recognisedOptions command = some ["-ow", "--overwrite-files"]) ∨
    (¬ (command = "tr" ∨ command = "transform") ∧
      ¬ (command = "ra" ∨ command = "remove_annotations") ∧
      Cpp2CAction.recognisedOptions command = none) := by
  unfold Cpp2CAction.recognisedOptions
  by_cases h1 : command = "tr" ∨ command = "transform"
  · exact Or.inl ⟨h1, by rw [if_pos h1]⟩
  · by_cases h2 : command = "ra" ∨ command = "remove_annotations"
    · exact Or.inr (Or.inl ⟨h1, h2, by rw [if_neg h1, if_pos h2]⟩)
    · exact Or.inr (Or.inr ⟨h1, h2, by rw [if_neg h1, if_neg h2]⟩)

/-- C22: `ParseArgs` returns true exactly for the argument vectors whose first element is
one of `tr`, `transform`, `ra`, `remove_annotations` and whose remaining elements are all
options recognised for that command.  For the empty vector and for a first element that is
not a command it prints the usage text and returns false, leaving the members as they were;
for a command followed by an option that is not recognised for it, the process exits with
status 1 after a message that names the first such option. -/
theorem ParseArgs_accepts (A : Cpp2CAction) (args : List String) :
    (∀ command, (Cpp2CAction.recognisedOptions command).isSome = true ↔
      command ∈ ["tr", "transform", "ra", "remove_annotations"]) ∧
    ((Cpp2CAction.ParseArgs A args).ending = .Returned true ↔
      ∃ command rest opts, args = command :: rest ∧
        Cpp2CAction.recognisedOptions command = some opts ∧ ∀ o ∈ rest, o ∈ opts) ∧
    ((args = [] ∨ ∃ command rest, args = command :: rest ∧
        Cpp2CAction.recognisedOptions command = none) →
      Cpp2CAction.ParseArgs A args =
        { action := A, errs := USAGE_STRING ++ "\n", ending := .Returned false }) ∧
    (∀ command rest opts, args = command :: rest →
      Cpp2CAction.recognisedOptions command = some opts → (∃ o ∈ rest, o ∉ opts) →
      (Cpp2CAction.ParseArgs A args).ending = .Exited 1 ∧
      ∃ pre arg post, rest = pre ++ arg :: post ∧ (∀ o ∈ pre, o ∈ opts) ∧ arg ∉ opts ∧
        ((Cpp2CAction.ParseArgs A args).errs =
            "Unknown transformer argument: " ++ arg ++ "\n" ∨
          (Cpp2CAction.ParseArgs A args).errs =
            "Unknown annotation remover argument: " ++ arg ++ "\n")) := by
  refine ⟨fun command => ?_, ?_, ?_, ?_⟩
  · rcases Cpp2CAction.recognisedOptions_cases command with
      ⟨h, hr⟩ | ⟨h1, h, hr⟩ | ⟨h1, h2, hr⟩
    · rw [hr]
      rcases h with h | h <;> simp [h]
    · rw [hr]
      rcases h with h | h <;> simp [h]
    · rw [hr]
      simp only [Option.isSome_none, Bool.false_eq_true, List.mem_cons, List.mem_singleton,
        List.not_mem_nil, or_false, false_iff]
      tauto
  · cases args with
    | nil =>
      simp [Cpp2CAction.ParseArgs]
    | cons command rest =>
      rcases Cpp2CAction.recognisedOptions_cases command with
        ⟨h, hr⟩ | ⟨h1, h, hr⟩ | ⟨h1, h2, hr⟩
      · rw [Cpp2CAction.ParseArgs_of_transform A command rest h]
        rcases Cpp2CAction.ParseArgs.transformArgs_cases rest { A with Command := .TRANSFORM }
          with ⟨hall, he, -, -⟩ | ⟨pre, a, post, hrest, hpre, ha, he, -⟩
        · simp only [he, true_iff]
          exact ⟨command, rest, _, rfl, hr, hall⟩
        · simp only [he, reduceCtorEq, false_iff, not_exists, not_and]
          intro c r opts hcr hopts hall
          simp only [List.cons.injEq] at hcr
          obtain ⟨rfl, rfl⟩ := hcr
          rw [hr] at hopts
          cases hopts
          exact ha (hall a (by simp [hrest]))
      · rw [Cpp2CAction.ParseArgs_of_removeAnnotations A command rest h]
        rcases Cpp2CAction.ParseArgs.removeAnnotationsArgs_cases rest
          { A with Command := .REMOVE_ANNOTATIONS }
          with ⟨hall, he, -, -⟩ | ⟨pre, a, post, hrest, hpre, ha, he, -⟩
        · simp only [he, true_iff]
          exact ⟨command, rest, _, rfl, hr, hall⟩
        · simp only [he, reduceCtorEq, false_iff, not_exists, not_and]
          intro c r opts hcr hopts hall
          simp only [List.cons.injEq] at hcr
          obtain ⟨rfl, rfl⟩ := hcr
          rw [hr] at hopts
          cases hopts
          exact ha (hall a (by simp [hrest]))
      · rw [Cpp2CAction.ParseArgs_of_unknown A command rest h1 h2]
        simp only [Cpp2CAction.Ending.Returned.injEq, Bool.false_eq_true, false_iff,
          not_exists, not_and]
        intro c r opts hcr hopts
        simp only [List.cons.injEq] at hcr
        obtain ⟨rfl, rfl⟩ := hcr
        rw [hr] at hopts
        cases hopts
  · rintro (rfl | ⟨command, rest, rfl, hnone⟩)
    · rfl
    · rcases Cpp2CAction.recognisedOptions_cases command with
        ⟨h, hr⟩ | ⟨h1, h, hr⟩ | ⟨h1, h2, hr⟩
      · rw [hr] at hnone
        cases hnone
      · rw [hr] at hnone
        cases hnone
      · exact Cpp2CAction.ParseArgs_of_unknown A command rest h1 h2
  · rintro command rest opts rfl hopts ⟨o, ho, hno⟩
    rcases Cpp2CAction.recognisedOptions_cases command with
      ⟨h, hr⟩ | ⟨h1, h, hr⟩ | ⟨h1, h2, hr⟩
    · rw [hr] at hopts
      cases hopts
      rw [Cpp2CAction.ParseArgs_of_transform A command rest h]
      rcases Cpp2CAction.ParseArgs.transformArgs_cases rest { A with Command := .TRANSFORM }
        with ⟨hall, -, -, -⟩ | ⟨pre, a, post, hrest, hpre, ha, he, herr⟩
      · exact absurd (hall o ho) hno
      · exact ⟨he, pre, a, post, hrest, hpre, ha, Or.inl herr⟩
    · rw [hr] at hopts
      cases hopts
      rw [Cpp2CAction.ParseArgs_of_removeAnnotations A command rest h]
      rcases Cpp2CAction.ParseArgs.removeAnnotationsArgs_cases rest
        { A with Command := .REMOVE_ANNOTATIONS }
        with ⟨hall, -, -, -⟩ | ⟨pre, a, post, hrest, hpre, ha, he, herr⟩
      · exact absurd (hall o ho) hno
      · exact ⟨he, pre, a, post, hrest, hpre, ha, Or.inr herr⟩
    · rw [hr] at hopts
      cases hopts

/-- Witness of C22: the vector `tr -shm -v` is accepted. -/
theorem ParseArgs_accepts_witness :
    (Cpp2CAction.ParseArgs Example.Action ["tr", "-shm", "-v"]).ending = .Returned true :=
  ((ParseArgs_accepts Example.Action ["tr", "-shm", "-v"]).2.1).2
    ⟨"tr", ["-shm", "-v"], _, rfl, rfl, by decide⟩

/-! ## Macros of standard headers -/

/-- The loop over the options of `transform` never sets the flag
`OnlyCollectNotDefinedInStdHeaders`: once false, it stays false. -/
theorem Cpp2CAction.ParseArgs.transformArgs_flag_false :
    ∀ (rest : List String) (A : Cpp2CAction),
      A.TSettings.OnlyCollectNotDefinedInStdHeaders = false →
      (Cpp2CAction.ParseArgs.transformArgs A
        rest).action.TSettings.OnlyCollectNotDefinedInStdHeaders = false
  | [], A, h => h
  | arg :: rest, A, h => by
    rw [Cpp2CAction.ParseArgs.transformArgs]
    split
    · exact Cpp2CAction.ParseArgs.transformArgs_flag_false rest _ h
    · split
      · exact Cpp2CAction.ParseArgs.transformArgs_flag_false rest _ h
      · split
        · exact Cpp2CAction.ParseArgs.transformArgs_flag_false rest _ rfl
        · exact h

/-- The loop over the options of `transform` leaves the flag
`OnlyCollectNotDefinedInStdHeaders` as it was, or clears it; it clears it only for an option
`-shm` or `--standard-header-macros`, and always when the loop gets past such an option. -/
theorem Cpp2CAction.ParseArgs.transformArgs_flag :
    ∀ (rest : List String) (A : Cpp2CAction),
      ((Cpp2CAction.ParseArgs.transformArgs A
          rest).action.TSettings.OnlyCollectNotDefinedInStdHeaders =
          A.TSettings.OnlyCollectNotDefinedInStdHeaders ∨
        ((Cpp2CAction.ParseArgs.transformArgs A
            rest).action.TSettings.OnlyCollectNotDefinedInStdHeaders = false ∧
          ("-shm" ∈ rest ∨ "--standard-header-macros" ∈ rest))) ∧
      ((Cpp2CAction.ParseArgs.transformArgs A rest).ending = .Returned true →
        ("-shm" ∈ rest ∨ "--standard-header-macros" ∈ rest) →
        (Cpp2CAction.ParseArgs.transformArgs A
          rest).action.TSettings.OnlyCollectNotDefinedInStdHeaders = false)
  | [], A => ⟨Or.inl rfl, fun _ h => by simp at h⟩
  | arg :: rest, A => by
    rw [Cpp2CAction.ParseArgs.transformArgs]
    by_cases h1 : arg = "-ow" ∨ arg = "--overwrite-files"
    · have h1' : (decide (arg = "-ow") || decide (arg = "--overwrite-files")) = true := by
        simpa using h1
      rw [if_pos h1']
      have ih := Cpp2CAction.ParseArgs.transformArgs_flag rest
        { A with TSettings := { A.TSettings with OverwriteFiles := true } }
      have hne : arg ≠ "-shm" ∧ arg ≠ "--standard-header-macros" := by
        rcases h1 with h | h <;> simp [h]
      refine ⟨?_, fun he hm => ih.2 he ?_⟩
      · rcases ih.1 with h | ⟨h, hm⟩
        · exact Or.inl h
        · exact Or.inr ⟨h, by
            rcases hm with hm | hm
            · exact Or.inl (List.mem_cons_of_mem _ hm)
            · exact Or.inr (List.mem_cons_of_mem _ hm)⟩
      · rcases hm with hm | hm
        · exact Or.inl ((List.mem_cons.1 hm).resolve_left (fun h => hne.1 h.symm))
        · exact Or.inr ((List.mem_cons.1 hm).resolve_left (fun h => hne.2 h.symm))
    · have h1' : ¬ (decide (arg = "-ow") || decide (arg = "--overwrite-files")) = true := by
        simpa using h1
      rw [if_neg h1']
      by_cases h2 : arg = "-v" ∨ arg = "--verbose"
      · have h2' : (decide (arg = "-v") || decide (arg = "--verbose")) = true := by
          simpa using h2
        rw [if_pos h2']
        have ih := Cpp2CAction.ParseArgs.transformArgs_flag rest
          { A with TSettings := { A.TSettings with Verbose := true } }
        have hne : arg ≠ "-shm" ∧ arg ≠ "--standard-header-macros" := by
          rcases h2 with h | h <;> simp [h]
        refine ⟨?_, fun he hm => ih.2 he ?_⟩
        · rcases ih.1 with h | ⟨h, hm⟩
          · exact Or.inl h
          · exact Or.inr ⟨h, by
              rcases hm with hm | hm
              · exact Or.inl (List.mem_cons_of_mem _ hm)
              · exact Or.inr (List.mem_cons_of_mem _ hm)⟩
        · rcases hm with hm | hm
          · exact Or.inl ((List.mem_cons.1 hm).resolve_left (fun h => hne.1 h.symm))
          · exact Or.inr ((List.mem_cons.1 hm).resolve_left (fun h => hne.2 h.symm))
      · have h2' : ¬ (decide (arg = "-v") || decide (arg = "--verbose")) = true := by
          simpa using h2
        rw [if_neg h2']
        by_cases h3 : arg = "-shm" ∨ arg = "--standard-header-macros"
        · have h3' : (decide (arg = "-shm") || decide (arg = "--standard-header-macros")) =
              true := by
            simpa using h3
          rw [if_pos h3']
          have hf := Cpp2CAction.ParseArgs.transformArgs_flag_false rest
            { A with TSettings :=
                { A.TSettings with OnlyCollectNotDefinedInStdHeaders := false } } rfl
          refine ⟨Or.inr ⟨hf, ?_⟩, fun _ _ => hf⟩
          rcases h3 with h | h
          · exact Or.inl (by simp [h])
          · exact Or.inr (by simp [h])
        · have h3' : ¬ (decide (arg = "-shm") || decide (arg = "--standard-header-macros")) =
              true := by
            simpa using h3
          rw [if_neg h3']
          exact ⟨Or.inl rfl, fun he => by cases he⟩

/-- The loop over the options of `remove_annotations` leaves the flag
`OnlyCollectNotDefinedInStdHeaders` as it was. -/
theorem Cpp2CAction.ParseArgs.removeAnnotationsArgs_flag :
    ∀ (rest : List String) (A : Cpp2CAction),
      (Cpp2CAction.ParseArgs.removeAnnotationsArgs A
        rest).action.TSettings.OnlyCollectNotDefinedInStdHeaders =
        A.TSettings.OnlyCollectNotDefinedInStdHeaders
  | [], A => rfl
  | arg :: rest, A => by
    rw [Cpp2CAction.ParseArgs.removeAnnotationsArgs]
    split
    · exact Cpp2CAction.ParseArgs.removeAnnotationsArgs_flag rest _
    · rfl

/-- The first block of the callback leaves the map of prototypes, the flag and the helpers
as they were. -/
theorem MacroNameCollector.MacroDefined.recordName_frame (C : MacroNameCollector)
    (MacroNameTok : Option String) (MD : Option MacroDirective) :
    (MacroNameCollector.MacroDefined.recordName C MacroNameTok
        MD).MacroDefinitionToTransformedDefinitionPrototypes =
      C.MacroDefinitionToTransformedDefinitionPrototypes ∧
    (MacroNameCollector.MacroDefined.recordName C MacroNameTok
        MD).OnlyCollectNotDefinedInStdHeaders = C.OnlyCollectNotDefinedInStdHeaders ∧
    (MacroNameCollector.MacroDefined.recordName C MacroNameTok MD).hashMacro = C.hashMacro ∧
    (MacroNameCollector.MacroDefined.recordName C MacroNameTok MD).isInStdHeader =
      C.isInStdHeader := by
  unfold MacroNameCollector.MacroDefined.recordName
  cases MacroNameTok with
  | none => exact ⟨rfl, rfl, rfl, rfl⟩
  | some MacroName =>
    cases MD with
    | none => exact ⟨rfl, rfl, rfl, rfl⟩
    | some D =>
      dsimp only
      split <;> exact ⟨rfl, rfl, rfl, rfl⟩

/-- C23: `ParseArgs` changes `OnlyCollectNotDefinedInStdHeaders` only to false and only when
`-shm` or `--standard-header-macros` is among the arguments, and an accepted vector of the
command `transform` with one of these options leaves it false.  For every definition event
with a directive that has a macro record, `MacroNameCollector::MacroDefined` returns, and it
sets the entry of the macro in the map of prototypes (to the empty set) if
`OnlyCollectNotDefinedInStdHeaders` is false or the definition location of the macro is not
in a standard header; otherwise it leaves the map as it was. -/
theorem standard_header_macros :
    (∀ (A : Cpp2CAction) (args : List String),
      ((Cpp2CAction.ParseArgs A args).action.TSettings.OnlyCollectNotDefinedInStdHeaders ≠
          A.TSettings.OnlyCollectNotDefinedInStdHeaders →
        (Cpp2CAction.ParseArgs A args).action.TSettings.OnlyCollectNotDefinedInStdHeaders =
            false ∧
          ("-shm" ∈ args ∨ "--standard-header-macros" ∈ args)) ∧
      (∀ command rest, args = command :: rest → (command = "tr" ∨ command = "transform") →
        (Cpp2CAction.ParseArgs A args).ending = .Returned true →
        ("-shm" ∈ rest ∨ "--standard-header-macros" ∈ rest) →
        (Cpp2CAction.ParseArgs A args).action.TSettings.OnlyCollectNotDefinedInStdHeaders =
          false)) ∧
    (∀ (C : MacroNameCollector) (MacroNameTok : Option String) (D : MacroDirective)
        (MI : MacroInfo), D.MacroInfo = some MI →
      ∃ C', C.MacroDefined MacroNameTok (some D) = .ok C' ∧
        C'.OnlyCollectNotDefinedInStdHeaders = C.OnlyCollectNotDefinedInStdHeaders ∧
        C'.MacroDefinitionToTransformedDefinitionPrototypes =
          if C.OnlyCollectNotDefinedInStdHeaders = false ∨
              C.isInStdHeader MI.DefinitionLoc = false then
            fun K => if K = C.hashMacro MI then some []
              else C.MacroDefinitionToTransformedDefinitionPrototypes K
          else C.MacroDefinitionToTransformedDefinitionPrototypes) := by
  constructor
  · intro A args
    cases args with
    | nil =>
      exact ⟨fun h => absurd rfl h, fun command rest h => by cases h⟩
    | cons command rest =>
      by_cases h1 : command = "tr" ∨ command = "transform"
      · rw [Cpp2CAction.ParseArgs_of_transform A command rest h1]
        have hf := Cpp2CAction.ParseArgs.transformArgs_flag rest { A with Command := .TRANSFORM }
        refine ⟨fun hne => ?_, fun c r hcr _ he hm => ?_⟩
        · rcases hf.1 with h | ⟨h, hm⟩
          · exact absurd h hne
          · exact ⟨h, by
              rcases hm with hm | hm
              · exact Or.inl (List.mem_cons_of_mem _ hm)
              · exact Or.inr (List.mem_cons_of_mem _ hm)⟩
        · simp only [List.cons.injEq] at hcr
          obtain ⟨rfl, rfl⟩ := hcr
          exact hf.2 he hm
      · by_cases h2 : command = "ra" ∨ command = "remove_annotations"
        · rw [Cpp2CAction.ParseArgs_of_removeAnnotations A command rest h2]
          have hf := Cpp2CAction.ParseArgs.removeAnnotationsArgs_flag rest
            { A with Command := .REMOVE_ANNOTATIONS }
          refine ⟨fun hne => absurd hf hne, fun c r hcr hc => ?_⟩
          simp only [List.cons.injEq] at hcr
          obtain ⟨rfl, rfl⟩ := hcr
          exact absurd hc h1
        · rw [Cpp2CAction.ParseArgs_of_unknown A command rest h1 h2]
          refine ⟨fun hne => absurd rfl hne, fun c r hcr hc => ?_⟩
          simp only [List.cons.injEq] at hcr
          obtain ⟨rfl, rfl⟩ := hcr
          exact absurd hc h1
  · intro C MacroNameTok D MI hMI
    obtain ⟨hp, hflag, hhash, hstd⟩ :=
      MacroNameCollector.MacroDefined.recordName_frame C MacroNameTok (some D)
    unfold MacroNameCollector.MacroDefined
    generalize MacroNameCollector.MacroDefined.recordName C MacroNameTok (some D) = C1
      at hp hflag hhash hstd
    rw [← hp, ← hflag, ← hhash, ← hstd]
    simp only [hMI]
    cases hO : C1.OnlyCollectNotDefinedInStdHeaders with
    | false => exact ⟨_, rfl, rfl, by simp⟩
    | true =>
      cases hS : C1.isInStdHeader MI.DefinitionLoc with
      | false => exact ⟨_, rfl, rfl, by simp⟩
      | true => exact ⟨_, rfl, hO, by simp⟩

/-- Witness of C23: the vector `tr -shm -v` clears the flag, and the vector `tr -v` leaves
it set. -/
theorem standard_header_macros_witness :
    (Cpp2CAction.ParseArgs Example.Action
      ["tr", "-shm", "-v"]).action.TSettings.OnlyCollectNotDefinedInStdHeaders = false ∧
    (Cpp2CAction.ParseArgs Example.Action
      ["tr", "-v"]).action.TSettings.OnlyCollectNotDefinedInStdHeaders = true :=
  ⟨(standard_header_macros.1 Example.Action ["tr", "-shm", "-v"]).2 "tr" ["-shm", "-v"] rfl
      (Or.inl rfl) (by decide) (Or.inl (by decide)),
    by
      by_contra h
      exact absurd ((standard_header_macros.1 Example.Action ["tr", "-v"]).1
        (by simpa [Example.Action] using h)).2 (by decide)⟩

/-! ## Deduplication -/

/-- The survivors found from `Seen` over a list of definitions: their keys stay pairwise
distinct, each of them is a survivor found before or a definition of the list, and every key
has a survivor. -/
theorem Deduplicator.survivorsFrom_spec :
    ∀ (l Seen : List Deduplicator.Definition),
      ((Seen.map Deduplicator.Definition.key).Nodup →
        ((Deduplicator.survivorsFrom Seen l).map Deduplicator.Definition.key).Nodup) ∧
      (∀ s ∈ Deduplicator.survivorsFrom Seen l, s ∈ Seen ∨ s ∈ l) ∧
      (∀ d, d ∈ Seen ∨ d ∈ l → ∃ s ∈ Deduplicator.survivorsFrom Seen l, s.key = d.key)
  | [], Seen => by
    rw [Deduplicator.survivorsFrom]
    exact ⟨id, fun s hs => Or.inl hs, fun d hd =>
      ⟨d, hd.resolve_right (List.not_mem_nil d), rfl⟩⟩
  | d :: rest, Seen => by
    rw [Deduplicator.survivorsFrom]
    by_cases hany : Seen.any (fun s => decide (s.key = d.key)) = true
    · rw [if_pos hany]
      obtain ⟨s0, hs0, hk0⟩ := List.any_eq_true.1 hany
      have hk0' : s0.key = d.key := by simpa using hk0
      obtain ⟨ha, hb, hc⟩ := Deduplicator.survivorsFrom_spec rest Seen
      refine ⟨ha, fun s hs => ?_, fun e he => ?_⟩
      · rcases hb s hs with h | h
        · exact Or.inl h
        · exact Or.inr (List.mem_cons_of_mem _ h)
      · rcases he with he | he
        · exact hc e (Or.inl he)
        · rcases List.mem_cons.1 he with rfl | he
          · obtain ⟨s, hs, hk⟩ := hc s0 (Or.inl hs0)
            exact ⟨s, hs, hk.trans hk0'⟩
          · exact hc e (Or.inr he)
    · rw [if_neg hany]
      have hno : ∀ s ∈ Seen, s.key ≠ d.key := by
        intro s hs hk
        exact hany (List.any_eq_true.2 ⟨s, hs, by simpa using hk⟩)
      obtain ⟨ha, hb, hc⟩ := Deduplicator.survivorsFrom_spec rest (Seen ++ [d])
      refine ⟨fun hnd => ha ?_, fun s hs => ?_, fun e he => ?_⟩
      · rw [List.map_append, List.nodup_append]
        refine ⟨hnd, by simp, ?_⟩
        intro k hk1 hk2
        simp only [List.map_cons, List.map_nil, List.mem_singleton] at hk2
        obtain ⟨s, hs, rfl⟩ := List.mem_map.1 hk1
        exact hno s hs hk2
      · rcases hb s hs with h | h
        · rcases List.mem_append.1 h with h | h
          · exact Or.inl h
          · exact Or.inr (by simp [List.mem_singleton.1 h])
        · exact Or.inr (List.mem_cons_of_mem _ h)
      · rcases he with he | he
        · exact hc e (Or.inl (List.mem_append_left _ he))
        · rcases List.mem_cons.1 he with rfl | he
          · exact hc e (Or.inl (by simp))
          · exact hc e (Or.inr he)

/-- A call site that references a definition is pointed to the survivor of the key of the
first definition with the referenced name. -/
theorem Deduplicator.repoint_spec (Defs : List Deduplicator.Definition)
    (c : Deduplicator.CallSite) (h : ∃ d ∈ Defs, d.EmittedName = c.Name) :
    ∃ d ∈ Defs, d.EmittedName = c.Name ∧
      ∃ s ∈ Deduplicator.survivors Defs, s.key = d.key ∧
        (Deduplicator.survivors Defs).find? (fun s => decide (s.key = d.key)) = some s ∧
        Deduplicator.repoint Defs c = { c with Name := s.EmittedName } := by
  unfold Deduplicator.repoint
  cases hf : Defs.find? (fun d => decide (d.EmittedName = c.Name)) with
  | none =>
    obtain ⟨d, hd, hn⟩ := h
    have := List.find?_eq_none.1 hf d hd
    simp [hn] at this
  | some d =>
    have hd : d ∈ Defs := List.mem_of_find?_eq_some hf
    have hn : d.EmittedName = c.Name := by simpa using List.find?_some hf
    obtain ⟨s0, hs0, hk0⟩ := (Deduplicator.survivorsFrom_spec Defs []).2.2 d (Or.inr hd)
    cases hg : (Deduplicator.survivors Defs).find? (fun s => decide (s.key = d.key)) with
    | none =>
      have := List.find?_eq_none.1 hg s0 hs0
      simp [hk0] at this
    | some s =>
      have hs : s ∈ Deduplicator.survivors Defs := List.mem_of_find?_eq_some hg
      have hk : s.key = d.key := by simpa using List.find?_some hg
      exact ⟨d, hd, hn, s, hs, hk, hg, by simp only [hg]⟩

/-- C24: let the Deduplicator run on emitted definitions with pairwise distinct names and on
call sites that each reference one of them.  At most one definition remains per
deduplication key, every definition that remains is one of the emitted ones, and every key
keeps a definition.  Every call site references a definition that remains, with the key of
the definition it referenced before, and its range is unchanged; two call sites whose
definitions had the same key reference one single definition. -/
theorem Deduplicator_guarantee (Defs : List Deduplicator.Definition)
    (Sites : List Deduplicator.CallSite)
    (hnames : (Defs.map Deduplicator.Definition.EmittedName).Nodup)
    (hsites : ∀ c ∈ Sites, ∃ d ∈ Defs, d.EmittedName = c.Name) :
    ((Deduplicator.HandleTranslationUnit Defs Sites).Definitions.map
      Deduplicator.Definition.key).Nodup ∧
    (∀ s ∈ (Deduplicator.HandleTranslationUnit Defs Sites).Definitions, s ∈ Defs) ∧
    (∀ d ∈ Defs, ∃ s ∈ (Deduplicator.HandleTranslationUnit Defs Sites).Definitions,
      s.key = d.key) ∧
    (Deduplicator.HandleTranslationUnit Defs Sites).CallSites.map Deduplicator.CallSite.Range =
      Sites.map Deduplicator.CallSite.Range ∧
    (∀ c ∈ (Deduplicator.HandleTranslationUnit Defs Sites).CallSites,
      ∃ s ∈ (Deduplicator.HandleTranslationUnit Defs Sites).Definitions,
        s.EmittedName = c.Name) ∧
    (∀ c ∈ Sites, ∀ d ∈ Defs, d.EmittedName = c.Name →
      ∃ s ∈ (Deduplicator.HandleTranslationUnit Defs Sites).Definitions,
        s.key = d.key ∧ (Deduplicator.repoint Defs c).Name = s.EmittedName) ∧
    (∀ c1 ∈ Sites, ∀ c2 ∈ Sites, ∀ d1 ∈ Defs, ∀ d2 ∈ Defs,
      d1.EmittedName = c1.Name → d2.EmittedName = c2.Name → d1.key = d2.key →
      (Deduplicator.repoint Defs c1).Name = (Deduplicator.repoint Defs c2).Name) := by
  have hspec := Deduplicator.survivorsFrom_spec Defs []
  have hinj : ∀ d ∈ Defs, ∀ e ∈ Defs, d.EmittedName = e.EmittedName → d = e :=
    fun d hd e he h => List.inj_on_of_nodup_map hnames hd he h
  have hpoint : ∀ c ∈ Sites, ∀ d ∈ Defs, d.EmittedName = c.Name →
      ∃ s ∈ Deduplicator.survivors Defs, s.key = d.key ∧
        (Deduplicator.survivors Defs).find? (fun s => decide (s.key = d.key)) = some s ∧
        Deduplicator.repoint Defs c = { c with Name := s.EmittedName } := by
    intro c hc d hd hn
    obtain ⟨d', hd', hn', s, hs, hk, hf, hr⟩ := Deduplicator.repoint_spec Defs c ⟨d, hd, hn⟩
    have : d' = d := hinj d' hd' d hd (hn'.trans hn.symm)
    subst this
    exact ⟨s, hs, hk, hf, hr⟩
  refine ⟨hspec.1 (by simp), fun s hs => ?_, fun d hd => hspec.2.2 d (Or.inr hd), ?_,
    fun c hc => ?_, fun c hc d hd hn => ?_, fun c1 hc1 c2 hc2 d1 hd1 d2 hd2 h1 h2 hk => ?_⟩
  · exact (hspec.2.1 s hs).resolve_left (List.not_mem_nil s)
  · simp only [Deduplicator.HandleTranslationUnit, List.map_map]
    refine List.map_congr_left fun c hc => ?_
    obtain ⟨d, hd, hn⟩ := hsites c hc
    obtain ⟨s, -, -, -, hr⟩ := hpoint c hc d hd hn
    simp [hr]
  · obtain ⟨c0, hc0, rfl⟩ := List.mem_map.1 hc
    obtain ⟨d, hd, hn⟩ := hsites c0 hc0
    obtain ⟨s, hs, -, -, hr⟩ := hpoint c0 hc0 d hd hn
    exact ⟨s, hs, by rw [hr]⟩
  · obtain ⟨s, hs, hk, -, hr⟩ := hpoint c hc d hd hn
    exact ⟨s, hs, hk, by rw [hr]⟩
  · obtain ⟨s1, -, -, hf1, hr1⟩ := hpoint c1 hc1 d1 hd1 h1
    obtain ⟨s2, -, -, hf2, hr2⟩ := hpoint c2 hc2 d2 hd2 h2
    rw [hk, hf2] at hf1
    rw [hr1, hr2]
    simp only [Option.some.injEq] at hf1
    rw [hf1]

/-- Witness of C24: the expansions of `#define ONE 1` in the functions `f` and `main`.
`transformEntireExpr` emits a definition for each of them, `ONE_var` and `ONE_var0`, with the
same macro, signature and body; after the Deduplicator the definition `ONE_var` remains and
both call sites reference it. -/
theorem Deduplicator_guarantee_witness :
    rewriterCalls (transformEntireExpr 2 ExampleTWOFN.env ExampleTWOFN.st1 ExampleTWOFN.Lit2) =
      some [⟨.InsertTextAfter 13 "\nconst int ONE_var = 1;", false⟩,
            ⟨.ReplaceText ⟨36, 36⟩ "ONE_var", false⟩,
            ⟨.InsertTextAfter 13 "\nconst int ONE_var0 = 1;", false⟩,
            ⟨.ReplaceText ⟨60, 60⟩ "ONE_var0", false⟩] ∧
    ExampleTWOFN.Defs =
      [⟨"ONE_var", "ONE", "const int", "1"⟩, ⟨"ONE_var0", "ONE", "const int", "1"⟩] ∧
    Deduplicator.HandleTranslationUnit ExampleTWOFN.Defs ExampleTWOFN.Sites =
      { Definitions := [⟨"ONE_var", "ONE", "const int", "1"⟩],
        CallSites := [⟨⟨36, 36⟩, "ONE_var"⟩, ⟨⟨60, 60⟩, "ONE_var"⟩] } ∧
    ((Deduplicator.HandleTranslationUnit ExampleTWOFN.Defs ExampleTWOFN.Sites).Definitions.map
      Deduplicator.Definition.key).Nodup ∧
    (∀ c ∈ (Deduplicator.HandleTranslationUnit ExampleTWOFN.Defs ExampleTWOFN.Sites).CallSites,
      ∃ s ∈ (Deduplicator.HandleTranslationUnit ExampleTWOFN.Defs
          ExampleTWOFN.Sites).Definitions,
        s.EmittedName = c.Name) :=
  have h := Deduplicator_guarantee ExampleTWOFN.Defs ExampleTWOFN.Sites (by decide) (by decide)
  ⟨by decide, by decide, by decide, h.1, h.2.2.2.2.1⟩

/-! ## The behaviour of the program after a transformation -/

/-- C25, at a failing input: the expansion `ID(y)` of `#define ID( x ) x`, whose parameter is
written with blanks around it, passes every check and is transformed.  The body text of the
emitted function is cut out of the definition by position and reads `) x`; the program after
the two edits has a closing parenthesis that matches none, while the parentheses of the
original program are matched. -/
theorem transformEntireExpr_behaviour :
    returned (transformEntireExpr 1 ExamplePADDED.env ExamplePADDED.st ExamplePADDED.Operand) =
      some .TRANSFORMED ∧
    rewriterCalls (transformEntireExpr 1 ExamplePADDED.env ExamplePADDED.st
        ExamplePADDED.Operand) =
      some [⟨.InsertTextAfter 17 "\nint ID_function(int x) \x7b\n    return ) x;\n\x7d", false⟩,
            ⟨.ReplaceText ⟨45, 49⟩ "ID_function(y)", false⟩] ∧
    (rewriterCalls (transformEntireExpr 1 ExamplePADDED.env ExamplePADDED.st
        ExamplePADDED.Operand)).map (Example.rewrittenText ExamplePADDED.text) =
      some ("#define ID( x ) x\nint ID_function(int x) \x7b\n    return ) x;\n\x7d\nint y;\n" ++
        "int main() \x7b return ID_function(y); \x7d\n") ∧
    Example.parensMatched ExamplePADDED.text.data 0 = true ∧
    (rewriterCalls (transformEntireExpr 1 ExamplePADDED.env ExamplePADDED.st
        ExamplePADDED.Operand)).map
        (fun Calls =>
          Example.parensMatched (Example.rewrittenText ExamplePADDED.text Calls).data 0) =
      some false := by
  decide

/-! ## The sets and lists that MacroExpands fills -/

theorem mapTouch_of_isSome {κ ν : Type} [DecidableEq κ] (M : κ → Option (List ν)) (K : κ)
    (h : (M K).isSome = true) : mapTouch M K = M := by
  funext K2
  unfold mapTouch
  split
  · rename_i hK
    subst hK
    obtain ⟨l, hl⟩ := Option.isSome_iff_exists.1 h
    simp [hl]
  · rfl

/-- The loop of `MacroExpands` leaves the name lists as they are when every range it visits
has a name list at its start. -/
theorem MacroExpands.visit_foldl_names (B : SourceLocation) (ranges : List SourceRange)
    (st : State)
    (h : ∀ o ∈ ranges, (st.ExpansionStartLocationToMacroNames o.Begin).isSome = true) :
    (ranges.foldl (MacroExpands.visit B) st).ExpansionStartLocationToMacroNames =
      st.ExpansionStartLocationToMacroNames := by
  induction ranges generalizing st with
  | nil => rfl
  | cons o rest ih =>
    simp only [List.foldl_cons]
    have hstep : (MacroExpands.visit B st o).ExpansionStartLocationToMacroNames =
        st.ExpansionStartLocationToMacroNames := by
      unfold MacroExpands.visit
      split
      · exact mapTouch_of_isSome _ _ (h o (List.mem_cons_self _ _))
      · rfl
    rw [ih, hstep]
    intro o' ho'
    rw [hstep]
    exact h o' (List.mem_cons_of_mem _ ho')

/-- `MacroExpands` appends the name to the name list at the start of the expansion, when
every range recorded before has a name list at its start. -/
theorem MacroExpands_names (st : State) (MacroName : String) (ExpansionRange : SourceRange)
    (h : ∀ o ∈ st.ExpansionRanges,
      (st.ExpansionStartLocationToMacroNames o.Begin).isSome = true) :
    (MacroExpands st MacroName ExpansionRange).ExpansionStartLocationToMacroNames =
      mapPushBack st.ExpansionStartLocationToMacroNames ExpansionRange.Begin MacroName := by
  unfold MacroExpands
  simp only
  rw [MacroExpands.visit_foldl_names _ _ _ h]

/-- `MacroExpands` appends the range to the range list of the macro. -/
theorem MacroExpands_rangeLists (st : State) (MacroName : String)
    (ExpansionRange : SourceRange) :
    (MacroExpands st MacroName ExpansionRange).MacroNameToExpansionRanges =
      mapPushBack st.MacroNameToExpansionRanges MacroName ExpansionRange := by
  unfold MacroExpands
  simp only
  rw [MacroExpands.visit_foldl_frame]

/-- After `MacroExpands`, every recorded range has a name list at its start. -/
theorem MacroExpands_names_isSome (st : State) (MacroName : String)
    (ExpansionRange : SourceRange)
    (h : ∀ o ∈ st.ExpansionRanges,
      (st.ExpansionStartLocationToMacroNames o.Begin).isSome = true) :
    ∀ o ∈ (MacroExpands st MacroName ExpansionRange).ExpansionRanges,
      ((MacroExpands st MacroName ExpansionRange).ExpansionStartLocationToMacroNames
        o.Begin).isSome = true := by
  intro o ho
  rw [MacroExpands_names st MacroName ExpansionRange h]
  rw [MacroExpands_expansionRanges] at ho
  unfold mapPushBack
  split
  · rfl
  · rcases List.mem_append.1 ho with ho | ho
    · exact h o ho
    · rename_i hne
      simp only [List.mem_singleton] at ho
      exact absurd (by rw [ho]) hne

/-- The name lists after a sequence of calls of `MacroExpands`: the list at a location gains
the names of the expansions that start there, in order. -/
theorem MacroExpands.all_names (xs : List (String × SourceRange)) (st : State)
    (h : ∀ o ∈ st.ExpansionRanges,
      (st.ExpansionStartLocationToMacroNames o.Begin).isSome = true)
    (L : SourceLocation) :
    (MacroExpands.all st xs).ExpansionStartLocationToMacroNames L =
      if xs.filter (fun x => decide (x.2.Begin = L)) = [] then
        st.ExpansionStartLocationToMacroNames L
      else
        some ((st.ExpansionStartLocationToMacroNames L).getD [] ++
          (xs.filter (fun x => decide (x.2.Begin = L))).map Prod.fst) := by
  induction xs generalizing st with
  | nil => simp [MacroExpands.all]
  | cons a t ih =>
    rw [MacroExpands.all_cons, ih _ (MacroExpands_names_isSome st a.1 a.2 h),
      MacroExpands_names st a.1 a.2 h]
    unfold mapPushBack
    by_cases ha : a.2.Begin = L
    · subst ha
      simp only [List.filter_cons, decide_True, if_true, Option.getD_some, List.map_cons,
        List.append_assoc, List.singleton_append, reduceCtorEq, if_false]
      split
      · rename_i hf
        simp [hf]
      · simp
    · have ha' : ¬ L = a.2.Begin := fun h => ha h.symm
      simp only [List.filter_cons, ha, decide_False, if_false, ha', Bool.false_eq_true]

/-- The range lists after a sequence of calls of `MacroExpands`: the list of a macro gains
the ranges of its expansions, in order. -/
theorem MacroExpands.all_rangeLists (xs : List (String × SourceRange)) (st : State)
    (N : String) :
    (MacroExpands.all st xs).MacroNameToExpansionRanges N =
      if xs.filter (fun x => decide (x.1 = N)) = [] then st.MacroNameToExpansionRanges N
      else
        some ((st.MacroNameToExpansionRanges N).getD [] ++
          (xs.filter (fun x => decide (x.1 = N))).map Prod.snd) := by
  induction xs generalizing st with
  | nil => simp [MacroExpands.all]
  | cons a t ih =>
    rw [MacroExpands.all_cons, ih, MacroExpands_rangeLists]
    unfold mapPushBack
    by_cases ha : a.1 = N
    · subst ha
      simp only [List.filter_cons, decide_True, if_true, Option.getD_some, List.map_cons,
        List.append_assoc, List.singleton_append, reduceCtorEq, if_false]
      split
      · rename_i hf
        simp [hf]
      · simp
    · have ha' : ¬ N = a.1 := fun h => ha h.symm
      simp only [List.filter_cons, ha, decide_False, if_false, ha', Bool.false_eq_true]

/-- C26: after `MacroExpands` has processed the expansion events `xs` from the start of the
program, in order: a location `B` is in the set of starts of expansions contained in another
expansion exactly when some event with start `B` arrived after an event whose range
`[b, e]` has `b ≤ B ≤ e`; a location `b` is in the set of starts of expansions containing
the start of another expansion exactly when some event with start `b` arrived before an event
whose start lies in its range, bounds included; the list of all ranges holds the range of
every event, in order; the name list of a location holds the names of the events that start
there, in order, and the range list of a name holds the ranges of its events, in order (no
list is recorded where there is no event). -/
theorem MacroExpands_sets (xs : List (String × SourceRange)) :
    (∀ B, B ∈ (MacroExpands.all State.initial
          xs).StartLocationsOFExpansionsContainedInOtherExpansion ↔
      ∃ pre x post, xs = pre ++ x :: post ∧ x.2.Begin = B ∧
        ∃ o ∈ pre, o.2.Begin ≤ B ∧ B ≤ o.2.End) ∧
    (∀ b, b ∈ (MacroExpands.all State.initial
          xs).StartLocationsOfExpansionsContainingStartOfOtherExpansion ↔
      ∃ pre x post, xs = pre ++ x :: post ∧
        ∃ o ∈ pre, o.2.Begin = b ∧ o.2.Begin ≤ x.2.Begin ∧ x.2.Begin ≤ o.2.End) ∧
    (MacroExpands.all State.initial xs).ExpansionRanges = xs.map Prod.snd ∧
    (∀ L, (MacroExpands.all State.initial xs).ExpansionStartLocationToMacroNames L =
      if xs.filter (fun x => decide (x.2.Begin = L)) = [] then none
      else some ((xs.filter (fun x => decide (x.2.Begin = L))).map Prod.fst)) ∧
    (∀ N, (MacroExpands.all State.initial xs).MacroNameToExpansionRanges N =
      if xs.filter (fun x => decide (x.1 = N)) = [] then none
      else some ((xs.filter (fun x => decide (x.1 = N))).map Prod.snd)) := by
  refine ⟨fun B => ?_, fun b => ?_, ?_, fun L => ?_, fun N => ?_⟩
  · rw [MacroExpands.all_contained]
    constructor
    · rintro (h | ⟨pre, x, post, hxs, hx, o, ho, hin⟩)
      · simp [State.initial] at h
      · have ho' : o ∈ pre.map Prod.snd := by simpa [State.initial] using ho
        obtain ⟨p, hp, rfl⟩ := List.mem_map.1 ho'
        exact ⟨pre, x, post, hxs, hx, p, hp, (isInRange_iff _ _).1 hin⟩
    · rintro ⟨pre, x, post, hxs, hx, o, ho, hin⟩
      exact Or.inr ⟨pre, x, post, hxs, hx, o.2,
        List.mem_append_right _ (List.mem_map_of_mem Prod.snd ho), (isInRange_iff _ _).2 hin⟩
  · rw [MacroExpands.all_containing]
    constructor
    · rintro (h | ⟨pre, x, post, hxs, o, ho, hb, hin⟩)
      · simp [State.initial] at h
      · have ho' : o ∈ pre.map Prod.snd := by simpa [State.initial] using ho
        obtain ⟨p, hp, rfl⟩ := List.mem_map.1 ho'
        exact ⟨pre, x, post, hxs, p, hp, hb, (isInRange_iff _ _).1 hin⟩
    · rintro ⟨pre, x, post, hxs, o, ho, hb, hin⟩
      exact Or.inr ⟨pre, x, post, hxs, o.2,
        List.mem_append_right _ (List.mem_map_of_mem Prod.snd ho), hb,
        (isInRange_iff _ _).2 hin⟩
  · rw [MacroExpands.all_expansionRanges]
    rfl
  · rw [MacroExpands.all_names xs State.initial (by simp [State.initial])]
    simp [State.initial]
  · rw [MacroExpands.all_rangeLists]
    simp [State.initial]

/-- Witness of C26: the events `ID` at offsets 50 to 56 and `ONE` at offset 53 of
`return ID(ONE);`. -/
theorem MacroExpands_sets_witness :
    (MacroExpands.all State.initial
      [("ID", ⟨50, 56⟩), ("ONE", ⟨53, 53⟩)]).StartLocationsOFExpansionsContainedInOtherExpansion
        = [53] ∧
    53 ∈ (MacroExpands.all State.initial
      [("ID", ⟨50, 56⟩), ("ONE", ⟨53, 53⟩)]).StartLocationsOFExpansionsContainedInOtherExpansion ∧
    (MacroExpands.all State.initial
      [("ID", ⟨50, 56⟩), ("ONE", ⟨53, 53⟩)]).ExpansionRanges = [⟨50, 56⟩, ⟨53, 53⟩] :=
  ⟨by decide,
    ((MacroExpands_sets [("ID", ⟨50, 56⟩), ("ONE", ⟨53, 53⟩)]).1 53).2
      ⟨[("ID", ⟨50, 56⟩)], ("ONE", ⟨53, 53⟩), [], rfl, rfl, ("ID", ⟨50, 56⟩), by simp,
        by decide, by decide⟩,
    (MacroExpands_sets [("ID", ⟨50, 56⟩), ("ONE", ⟨53, 53⟩)]).2.2.1⟩

/-! ## References to local variables -/

mutual
/-- A reference to a variable that is not global, outside the callees of calls, makes the
recursion of `exprContainsLocalVars` true. -/
theorem exprContainsLocalVarsRec_of_refers :
    ∀ (E : Expr), E.refersToNonGlobalVarOutsideCallees = true →
      exprContainsLocalVarsRec E = true
  | .ImplicitCastExpr _ E0, h => by
    rw [Expr.refersToNonGlobalVarOutsideCallees] at h
    rw [exprContainsLocalVarsRec]
    exact exprContainsLocalVarsRec_of_refers E0 h
  | .IntegerLiteral _ _, h => by simp [Expr.refersToNonGlobalVarOutsideCallees] at h
  | .DeclRefExpr _ (.Var VD), h => by
    rw [Expr.refersToNonGlobalVarOutsideCallees] at h
    rw [exprContainsLocalVarsRec]
    exact h
  | .DeclRefExpr _ (.NonVar _), _ => by rw [exprContainsLocalVarsRec]
  | .ParenExpr _ E0, h => by
    rw [Expr.refersToNonGlobalVarOutsideCallees] at h
    rw [exprContainsLocalVarsRec]
    exact exprContainsLocalVarsRec_of_refers E0 h
  | .UnaryOperator _ OC E0, h => by
    rw [Expr.refersToNonGlobalVarOutsideCallees] at h
    rw [exprContainsLocalVarsRec]
    split
    · exact exprContainsLocalVarsRec_of_refers E0 h
    · rfl
  | .BinaryOperator _ OC E1 E2, h => by
    rw [Expr.refersToNonGlobalVarOutsideCallees, Bool.or_eq_true] at h
    have ih1 := exprContainsLocalVarsRec_of_refers E1
    have ih2 := exprContainsLocalVarsRec_of_refers E2
    by_cases hoc : isAddSubMulDiv OC = true
    · simp only [exprContainsLocalVarsRec, hoc, if_true, Bool.or_eq_true]
      exact h.imp ih1 ih2
    · by_cases has : OC = .BO_Assign
      · subst has
        cases E1 with
        | DeclRefExpr R1 D =>
          cases D with
          | Var VD =>
            simp only [exprContainsLocalVarsRec, isAddSubMulDiv, Bool.or_eq_true]
            rcases h with h | h
            · rw [Expr.refersToNonGlobalVarOutsideCallees] at h
              simp [h]
            · simp [ih2 h]
          | NonVar N => simp [exprContainsLocalVarsRec, isAddSubMulDiv]
        | _ => simp [exprContainsLocalVarsRec, isAddSubMulDiv]
      · simp [exprContainsLocalVarsRec, hoc, has]
  | .CallExpr _ _ Args, h => by
    rw [Expr.refersToNonGlobalVarOutsideCallees] at h
    rw [exprContainsLocalVarsRec]
    exact argsContainLocalVarsRec_of_refers Args h
  | .OtherExpr _ _, _ => by rw [exprContainsLocalVarsRec]
/-- The same for the arguments of a call. -/
theorem argsContainLocalVarsRec_of_refers :
    ∀ (Args : ExprList), Args.refersToNonGlobalVarOutsideCallees = true →
      argsContainLocalVarsRec Args = true
  | .nil, h => by simp [ExprList.refersToNonGlobalVarOutsideCallees] at h
  | .cons E Es, h => by
    rw [ExprList.refersToNonGlobalVarOutsideCallees, Bool.or_eq_true] at h
    rw [argsContainLocalVarsRec, Bool.or_eq_true]
    exact h.imp (exprContainsLocalVarsRec_of_refers E) (argsContainLocalVarsRec_of_refers Es)
end

/-- Counterexample to C27 as stated: in the call `fp()` the callee is a reference to the
local variable `fp`, and `exprContainsLocalVars` of the call is false. -/
theorem exprContainsLocalVars_callee_counterexample :
    Example.CallLocal.refersToNonGlobalVar = true ∧
    (exprContainsLocalVars Example.CallLocal Memo.empty).1 = false := by
  decide

/-- C27 (amended): on every table `EContainsLocalVars` that can arise, `exprContainsLocalVars`
of a reference to a variable is true exactly when the variable is not global, a static local
variable counting as not global; and `exprContainsLocalVars` of an expression is true when
some node of its tree, the callees of its call expressions left out, is a reference to a
variable that is not global.  The callee of a call is not inspected.  For an expression that
`exprHasSideEffects` finds free of side effects, as `transformEntireExpr` requires before it
asks, a reference to a variable that is not global anywhere in the tree makes
`exprContainsLocalVars` true. -/
theorem exprContainsLocalVars_captures (m : Memo Bool) (hm : ReachableEContainsLocalVars m) :
    (∀ R VD, (exprContainsLocalVars (.DeclRefExpr R (.Var VD)) m).1 = true ↔
      isGlobalVariable VD = false) ∧
    (∀ R VD, VD.isStaticLocal = true →
      (exprContainsLocalVars (.DeclRefExpr R (.Var VD)) m).1 = true) ∧
    (∀ E, E.refersToNonGlobalVarOutsideCallees = true → (exprContainsLocalVars E m).1 = true) ∧
    (∀ E m2, ReachableEHasSideEffects m2 → (exprHasSideEffects E m2).1 = false →
      E.refersToNonGlobalVar = true → (exprContainsLocalVars E m).1 = true) := by
  refine ⟨fun R VD => ?_, fun R VD hs => ?_, fun E hE => ?_, fun E m2 hm2 hse hE => ?_⟩
  · rw [exprContainsLocalVars_eq_rec hm, exprContainsLocalVarsRec]
    simp
  · rw [exprContainsLocalVars_eq_rec hm, exprContainsLocalVarsRec]
    simp [isGlobalVariable, hs]
  · rw [exprContainsLocalVars_eq_rec hm]
    exact exprContainsLocalVarsRec_of_refers E hE
  · rw [exprContainsLocalVars_eq_rec hm]
    rw [exprHasSideEffects_eq_rec hm2] at hse
    by_contra hc
    have := refersToNonGlobalVar_of_tests E hse (by simpa using hc)
    rw [hE] at this
    exact absurd this (by decide)

/-- Witness of C27 (amended) on the empty table: a reference to a static local variable, and
the reference to the local variable `n` that the expansion of `#define GET n` produces. -/
theorem exprContainsLocalVars_captures_witness :
    (exprContainsLocalVars Example.StaticLocalRef Memo.empty).1 = true ∧
    (exprContainsLocalVars ExampleGET.Operand Memo.empty).1 = true :=
  ⟨(exprContainsLocalVars_captures Memo.empty ReachableEContainsLocalVars.empty).2.1 _ _ rfl,
    (exprContainsLocalVars_captures Memo.empty ReachableEContainsLocalVars.empty).2.2.1
      ExampleGET.Operand (by decide)⟩

/-! ## Memoization -/

theorem Memo.findOrCompute_stored {α : Type} (m : Memo α) (E : Expr)
    (compute : Memo α → α × Memo α) :
    (Memo.findOrCompute m E compute).2 E = some (Memo.findOrCompute m E compute).1 := by
  unfold Memo.findOrCompute
  split
  · rename_i v hv
    exact hv
  · simp [Memo.insert]

theorem Memo.findOrCompute_of_some {α : Type} (m : Memo α) (E : Expr)
    (compute : Memo α → α × Memo α) (v : α) (h : m E = some v) :
    Memo.findOrCompute m E compute = (v, m) := by
  unfold Memo.findOrCompute
  rw [h]

/-- A call of `isExprInCSubset` on a node with an entry returns the entry and leaves the
table as it is. -/
theorem isExprInCSubset_of_some (E : Expr) (m : Memo Bool) (v : Bool) (h : m E = some v) :
    isExprInCSubset E m = (v, m) := by
  rw [isExprInCSubset]
  exact Memo.findOrCompute_of_some _ _ _ _ h

/-- A call of `isExprInCSubset` leaves an entry for its node: the value it returns. -/
theorem isExprInCSubset_stored (E : Expr) (m : Memo Bool) :
    (isExprInCSubset E m).2 E = some (isExprInCSubset E m).1 := by
  rw [isExprInCSubset]
  exact Memo.findOrCompute_stored _ _ _

/-- A call of `exprContainsLocalVars` on a node with an entry returns the entry and leaves
the table as it is. -/
theorem exprContainsLocalVars_of_some (E : Expr) (m : Memo Bool) (v : Bool)
    (h : m E = some v) : exprContainsLocalVars E m = (v, m) := by
  rw [exprContainsLocalVars]
  exact Memo.findOrCompute_of_some _ _ _ _ h

/-- A call of `exprContainsLocalVars` leaves an entry for its node: the value it returns. -/
theorem exprContainsLocalVars_stored (E : Expr) (m : Memo Bool) :
    (exprContainsLocalVars E m).2 E = some (exprContainsLocalVars E m).1 := by
  rw [exprContainsLocalVars]
  exact Memo.findOrCompute_stored _ _ _

/-- A call of `exprHasSideEffects` on a node with an entry returns the entry and leaves the
table as it is. -/
theorem exprHasSideEffects_of_some (E : Expr) (m : Memo Bool) (v : Bool) (h : m E = some v) :
    exprHasSideEffects E m = (v, m) := by
  rw [exprHasSideEffects]
  exact Memo.findOrCompute_of_some _ _ _ _ h

/-- A call of `exprHasSideEffects` leaves an entry for its node: the value it returns. -/
theorem exprHasSideEffects_stored (E : Expr) (m : Memo Bool) :
    (exprHasSideEffects E m).2 E = some (exprHasSideEffects E m).1 := by
  rw [exprHasSideEffects]
  exact Memo.findOrCompute_stored _ _ _

/-- A call of `classifyExpr` on a node with an entry in `EToCSub` returns the entry and
leaves both tables as they are. -/
theorem classifyExpr_of_some (E : Expr) (Tables : Memo Bool × Memo CSubsetExpr)
    (v : CSubsetExpr) (h : Tables.2 E = some v) : classifyExpr E Tables = (v, Tables) := by
  rw [classifyExpr]
  unfold classifyExpr.findOrCompute
  rw [h]

/-- A call of `classifyExpr` leaves an entry for its node in `EToCSub`: the value it
returns. -/
theorem classifyExpr_stored (E : Expr) (Tables : Memo Bool × Memo CSubsetExpr) :
    (classifyExpr E Tables).2.2 E = some (classifyExpr E Tables).1 := by
  rw [classifyExpr]
  unfold classifyExpr.findOrCompute
  split
  · rename_i v hv
    exact hv
  · simp [Memo.insert]

/-- C28: each memoized classifier, called on a table that holds only values of its cache-free
recursion, returns the value of that recursion and leaves a table that holds only such
values (for `classifyExpr`: both of its tables); a call on a node that has an entry returns
the entry, whatever it is, and leaves the tables as they are; and after every call, on any
table, the table has the returned value stored under the node (`EToCSub` for `classifyExpr`),
so a repeated call on the same node returns the stored value without deriving it again. -/
theorem memoized_classifiers (E : Expr) :
    (∀ m, Memo.Sound isExprInCSubsetRec m →
      (isExprInCSubset E m).1 = isExprInCSubsetRec E ∧
      Memo.Sound isExprInCSubsetRec (isExprInCSubset E m).2 ∧
      isExprInCSubset E (isExprInCSubset E m).2 =
        ((isExprInCSubset E m).1, (isExprInCSubset E m).2)) ∧
    (∀ Tables : Memo Bool × Memo CSubsetExpr,
      Memo.Sound isExprInCSubsetRec Tables.1 → Memo.Sound classifyExprRec Tables.2 →
      (classifyExpr E Tables).1 = classifyExprRec E ∧
      Memo.Sound isExprInCSubsetRec (classifyExpr E Tables).2.1 ∧
      Memo.Sound classifyExprRec (classifyExpr E Tables).2.2 ∧
      classifyExpr E (classifyExpr E Tables).2 =
        ((classifyExpr E Tables).1, (classifyExpr E Tables).2)) ∧
    (∀ m, Memo.Sound exprContainsLocalVarsRec m →
      (exprContainsLocalVars E m).1 = exprContainsLocalVarsRec E ∧
      Memo.Sound exprContainsLocalVarsRec (exprContainsLocalVars E m).2 ∧
      exprContainsLocalVars E (exprContainsLocalVars E m).2 =
        ((exprContainsLocalVars E m).1, (exprContainsLocalVars E m).2)) ∧
    (∀ m, Memo.Sound exprHasSideEffectsRec m →
      (exprHasSideEffects E m).1 = exprHasSideEffectsRec E ∧
      Memo.Sound exprHasSideEffectsRec (exprHasSideEffects E m).2 ∧
      exprHasSideEffects E (exprHasSideEffects E m).2 =
        ((exprHasSideEffects E m).1, (exprHasSideEffects E m).2)) ∧
    (∀ (m : Memo Bool) (v : Bool), m E = some v →
      isExprInCSubset E m = (v, m) ∧ exprContainsLocalVars E m = (v, m) ∧
      exprHasSideEffects E m = (v, m)) ∧
    (∀ (Tables : Memo Bool × Memo CSubsetExpr) (v : CSubsetExpr), Tables.2 E = some v →
      classifyExpr E Tables = (v, Tables)) ∧
    (∀ (m : Memo Bool),
      (isExprInCSubset E m).2 E = some (isExprInCSubset E m).1 ∧
      (exprContainsLocalVars E m).2 E = some (exprContainsLocalVars E m).1 ∧
      (exprHasSideEffects E m).2 E = some (exprHasSideEffects E m).1) ∧
    (∀ (Tables : Memo Bool × Memo CSubsetExpr),
      (classifyExpr E Tables).2.2 E = some (classifyExpr E Tables).1) := by
  refine ⟨fun m hm => ?_, fun Tables h1 h2 => ?_, fun m hm => ?_, fun m hm => ?_,
    fun m v h => ?_, fun Tables v h => ?_, fun m => ?_, fun Tables => ?_⟩
  · exact ⟨(isExprInCSubset_spec E m hm).1, (isExprInCSubset_spec E m hm).2,
      isExprInCSubset_of_some E _ _ (isExprInCSubset_stored E m)⟩
  · exact ⟨(classifyExpr_spec E Tables h1 h2).1, (classifyExpr_spec E Tables h1 h2).2.1,
      (classifyExpr_spec E Tables h1 h2).2.2,
      classifyExpr_of_some E _ _ (classifyExpr_stored E Tables)⟩
  · exact ⟨(exprContainsLocalVars_spec E m hm).1, (exprContainsLocalVars_spec E m hm).2,
      exprContainsLocalVars_of_some E _ _ (exprContainsLocalVars_stored E m)⟩
  · exact ⟨(exprHasSideEffects_spec E m hm).1, (exprHasSideEffects_spec E m hm).2,
      exprHasSideEffects_of_some E _ _ (exprHasSideEffects_stored E m)⟩
  · exact ⟨isExprInCSubset_of_some E m v h, exprContainsLocalVars_of_some E m v h,
      exprHasSideEffects_of_some E m v h⟩
  · exact classifyExpr_of_some E Tables v h
  · exact ⟨isExprInCSubset_stored E m, exprContainsLocalVars_stored E m,
      exprHasSideEffects_stored E m⟩
  · exact classifyExpr_stored E Tables

/-- Witness of C28 on the empty tables: the assignment `x = ONE`. -/
theorem memoized_classifiers_witness :
    (classifyExpr ExampleONE.Assignment (Memo.empty, Memo.empty)).1 = .Assign ∧
    classifyExpr ExampleONE.Assignment
        (classifyExpr ExampleONE.Assignment (Memo.empty, Memo.empty)).2 =
      ((classifyExpr ExampleONE.Assignment (Memo.empty, Memo.empty)).1,
        (classifyExpr ExampleONE.Assignment (Memo.empty, Memo.empty)).2) ∧
    (exprHasSideEffects ExampleONE.Assignment Memo.empty).1 = true ∧
    exprHasSideEffects ExampleONE.Assignment
        (fun K => if K = ExampleONE.Assignment then some false else none) =
      (false, fun K => if K = ExampleONE.Assignment then some false else none) ∧
    (exprHasSideEffects ExampleONE.Assignment Memo.empty).2 ExampleONE.Assignment =
      some (exprHasSideEffects ExampleONE.Assignment Memo.empty).1 ∧
    (classifyExpr ExampleONE.Assignment (Memo.empty, Memo.empty)).2.2 ExampleONE.Assignment =
      some (classifyExpr ExampleONE.Assignment (Memo.empty, Memo.empty)).1 :=
  have h := (memoized_classifiers ExampleONE.Assignment).2.1 (Memo.empty, Memo.empty)
    (Memo.sound_empty _) (Memo.sound_empty _)
  ⟨h.1.trans (by decide), h.2.2.2,
    ((memoized_classifiers ExampleONE.Assignment).2.2.2.1 Memo.empty
      (Memo.sound_empty _)).1.trans (by decide),
    ((memoized_classifiers ExampleONE.Assignment).2.2.2.2.1
      (fun K => if K = ExampleONE.Assignment then some false else none) false
      (by simp)).2.2,
    ((memoized_classifiers ExampleONE.Assignment).2.2.2.2.2.2.1 Memo.empty).2.2,
    (memoized_classifiers ExampleONE.Assignment).2.2.2.2.2.2.2 (Memo.empty, Memo.empty)⟩

/-! ## Classification and the subset test -/

/-- An expression outside the subset is classified as `INVALID`. -/
theorem classifyExprRec_eq_invalid (E : Expr) (h : isExprInCSubsetRec E = false) :
    classifyExprRec E = .INVALID := by
  cases E <;> simp [classifyExprRec, h]

/-- The recursion of `classifyExpr` never gives `IMPLICIT_CAST`. -/
theorem classifyExprRec_ne_implicit_cast : ∀ (E : Expr), classifyExprRec E ≠ .IMPLICIT_CAST
  | .ImplicitCastExpr R E0 => by
    rw [classifyExprRec]
    split
    · exact classifyExprRec_ne_implicit_cast E0
    · simp
  | .IntegerLiteral R V => by
    rw [classifyExprRec]
    split <;> simp
  | .DeclRefExpr R D => by
    rw [classifyExprRec]
    split <;> simp
  | .ParenExpr R E0 => by
    rw [classifyExprRec]
    split <;> simp
  | .UnaryOperator R OC E0 => by
    rw [classifyExprRec]
    split
    · split <;> simp
    · simp
  | .BinaryOperator R OC E1 E2 => by
    rw [classifyExprRec]
    split
    · split <;> simp
    · simp
  | .CallExpr R C A => by
    rw [classifyExprRec]
    split <;> simp
  | .OtherExpr R A => by
    rw [classifyExprRec]
    simp

/-- An implicit cast has the classification of its operand. -/
theorem classifyExprRec_implicitCast (R : SourceRange) (E0 : Expr) :
    classifyExprRec (.ImplicitCastExpr R E0) = classifyExprRec E0 := by
  rw [classifyExprRec]
  split
  · rfl
  · rename_i h
    have h0 : isExprInCSubsetRec E0 = false := by
      simpa [isExprInCSubsetRec] using h
    exact (classifyExprRec_eq_invalid E0 h0).symm

/-- C29: on every pair of tables `EInCSub`, `EToCSub` that can arise, and for every
expression `E`, `classifyExpr(E)` is different from `INVALID` if and only if
`isExprInCSubset(E)` is true; `classifyExpr(E)` is never `IMPLICIT_CAST`, and an implicit
cast is classified as its operand. -/
theorem classifyExpr_invalid_iff (Tables : Memo Bool × Memo CSubsetExpr)
    (hT : ReachableClassifyTables Tables) (E : Expr) :
    ((classifyExpr E Tables).1 ≠ .INVALID ↔ (isExprInCSubset E Tables.1).1 = true) ∧
    (classifyExpr E Tables).1 ≠ .IMPLICIT_CAST ∧
    (∀ R E0, E = .ImplicitCastExpr R E0 →
      (classifyExpr E Tables).1 = (classifyExpr E0 Tables).1) := by
  have hs := hT.tables_sound
  have hc : ∀ X, (classifyExpr X Tables).1 = classifyExprRec X :=
    fun X => (classifyExpr_spec X Tables hs.1 hs.2).1
  rw [hc E, (isExprInCSubset_spec E Tables.1 hs.1).1]
  refine ⟨⟨fun h => ?_, classifyExprRec_ne_invalid E⟩, classifyExprRec_ne_implicit_cast E,
    fun R E0 hE => ?_⟩
  · by_contra hn
    exact h (classifyExprRec_eq_invalid E (by simpa using hn))
  · rw [hc E0, hE]
    exact classifyExprRec_implicitCast R E0

/-- Witness of C29 on the empty tables: the assignment `x = ONE` is in the subset and
classified as an assignment, and `!x` is outside the subset and classified as `INVALID`. -/
theorem classifyExpr_invalid_iff_witness :
    (classifyExpr ExampleONE.Assignment (Memo.empty, Memo.empty)).1 ≠ .INVALID ∧
    (classifyExpr Example.NotX (Memo.empty, Memo.empty)).1 = .INVALID :=
  ⟨((classifyExpr_invalid_iff (Memo.empty, Memo.empty) ReachableClassifyTables.empty
      ExampleONE.Assignment).1).2 (by decide),
    by
      by_contra h
      exact absurd (((classifyExpr_invalid_iff (Memo.empty, Memo.empty)
        ReachableClassifyTables.empty Example.NotX).1).1 h) (by decide)⟩

/-! ## Side effects of expressions of the subset -/

/-- With the default `true` the parametrised recursion is the recursion of
`exprHasSideEffects`. -/
theorem exprHasSideEffectsRecFrom_true :
    ∀ (E : Expr), exprHasSideEffectsRecFrom true E = exprHasSideEffectsRec E
  | .ImplicitCastExpr _ E0 => by
    rw [exprHasSideEffectsRecFrom, exprHasSideEffectsRec, exprHasSideEffectsRecFrom_true E0]
  | .IntegerLiteral _ _ => rfl
  | .DeclRefExpr _ _ => rfl
  | .ParenExpr _ E0 => by
    rw [exprHasSideEffectsRecFrom, exprHasSideEffectsRec, exprHasSideEffectsRecFrom_true E0]
  | .UnaryOperator _ OC E0 => by
    rw [exprHasSideEffectsRecFrom, exprHasSideEffectsRec, exprHasSideEffectsRecFrom_true E0]
  | .BinaryOperator _ OC E1 E2 => by
    rw [exprHasSideEffectsRecFrom, exprHasSideEffectsRec, exprHasSideEffectsRecFrom_true E1,
      exprHasSideEffectsRecFrom_true E2]
  | .CallExpr _ _ _ => rfl
  | .OtherExpr _ _ => rfl

/-- For an expression of the subset, the recursion of `exprHasSideEffects` is true exactly
when an assignment or a call is reachable, and the parametrised recursion gives the same
value for every default. -/
theorem exprHasSideEffectsRec_of_inCSubset :
    ∀ (E : Expr), isExprInCSubsetRec E = true →
      (exprHasSideEffectsRec E = E.reachesAssignmentOrCall) ∧
      ∀ Default, exprHasSideEffectsRecFrom Default E = exprHasSideEffectsRec E
  | .ImplicitCastExpr _ E0, h => by
    have h0 : isExprInCSubsetRec E0 = true := by simpa [isExprInCSubsetRec] using h
    obtain ⟨ih1, ih2⟩ := exprHasSideEffectsRec_of_inCSubset E0 h0
    exact ⟨by rw [exprHasSideEffectsRec, Expr.reachesAssignmentOrCall, ih1],
      fun D => by rw [exprHasSideEffectsRecFrom, exprHasSideEffectsRec, ih2 D]⟩
  | .IntegerLiteral _ _, _ => ⟨rfl, fun _ => rfl⟩
  | .DeclRefExpr _ _, _ => ⟨rfl, fun _ => rfl⟩
  | .ParenExpr _ E0, h => by
    have h0 : isExprInCSubsetRec E0 = true := by simpa [isExprInCSubsetRec] using h
    obtain ⟨ih1, ih2⟩ := exprHasSideEffectsRec_of_inCSubset E0 h0
    exact ⟨by rw [exprHasSideEffectsRec, Expr.reachesAssignmentOrCall, ih1],
      fun D => by rw [exprHasSideEffectsRecFrom, exprHasSideEffectsRec, ih2 D]⟩
  | .UnaryOperator _ OC E0, h => by
    have hoc : isPlusMinus OC = true := by
      by_contra hc
      simp [isExprInCSubsetRec, hc] at h
    have h0 : isExprInCSubsetRec E0 = true := by simpa [isExprInCSubsetRec, hoc] using h
    obtain ⟨ih1, ih2⟩ := exprHasSideEffectsRec_of_inCSubset E0 h0
    exact ⟨by simp [exprHasSideEffectsRec, Expr.reachesAssignmentOrCall, hoc, ih1],
      fun D => by simp [exprHasSideEffectsRecFrom, exprHasSideEffectsRec, hoc, ih2 D]⟩
  | .BinaryOperator _ OC E1 E2, h => by
    by_cases hoc : isAddSubMulDiv OC = true
    · have h12 : isExprInCSubsetRec E1 = true ∧ isExprInCSubsetRec E2 = true := by
        simpa [isExprInCSubsetRec, hoc] using h
      obtain ⟨ih1, ih1'⟩ := exprHasSideEffectsRec_of_inCSubset E1 h12.1
      obtain ⟨ih2, ih2'⟩ := exprHasSideEffectsRec_of_inCSubset E2 h12.2
      have hna : OC.isAssignmentOp = false := by
        cases OC <;> simp_all [isAddSubMulDiv, BinaryOperatorKind.isAssignmentOp]
      exact ⟨by simp [exprHasSideEffectsRec, Expr.reachesAssignmentOrCall, hoc, hna, ih1, ih2],
        fun D => by simp [exprHasSideEffectsRecFrom, exprHasSideEffectsRec, hoc, ih1' D, ih2' D]⟩
    · have has : OC = .BO_Assign := by
        by_contra hc
        simp [isExprInCSubsetRec, hoc, hc] at h
      subst has
      exact ⟨by simp [exprHasSideEffectsRec, Expr.reachesAssignmentOrCall, isAddSubMulDiv,
          BinaryOperatorKind.isAssignmentOp],
        fun D => by simp [exprHasSideEffectsRecFrom, exprHasSideEffectsRec, isAddSubMulDiv]⟩
  | .CallExpr _ _ _, _ => ⟨rfl, fun _ => rfl⟩
  | .OtherExpr _ _, h => by simp [isExprInCSubsetRec] at h

/-- C30: on tables that can arise, for every expression `E` of which `isExprInCSubset` is
true, `exprHasSideEffects(E)` is true if and only if an assignment or a call expression is
`E` itself or is reachable from `E` through the operands of implicit casts, parentheses,
unary `+` and `-` and binary `+`, `-`, `*` and `/`; and the result is the same whatever the
initial value of `result` is, the default `true` included. -/
theorem exprHasSideEffects_of_inCSubset (Tables : Memo Bool × Memo CSubsetExpr)
    (hT : ReachableClassifyTables Tables) (m : Memo Bool) (hm : ReachableEHasSideEffects m)
    (E : Expr) (hE : (isExprInCSubset E Tables.1).1 = true) :
    ((exprHasSideEffects E m).1 = true ↔ E.reachesAssignmentOrCall = true) ∧
    (∀ Default, exprHasSideEffectsRecFrom Default E = (exprHasSideEffects E m).1) ∧
    (∀ X, exprHasSideEffectsRecFrom true X = (exprHasSideEffects X m).1) := by
  rw [(isExprInCSubset_spec E Tables.1 hT.tables_sound.1).1] at hE
  obtain ⟨h1, h2⟩ := exprHasSideEffectsRec_of_inCSubset E hE
  refine ⟨?_, fun D => ?_, fun X => ?_⟩
  · rw [exprHasSideEffects_eq_rec hm, h1]
  · rw [exprHasSideEffects_eq_rec hm, h2 D]
  · rw [exprHasSideEffects_eq_rec hm, exprHasSideEffectsRecFrom_true X]

/-- Witness of C30 on the empty tables: the expression `x + next()`. -/
theorem exprHasSideEffects_of_inCSubset_witness :
    (isExprInCSubset Example.SumNext Memo.empty).1 = true ∧
    Example.SumNext.reachesAssignmentOrCall = true ∧
    (exprHasSideEffects Example.SumNext Memo.empty).1 = true ∧
    exprHasSideEffectsRecFrom false Example.SumNext =
      (exprHasSideEffects Example.SumNext Memo.empty).1 :=
  have h := exprHasSideEffects_of_inCSubset (Memo.empty, Memo.empty)
    ReachableClassifyTables.empty Memo.empty ReachableEHasSideEffects.empty Example.SumNext
    (by decide)
  ⟨by decide, by decide, h.1.2 (by decide), h.2.1 false⟩

/-! ## The name lists of a collected state -/

theorem State.NamesRecorded.initial : State.initial.NamesRecorded :=
  { nonempty := fun L Names h => by simp [State.initial] at h,
    range := fun L Names h => by simp [State.initial] at h,
    nested := fun L Names h => by simp [State.initial] at h,
    listed := fun o ho => by simp [State.initial] at ho }

/-- The invariant of the name lists is kept by `MacroExpands` on a well-formed range. -/
theorem State.NamesRecorded.macroExpands {st : State} (h : st.NamesRecorded)
    (MacroName : String) (ExpansionRange : SourceRange)
    (hwf : ExpansionRange.Begin ≤ ExpansionRange.End) :
    (MacroExpands st MacroName ExpansionRange).NamesRecorded := by
  have hnames := MacroExpands_names st MacroName ExpansionRange h.listed
  have hranges := MacroExpands_expansionRanges st MacroName ExpansionRange
  refine ⟨fun L Names hL => ?_, fun L Names hL => ?_, fun L Names hL hlen => ?_,
    MacroExpands_names_isSome st MacroName ExpansionRange h.listed⟩
  · rw [hnames] at hL
    unfold mapPushBack at hL
    split at hL
    · simp only [Option.some.injEq] at hL
      rw [← hL]
      simp
    · exact h.nonempty L Names hL
  · rw [hnames] at hL
    rw [hranges]
    unfold mapPushBack at hL
    split at hL
    · rename_i hK
      exact ⟨ExpansionRange, by simp, hK.symm, hwf⟩
    · obtain ⟨o, ho, hb, hw⟩ := h.range L Names hL
      exact ⟨o, List.mem_append_left _ ho, hb, hw⟩
  · rw [hnames] at hL
    rw [MacroExpands_containing, MacroExpands_contained]
    unfold mapPushBack at hL
    split at hL
    · rename_i hK
      simp only [Option.some.injEq] at hL
      cases hold : st.ExpansionStartLocationToMacroNames ExpansionRange.Begin with
      | none =>
        rw [hold] at hL
        rw [← hL] at hlen
        simp at hlen
      | some Old =>
        obtain ⟨o, ho, hb, hw⟩ := h.range ExpansionRange.Begin Old hold
        have hin : isInRange ExpansionRange.Begin o = true := by
          rw [isInRange_iff]
          exact ⟨Nat.le_of_eq hb, by rw [← hb]; exact hw⟩
        exact ⟨Or.inr ⟨o, ho, hb.trans hK.symm, hin⟩, Or.inr ⟨hK, o, ho, hin⟩⟩
    · obtain ⟨h1, h2⟩ := h.nested L Names hL hlen
      exact ⟨Or.inl h1, Or.inl h2⟩

/-- The invariant of the name lists is kept by every well-formed event. -/
theorem State.NamesRecorded.deliver {st : State} (h : st.NamesRecorded) (e : PPEvent)
    (hwf : e.WellFormed) : (PPEvent.deliver st e).NamesRecorded := by
  cases e with
  | Defined MacroName hasPrevious MI =>
    exact ⟨h.nonempty, h.range, h.nested, h.listed⟩
  | Expands MacroName ExpansionRange =>
    exact h.macroExpands MacroName ExpansionRange hwf

/-- The invariant of the name lists holds after a stream of well-formed events. -/
theorem State.NamesRecorded.preprocess {st : State} (h : st.NamesRecorded) :
    ∀ (events : List PPEvent), (∀ e ∈ events, e.WellFormed) →
      (CppToC.preprocess st events).NamesRecorded := by
  intro events
  induction events generalizing st with
  | nil => exact fun _ => h
  | cons e rest ih =>
    intro hwf
    exact ih (h.deliver e (hwf e (List.mem_cons_self _ _)))
      (fun e' he' => hwf e' (List.mem_cons_of_mem _ he'))

/-- The invariant of the name lists holds in every state with the same collected data. -/
theorem State.NamesRecorded.sameCollected {st st' : State} (h : st.NamesRecorded)
    (hs : st.SameCollected st') : st'.NamesRecorded := by
  refine ⟨?_, ?_, ?_, ?_⟩
  · rw [hs.names]
    exact h.nonempty
  · rw [hs.names, hs.expansionRanges]
    exact h.range
  · rw [hs.names, hs.containing, hs.contained]
    exact h.nested
  · rw [hs.names, hs.expansionRanges]
    exact h.listed

/-- With the invariant of the name lists, the first part of `transformEntireExpr` never ends
in one of its two `ERROR` branches. -/
theorem findMacroName_ne_error {st : State} (h : st.NamesRecorded) (env : Env) (E : Expr) :
    (transformEntireExpr.findMacroName env st E).1 ≠ .inl .ERROR := by
  unfold transformEntireExpr.findMacroName
  simp only
  split
  · split
    · simp
    · rename_i hnot
      split
      · simp
      · split
        · simp
        · rename_i hL
          exact absurd rfl (h.nonempty _ _ hL)
        · split <;> simp
        · rename_i a b c hL
          exact absurd (h.nested _ _ hL (by simp)).1 hnot
  · simp

/-- With the invariant of the name lists, a whole expansion that starts where two or more
names are recorded is rejected as containing nested invocations. -/
theorem transformEntireExpr_of_two_names {st : State} (h : st.NamesRecorded) (fuel : Nat)
    (env : Env) (E : Expr) (hB : env.isAtStartOfMacroExpansion E.getBeginLoc = true)
    (hE : env.isAtEndOfMacroExpansion E.getEndLoc = true) (Names : List String)
    (hL : st.ExpansionStartLocationToMacroNames
      (env.getExpansionRange E.getSourceRange).Begin = some Names)
    (hlen : 2 ≤ Names.length) :
    transformEntireExpr fuel env st E = .ok (.CONTAINS_NESTED_INVOCATIONS, st) := by
  have hin := (h.nested _ _ hL hlen).1
  have hf : transformEntireExpr.findMacroName env st E =
      (.inl .CONTAINS_NESTED_INVOCATIONS, st) := by
    unfold transformEntireExpr.findMacroName
    simp only [hB, hE, Bool.and_self, if_true, hin]
  unfold transformEntireExpr
  rw [hf]

/-- C31: in every state whose collected data come from a stream of events with well-formed
expansion ranges (begin not after end), every recorded start location has a non-empty name
list and every start location with two or more names is in both nesting sets; hence
`transformEntireExpr` returns `CONTAINS_NESTED_INVOCATIONS`, with the state unchanged, for
every expression that is a whole expansion starting at such a location, and the two `ERROR`
branches of its name lookup (an empty name list, more than one name) are never taken. -/
theorem collected_names_nested (events : List PPEvent)
    (hwf : ∀ e ∈ events, e.WellFormed) (st : State)
    (hs : State.SameCollected (preprocess State.initial events) st) :
    (∀ L Names, st.ExpansionStartLocationToMacroNames L = some Names →
      Names ≠ [] ∧
      (2 ≤ Names.length →
        L ∈ st.StartLocationsOfExpansionsContainingStartOfOtherExpansion ∧
        L ∈ st.StartLocationsOFExpansionsContainedInOtherExpansion)) ∧
    (∀ (fuel : Nat) (env : Env) (E : Expr) (Names : List String),
      env.isAtStartOfMacroExpansion E.getBeginLoc = true →
      env.isAtEndOfMacroExpansion E.getEndLoc = true →
      st.ExpansionStartLocationToMacroNames
        (env.getExpansionRange E.getSourceRange).Begin = some Names →
      2 ≤ Names.length →
      transformEntireExpr fuel env st E = .ok (.CONTAINS_NESTED_INVOCATIONS, st)) ∧
    (∀ (env : Env) (E : Expr),
      (transformEntireExpr.findMacroName env st E).1 ≠ .inl .ERROR) := by
  have h : st.NamesRecorded :=
    (State.NamesRecorded.initial.preprocess events hwf).sameCollected hs
  exact ⟨fun L Names hL => ⟨h.nonempty L Names hL, h.nested L Names hL⟩,
    fun fuel env E Names hB hE hL hlen =>
      transformEntireExpr_of_two_names h fuel env E hB hE Names hL hlen,
    fun env E => findMacroName_ne_error h env E⟩

/-- C31 on `#define B 1`, `#define A B` and `return A;`: the events are well formed, the
names `A` and `B` are both recorded at offset 44, which is in both nesting sets, and the
literal is rejected as containing nested invocations. -/
theorem collected_names_nested_witness :
    (∀ e ∈ ExampleAB.events, e.WellFormed) ∧
    ExampleAB.st.ExpansionStartLocationToMacroNames 44 = some ["A", "B"] ∧
    (44 ∈ ExampleAB.st.StartLocationsOfExpansionsContainingStartOfOtherExpansion ∧
      44 ∈ ExampleAB.st.StartLocationsOFExpansionsContainedInOtherExpansion) ∧
    transformEntireExpr 2 ExampleAB.env ExampleAB.st ExampleAB.Lit =
      .ok (.CONTAINS_NESTED_INVOCATIONS, ExampleAB.st) ∧
    (transformEntireExpr.findMacroName ExampleAB.env ExampleAB.st ExampleAB.Lit).1 ≠
      .inl .ERROR :=
  have hwf : ∀ e ∈ ExampleAB.events, e.WellFormed := by decide
  have hs : State.SameCollected (preprocess State.initial ExampleAB.events) ExampleAB.st :=
    ⟨rfl, rfl, rfl, rfl, rfl, rfl, rfl⟩
  have hn : ExampleAB.st.ExpansionStartLocationToMacroNames 44 = some ["A", "B"] := by decide
  have h := collected_names_nested ExampleAB.events hwf ExampleAB.st hs
  ⟨hwf, hn, (h.1 44 ["A", "B"] hn).2 (by decide),
    h.2.1 2 ExampleAB.env ExampleAB.Lit ["A", "B"] (by decide) (by decide) (by decide)
      (by decide),
    h.2.2 ExampleAB.env ExampleAB.Lit⟩

/-! ## The naming loop terminates -/

theorem decimalValue_foldl (l : List Char) :
    ∀ (a : Nat), l.foldl (fun a c => a * 10 + (c.toNat - 48)) a =
      a * 10 ^ l.length + decimalValue l := by
  induction l with
  | nil => intro a; simp [decimalValue]
  | cons c l ih =>
    intro a
    simp only [List.foldl_cons, List.length_cons, decimalValue]
    rw [ih, ih (0 * 10 + _)]
    ring

theorem decimalValue_cons (c : Char) (l : List Char) :
    decimalValue (c :: l) = (c.toNat - 48) * 10 ^ l.length + decimalValue l := by
  have h := decimalValue_foldl l (0 * 10 + (c.toNat - 48))
  simp only [Nat.zero_mul, Nat.zero_add] at h
  simpa [decimalValue] using h

theorem digitChar_value (k : Nat) (hk : k < 10) : (Nat.digitChar k).toNat - 48 = k := by
  interval_cases k <;> rfl

theorem decimalValue_toDigitsCore :
    ∀ (fuel n : Nat) (ds : List Char), n < fuel →
      decimalValue (Nat.toDigitsCore 10 fuel n ds) = n * 10 ^ ds.length + decimalValue ds
  | 0, n, ds, h => absurd h (Nat.not_lt_zero _)
  | fuel + 1, n, ds, h => by
    unfold Nat.toDigitsCore
    simp only
    split
    · rename_i h0
      rw [decimalValue_cons, digitChar_value _ (Nat.mod_lt _ (by decide))]
      have : n % 10 = n := by omega
      rw [this]
    · rename_i h0
      rw [decimalValue_toDigitsCore fuel (n / 10) _ (by omega), decimalValue_cons,
        digitChar_value _ (Nat.mod_lt _ (by decide)), List.length_cons, pow_succ]
      have hn : n = 10 * (n / 10) + n % 10 := (Nat.div_add_mod n 10).symm
      generalize n / 10 = q at hn ⊢
      generalize n % 10 = r at hn ⊢
      subst hn
      ring

theorem decimalValue_toString (n : Nat) : decimalValue (toString n).data = n := by
  have h : (toString n).data = Nat.toDigitsCore 10 (n + 1) n [] := rfl
  rw [h, decimalValue_toDigitsCore (n + 1) n [] (Nat.lt_succ_self n)]
  simp [decimalValue]

/-- The decimal numerals of different numbers are different. -/
theorem toString_nat_injective {a b : Nat} (h : toString a = toString b) : a = b := by
  rw [← decimalValue_toString a, ← decimalValue_toString b, h]

theorem toString_nat_ne_empty (n : Nat) : toString n ≠ "" := by
  intro h
  have h0 : n = 0 := by
    rw [← decimalValue_toString n, h]
    rfl
  subst h0
  exact absurd h (by decide)

theorem String.append_left_cancel {a b c : String} (h : a ++ b = a ++ c) : b = c := by
  have hd : (a ++ b).data = (a ++ c).data := by rw [h]
  rw [String.data_append, String.data_append] at hd
  exact String.ext (List.append_cancel_left hd)

/-- The candidates of the naming step are pairwise distinct. -/
theorem uniqueDefName.candidate_injective (MacroName : String) (MI : MacroInfo) :
    ∀ (i j : Nat), uniqueDefName.candidate MacroName MI i =
      uniqueDefName.candidate MacroName MI j → i = j
  | 0, 0, _ => rfl
  | 0, j + 1, h => by
    unfold uniqueDefName.candidate at h
    have h1 : uniqueDefName.base MacroName MI ++ "" =
        uniqueDefName.base MacroName MI ++ toString j := by
      rw [String.append_empty]
      exact h
    exact absurd (String.append_left_cancel h1).symm (toString_nat_ne_empty j)
  | i + 1, 0, h => by
    unfold uniqueDefName.candidate at h
    have h1 : uniqueDefName.base MacroName MI ++ toString i =
        uniqueDefName.base MacroName MI ++ "" := by
      rw [String.append_empty]
      exact h
    exact absurd (String.append_left_cancel h1) (toString_nat_ne_empty i)
  | i + 1, j + 1, h => by
    unfold uniqueDefName.candidate at h
    rw [toString_nat_injective (String.append_left_cancel h)]

/-- The loop entered after `m` runs of its body, when the candidates from `m` up to `k` are
taken: with at most `k - m` evaluations of the condition left it does not return, and with
more it returns the candidate `k` if that one is free. -/
theorem uniqueDefNameLoop_run (st : State) (MacroName : String) (MI : MacroInfo) (k : Nat)
    (hk : k ≤ 2 ^ 32)
    (htaken : ∀ j, j < k → isNameTaken st (uniqueDefName.candidate MacroName MI j) = true) :
    ∀ (n m : Nat), m + n = k → ∀ (fuel : Nat),
      (fuel ≤ n →
        uniqueDefNameLoop st MacroName (if MI.isObjectLike then "_var" else "_function") fuel
          (uniqueDefName.candidate MacroName MI m) (m % 2 ^ 32) = none) ∧
      (n + 1 ≤ fuel →
        isNameTaken st (uniqueDefName.candidate MacroName MI k) = false →
        uniqueDefNameLoop st MacroName (if MI.isObjectLike then "_var" else "_function") fuel
          (uniqueDefName.candidate MacroName MI m) (m % 2 ^ 32) =
            some (uniqueDefName.candidate MacroName MI k))
  | 0, m, hm, fuel => by
    have hmk : m = k := by omega
    subst hmk
    constructor
    · intro hf
      have : fuel = 0 := by omega
      subst this
      rfl
    · intro hf hfree
      obtain ⟨f, rfl⟩ : ∃ f, fuel = f + 1 := ⟨fuel - 1, by omega⟩
      exact uniqueDefNameLoop_first st _ _ f _ _ hfree
  | n + 1, m, hm, fuel => by
    have hmk : m < k := by omega
    have hmod : m % 2 ^ 32 = m := Nat.mod_eq_of_lt (by omega)
    have hnext : MacroName ++ (if MI.isObjectLike then "_var" else "_function") ++
        toString (m % 2 ^ 32) = uniqueDefName.candidate MacroName MI (m + 1) := by
      rw [hmod]
      rfl
    have hi : (m % 2 ^ 32 + 1) % 2 ^ 32 = (m + 1) % 2 ^ 32 := by rw [hmod]
    have ih := uniqueDefNameLoop_run st MacroName MI k hk htaken n (m + 1) (by omega)
    cases fuel with
    | zero => exact ⟨fun _ => rfl, fun hf => absurd hf (by omega)⟩
    | succ f =>
      unfold uniqueDefNameLoop
      rw [if_pos (htaken m hmk), hnext, hi]
      exact ⟨fun hf => (ih f).1 (by omega), fun hf hfree => (ih f).2 (by omega) hfree⟩

/-- Among the first `nameCount + 1` candidates one is free. -/
theorem uniqueDefName.candidate_free (st : State) (MacroName : String) (MI : MacroInfo) :
    ∃ k, k ≤ st.nameCount ∧
      isNameTaken st (uniqueDefName.candidate MacroName MI k) = false := by
  by_contra hno
  have hall : ∀ k, k ≤ st.nameCount →
      uniqueDefName.candidate MacroName MI k ∈
        st.AllVarNames ++ st.AllFunctionNames ++ st.AllMacroNames := by
    intro k hk
    have ht : isNameTaken st (uniqueDefName.candidate MacroName MI k) = true := by
      cases hc : isNameTaken st (uniqueDefName.candidate MacroName MI k) with
      | true => rfl
      | false => exact absurd ⟨k, hk, hc⟩ hno
    unfold isNameTaken at ht
    simp only [Bool.or_eq_true, decide_eq_true_eq] at ht
    simp only [List.mem_append]
    exact ht
  have hnd : ((List.range (st.nameCount + 1)).map
      (uniqueDefName.candidate MacroName MI)).Nodup :=
    (List.nodup_range _).map
      (fun i j h => uniqueDefName.candidate_injective MacroName MI i j h)
  have hsub : (List.range (st.nameCount + 1)).map (uniqueDefName.candidate MacroName MI) ⊆
      st.AllVarNames ++ st.AllFunctionNames ++ st.AllMacroNames := by
    intro x hx
    obtain ⟨k, hk, rfl⟩ := List.mem_map.1 hx
    exact hall k (Nat.le_of_lt_succ (List.mem_range.1 hk))
  have hlen := (List.subperm_of_subset hnd hsub).length_le
  simp only [List.length_map, List.length_range, List.length_append] at hlen
  unfold State.nameCount at hlen
  omega

/-- C32: the fresh-name loop of `transformEntireExpr` terminates.  Let `N` be the number of
names in `AllVarNames`, `AllFunctionNames` and `AllMacroNames` together, and let `N` be at most
`2 ^ 32`, so that the `unsigned` counter does not wrap around.  The candidates `base`,
`base0`, `base1`, ... are pairwise distinct strings, and there is a `k` of at most `N` such
that the candidates before the `k`-th are taken, the `k`-th is free, the loop returns it as
soon as it may evaluate its condition `k + 1` times (its body then has run `k` times), and it
does not return with fewer evaluations. -/
theorem uniqueDefName_terminates (st : State) (MacroName : String) (MI : MacroInfo)
    (hw : st.nameCount ≤ 2 ^ 32) :
    (∀ i j, uniqueDefName.candidate MacroName MI i = uniqueDefName.candidate MacroName MI j →
      i = j) ∧
    ∃ k, k ≤ st.nameCount ∧
      (∀ j, j < k → isNameTaken st (uniqueDefName.candidate MacroName MI j) = true) ∧
      isNameTaken st (uniqueDefName.candidate MacroName MI k) = false ∧
      (∀ fuel, k + 1 ≤ fuel →
        uniqueDefName fuel st MacroName MI =
          some (uniqueDefName.candidate MacroName MI k)) ∧
      (∀ fuel, fuel ≤ k → uniqueDefName fuel st MacroName MI = none) := by
  refine ⟨uniqueDefName.candidate_injective MacroName MI, ?_⟩
  classical
  have hex : ∃ k, isNameTaken st (uniqueDefName.candidate MacroName MI k) = false := by
    obtain ⟨k, _, hk⟩ := uniqueDefName.candidate_free st MacroName MI
    exact ⟨k, hk⟩
  have hle : Nat.find hex ≤ st.nameCount := by
    obtain ⟨k, hk, hfree⟩ := uniqueDefName.candidate_free st MacroName MI
    exact (Nat.find_min' hex hfree).trans hk
  have htaken : ∀ j, j < Nat.find hex →
      isNameTaken st (uniqueDefName.candidate MacroName MI j) = true := by
    intro j hj
    have := Nat.find_min hex hj
    simpa using this
  have hrun := uniqueDefNameLoop_run st MacroName MI (Nat.find hex) (hle.trans hw) htaken
    (Nat.find hex) 0 (by omega)
  refine ⟨Nat.find hex, hle, htaken, Nat.find_spec hex, fun fuel hf => ?_, fun fuel hf => ?_⟩
  · rw [uniqueDefName_eq]
    exact (hrun fuel).2 hf (Nat.find_spec hex)
  · rw [uniqueDefName_eq]
    exact (hrun fuel).1 hf

/-- C32 with `ONE_var` and `ONE_var0` declared: five names are in the universe, far below
`2 ^ 32`, and the loop returns within five runs of its body. -/
theorem uniqueDefName_terminates_witness :
    ExampleTaken.st.nameCount = 5 ∧
    ((∀ i j, uniqueDefName.candidate "ONE" ExampleONE.MI i =
        uniqueDefName.candidate "ONE" ExampleONE.MI j → i = j) ∧
      ∃ k, k ≤ ExampleTaken.st.nameCount ∧
        (∀ j, j < k →
          isNameTaken ExampleTaken.st (uniqueDefName.candidate "ONE" ExampleONE.MI j) = true) ∧
        isNameTaken ExampleTaken.st (uniqueDefName.candidate "ONE" ExampleONE.MI k) = false ∧
        (∀ fuel, k + 1 ≤ fuel →
          uniqueDefName fuel ExampleTaken.st "ONE" ExampleONE.MI =
            some (uniqueDefName.candidate "ONE" ExampleONE.MI k)) ∧
        (∀ fuel, fuel ≤ k → uniqueDefName fuel ExampleTaken.st "ONE" ExampleONE.MI = none)) :=
  ⟨by decide, uniqueDefName_terminates ExampleTaken.st "ONE" ExampleONE.MI (by decide)⟩

/-! ## Rejections leave the names and the rewriter alone -/

/-- C33: whenever `transformEntireExpr` returns a rejection (any result other than
`TRANSFORMED` and `ERROR`), `AllVarNames`, `AllFunctionNames` and `AllMacroNames` are
unchanged and the record of the calls made to the rewriter is unchanged: no definition
insertion and no call-site replacement has been submitted. -/
theorem transformEntireExpr_rejection_submits_nothing (fuel : Nat) (env : Env)
    (st st1 : State) (E : Expr) (r : TransformationResult)
    (h : transformEntireExpr fuel env st E = .ok (r, st1))
    (h1 : r ≠ .TRANSFORMED) (h2 : r ≠ .ERROR) :
    st1.AllVarNames = st.AllVarNames ∧ st1.AllFunctionNames = st.AllFunctionNames ∧
      st1.AllMacroNames = st.AllMacroNames ∧ st1.RW = st.RW := by
  obtain ⟨hrw, hv, hf, hm⟩ := transformEntireExpr_rejection_frame h h1 h2
  exact ⟨hv, hf, hm, hrw⟩

/-- C33 on a macro that is defined twice: the call returns `MULTIPLY_DEFINED`, and the names
and the record of the rewriter are those of the state before. -/
theorem transformEntireExpr_rejection_submits_nothing_witness :
    returned (transformEntireExpr 2 ExampleREDEF.env ExampleREDEF.st ExampleREDEF.Lit) =
      some .MULTIPLY_DEFINED ∧
    (resultState (transformEntireExpr 2 ExampleREDEF.env ExampleREDEF.st
        ExampleREDEF.Lit)).AllVarNames = ExampleREDEF.st.AllVarNames ∧
    (resultState (transformEntireExpr 2 ExampleREDEF.env ExampleREDEF.st
        ExampleREDEF.Lit)).AllFunctionNames = ExampleREDEF.st.AllFunctionNames ∧
    (resultState (transformEntireExpr 2 ExampleREDEF.env ExampleREDEF.st
        ExampleREDEF.Lit)).AllMacroNames = ExampleREDEF.st.AllMacroNames ∧
    (resultState (transformEntireExpr 2 ExampleREDEF.env ExampleREDEF.st
        ExampleREDEF.Lit)).RW = ExampleREDEF.st.RW :=
  ⟨by decide,
    transformEntireExpr_rejection_submits_nothing 2 ExampleREDEF.env ExampleREDEF.st _
      ExampleREDEF.Lit .MULTIPLY_DEFINED (ok_of_returned (by decide)) (by decide) (by decide)⟩

/-! ## Failure after the name is reserved -/

theorem define_reserves {st : State} {MI : MacroInfo} {DefName DefBody Def : String}
    (h : (transformEntireExpr.define st MI DefName DefBody).1 = some Def) :
    DefName ∈ (transformEntireExpr.define st MI DefName DefBody).2.AllVarNames ∨
      DefName ∈ (transformEntireExpr.define st MI DefName DefBody).2.AllFunctionNames := by
  unfold transformEntireExpr.define at h ⊢
  split at h
  · exact Or.inl (List.mem_insert_self _ _)
  · exact Or.inr (List.mem_insert_self _ _)
  · exact Or.inr (List.mem_insert_self _ _)
  · exact absurd h (by simp)

/-- The record of the rewriter after the last part of `transformEntireExpr` has returned:
nothing was requested and the result is `ERROR`; or the insertion was refused and the result
is `ERROR`; or the insertion was accepted, no replacement was requested and the result is
`ERROR`; or the insertion was accepted and the replacement decides between `ERROR` and
`TRANSFORMED`.  Once the insertion is requested the name is reserved. -/
theorem emit_log {fuel : Nat} {env : Env} {st st' : State} {E : Expr}
    {MacroName : String} {MI : MacroInfo} {r : TransformationResult}
    (h : transformEntireExpr.emit fuel env st E MacroName MI = .ok (r, st')) :
    ∃ DefName, uniqueDefName fuel st MacroName MI = some DefName ∧
      ((st'.RW = st.RW ∧ r = .ERROR) ∨
       ((DefName ∈ st'.AllVarNames ∨ DefName ∈ st'.AllFunctionNames) ∧
        ((∃ L Def, st'.RW = st.RW ++ [⟨.InsertTextAfter L Def, true⟩] ∧ r = .ERROR) ∨
         (∃ L Def, st'.RW = st.RW ++ [⟨.InsertTextAfter L Def, false⟩] ∧ r = .ERROR) ∨
         (∃ L Def ER Rep b, st'.RW =
            st.RW ++ [⟨.InsertTextAfter L Def, false⟩, ⟨.ReplaceText ER Rep, b⟩] ∧
            r = if b = true then .ERROR else .TRANSFORMED)))) := by
  unfold transformEntireExpr.emit at h
  split at h
  · exact Except.noConfusion h
  · rename_i DefName hname
    refine ⟨DefName, hname, ?_⟩
    simp only at h
    split at h
    · simp only [Except.ok.injEq, Prod.mk.injEq] at h
      exact Or.inl ⟨by rw [← h.2], h.1.symm⟩
    · rename_i MacroBodyBegin hbody
      split at h
      · rename_i hdef
        simp only [Except.ok.injEq, Prod.mk.injEq] at h
        refine Or.inl ⟨?_, h.1.symm⟩
        rw [← h.2]
        unfold transformEntireExpr.define
        split <;> rfl
      · rename_i Def hdef
        have hres := define_reserves hdef
        have hrw : (transformEntireExpr.define st MI DefName
            (env.getSourceText (env.getAsCharRange
              ⟨MacroBodyBegin, MI.DefinitionEndLoc⟩))).2.RW = st.RW := by
          unfold transformEntireExpr.define
          split <;> rfl
        generalize transformEntireExpr.define st MI DefName
          (env.getSourceText (env.getAsCharRange ⟨MacroBodyBegin, MI.DefinitionEndLoc⟩)) = D
          at h hres hrw hdef
        simp only [callRewriter] at h
        split at h
        · simp only [Except.ok.injEq, Prod.mk.injEq] at h
          exact Or.inl ⟨by rw [← h.2, hrw], h.1.symm⟩
        · cases hb1 : env.rewriterRefuses D.2.RW
            (.InsertTextAfter (env.getLocForEndOfToken MI.DefinitionEndLoc) Def) with
          | true =>
            simp only [hb1, if_true, Except.ok.injEq, Prod.mk.injEq] at h
            refine Or.inr ⟨?_, Or.inl ⟨env.getLocForEndOfToken MI.DefinitionEndLoc, Def, ?_,
              h.1.symm⟩⟩
            · rw [← h.2]
              exact hres
            · rw [← h.2, ← hrw]
          | false =>
            simp only [hb1, Bool.false_eq_true, if_false] at h
            split at h
            · exact Except.noConfusion h
            · simp only [Except.ok.injEq, Prod.mk.injEq] at h
              refine Or.inr ⟨?_, Or.inr (Or.inl ⟨env.getLocForEndOfToken MI.DefinitionEndLoc,
                Def, ?_, h.1.symm⟩)⟩
              · rw [← h.2]
                exact hres
              · rw [← h.2, ← hrw]
            · rename_i Rep hrep
              cases hb2 : env.rewriterRefuses (D.2.RW ++
                  [⟨.InsertTextAfter (env.getLocForEndOfToken MI.DefinitionEndLoc) Def,
                    false⟩])
                  (.ReplaceText (env.getExpansionRange E.getSourceRange) Rep) with
              | true =>
                simp only [hb2, if_true, Except.ok.injEq, Prod.mk.injEq] at h
                refine Or.inr ⟨?_, Or.inr (Or.inr ⟨env.getLocForEndOfToken MI.DefinitionEndLoc,
                  Def, env.getExpansionRange E.getSourceRange, Rep, true, ?_, ?_⟩)⟩
                · rw [← h.2]
                  exact hres
                · rw [← h.2, ← hrw]
                  simp
                · simp [h.1.symm]
              | false =>
                simp only [hb2, Bool.false_eq_true, if_false, Except.ok.injEq,
                  Prod.mk.injEq] at h
                refine Or.inr ⟨?_, Or.inr (Or.inr ⟨env.getLocForEndOfToken MI.DefinitionEndLoc,
                  Def, env.getExpansionRange E.getSourceRange, Rep, false, ?_, ?_⟩)⟩
                · rw [← h.2]
                  exact hres
                · rw [← h.2, ← hrw]
                  simp
                · simp [h.1.symm]

/-- The record of the rewriter after a call of `transformEntireExpr`: either nothing was
requested, or the naming step chose a name, the name is reserved and the insertion was
requested. -/
theorem transformEntireExpr_log {fuel : Nat} {env : Env} {st st' : State} {E : Expr}
    {r : TransformationResult} (h : transformEntireExpr fuel env st E = .ok (r, st')) :
    st'.RW = st.RW ∨
    ∃ MacroName MI DefName, uniqueDefName fuel st MacroName MI = some DefName ∧
      (DefName ∈ st'.AllVarNames ∨ DefName ∈ st'.AllFunctionNames) ∧
      ((∃ L Def, st'.RW = st.RW ++ [⟨.InsertTextAfter L Def, true⟩] ∧ r = .ERROR) ∨
       (∃ L Def, st'.RW = st.RW ++ [⟨.InsertTextAfter L Def, false⟩] ∧ r = .ERROR) ∨
       (∃ L Def ER Rep b, st'.RW =
          st.RW ++ [⟨.InsertTextAfter L Def, false⟩, ⟨.ReplaceText ER Rep, b⟩] ∧
          r = if b = true then .ERROR else .TRANSFORMED)) := by
  rcases transformEntireExpr_cases fuel env st E with
    ⟨r', st1, hr, -, -, hrw, -⟩ | herr | ⟨MacroName, MI, hck⟩
  · rw [h] at hr
    simp only [Except.ok.injEq, Prod.mk.injEq] at hr
    obtain ⟨-, rfl⟩ := hr
    exact Or.inl hrw
  · rw [h] at herr
    exact Except.noConfusion herr
  · rw [transformEntireExpr_of_macroChecks hck fuel] at h
    split at h
    · simp only [Except.ok.injEq, Prod.mk.injEq] at h
      exact Or.inl (by rw [← h.2])
    · split at h
      · simp only [Except.ok.injEq, Prod.mk.injEq] at h
        exact Or.inl (by rw [← h.2]; rfl)
      · obtain ⟨DefName, hname, hlog⟩ := emit_log h
        rw [uniqueDefName_stateAtNaming] at hname
        rcases hlog with ⟨hrw, -⟩ | ⟨hres, hshape⟩
        · exact Or.inl hrw
        · exact Or.inr ⟨MacroName, MI, DefName, hname, hres, hshape⟩

theorem List.append_ne_self_of_ne_nil {α : Type} (l : List α) {k : List α} (hk : k ≠ [])
    (h : l = l ++ k) : False := by
  have hl := congrArg List.length h
  rw [List.length_append] at hl
  cases k with
  | nil => exact hk rfl
  | cons a k =>
    simp only [List.length_cons] at hl
    omega

/-- C34: `transformEntireExpr` is not atomic on failure.  In every run that returns with the
definition insertion accepted and the call-site replacement refused (the two calls it has
added to the record of the rewriter), the result is `ERROR`, the name that the naming step
chose, which was free before the call, is in `AllVarNames` or `AllFunctionNames`, and the
accepted insertion is in the record.  In every run that returns with the definition
insertion refused, the result is `ERROR` and the chosen name is reserved as well. -/
theorem transformEntireExpr_not_atomic (fuel : Nat) (env : Env) (st st' : State) (E : Expr)
    (r : TransformationResult) (h : transformEntireExpr fuel env st E = .ok (r, st')) :
    (∀ L Def ER Rep,
      st'.RW = st.RW ++ [⟨.InsertTextAfter L Def, false⟩, ⟨.ReplaceText ER Rep, true⟩] →
      r = .ERROR ∧ (⟨.InsertTextAfter L Def, false⟩ : RewriterCall) ∈ st'.RW ∧
      ∃ MacroName MI DefName, uniqueDefName fuel st MacroName MI = some DefName ∧
        DefName ∉ st.AllVarNames ∧ DefName ∉ st.AllFunctionNames ∧
        DefName ∉ st.AllMacroNames ∧
        (DefName ∈ st'.AllVarNames ∨ DefName ∈ st'.AllFunctionNames)) ∧
    (∀ L Def,
      st'.RW = st.RW ++ [⟨.InsertTextAfter L Def, true⟩] →
      r = .ERROR ∧
      ∃ MacroName MI DefName, uniqueDefName fuel st MacroName MI = some DefName ∧
        DefName ∉ st.AllVarNames ∧ DefName ∉ st.AllFunctionNames ∧
        DefName ∉ st.AllMacroNames ∧
        (DefName ∈ st'.AllVarNames ∨ DefName ∈ st'.AllFunctionNames)) := by
  constructor
  · intro L Def ER Rep hlog
    rcases transformEntireExpr_log h with hrw | ⟨MacroName, MI, DefName, hname, hres, hshape⟩
    · rw [hrw] at hlog
      exact (List.append_ne_self_of_ne_nil st.RW (by simp) hlog).elim
    · obtain ⟨hv, hf, hm⟩ := uniqueDefName_is_free hname
      have hr : r = .ERROR := by
        rcases hshape with ⟨L1, D1, h1, -⟩ | ⟨L1, D1, h1, -⟩ | ⟨L1, D1, ER1, R1, b, h1, hb⟩
        · rw [h1] at hlog
          have := congrArg List.length (List.append_cancel_left hlog)
          simp at this
        · rw [h1] at hlog
          have := congrArg List.length (List.append_cancel_left hlog)
          simp at this
        · rw [h1] at hlog
          have hl := List.append_cancel_left hlog
          simp only [List.cons.injEq, RewriterCall.mk.injEq, and_true] at hl
          rw [hl.2.2] at hb
          simpa using hb
      exact ⟨hr, by rw [hlog]; simp, MacroName, MI, DefName, hname, hv, hf, hm, hres⟩
  · intro L Def hlog
    rcases transformEntireExpr_log h with hrw | ⟨MacroName, MI, DefName, hname, hres, hshape⟩
    · rw [hrw] at hlog
      exact (List.append_ne_self_of_ne_nil st.RW (by simp) hlog).elim
    · obtain ⟨hv, hf, hm⟩ := uniqueDefName_is_free hname
      have hr : r = .ERROR := by
        rcases hshape with ⟨L1, D1, h1, hr⟩ | ⟨L1, D1, h1, hr⟩ | ⟨L1, D1, ER1, R1, b, h1, hb⟩
        · exact hr
        · exact hr
        · rw [h1] at hlog
          have := congrArg List.length (List.append_cancel_left hlog)
          simp at this
      exact ⟨hr, MacroName, MI, DefName, hname, hv, hf, hm, hres⟩

/-- C34 on `x = ONE` with a rewriter that refuses the replacement, and with one that refuses
the insertion: both calls return `ERROR`, `ONE_var` was free before and is in `AllVarNames`
after, and in the first run the accepted insertion of `const int ONE_var = 1;` is in the
record. -/
theorem transformEntireExpr_not_atomic_witness :
    rewriterCalls (transformEntireExpr 2 ExampleRefused.envReplace ExampleONE.st
        ExampleONE.Lit) =
      some [⟨.InsertTextAfter 13 "\nconst int ONE_var = 1;", false⟩,
        ⟨.ReplaceText ⟨38, 38⟩ "ONE_var", true⟩] ∧
    rewriterCalls (transformEntireExpr 2 ExampleRefused.envInsert ExampleONE.st
        ExampleONE.Lit) =
      some [⟨.InsertTextAfter 13 "\nconst int ONE_var = 1;", true⟩] ∧
    "ONE_var" ∉ ExampleONE.st.AllVarNames ∧
    "ONE_var" ∈ (resultState (transformEntireExpr 2 ExampleRefused.envReplace ExampleONE.st
        ExampleONE.Lit)).AllVarNames ∧
    "ONE_var" ∈ (resultState (transformEntireExpr 2 ExampleRefused.envInsert ExampleONE.st
        ExampleONE.Lit)).AllVarNames ∧
    (TransformationResult.ERROR = .ERROR ∧
      (⟨.InsertTextAfter 13 "\nconst int ONE_var = 1;", false⟩ : RewriterCall) ∈
        (resultState (transformEntireExpr 2 ExampleRefused.envReplace ExampleONE.st
          ExampleONE.Lit)).RW ∧
      ∃ MacroName MI DefName, uniqueDefName 2 ExampleONE.st MacroName MI = some DefName ∧
        DefName ∉ ExampleONE.st.AllVarNames ∧ DefName ∉ ExampleONE.st.AllFunctionNames ∧
        DefName ∉ ExampleONE.st.AllMacroNames ∧
        (DefName ∈ (resultState (transformEntireExpr 2 ExampleRefused.envReplace
            ExampleONE.st ExampleONE.Lit)).AllVarNames ∨
          DefName ∈ (resultState (transformEntireExpr 2 ExampleRefused.envReplace
            ExampleONE.st ExampleONE.Lit)).AllFunctionNames)) ∧
    (TransformationResult.ERROR = .ERROR ∧
      ∃ MacroName MI DefName, uniqueDefName 2 ExampleONE.st MacroName MI = some DefName ∧
        DefName ∉ ExampleONE.st.AllVarNames ∧ DefName ∉ ExampleONE.st.AllFunctionNames ∧
        DefName ∉ ExampleONE.st.AllMacroNames ∧
        (DefName ∈ (resultState (transformEntireExpr 2 ExampleRefused.envInsert
            ExampleONE.st ExampleONE.Lit)).AllVarNames ∨
          DefName ∈ (resultState (transformEntireExpr 2 ExampleRefused.envInsert
            ExampleONE.st ExampleONE.Lit)).AllFunctionNames)) :=
  ⟨by decide, by decide, by decide, by decide, by decide,
    (transformEntireExpr_not_atomic 2 ExampleRefused.envReplace ExampleONE.st _ ExampleONE.Lit
      .ERROR (ok_of_returned (by decide))).1 13 "\nconst int ONE_var = 1;" ⟨38, 38⟩
      "ONE_var" (by decide),
    (transformEntireExpr_not_atomic 2 ExampleRefused.envInsert ExampleONE.st _ ExampleONE.Lit
      .ERROR (ok_of_returned (by decide))).2 13 "\nconst int ONE_var = 1;" (by decide)⟩

/-! ## Expressions outside the subset -/

/-- Counterexample to C35: the call `f(!x, ONE)` uses the operator `!` in its first argument,
yet it is in the subset, and `TransformExpr` on it visits both arguments (the first is
classified as `INVALID`), submits the definition and the replacement for `ONE` and reserves
`ONE_var`. -/
theorem TransformExpr_outside_subset_counterexample :
    (∃ R Callee R0 E0 Rest,
      ExampleCALL.Call = .CallExpr R Callee (.cons (.UnaryOperator R0 .UO_LNot E0) Rest)) ∧
    (isExprInCSubset ExampleCALL.Call ExampleCALL.st.EInCSub).1 = true ∧
    ExampleCALL.st.RW = [] ∧
    "ONE_var" ∉ ExampleCALL.st.AllVarNames ∧
    submittedAfter (TransformExpr 2 ExampleCALL.env ExampleCALL.Call ExampleCALL.st) =
      some [⟨.InsertTextAfter 13 "\nconst int ONE_var = 1;", false⟩,
        ⟨.ReplaceText ⟨64, 64⟩ "ONE_var", false⟩] ∧
    reservedAfter (TransformExpr 2 ExampleCALL.env ExampleCALL.Call ExampleCALL.st) =
      some (["ONE_var", "x"], ["main", "f"]) ∧
    classificationAfter (TransformExpr 2 ExampleCALL.env ExampleCALL.Call ExampleCALL.st)
      ExampleCALL.Negation = some .INVALID ∧
    classificationAfter (TransformExpr 2 ExampleCALL.env ExampleCALL.Call ExampleCALL.st)
      ExampleCALL.Lit = some .Num :=
  ⟨⟨_, _, _, _, _, rfl⟩, by decide, by decide, by decide, by decide, by decide, by decide,
    by decide⟩

theorem isExprInCSubsetRec_arith (R : SourceRange) (OC : BinaryOperatorKind) (E1 E2 : Expr)
    (hoc : isAddSubMulDiv OC = true) :
    isExprInCSubsetRec (.BinaryOperator R OC E1 E2) =
      (isExprInCSubsetRec E1 && isExprInCSubsetRec E2) := by
  cases E1 with
  | DeclRefExpr R1 D => cases D <;> simp [isExprInCSubsetRec, hoc]
  | _ => simp [isExprInCSubsetRec, hoc]

theorem isExprInCSubsetRec_assign (R : SourceRange) (E1 E2 : Expr) :
    isExprInCSubsetRec (.BinaryOperator R .BO_Assign E1 E2) = true →
      E1.isDeclRefExpr = true ∧ isExprInCSubsetRec E2 = true := by
  cases E1 with
  | DeclRefExpr R1 D =>
    cases D <;> simp [isExprInCSubsetRec, isAddSubMulDiv, Expr.isDeclRefExpr]
  | _ => simp [isExprInCSubsetRec, isAddSubMulDiv]

theorem isExprInCSubsetRec_otherBinary (R : SourceRange) (OC : BinaryOperatorKind)
    (E1 E2 : Expr) (hoc : isAddSubMulDiv OC = false) (has : OC ≠ .BO_Assign) :
    isExprInCSubsetRec (.BinaryOperator R OC E1 E2) = false := by
  cases E1 with
  | DeclRefExpr R1 D => cases D <;> simp [isExprInCSubsetRec, hoc, has]
  | _ => simp [isExprInCSubsetRec, hoc, has]

/-- An operator outside the subset, outside calls, puts the expression outside the subset. -/
theorem isExprInCSubsetRec_of_otherOperator :
    ∀ (E : Expr), E.usesOtherOperatorOutsideCalls = true → isExprInCSubsetRec E = false
  | .ImplicitCastExpr _ E0, h => by
    rw [Expr.usesOtherOperatorOutsideCalls] at h
    rw [isExprInCSubsetRec]
    exact isExprInCSubsetRec_of_otherOperator E0 h
  | .IntegerLiteral _ _, h => by simp [Expr.usesOtherOperatorOutsideCalls] at h
  | .DeclRefExpr _ _, h => by simp [Expr.usesOtherOperatorOutsideCalls] at h
  | .ParenExpr _ E0, h => by
    rw [Expr.usesOtherOperatorOutsideCalls] at h
    rw [isExprInCSubsetRec]
    exact isExprInCSubsetRec_of_otherOperator E0 h
  | .UnaryOperator _ OC E0, h => by
    rw [Expr.usesOtherOperatorOutsideCalls] at h
    rw [isExprInCSubsetRec]
    by_cases hoc : isPlusMinus OC = true
    · simp only [hoc, Bool.not_true, Bool.false_or] at h
      simp only [hoc, if_true]
      exact isExprInCSubsetRec_of_otherOperator E0 h
    · simp [hoc]
  | .BinaryOperator R OC E1 E2, h => by
    have ih1 := isExprInCSubsetRec_of_otherOperator E1
    have ih2 := isExprInCSubsetRec_of_otherOperator E2
    rw [Expr.usesOtherOperatorOutsideCalls] at h
    by_cases hoc : isAddSubMulDiv OC = true
    · rw [isExprInCSubsetRec_arith R OC E1 E2 hoc]
      simp only [hoc, Bool.true_or, Bool.not_true, Bool.false_or, Bool.or_eq_true] at h
      rcases h with h | h
      · simp [ih1 h]
      · simp [ih2 h]
    · by_cases has : OC = .BO_Assign
      · subst has
        simp only [hoc, Bool.false_or, beq_self_eq_true, Bool.not_true, Bool.or_eq_true] at h
        cases hc : isExprInCSubsetRec (.BinaryOperator R .BO_Assign E1 E2) with
        | false => rfl
        | true =>
          obtain ⟨hd, h2⟩ := isExprInCSubsetRec_assign R E1 E2 hc
          rcases h with h | h
          · cases E1 <;> simp [Expr.isDeclRefExpr] at hd
            simp [Expr.usesOtherOperatorOutsideCalls] at h
          · rw [ih2 h] at h2
            exact absurd h2 (by decide)
      · exact isExprInCSubsetRec_otherBinary R OC E1 E2 (by simpa using hoc) has
  | .CallExpr _ _ _, h => by simp [Expr.usesOtherOperatorOutsideCalls] at h
  | .OtherExpr _ _, h => by simp [Expr.usesOtherOperatorOutsideCalls] at h

/-- A reference to a variable whose type is not spelled `int`, outside calls and not on the
left of an assignment, puts the expression outside the subset. -/
theorem isExprInCSubsetRec_of_nonIntVar :
    ∀ (E : Expr), E.refersToNonIntVarOutsideCalls = true → isExprInCSubsetRec E = false
  | .ImplicitCastExpr _ E0, h => by
    rw [Expr.refersToNonIntVarOutsideCalls] at h
    rw [isExprInCSubsetRec]
    exact isExprInCSubsetRec_of_nonIntVar E0 h
  | .IntegerLiteral _ _, h => by simp [Expr.refersToNonIntVarOutsideCalls] at h
  | .DeclRefExpr _ (.Var Var), h => by
    rw [Expr.refersToNonIntVarOutsideCalls] at h
    rw [isExprInCSubsetRec]
    simpa using h
  | .DeclRefExpr _ (.NonVar _), h => by simp [Expr.refersToNonIntVarOutsideCalls] at h
  | .ParenExpr _ E0, h => by
    rw [Expr.refersToNonIntVarOutsideCalls] at h
    rw [isExprInCSubsetRec]
    exact isExprInCSubsetRec_of_nonIntVar E0 h
  | .UnaryOperator _ OC E0, h => by
    rw [Expr.refersToNonIntVarOutsideCalls] at h
    rw [isExprInCSubsetRec]
    by_cases hoc : isPlusMinus OC = true
    · simp only [hoc, if_true]
      exact isExprInCSubsetRec_of_nonIntVar E0 h
    · simp [hoc]
  | .BinaryOperator R OC E1 E2, h => by
    have ih1 := isExprInCSubsetRec_of_nonIntVar E1
    have ih2 := isExprInCSubsetRec_of_nonIntVar E2
    rw [Expr.refersToNonIntVarOutsideCalls] at h
    by_cases hoc : isAddSubMulDiv OC = true
    · rw [isExprInCSubsetRec_arith R OC E1 E2 hoc]
      have hne : OC ≠ .BO_Assign := by
        intro hc
        subst hc
        exact absurd hoc (by decide)
      simp only [hne, false_and, if_false, Bool.or_eq_true] at h
      rcases h with h | h
      · simp [ih1 h]
      · simp [ih2 h]
    · by_cases has : OC = .BO_Assign
      · subst has
        cases hc : isExprInCSubsetRec (.BinaryOperator R .BO_Assign E1 E2) with
        | false => rfl
        | true =>
          obtain ⟨hd, h2⟩ := isExprInCSubsetRec_assign R E1 E2 hc
          simp only [hd, and_self, if_true, Bool.false_or] at h
          rw [ih2 h] at h2
          exact absurd h2 (by decide)
      · exact isExprInCSubsetRec_otherBinary R OC E1 E2 (by simpa using hoc) has
  | .CallExpr _ _ _, h => by simp [Expr.refersToNonIntVarOutsideCalls] at h
  | .OtherExpr _ _, h => by simp [Expr.refersToNonIntVarOutsideCalls] at h

/-- The table `EToCSub` after the classification of an expression outside the subset: only
the entry of the expression itself can be new. -/
theorem classifyExpr_outside_entries (E : Expr) (Tables : Memo Bool × Memo CSubsetExpr)
    (h : (isExprInCSubset E Tables.1).1 = false) (E0 : Expr) (hne : E0 ≠ E) :
    (classifyExpr E Tables).2.2 E0 = Tables.2 E0 := by
  rw [classifyExpr]
  unfold classifyExpr.findOrCompute
  split
  · rfl
  · simp only [h, Bool.false_eq_true, if_false, Memo.insert, hne]

/-- C35 (amended): on a state whose tables can arise, for every expression `E` for which
`isExprInCSubset(E)` is false, `TransformExpr(E)` returns right after the classification of
`E`: it makes no request to the rewriter, reserves no name, and classifies no expression other
than `E`, so that no sub-expression is visited.  Outside the subset is every expression in
which, outside call expressions, an operator other than unary `+` and `-`, binary `+`, `-`,
`*`, `/` and `=` is used, or a variable whose type is not spelled `int` is referred to other
than as the variable that an assignment assigns to.  A call expression is in the subset
whatever its callee and its arguments are. -/
theorem TransformExpr_outside_subset (fuel : Nat) (env : Env) (st : State)
    (hreach : st.TablesReachable) :
    (∀ E, (isExprInCSubset E st.EInCSub).1 = false →
      TransformExpr fuel env E st = .ok (TransformExpr.stateAfterClassify st E) ∧
      (TransformExpr.stateAfterClassify st E).RW = st.RW ∧
      (TransformExpr.stateAfterClassify st E).AllVarNames = st.AllVarNames ∧
      (TransformExpr.stateAfterClassify st E).AllFunctionNames = st.AllFunctionNames ∧
      (TransformExpr.stateAfterClassify st E).AllMacroNames = st.AllMacroNames ∧
      ∀ E0, E0 ≠ E → (TransformExpr.stateAfterClassify st E).EToCSub E0 = st.EToCSub E0) ∧
    (∀ E, E.usesOtherOperatorOutsideCalls = true →
      (isExprInCSubset E st.EInCSub).1 = false) ∧
    (∀ E, E.refersToNonIntVarOutsideCalls = true →
      (isExprInCSubset E st.EInCSub).1 = false) ∧
    (∀ R Callee Args, (isExprInCSubset (.CallExpr R Callee Args) st.EInCSub).1 = true) := by
  have hsound := hreach.classify.tables_sound
  have hin : ∀ E, (isExprInCSubset E st.EInCSub).1 = isExprInCSubsetRec E :=
    fun E => (isExprInCSubset_spec E st.EInCSub hsound.1).1
  refine ⟨fun E hE => ⟨?_, rfl, rfl, rfl, rfl, fun E0 hne => ?_⟩, fun E hE => ?_,
    fun E hE => ?_, fun R Callee Args => ?_⟩
  · rw [TransformExpr_eq_visit]
    have hc : (classifyExpr E (st.EInCSub, st.EToCSub)).1 = .INVALID := by
      rw [(classifyExpr_spec E (st.EInCSub, st.EToCSub) hsound.1 hsound.2).1]
      exact classifyExprRec_eq_invalid E (by rw [← hin E]; exact hE)
    rw [if_pos hc]
  · exact classifyExpr_outside_entries E (st.EInCSub, st.EToCSub) hE E0 hne
  · rw [hin E]
    exact isExprInCSubsetRec_of_otherOperator E hE
  · rw [hin E]
    exact isExprInCSubsetRec_of_nonIntVar E hE
  · rw [hin]
    rfl

/-- C35 (amended) on `!x` in the state of `ExampleONE`: the expression uses `!`, it is outside
the subset, and `TransformExpr` returns the state after its classification, with the record
of the rewriter and the names unchanged. -/
theorem TransformExpr_outside_subset_witness :
    Example.NotX.usesOtherOperatorOutsideCalls = true ∧
    (isExprInCSubset Example.NotX ExampleONE.st.EInCSub).1 = false ∧
    TransformExpr 2 ExampleONE.env Example.NotX ExampleONE.st =
      .ok (TransformExpr.stateAfterClassify ExampleONE.st Example.NotX) ∧
    submittedAfter (TransformExpr 2 ExampleONE.env Example.NotX ExampleONE.st) = some [] ∧
    (isExprInCSubset ExampleCALL.Call ExampleONE.st.EInCSub).1 = true :=
  have hreach : ExampleONE.st.TablesReachable :=
    { classify := ReachableClassifyTables.empty,
      localVars := ReachableEContainsLocalVars.empty,
      sideEffects := ReachableEHasSideEffects.empty }
  have h := TransformExpr_outside_subset 2 ExampleONE.env ExampleONE.st hreach
  ⟨by decide, h.2.1 Example.NotX (by decide),
    (h.1 Example.NotX (h.2.1 Example.NotX (by decide))).1, by decide, h.2.2.2 _ _ _⟩

/-! ## Statements without a branch in `TransformStmt` -/

/-- C36: for an `if` statement without an else branch and for a statement of every class
other than expression, `if`, `while` and compound statement (return, declaration, for, ...),
`TransformStmt` returns with the state it was called in, whatever the condition, the branch
and the children are: it makes no request to the rewriter and reserves no name. -/
theorem TransformStmt_other_kinds (fuel : Nat) (env : Env) (st : State) :
    (∀ Cond Then, TransformStmt fuel env (.IfStmt Cond Then none) st = .ok st) ∧
    (∀ Children, TransformStmt fuel env (.OtherStmt Children) st = .ok st) ∧
    (∀ Cond Then,
      submittedAfter (TransformStmt fuel env (.IfStmt Cond Then none) st) = some st.RW ∧
      reservedAfter (TransformStmt fuel env (.IfStmt Cond Then none) st) =
        some (st.AllVarNames, st.AllFunctionNames)) ∧
    (∀ Children,
      submittedAfter (TransformStmt fuel env (.OtherStmt Children) st) = some st.RW ∧
      reservedAfter (TransformStmt fuel env (.OtherStmt Children) st) =
        some (st.AllVarNames, st.AllFunctionNames)) := by
  have h1 : ∀ Cond Then, TransformStmt fuel env (.IfStmt Cond Then none) st = .ok st := by
    intro Cond Then
    rw [TransformStmt]
  have h2 : ∀ Children, TransformStmt fuel env (.OtherStmt Children) st = .ok st := by
    intro Children
    rw [TransformStmt]
  refine ⟨h1, h2, fun Cond Then => ?_, fun Children => ?_⟩
  · rw [h1]
    exact ⟨rfl, rfl⟩
  · rw [h2]
    exact ⟨rfl, rfl⟩

/-- C36 on `return ONE;` and on `if (ONE) return ONE;`: nothing is submitted for the
expansion of `ONE`, whereas the same literal as an expression statement is transformed. -/
theorem TransformStmt_other_kinds_witness :
    submittedAfter (TransformStmt 2 ExampleONE.env ExampleONE.Return ExampleONE.st) =
      some [] ∧
    submittedAfter (TransformStmt 2 ExampleONE.env ExampleONE.IfNoElse ExampleONE.st) =
      some [] ∧
    reservedAfter (TransformStmt 2 ExampleONE.env ExampleONE.Return ExampleONE.st) =
      some (["x"], ["main"]) ∧
    submittedAfter (TransformStmt 2 ExampleONE.env (.ExprStmt ExampleONE.Lit) ExampleONE.st) =
      some [⟨.InsertTextAfter 13 "\nconst int ONE_var = 1;", false⟩,
        ⟨.ReplaceText ⟨38, 38⟩ "ONE_var", false⟩] :=
  ⟨((TransformStmt_other_kinds 2 ExampleONE.env ExampleONE.st).2.2.2
      [.ExprStmt ExampleONE.Lit]).1,
    ((TransformStmt_other_kinds 2 ExampleONE.env ExampleONE.st).2.2.1 ExampleONE.Lit
      ExampleONE.Return).1,
    ((TransformStmt_other_kinds 2 ExampleONE.env ExampleONE.st).2.2.2
      [.ExprStmt ExampleONE.Lit]).2,
    by decide⟩

end CppToC
